import Mathlib

/-!
Verification of the points-to analysis engine (the `LCD` Lazy-Cycle-Detection
solver and its `PointsTo::Graph`) of this repository.  The definitions below
are a shallow embedding of `lib/PointsToAnalysis/LCD.cpp` (branch
`with-gclient`) and `include/llvm/Analysis/PointsTo/Graph.h`:

* LLVM `BitVector`s are embedded as natural-number bitsets (`Nat`); the C++
  `operator==` compares bit contents irrespective of capacity, and all other
  observable `BitVector` operations are capacity-insensitive, so `Nat`
  equality is the right notion of equality.
* `Value*` handles are embedded as natural numbers (`Val`); the solver only
  ever compares them and uses them as map keys.
* Fatal `assert` failures in the C++ are embedded as `Err.assertFail` results
  of an `Except` monad; loops whose termination the C++ takes for granted are
  given explicit fuel, with exhaustion reported as the distinguished
  `Err.noFuel` (which never corresponds to a C++ behaviour).
-/

namespace PointsTo

/-- Outcome of an operation: fatal assertion failure (C++ `assert`) or
artificial fuel exhaustion of the embedding. -/
inductive Err where
  | assertFail (msg : String)
  | noFuel
  deriving DecidableEq, Repr

/-- Monad for the embedded C++ operations. -/
abbrev M (α : Type) := Except Err α

/-! ### BitVector embedding (LLVM `BitVector` as a `Nat` bitset)

`set`, `reset`, `test`, `operator|=`, `find_first` and `find_next` of the
dynamically grown bitvectors used by `LCD.cpp` (via the file-local helpers
`isset`/`set`/`unset`, which grow the vector on demand). -/

/-- `BitVector::set(Idx)` (after the on-demand resize of `LCD.cpp`'s local
`set` helper). -/
def setBit (v i : Nat) : Nat := v ||| 2 ^ i

/-- `BitVector::reset(Idx)` (the `unset` helper; out-of-range indices are a
no-op, which a `Nat` bitset gives for free because such bits are zero). -/
def clearBit (v i : Nat) : Nat := if v.testBit i then v ^^^ 2 ^ i else v

/-- Ascending list of set bits; fuel-structural so it reduces by `decide`.
The first argument is fuel, always called with fuel `≥` the value. -/
def bitsAux : Nat → Nat → List Nat
  | 0, _ => []
  | _ + 1, 0 => []
  | fuel + 1, v =>
    (if v % 2 = 1 then [0] else []) ++ (bitsAux fuel (v / 2)).map (· + 1)

/-- All set bits of a bitset, in ascending order: the iteration order of
`find_first`/`find_next`. -/
def bits (v : Nat) : List Nat := bitsAux v v

/-- `BitVector::find_first`: least set bit, `none` for the C++ `-1`. -/
def findFirst (v : Nat) : Option Nat := (bits v).head?

/-- `BitVector::find_next(x)`: least set bit greater than `x`. -/
def findNext (v x : Nat) : Option Nat := (bits v).find? (fun b => decide (x < b))

/-- Remaining work of a `find_first`/`find_next` cursor `cur` over the bits
of `l`: zero at the end, otherwise one plus the number of set bits still
ahead of the cursor. -/
def cursorMeasure (l : Nat) (cur : Option Nat) : Nat :=
  match cur with
  | none => 0
  | some z => 1 + ((bits l).filter (fun b => decide (z < b))).length

/-! ### The points-to graph (`PointsTo::Graph`)

Nodes and edges live in append-only vectors whose entries are tombstoned
(`cleared`) on removal; adjacency is kept as lists of edge indices. -/

/-- `Graph::NodeEntry`. -/
structure NodeEntry where
  inEdges : List Nat
  outEdges : List Nat
  cleared : Bool
  deriving DecidableEq, Repr

/-- `Graph::EdgeEntry`. -/
structure EdgeEntry where
  source : Nat
  target : Nat
  cleared : Bool
  deriving DecidableEq, Repr

/-- `PointsTo::Graph`. -/
structure Graph where
  nodes : List NodeEntry
  edges : List EdgeEntry
  numNodes : Nat
  numEdges : Nat
  deriving DecidableEq, Repr

/-- The empty graph (`Graph()` constructor). -/
def Graph.empty : Graph := ⟨[], [], 0, 0⟩

/-- `Graph::getNode`: asserts the index is in range and not tombstoned. -/
def Graph.getNode (G : Graph) (n : Nat) : M NodeEntry :=
  match G.nodes[n]? with
  | some e =>
    if e.cleared then .error (.assertFail "Attempt to access a removed node") else .ok e
  | none => .error (.assertFail "Attempt to access a removed node")

/-- `Graph::getEdge`: asserts the index is in range and not tombstoned. -/
def Graph.getEdge (G : Graph) (e : Nat) : M EdgeEntry :=
  match G.edges[e]? with
  | some en =>
    if en.cleared then .error (.assertFail "Attempt to access a removed edge") else .ok en
  | none => .error (.assertFail "Attempt to access a removed edge")

/-- `Graph::getEdgeSource`. -/
def Graph.getEdgeSource (G : Graph) (e : Nat) : M Nat := do
  pure (← G.getEdge e).source

/-- `Graph::getEdgeTarget`. -/
def Graph.getEdgeTarget (G : Graph) (e : Nat) : M Nat := do
  pure (← G.getEdge e).target

/-- The out-adjacency list of a node (`outEdgesBegin`/`outEdgesEnd`). -/
def Graph.outEdges (G : Graph) (n : Nat) : M (List Nat) := do
  pure (← G.getNode n).outEdges

/-- The in-adjacency list of a node (`inEdgesBegin`/`inEdgesEnd`). -/
def Graph.inEdges (G : Graph) (n : Nat) : M (List Nat) := do
  pure (← G.getNode n).inEdges

/-- Replace the entry of node `n` (the effect of mutating through the
reference returned by `getNode`). -/
def Graph.setNode (G : Graph) (n : Nat) (e : NodeEntry) : Graph :=
  { G with nodes := G.nodes.set n e }

/-- `Graph::addNode` via `addConstructedNode`: increments the node count,
appends a fresh entry and returns its index. -/
def Graph.addNode (G : Graph) : Graph × Nat :=
  ({ G with nodes := G.nodes ++ [⟨[], [], false⟩], numNodes := G.numNodes + 1 },
   G.nodes.length)

/-- Scan of an out-adjacency list for an edge with the given target
(the loop body of `Graph::findEdge`). -/
def Graph.findEdgeAux (G : Graph) (t : Nat) : List Nat → M (Option Nat)
  | [] => .ok none
  | e :: rest => do
    let tgt ← G.getEdgeTarget e
    if tgt = t then .ok (some e) else G.findEdgeAux t rest

/-- `Graph::findEdge`: linear scan of the source's out-adjacency; `none`
is the C++ `edgesEnd()`. -/
def Graph.findEdge (G : Graph) (s t : Nat) : M (Option Nat) := do
  let outs ← G.outEdges s
  G.findEdgeAux t outs

/-- `Graph::addEdge` via `addConstructedEdge`: asserts no duplicate edge for
the ordered pair, appends the edge and links it into both adjacency lists. -/
def Graph.addEdge (G : Graph) (s t : Nat) : M (Graph × Nat) := do
  let dup ← G.findEdge s t
  if dup.isSome then .error (.assertFail "Attempt to add duplicate edge.")
  else do
    let G1 : Graph :=
      { G with numEdges := G.numEdges + 1, edges := G.edges ++ [⟨s, t, false⟩] }
    let eid := G.edges.length
    let ns ← G1.getNode s
    let _ ← G1.getNode t
    let G2 := G1.setNode s { ns with outEdges := ns.outEdges ++ [eid] }
    let nt ← G2.getNode t
    let G3 := G2.setNode t { nt with inEdges := nt.inEdges ++ [eid] }
    .ok (G3, eid)

/-- `Graph::removeEdge`: unlink from both endpoints' adjacency lists (erasing
the first occurrence, as `std::find_if` + `erase` does), tombstone the edge
entry and decrement the edge count. -/
def Graph.removeEdge (G : Graph) (e : Nat) : M Graph := do
  let E ← G.getEdge e
  let ns ← G.getNode E.source
  let G1 := G.setNode E.source { ns with outEdges := ns.outEdges.erase e }
  let nt ← G1.getNode E.target
  let G2 := G1.setNode E.target { nt with inEdges := nt.inEdges.erase e }
  .ok { G2 with edges := G2.edges.set e { E with cleared := true },
                numEdges := G2.numEdges - 1 }

/-- Remove every edge of a list in order (the two removal loops of
`Graph::removeNode`; the C++ iterator is advanced before each erasure, so the
loop processes exactly the snapshot of the list). -/
def Graph.removeEdgesList (G : Graph) : List Nat → M Graph
  | [] => .ok G
  | e :: rest => do
    let G1 ← G.removeEdge e
    G1.removeEdgesList rest

/-- `Graph::removeNode`: remove all incident edges (in-edges first, then the
out-edges still present), then tombstone the node and decrement the count. -/
def Graph.removeNode (G : Graph) (n : Nat) : M Graph := do
  let N ← G.getNode n
  let G1 ← G.removeEdgesList N.inEdges
  let N1 ← G1.getNode n
  let G2 ← G1.removeEdgesList N1.outEdges
  match G2.nodes[n]? with
  | some en =>
    .ok { (G2.setNode n { en with cleared := true }) with numNodes := G2.numNodes - 1 }
  | none => .error (.assertFail "Attempt to access a removed node")

/-! ### Depth-first iterator (`PointsTo::df_iterator`)

A stack of `(node, remaining out-edge cursor)` frames plus a visited set.
The head of the `Frame` list is the top of the C++ `VisitStack`. -/

/-- One `StackTuple` of the C++ `df_iterator`: the node and the not yet
consumed suffix of its out-adjacency list (the `OutEdgeItr` cursor). -/
structure Frame where
  node : Nat
  rest : List Nat
  deriving DecidableEq, Repr

/-- `df_iterator::toNext`: advance to the next position.  Consumes the top
frame's cursor, skipping visited successors and popping exhausted frames;
returns the new stack and visited set at the next position, or `none` when
the stack empties (the end iterator).  Fuel-structural. -/
def dfToNext (G : Graph) : Nat → List Frame → List Nat → M (Option (List Frame × List Nat))
  | 0, _, _ => .error .noFuel
  | _ + 1, [], _ => .ok none
  | fuel + 1, top :: stk, visited =>
    match top.rest with
    | [] => dfToNext G fuel stk visited
    | e :: rest' => do
      let next ← G.getEdgeTarget e
      if visited.contains next then
        dfToNext G fuel ({ top with rest := rest' } :: stk) visited
      else do
        let nf ← G.getNode next
        .ok (some (⟨next, nf.outEdges⟩ :: { top with rest := rest' } :: stk,
                   next :: visited))

/-- `df_iterator::begin(G, start)`: mark the start node visited and push its
frame (`outEdgesBegin` asserts that the start node is live). -/
def dfBegin (G : Graph) (start : Nat) : M (List Frame × List Nat) := do
  let nf ← G.getNode start
  .ok ([⟨start, nf.outEdges⟩], [start])

/-- Total length of all out-adjacency lists: an upper bound on cursor work. -/
def Graph.totalOut (G : Graph) : Nat := (G.nodes.map (fun n => n.outEdges.length)).sum

/-- Fuel that provably dominates the micro-step measure of a depth-first
traversal of `G`. -/
def Graph.dfFuel (G : Graph) : Nat :=
  (G.nodes.length + 1) * (G.totalOut + G.nodes.length + 2) + G.totalOut + G.nodes.length + 3

/-- Fuel bounding the number of positions of a depth-first traversal (one
position per pushed node, plus the initial one). -/
def Graph.posFuel (G : Graph) : Nat := G.nodes.length + 2

/-- The loop of `LCD::alias`: visit positions in depth-first order, returning
true as soon as the sought node is the current position. -/
def aliasLoop (G : Graph) (a : Nat) (dfF : Nat) :
    Nat → List Frame → List Nat → M Bool
  | 0, _, _ => .error .noFuel
  | fuel + 1, stack, visited =>
    match stack with
    | [] => .ok false
    | top :: _ =>
      if top.node = a then .ok true
      else do
        match ← dfToNext G dfF stack visited with
        | none => .ok false
        | some (stack', visited') => aliasLoop G a dfF fuel stack' visited'

/-- `df_iterator::getPath`: the stack's nodes from the start node to the
current position (our stack head is the top, so reverse). -/
def pathOf (stack : List Frame) : List Nat := (stack.map Frame.node).reverse

/-- The loop of `LCD::findCycles`: at every position whose `peekNext` edge
leads back to the start node `s`, record the current path. -/
def fcLoop (G : Graph) (s : Nat) (dfF : Nat) :
    Nat → List Frame → List Nat → List (List Nat) → M (List (List Nat))
  | 0, _, _, _ => .error .noFuel
  | fuel + 1, stack, visited, acc =>
    match stack with
    | [] => .ok acc
    | top :: _ => do
      let acc' ←
        match top.rest with
        | [] => pure acc
        | e :: _ => do
          let tgt ← G.getEdgeTarget e
          if tgt = s then pure (acc ++ [pathOf stack]) else pure acc
      match ← dfToNext G dfF stack visited with
      | none => .ok acc'
      | some (stack', visited') => fcLoop G s dfF fuel stack' visited' acc'

/-! ### The LCD solver state (`class LCD`)

`Value*` handles are naturals.  The `std::map`-backed members are embedded as
total functions with the maps' default values (`operator[]` default-constructs
entries on access, and no code ever iterates over these maps as a whole, so
the key set is unobservable). -/

/-- The mutable state of an `LCD` object: the constraint graph `G`, the
bidirectional value↔node registry (`leftVars`/`rightVars`) and the per-node
constraint bitvectors `pts`/`stores`/`loads`. -/
structure LCDState where
  G : Graph
  leftVars : Nat → List Nat
  rightVars : Nat → Option Nat
  pts : Nat → Nat
  stores : Nat → Nat
  loads : Nat → Nat

instance : Inhabited LCDState :=
  ⟨⟨Graph.empty, fun _ => [], fun _ => none, fun _ => 0, fun _ => 0, fun _ => 0⟩⟩

/-- The freshly-constructed solver (all maps empty, empty graph). -/
def LCD.init : LCDState := default

/-- `Constraint::ConstraintType`. -/
inductive CKind where
  | copy | load | store | addressOf
  deriving DecidableEq, Repr

/-- A `Constraint`: kind plus the `Source`/`Target` value operands (in the
constructor's order `Constraint(Ty, Source, Target)`). -/
structure Constraint where
  ty : CKind
  src : Nat
  tgt : Nat
  deriving DecidableEq, Repr

/-- `LCD::ensureVertex`: return the node registered for the value, or
allocate a fresh node and record the mapping in both directions. -/
def LCD.ensureVertex (s : LCDState) (X : Nat) : LCDState × Nat :=
  match s.rightVars X with
  | some x => (s, x)
  | none =>
    let p := s.G.addNode
    let x := p.2
    ({ s with
        G := p.1
        rightVars := fun Y => if Y = X then some x else s.rightVars Y
        leftVars := fun n =>
          if n = x then
            (if (s.leftVars x).contains X then s.leftVars x else X :: s.leftVars x)
          else s.leftVars n }, x)

/-- `LCD::addConstraint`: register both operands, then dispatch on the kind:
AddressOf sets bit `target` in `pts[source]`, Copy adds the graph edge
`target → source`, Store sets bit `target` in `stores[source]`, Load sets bit
`source` in `loads[target]`. -/
def LCD.addConstraint (s : LCDState) (c : Constraint) : M LCDState :=
  let pa := LCD.ensureVertex s c.src
  let a := pa.2
  let pb := LCD.ensureVertex pa.1 c.tgt
  let s2 := pb.1
  let b := pb.2
  match c.ty with
  | .addressOf =>
    .ok { s2 with pts := fun m => if m = a then setBit (s2.pts a) b else s2.pts m }
  | .copy => do
    let p ← s2.G.addEdge b a
    .ok { s2 with G := p.1 }
  | .store =>
    .ok { s2 with stores := fun m => if m = a then setBit (s2.stores a) b else s2.stores m }
  | .load =>
    .ok { s2 with loads := fun m => if m = b then setBit (s2.loads b) a else s2.loads m }

/-- `LCD::findCycles(s)`: run a depth-first traversal from `s`, collecting
the path of every position from which the next unconsumed edge leads back
to `s`. -/
def LCD.findCycles (st : LCDState) (s : Nat) : M (List (List Nat)) := do
  let p ← dfBegin st.G s
  fcLoop st.G s st.G.dfFuel st.G.posFuel p.1 p.2 []

/-- `if (isset(pts[u], v)) unset(pts[u], v), set(pts[origin], v)`: move the
`pts` bit indexed by `v` from node `u` to `origin` when present. -/
def LCD.movePtsBit (origin u v : Nat) (s : LCDState) : LCDState :=
  if (s.pts u).testBit v then
    let p1 := fun m => if m = u then clearBit (s.pts u) v else s.pts m
    { s with pts := fun m => if m = origin then setBit (p1 origin) v else p1 m }
  else s

/-- `if (isset(stores[u], v)) unset(stores[u], v), set(stores[origin], v)`:
move the `stores` bit indexed by `v` from node `u` to `origin` when
present. -/
def LCD.moveStoresBit (origin u v : Nat) (s : LCDState) : LCDState :=
  if (s.stores u).testBit v then
    let q1 := fun m => if m = u then clearBit (s.stores u) v else s.stores m
    { s with stores := fun m => if m = origin then setBit (q1 origin) v else q1 m }
  else s

/-- `if (isset(loads[v], u)) unset(loads[v], u), set(loads[v], origin)`:
redirect the `loads[v]` bit from the collapsed node `u` to `origin` when
present. -/
def LCD.moveLoadsBit (origin u v : Nat) (s : LCDState) : LCDState :=
  if (s.loads v).testBit u then
    let r1 := fun m => if m = v then clearBit (s.loads v) u else s.loads m
    { s with loads := fun m => if m = v then setBit (r1 v) origin else r1 m }
  else s

/-- The body of the in-edge loop of `LCD::collapse` for one in-edge `j` of
the collapsed node `u`: redirect the edge to `origin` (skipping self-loops
and duplicates), and move the `pts`/`stores` bits indexed by the edge's
source `v` — and the `loads[v]` bit indexed by `u` — over to `origin`. -/
def LCD.collapseInStep (origin u : Nat) (s : LCDState) (j : Nat) : M LCDState := do
  let v ← s.G.getEdgeSource j
  if u = v then .ok s
  else do
    let s1 ←
      if v ≠ origin then do
        let f ← s.G.findEdge v origin
        if f.isNone then do
          let p ← s.G.addEdge v origin
          pure { s with G := p.1 }
        else pure s
      else pure s
    .ok (LCD.moveLoadsBit origin u v
          (LCD.moveStoresBit origin u v (LCD.movePtsBit origin u v s1)))

/-- The body of the out-edge loop of `LCD::collapse` for one out-edge `k` of
the collapsed node `u`: redirect the edge to leave from `origin` (skipping
self-loops and duplicates). -/
def LCD.collapseOutStep (origin u : Nat) (s : LCDState) (k : Nat) : M LCDState := do
  let v ← s.G.getEdgeTarget k
  if u = v then .ok s
  else
    if origin ≠ v then do
      let f ← s.G.findEdge origin v
      if f.isNone then do
        let p ← s.G.addEdge origin v
        .ok { s with G := p.1 }
      else .ok s
    else .ok s

/-- Move one value of the collapsed node's variable set: point its
`rightVars` entry at `origin` and insert it into `origin`'s `leftVars` set. -/
def LCD.moveVar (origin : Nat) (s : LCDState) (X : Nat) : LCDState :=
  { s with
      rightVars := fun Y => if Y = X then some origin else s.rightVars Y
      leftVars := fun n =>
        if n = origin then
          (if (s.leftVars origin).contains X then s.leftVars origin
           else X :: s.leftVars origin)
        else s.leftVars n }

/-- One iteration of `LCD::collapse`'s main loop: merge node `u` into
`origin` — redirect its in- and out-edges, move the bitvector bits the code
moves, transfer its variable set, erase its `leftVars` entry and remove `u`
from the graph. -/
def LCD.collapseOne (origin : Nat) (s : LCDState) (u : Nat) : M LCDState := do
  let nu ← s.G.getNode u
  let s1 ← nu.inEdges.foldlM (LCD.collapseInStep origin u) s
  let nu2 ← s1.G.getNode u
  let s2 ← nu2.outEdges.foldlM (LCD.collapseOutStep origin u) s1
  let s3 := (s2.leftVars u).foldl (LCD.moveVar origin) s2
  let s4 := { s3 with leftVars := fun n => if n = u then [] else s3.leftVars n }
  let G1 ← s4.G.removeNode u
  .ok { s4 with G := G1 }

/-- `LCD::collapse(path)`: merge every node after the head of the path into
the head (`origin`). -/
def LCD.collapse (s : LCDState) (path : List Nat) : M LCDState :=
  match path with
  | [] => .ok s
  | origin :: rest => rest.foldlM (LCD.collapseOne origin) s

/-- `LCD::alias(A, B)`: unregistered values never alias; identical values
trivially alias; otherwise search depth-first from `B`'s node for `A`'s
node. -/
def LCD.alias (s : LCDState) (A B : Nat) : M Bool :=
  match s.rightVars A, s.rightVars B with
  | none, _ => .ok false
  | some _, none => .ok false
  | some a, some b =>
    if A = B then .ok true
    else do
      let p ← dfBegin s.G b
      aliasLoop s.G a s.G.dfFuel s.G.posFuel p.1 p.2

/-! ### The worklist solver (`LCD::solve`)

Loop-local state: the solver state, the worklist bitvector `W` and the
checked-pairs set `R`. -/

/-- The loop state of `LCD::solve`. -/
structure SolveSt where
  s : LCDState
  W : Nat
  R : List (Nat × Nat)

/-- Load materialization: for the pointee `v` and one load bit `a` of the
processed node, add the edge `v → a` (unless present) and re-enqueue `v`. -/
def LCD.loadStep (v : Nat) (st : SolveSt) (a : Nat) : M SolveSt := do
  let f ← st.s.G.findEdge v a
  if f.isNone then do
    let p ← st.s.G.addEdge v a
    .ok { st with s := { st.s with G := p.1 }, W := setBit st.W v }
  else .ok st

/-- Store materialization: for the pointee `v` and one store bit `b` of the
processed node, add the edge `b → v` (unless present) and re-enqueue `b`. -/
def LCD.storeStep (v : Nat) (st : SolveSt) (b : Nat) : M SolveSt := do
  let f ← st.s.G.findEdge b v
  if f.isNone then do
    let p ← st.s.G.addEdge b v
    .ok { st with s := { st.s with G := p.1 }, W := setBit st.W b }
  else .ok st

/-- The body of `solve`'s `pts[n]` loop for one pointee `v`: materialize all
load edges, then all store edges, recorded at the processed node `n`. -/
def LCD.ptsStep (n : Nat) (st : SolveSt) (v : Nat) : M SolveSt := do
  let st1 ← (bits (st.s.loads n)).foldlM (LCD.loadStep v) st
  (bits (st1.s.stores n)).foldlM (LCD.storeStep v) st1

/-- Collect the successor bitvector `l` of the processed node: one bit per
out-edge target. -/
def LCD.buildL (s : LCDState) (n : Nat) : M Nat := do
  let outs ← s.G.outEdges n
  outs.foldlM (fun l e => do
    let t ← s.G.getEdgeTarget e
    pure (setBit l t)) 0

/-- Handle one found cycle path: collapse it, then drop the collapsed (tail)
vertices from the worklist `W` and from the in-flight successor set `l`. -/
def LCD.cyclePathStep (p : SolveSt × Nat) (path : List Nat) : M (SolveSt × Nat) := do
  let st := p.1
  let l := p.2
  let s' ← LCD.collapse st.s path
  let tail := path.drop 1
  .ok ({ st with s := s', W := tail.foldl clearBit st.W },
       tail.foldl clearBit l)

/-- The body of `solve`'s successor loop for one successor `z` of the
processed node `n`: if the points-to sets agree and the pair is unchecked,
detect and collapse cycles from `z` and record the pair in `R`; otherwise
propagate `pts[n]` into `pts[z]` and re-enqueue `z`.  Returns the updated
loop state together with the (possibly pruned) successor set `l`. -/
def LCD.handleZ (n : Nat) (st : SolveSt) (l : Nat) (z : Nat) : M (SolveSt × Nat) :=
  if st.s.pts n = st.s.pts z then
    if st.R.contains (n, z) then .ok (st, l)
    else do
      let cycles ← LCD.findCycles st.s z
      let p ← cycles.foldlM LCD.cyclePathStep (st, l)
      .ok ({ p.1 with R := (n, z) :: p.1.R }, p.2)
  else
    .ok ({ st with
            s := { st.s with
                    pts := fun m => if m = z then st.s.pts z ||| st.s.pts n else st.s.pts m }
            W := setBit st.W z }, l)

/-- The successor loop of `solve`: iterate `z` over the set bits of `l` via
`find_first`/`find_next`, re-reading `l` after each step because cycle
collapsing prunes it in flight.  Fuel-structural; the cursor strictly
increases, so `popcount l + 1` steps suffice. -/
def LCD.lLoop (n : Nat) : Nat → SolveSt → Nat → Option Nat → M SolveSt
  | 0, _, _, _ => .error .noFuel
  | _ + 1, st, _, none => .ok st
  | fuel + 1, st, l, some z => do
    let p ← LCD.handleZ n st l z
    LCD.lLoop n fuel p.1 p.2 (findNext p.2 z)

/-- One iteration of `solve`'s worklist loop, processing node `n`: pop `n`,
materialize load/store edges for every current pointee, then walk `n`'s
successors. -/
def LCD.processNode (st : SolveSt) (n : Nat) : M SolveSt := do
  let st0 : SolveSt := { st with W := clearBit st.W n }
  let st1 ← (bits (st0.s.pts n)).foldlM (LCD.ptsStep n) st0
  let l ← LCD.buildL st1.s n
  LCD.lLoop n ((bits l).length + 1) st1 l (findFirst l)

/-- The worklist loop of `LCD::solve`: repeatedly pop `W.find_first()` until
the worklist is empty.  Fuel-structural. -/
def LCD.solveLoop : Nat → SolveSt → M LCDState
  | 0, _ => .error .noFuel
  | fuel + 1, st =>
    match findFirst st.W with
    | none => .ok st.s
    | some n => do
      let st' ← LCD.processNode st n
      LCD.solveLoop fuel st'

/-- `LCD::solve`: size the worklist by `getNumNodes()`, set every bit of it,
and run the worklist loop (with the given fuel). -/
def LCD.solve (fuel : Nat) (s : LCDState) : M LCDState :=
  LCD.solveLoop fuel { s := s, W := 2 ^ s.G.numNodes - 1, R := [] }

/-- Feed a list of constraints to a fresh solver. -/
def LCD.build (cs : List Constraint) : M LCDState :=
  cs.foldlM LCD.addConstraint LCD.init

/-! ### Concrete constraint programs

`prog3` is exactly `TEST(TestCases, Program3)` of the unit tests, with the
values `b, a, c, d` embedded as the handles `10, 11, 12, 13`:
`b = &a; a = &c; d = a; *d = b; a = *d`. -/

/-- The double-indirection program of `TestCases.Program3`:
`AddressOf(b,a); AddressOf(a,c); Copy(d,a); Store(d,b); Load(a,d)` with
`b, a, c, d` as values `10, 11, 12, 13` (`addConstraint(Ty, Source, Target)`
receives the first-listed operand as `Source`, as the test does). -/
def prog3 : List Constraint :=
  [⟨.addressOf, 10, 11⟩, ⟨.addressOf, 11, 12⟩, ⟨.copy, 13, 11⟩,
   ⟨.store, 13, 10⟩, ⟨.load, 11, 13⟩]

/-- The solver state after feeding `prog3` and running `solve` (fuel 100 is
far more than the nine worklist iterations the run needs). -/
def prog3State : M LCDState := (LCD.build prog3).bind (LCD.solve 100)

/-- The alias query `alias(A, B)` on the solved `prog3` state. -/
def prog3Alias (A B : Nat) : M Bool :=
  prog3State.bind (fun s => LCD.alias s A B)

/-- The two-constraint program `a = b; b = a` (values `a, b = 20, 21`): its
copy edges form a two-cycle which the first `solve()` collapses. -/
def progCycle2 : List Constraint := [⟨.copy, 20, 21⟩, ⟨.copy, 21, 20⟩]

/-- State after the first `solve` on `progCycle2`. -/
def progCycle2Solved : M LCDState := (LCD.build progCycle2).bind (LCD.solve 100)

/-- Running `solve` a second time on the already-solved `progCycle2` state. -/
def progCycle2SolvedTwice : M LCDState := progCycle2Solved.bind (LCD.solve 100)

/-- `S = &o1; T = &o2; Copy(S, T)` with values `S,o1,T,o2 = 40,41,42,43`,
giving nodes `0,1,2,3`.  The copy edge is `2 → 0` (target operand's node to
source operand's node). -/
def progCopyDir : List Constraint :=
  [⟨.addressOf, 40, 41⟩, ⟨.addressOf, 42, 43⟩, ⟨.copy, 40, 42⟩]

/-- The solved state of `progCopyDir`. -/
def progCopyDirSolved : M LCDState := (LCD.build progCopyDir).bind (LCD.solve 100)

/-- The program refuting preservation of collapsed bits, §8's `Monotonicity`
exception: `a = &o1; b = &o1; c = &o1; c = &o2; Copy(b,a); Copy(c,b);
Copy(b,c)` with values `a,o1,b,c,o2 = 30,31,32,33,34` (nodes `0..4`).
Solving collapses the copy cycle `{2, 3}` into node 2 while node 3's
points-to bit for `o2` (bit 4) indexes no in-edge source of node 3, so the
bit is left behind on the removed node. -/
def progLostBit : List Constraint :=
  [⟨.addressOf, 30, 31⟩, ⟨.addressOf, 32, 31⟩, ⟨.addressOf, 33, 31⟩,
   ⟨.addressOf, 33, 34⟩, ⟨.copy, 32, 30⟩, ⟨.copy, 33, 32⟩, ⟨.copy, 32, 33⟩]

/-- The solved state of `progLostBit`. -/
def progLostBitSolved : M LCDState := (LCD.build progLostBit).bind (LCD.solve 100)

/-! ### Observables used by the invariants -/

/-- The tombstone mask of the node vector. -/
def nodesCleared (G : Graph) : List Bool := G.nodes.map NodeEntry.cleared

/-- Number of live (non-tombstoned) node entries. -/
def liveNodeCount (G : Graph) : Nat := (nodesCleared G).count false

/-- Number of live (non-tombstoned) edge entries. -/
def liveEdgeCount (G : Graph) : Nat := (G.edges.map EdgeEntry.cleared).count false

/-- The sources of a node's in-edges, in adjacency order (the vertices `v`
whose `pts`/`stores`/`loads` bits `collapse` is able to move). -/
def Graph.inSources (G : Graph) (u : Nat) : M (List Nat) := do
  let nu ← G.getNode u
  nu.inEdges.mapM G.getEdgeSource

/-- Both counters agree with the number of live (non-tombstoned) entries. -/
def countsOK (G : Graph) : Prop :=
  G.numNodes = liveNodeCount G ∧ G.numEdges = liveEdgeCount G

instance (G : Graph) : Decidable (countsOK G) :=
  inferInstanceAs (Decidable (_ ∧ _))

/-- Consistency of the bidirectional value↔node registry: the right-map
sends every registered value to a live (non-tombstoned) node, and the
left-map is exactly its preimage partition. -/
def mapsConsistent (s : LCDState) : Prop :=
  (∀ X n, s.rightVars X = some n → (nodesCleared s.G)[n]? = some false)
  ∧ (∀ n X, X ∈ s.leftVars n ↔ s.rightVars X = some n)

/-- One adjacency hop of the depth-first traversal: a live node `x` has an
out-edge whose target resolves to `y`. -/
def adjStep (G : Graph) (x y : Nat) : Prop :=
  ∃ nx e, G.nodes[x]? = some nx ∧ nx.cleared = false
    ∧ e ∈ nx.outEdges ∧ G.getEdgeTarget e = .ok y

/-- Reachability along out-edges (the relation the `df_iterator` explores). -/
def reaches (G : Graph) (x y : Nat) : Prop :=
  Relation.ReflTransGen (adjStep G) x y

/-- Invariant of the depth-first search from `b`: stack nodes are visited;
every frame holds a live node whose cursor is a suffix of its out-list with
all already-consumed edge targets visited; nodes that are visited but no
longer on the stack are fully processed (all their out-targets visited); and
everything visited is reachable from `b`. -/
def dfInv (G : Graph) (b : Nat) (stack : List Frame) (visited : List Nat) : Prop :=
  (∀ f ∈ stack, f.node ∈ visited)
  ∧ (∀ f ∈ stack, ∃ nf, G.nodes[f.node]? = some nf ∧ nf.cleared = false
      ∧ ∃ pre, nf.outEdges = pre ++ f.rest
        ∧ ∀ e ∈ pre, ∀ y, G.getEdgeTarget e = .ok y → y ∈ visited)
  ∧ (∀ v ∈ visited, v ∉ stack.map Frame.node →
      ∀ nv, G.nodes[v]? = some nv →
        ∀ e ∈ nv.outEdges, ∀ y, G.getEdgeTarget e = .ok y → y ∈ visited)
  ∧ (∀ v ∈ visited, reaches G b v)

/-- Is edge `e` a live edge incident to node `n`? -/
def edgeIncident (G : Graph) (n e : Nat) : Bool :=
  match G.edges[e]? with
  | some en => !en.cleared && (en.source == n || en.target == n)
  | none => false

/-- Number of distinct live edges incident to `n` (a self-loop counts
once). -/
def incidentCount (G : Graph) (n : Nat) : Nat :=
  (List.range G.edges.length).countP (edgeIncident G n)

/-- Executable structural well-formedness of a graph: counters match the
live counts, every live edge is linked into both live endpoints' adjacency
lists, every adjacency entry names a live edge anchored at that node, the
adjacency lists hold no duplicates, and tombstoned nodes have empty lists. -/
def graphWFb (G : Graph) : Bool :=
  (G.numNodes == liveNodeCount G) &&
  (G.numEdges == liveEdgeCount G) &&
  ((List.range G.edges.length).all (fun e =>
    match G.edges[e]? with
    | none => true
    | some en =>
      en.cleared ||
      (match G.nodes[en.source]?, G.nodes[en.target]? with
       | some ns, some nt =>
         !ns.cleared && !nt.cleared && ns.outEdges.contains e && nt.inEdges.contains e
       | _, _ => false))) &&
  ((List.range G.nodes.length).all (fun n =>
    match G.nodes[n]? with
    | none => true
    | some nn =>
      (!nn.cleared || (nn.inEdges.isEmpty && nn.outEdges.isEmpty)) &&
      nn.outEdges.all (fun e =>
        match G.edges[e]? with
        | some en => !en.cleared && en.source == n
        | none => false) &&
      nn.inEdges.all (fun e =>
        match G.edges[e]? with
        | some en => !en.cleared && en.target == n
        | none => false) &&
      decide nn.outEdges.Nodup && decide nn.inEdges.Nodup))

/-- Executable check that no ordered pair of nodes carries two live edges. -/
def pairUniqueB (G : Graph) : Bool :=
  (List.range G.edges.length).all (fun e1 =>
    (List.range G.edges.length).all (fun e2 =>
      match G.edges[e1]?, G.edges[e2]? with
      | some en1, some en2 =>
        e1 == e2 || en1.cleared || en2.cleared ||
        !(en1.source == en2.source && en1.target == en2.target)
      | _, _ => true))

/-- A computation that cannot run out of fuel: its result is a success or an
assertion failure, never `Err.noFuel`.  The fuel-free C++ loops satisfy this
unconditionally; the fueled ones satisfy it once their fuel dominates the
loop measure. -/
def fuelSafe {α : Type} (x : M α) : Prop := x ≠ Except.error Err.noFuel

/-- Out-degree of a node index in a node-entry list (`0` out of range). -/
def lookOut (L : List NodeEntry) (i : Nat) : Nat :=
  match L[i]? with
  | some nn => nn.outEdges.length
  | none => 0

/-- Popcount of a bitset (the number of set bits). -/
def pcnt (v : Nat) : Nat := (bits v).length

/-- Worklist potential of the solver measure: every enqueued node `i < N`
contributes `(N+1)^(N+1-popcount(pts i))`, so re-enqueueing a node whose
points-to set has strictly grown is exponentially cheaper. -/
def phiW (N W : Nat) (p : Nat → Nat) : Nat :=
  (Finset.range N).sum
    (fun i => if W.testBit i then (N + 1) ^ (N + 1 - pcnt (p i)) else 0)

/-- Total remaining points-to growth: the sum over all nodes of how many
bits their points-to set can still gain. -/
def pcGap (N : Nat) (p : Nat → Nat) : Nat :=
  (Finset.range N).sum (fun i => N - pcnt (p i))

/-- Solver invariant at the `LCDState` level: fixed node-vector length,
well-formed graph, at most one live edge per ordered node pair, and
`pts`/`stores` bit indices inside the node range. -/
def BInv (N : Nat) (s : LCDState) : Prop :=
  s.G.nodes.length = N
  ∧ graphWFb s.G = true
  ∧ pairUniqueB s.G = true
  ∧ (∀ i x, (s.pts i).testBit x = true → x < N)
  ∧ (∀ i x, (s.stores i).testBit x = true → x < N)

/-- Solver invariant at the worklist-loop level: `BInv` plus bounded
worklist bits and a duplicate-free, bounded checked-pairs set `R`. -/
def SInv (N : Nat) (st : SolveSt) : Prop :=
  BInv N st.s
  ∧ (∀ x, st.W.testBit x = true → x < N)
  ∧ st.R.Nodup
  ∧ (∀ q ∈ st.R, q.1 < N ∧ q.2 < N)

/-- Weight of one unit of middle-component progress (an added edge, a newly
checked pair, or a grown points-to set): strictly larger than any worklist
potential. -/
def solveK2 (N : Nat) : Nat := N * (N + 1) ^ (N + 1) + 1

/-- Weight of one removed node: strictly larger than any middle component
times `solveK2`. -/
def solveK1 (N : Nat) : Nat := (3 * N * N + 1) * solveK2 N

/-- The strictly decreasing measure of `solve`'s worklist loop: live nodes,
then (missing edges, unchecked pairs, remaining points-to growth), then the
worklist potential, lexicographically, encoded as one natural number. -/
def sMeasure (N : Nat) (st : SolveSt) : Nat :=
  liveNodeCount st.s.G * solveK1 N
    + ((N * N - liveEdgeCount st.s.G) + (N * N - st.R.length) + pcGap N st.s.pts)
        * solveK2 N
    + phiW N st.W st.s.pts

instance : Inhabited SolveSt := ⟨⟨default, 0, []⟩⟩

instance : Inhabited Graph := ⟨Graph.empty⟩

/-- Extract the payload of a successful computation (used only to *name*
concretely computed states in witness statements). -/
def getOk {α : Type} [Inhabited α] : M α → α
  | .ok a => a
  | .error _ => default

/-- The worklist state at the start of `solve` on the built `prog3`
(all four node bits set). -/
def witSolveSt : SolveSt := { s := getOk (LCD.build prog3), W := 15, R := [] }

/-- A one-copy-constraint state (`Copy(60, 61)`, nodes `0, 1`, edge `1 → 0`)
used to exercise `collapseOne 1 _ 0` concretely. -/
def witCollapseS : LCDState := getOk (LCD.build [⟨.copy, 60, 61⟩])

/-- The state after a single `Copy(70, 71)` constraint, used to exercise
the duplicate re-add of an identical Copy constraint concretely. -/
def readdS : LCDState := getOk (LCD.addConstraint LCD.init ⟨.copy, 70, 71⟩)

/-- Invariant maintained while feeding constraints through
`LCD::addConstraint`: well-formed graph, at most one live edge per ordered
node pair, and `pts`/`stores` bit indices as well as registered node ids
inside the node range. -/
def buildInv (s : LCDState) : Prop :=
  graphWFb s.G = true
  ∧ pairUniqueB s.G = true
  ∧ (∀ i x, (s.pts i).testBit x = true → x < s.G.nodes.length)
  ∧ (∀ i x, (s.stores i).testBit x = true → x < s.G.nodes.length)
  ∧ (∀ X x, s.rightVars X = some x → x < s.G.nodes.length)

end PointsTo

namespace PointsTo

/-- Claim C1: for the double-indirection constraint sequence
`b = &a; a = &c; d = a; *d = b; a = *d` (values `b,a,c,d = 10,11,12,13`),
`solve()` converges — the worklist loop exits with the worklist empty, well
within fuel 100, which an `.ok` result certifies since fuel exhaustion is the
distinguished `noFuel` error — and afterwards `alias(d,a)`, `alias(c,b)`,
`alias(a,c)`, `alias(a,b)` all hold while `alias(b,a)` is false. -/
theorem prog3_solve_and_alias :
    prog3State.isOk = true
      ∧ prog3Alias 13 11 = .ok true
      ∧ prog3Alias 12 10 = .ok true
      ∧ prog3Alias 11 12 = .ok true
      ∧ prog3Alias 11 10 = .ok true
      ∧ prog3Alias 10 11 = .ok false :=
  ⟨rfl, rfl, rfl, rfl, rfl, rfl⟩

/-! ### Re-running `solve` (claim C2)

`solve()` initializes its worklist as `W.resize(G.getNumNodes()); W.set()`,
i.e. with one bit per *counted* node — but bits index *node ids*.  After a
cycle collapse has removed a node, the count no longer matches the id space:
a second `solve()` enqueues tombstoned low ids and then trips the
`"Attempt to access a removed node"` assertion in `getNode` when it walks
the dead node's out-edges. -/

/-- Claim C2 (code bug): the first `solve` on `a = b; b = a` succeeds and
collapses the two-node copy cycle into one node (`getNumNodes()` drops from 2
to 1), and the *second* `solve` — far from leaving the state unchanged —
aborts with the fatal `"Attempt to access a removed node"` assertion: its
worklist `W.resize(getNumNodes()); W.set()` covers node ids `[0, 1)`, id `0`
is tombstoned, and processing it walks the dead node's adjacency.  The code
therefore contradicts the spec's idempotence property on this input. -/
theorem solve_rerun_asserts_after_collapse :
    progCycle2Solved.isOk = true
      ∧ (progCycle2Solved.map (fun s => s.G.numNodes)) = .ok 1
      ∧ ((LCD.build progCycle2).map (fun s => s.G.numNodes)) = .ok 2
      ∧ progCycle2SolvedTwice
          = .error (.assertFail "Attempt to access a removed node") :=
  ⟨rfl, rfl, rfl, rfl⟩

/-! ### Monadic stepping helpers -/

/-- Invert a successful bind. -/
theorem bindOk {α β : Type} {x : M α} {f : α → M β} {y : β}
    (h : x >>= f = .ok y) : ∃ a, x = .ok a ∧ f a = .ok y := by
  cases x with
  | ok a => exact ⟨a, rfl, h⟩
  | error e => exact absurd h (by simp [Bind.bind, Except.bind])

/-- A successful bind with the first component known. -/
theorem okBind {α β : Type} {a : α} {f : α → M β} :
    ((.ok a : M α) >>= f) = f a := rfl

/-- A successful `addEdge` appends exactly one live edge record
`(source, target)` to the edge vector and returns its index. -/
theorem Graph.addEdge_ok_edges {G G' : Graph} {s t eid : Nat}
    (h : G.addEdge s t = .ok (G', eid)) :
    G'.edges = G.edges ++ [⟨s, t, false⟩] ∧ eid = G.edges.length := by
  simp only [Graph.addEdge] at h
  obtain ⟨dup, hdup, h⟩ := bindOk h
  split at h
  · simp at h
  · obtain ⟨ns, hns, h⟩ := bindOk h
    obtain ⟨n2, hn2, h⟩ := bindOk h
    obtain ⟨nt, hnt, h⟩ := bindOk h
    injection h with h
    injection h with hG heid
    exact ⟨hG ▸ rfl, heid.symm⟩

/-! ### Claim C6: `addConstraint` dispatch and the copy-edge orientation

The dispatch table of `addConstraint` is as the claim states for AddressOf,
Store and Load, and a Copy constraint does add the single edge
`target → source` (the edge record is `(source := targetNode, target :=
sourceNode)`).  But the *orientation* clause of the claim is backwards: the
solver propagates points-to sets along edge direction (`pts[z] |= pts[n]` for
each out-edge `n → z`), so information flows from the **target** operand's
set into the **source** operand's set — the tests pass the assignee of a copy
statement as `Source`.  `progCopyDir` (defined above) refutes the claim's
direction. -/

/-- Claim C6, counterexample to the stated propagation direction: in
`progCopyDir` the source operand `S` (node 0) initially points to `o1`
(bit 1), and the lone copy edge is recorded as `(source 2, target 0)` —
from the target operand's node to the source operand's node.  After solving,
bit 1 never appears in the target operand's set (`pts[2]`), while bit 3 from
the target operand's set did flow into the source operand's set (`pts[0]`):
information propagates from the target operand into the source operand,
not the other way around as the claim's orientation clause states. -/
theorem copy_orientation_counterexample :
    ((LCD.build progCopyDir).map (fun s => (s.pts 0).testBit 1)) = .ok true
      ∧ ((LCD.build progCopyDir).map (fun s => s.G.edges)) = .ok [⟨2, 0, false⟩]
      ∧ (progCopyDirSolved.map (fun s => (s.pts 2).testBit 1)) = .ok false
      ∧ (progCopyDirSolved.map (fun s => (s.pts 0).testBit 3)) = .ok true :=
  ⟨rfl, rfl, rfl, rfl⟩

/-- Claim C6 (amended): after registering the two operands (`a` the node of
`Source`, `b` the node of `Target`), `addConstraint` dispatches with exactly
these effects and no other state change:
* AddressOf sets bit `b` (= target) in the `pts[a]` (= source) bitvector and
  changes nothing else;
* Copy appends the single graph edge *from* the target operand's node `b`
  *to* the source operand's node `a` and changes nothing else; the solver
  propagates points-to bits along edge direction (final conjunct), so
  information flows from the **target** operand's set into the **source**
  operand's set — not from source into target as the claim stated;
* Store sets bit `b` in the `stores[a]` bitvector and changes nothing else;
* Load sets bit `a` in the `loads[b]` bitvector — keyed by the node being
  dereferenced, which is the target operand — and changes nothing else. -/
theorem addConstraint_dispatch_amended
    (s : LCDState) (c : Constraint) (s1 : LCDState) (a : Nat)
    (s2 : LCDState) (b : Nat)
    (h1 : LCD.ensureVertex s c.src = (s1, a))
    (h2 : LCD.ensureVertex s1 c.tgt = (s2, b)) :
    (c.ty = .addressOf →
      ∃ s', LCD.addConstraint s c = .ok s'
        ∧ s'.G = s2.G ∧ s'.stores = s2.stores ∧ s'.loads = s2.loads
        ∧ s'.rightVars = s2.rightVars ∧ s'.leftVars = s2.leftVars
        ∧ (∀ i, (s'.pts a).testBit i = ((s2.pts a).testBit i || decide (i = b)))
        ∧ (∀ m, m ≠ a → s'.pts m = s2.pts m))
    ∧ (c.ty = .copy →
      ∀ s', LCD.addConstraint s c = .ok s' →
        s'.G.edges = s2.G.edges ++ [⟨b, a, false⟩]
          ∧ s'.pts = s2.pts ∧ s'.stores = s2.stores ∧ s'.loads = s2.loads
          ∧ s'.rightVars = s2.rightVars ∧ s'.leftVars = s2.leftVars)
    ∧ (c.ty = .store →
      ∃ s', LCD.addConstraint s c = .ok s'
        ∧ s'.G = s2.G ∧ s'.pts = s2.pts ∧ s'.loads = s2.loads
        ∧ s'.rightVars = s2.rightVars ∧ s'.leftVars = s2.leftVars
        ∧ (∀ i, (s'.stores a).testBit i = ((s2.stores a).testBit i || decide (i = b)))
        ∧ (∀ m, m ≠ a → s'.stores m = s2.stores m))
    ∧ (c.ty = .load →
      ∃ s', LCD.addConstraint s c = .ok s'
        ∧ s'.G = s2.G ∧ s'.pts = s2.pts ∧ s'.stores = s2.stores
        ∧ s'.rightVars = s2.rightVars ∧ s'.leftVars = s2.leftVars
        ∧ (∀ i, (s'.loads b).testBit i = ((s2.loads b).testBit i || decide (i = a)))
        ∧ (∀ m, m ≠ b → s'.loads m = s2.loads m))
    ∧ (∀ n z st l st' l', LCD.handleZ n st l z = .ok (st', l') →
        st.s.pts n ≠ st.s.pts z →
        st'.s.pts z = (st.s.pts z ||| st.s.pts n)
          ∧ (∀ m, m ≠ z → st'.s.pts m = st.s.pts m)) := by
  refine ⟨?_, ?_, ?_, ?_, ?_⟩
  · intro hty
    refine ⟨{ s2 with pts := fun m => if m = a then setBit (s2.pts a) b else s2.pts m },
            ?_, rfl, rfl, rfl, rfl, rfl, ?_, ?_⟩
    · simp only [LCD.addConstraint, h1, h2, hty]
    · intro i
      simp only [if_pos rfl, setBit, Nat.testBit_or, Nat.testBit_two_pow]
      cases Nat.decEq i b with
      | isTrue hib => simp [hib]
      | isFalse hib => simp [hib, Ne.symm hib]
    · intro m hm
      simp [hm]
  · intro hty s' hok
    simp only [LCD.addConstraint, h1, h2, hty] at hok
    obtain ⟨p, hp, hpure⟩ := bindOk hok
    obtain ⟨hGe, -⟩ := Graph.addEdge_ok_edges (show _ = .ok (p.1, p.2) from hp)
    injection hpure with hpure
    cases hpure
    exact ⟨hGe, rfl, rfl, rfl, rfl, rfl⟩
  · intro hty
    refine ⟨{ s2 with stores := fun m => if m = a then setBit (s2.stores a) b else s2.stores m },
            ?_, rfl, rfl, rfl, rfl, rfl, ?_, ?_⟩
    · simp only [LCD.addConstraint, h1, h2, hty]
    · intro i
      simp only [if_pos rfl, setBit, Nat.testBit_or, Nat.testBit_two_pow]
      cases Nat.decEq i b with
      | isTrue hib => simp [hib]
      | isFalse hib => simp [hib, Ne.symm hib]
    · intro m hm
      simp [hm]
  · intro hty
    refine ⟨{ s2 with loads := fun m => if m = b then setBit (s2.loads b) a else s2.loads m },
            ?_, rfl, rfl, rfl, rfl, rfl, ?_, ?_⟩
    · simp only [LCD.addConstraint, h1, h2, hty]
    · intro i
      simp only [if_pos rfl, setBit, Nat.testBit_or, Nat.testBit_two_pow]
      cases Nat.decEq i a with
      | isTrue hib => simp [hib]
      | isFalse hib => simp [hib, Ne.symm hib]
    · intro m hm
      simp [hm]
  · intro n z st l st' l' hok hne
    simp only [LCD.handleZ, if_neg hne] at hok
    injection hok with hok
    injection hok with hok1 hok2
    cases hok1
    exact ⟨by simp, fun m hm => by simp [hm]⟩

/-- Witness for `addConstraint_dispatch_amended` at a concrete input: the
constraint `AddressOf(1, 2)` on a fresh solver registers value 1 at node 0
and value 2 at node 1, and sets bit 1 of `pts[0]`. -/
theorem addConstraint_dispatch_amended_witness :
    LCD.ensureVertex LCD.init 1 = ((LCD.ensureVertex LCD.init 1).1, 0)
      ∧ LCD.ensureVertex (LCD.ensureVertex LCD.init 1).1 2
          = ((LCD.ensureVertex (LCD.ensureVertex LCD.init 1).1 2).1, 1)
      ∧ (Constraint.mk .addressOf 1 2).ty = .addressOf
      ∧ ∃ s', LCD.addConstraint LCD.init ⟨.addressOf, 1, 2⟩ = .ok s'
          ∧ (s'.pts 0).testBit 1 = true := by
  refine ⟨rfl, rfl, rfl, ?_⟩
  obtain ⟨hA, -, -, -, -⟩ :=
    addConstraint_dispatch_amended LCD.init ⟨.addressOf, 1, 2⟩ _ 0 _ 1 rfl rfl
  obtain ⟨s', hok, -, -, -, -, -, hbit, -⟩ := hA rfl
  refine ⟨s', hok, ?_⟩
  rw [hbit 1]
  simp [LCD.ensureVertex, LCD.init]

/-! ### Claim C3: monotonicity, and what cycle collapse really moves

Outside cycle collapse the solver only ever unions bits into points-to sets,
so bitvectors grow monotonically — that part of the claim holds.  But the
collapse loop does *not* merge the whole of a collapsed node's bitvectors
into the representative: for each in-edge `(v, u)` of the collapsed node `u`
it moves the single `pts`/`stores` bit *indexed by that in-edge's source
`v`*, and redirects `loads[v]`'s bit `u`.  A `pts[u]` bit whose index is not
among `u`'s in-edge sources is simply left behind on the removed node, so
the union of the collapsed nodes' bits is not preserved in general;
`progLostBit` exhibits the loss. -/

/-- Claim C3, counterexample to the preserved-union clause: in `progLostBit`,
before solving, node 3 (value `c = 33`) has points-to bit 4 (`o2`).  Solving
collapses node 3 into node 2 (value 33's registry entry moves to node 2 and
node 3 is tombstoned), but bit 4 indexes no in-edge source of node 3, so the
surviving representative's `pts[2]` does *not* contain bit 4 — the bit stays
stranded on the removed node's orphaned bitvector.  The union of the
collapsed nodes' bits is not preserved in the representative. -/
theorem collapse_drops_pts_bit_counterexample :
    ((LCD.build progLostBit).map (fun s => (s.pts 3).testBit 4)) = .ok true
      ∧ (progLostBitSolved.map (fun s => s.rightVars 33)) = .ok (some 2)
      ∧ (progLostBitSolved.map (fun s => nodesCleared s.G))
          = .ok [false, false, false, true, false]
      ∧ (progLostBitSolved.map (fun s => (s.pts 2).testBit 4)) = .ok false
      ∧ (progLostBitSolved.map (fun s => (s.pts 3).testBit 4)) = .ok true :=
  ⟨rfl, rfl, rfl, rfl, rfl⟩

/-! ### Effect lemmas for the graph operations -/

/-- Setting an index back to the element it already holds is the identity. -/
theorem list_set_same {α : Type} {l : List α} {n : Nat} {a : α}
    (h : l[n]? = some a) : l.set n a = l := by
  induction l generalizing n with
  | nil => simp at h
  | cons x xs ih =>
    cases n with
    | zero =>
      simp only [List.getElem?_cons_zero, Option.some.injEq] at h
      simp [h]
    | succ k =>
      simp only [List.getElem?_cons_succ] at h
      simp [ih h]

/-- Tombstoning a live position decrements the live count by one. -/
theorem count_false_set_true {l : List Bool} {n : Nat}
    (h : l[n]? = some false) :
    (l.set n true).count false + 1 = l.count false := by
  induction l generalizing n with
  | nil => simp at h
  | cons x xs ih =>
    cases n with
    | zero =>
      simp only [List.getElem?_cons_zero, Option.some.injEq] at h
      subst h
      simp [List.count_cons, List.set]
    | succ k =>
      simp only [List.getElem?_cons_succ] at h
      simp only [List.set, List.count_cons]
      have := ih h
      omega

/-- Inversion of `getNode`: success names the live entry at the index. -/
theorem Graph.getNode_ok {G : Graph} {n : Nat} {en : NodeEntry}
    (h : G.getNode n = .ok en) : G.nodes[n]? = some en ∧ en.cleared = false := by
  unfold Graph.getNode at h
  split at h
  · split at h
    · simp at h
    · rename_i heq hcl
      injection h with h
      subst h
      exact ⟨heq, by simpa using hcl⟩
  · simp at h

/-- Inversion of `getEdge`: success names the live entry at the index. -/
theorem Graph.getEdge_ok {G : Graph} {e : Nat} {en : EdgeEntry}
    (h : G.getEdge e = .ok en) : G.edges[e]? = some en ∧ en.cleared = false := by
  unfold Graph.getEdge at h
  split at h
  · split at h
    · simp at h
    · rename_i heq hcl
      injection h with h
      subst h
      exact ⟨heq, by simpa using hcl⟩
  · simp at h

/-- The tombstone mask indexes as the node vector does. -/
theorem nodesCleared_getElem {G : Graph} {n : Nat} :
    (nodesCleared G)[n]? = (G.nodes[n]?).map NodeEntry.cleared := by
  simp [nodesCleared, List.getElem?_map]

/-- `setNode` replacing a live entry by a live entry preserves the mask. -/
theorem setNode_mask {G : Graph} {n : Nat} {en en' : NodeEntry}
    (h : G.nodes[n]? = some en) (hen : en.cleared = false)
    (hc : en'.cleared = false) :
    nodesCleared (G.setNode n en') = nodesCleared G := by
  show (G.nodes.set n en').map NodeEntry.cleared = nodesCleared G
  rw [List.map_set, hc]
  apply list_set_same
  rw [show (G.nodes.map NodeEntry.cleared) = nodesCleared G from rfl,
      nodesCleared_getElem, h]
  simp [hen]

/-- A successful `addEdge` preserves the node vector's tombstone mask,
length, and `numNodes`, and increments `numEdges`. -/
theorem Graph.addEdge_ok_nodes {G G' : Graph} {s t eid : Nat}
    (h : G.addEdge s t = .ok (G', eid)) :
    nodesCleared G' = nodesCleared G ∧ G'.nodes.length = G.nodes.length
      ∧ G'.numNodes = G.numNodes ∧ G'.numEdges = G.numEdges + 1 := by
  simp only [Graph.addEdge] at h
  obtain ⟨dup, hdup, h⟩ := bindOk h
  split at h
  · simp at h
  · obtain ⟨ns, hns, h⟩ := bindOk h
    obtain ⟨n2, hn2, h⟩ := bindOk h
    obtain ⟨nt, hnt, h⟩ := bindOk h
    injection h with h
    injection h with hG heid
    subst hG
    obtain ⟨hns1, hns2⟩ := Graph.getNode_ok hns
    obtain ⟨hnt1, hnt2⟩ := Graph.getNode_ok hnt
    refine ⟨?_, ?_, rfl, rfl⟩
    · refine (setNode_mask hnt1 hnt2 ?_).trans (setNode_mask hns1 hns2 ?_)
      · exact hnt2
      · exact hns2
    · simp [Graph.setNode]

/-- A successful `addEdge` leaves every pre-existing edge entry in place. -/
theorem Graph.addEdge_pres_getEdge {G G' : Graph} {s t eid : Nat}
    (h : G.addEdge s t = .ok (G', eid)) :
    ∀ e en, G.getEdge e = .ok en → G'.getEdge e = .ok en := by
  intro e en he
  obtain ⟨hGe, -⟩ := Graph.addEdge_ok_edges h
  obtain ⟨he1, he2⟩ := Graph.getEdge_ok he
  have hlt : e < G.edges.length := by
    obtain ⟨hlt, -⟩ := List.getElem?_eq_some.mp he1
    exact hlt
  unfold Graph.getEdge
  rw [hGe, List.getElem?_append_left hlt, he1]
  simp [he2]

/-- A successful `removeEdge` preserves the node mask, node-vector length
and `numNodes`, and decrements `numEdges`. -/
theorem Graph.removeEdge_ok_nodes {G G' : Graph} {e : Nat}
    (h : G.removeEdge e = .ok G') :
    nodesCleared G' = nodesCleared G ∧ G'.nodes.length = G.nodes.length
      ∧ G'.numNodes = G.numNodes ∧ G'.numEdges = G.numEdges - 1 := by
  simp only [Graph.removeEdge] at h
  obtain ⟨E, hE, h⟩ := bindOk h
  obtain ⟨ns, hns, h⟩ := bindOk h
  obtain ⟨nt, hnt, h⟩ := bindOk h
  injection h with h
  subst h
  obtain ⟨hns1, hns2⟩ := Graph.getNode_ok hns
  obtain ⟨hnt1, hnt2⟩ := Graph.getNode_ok hnt
  refine ⟨?_, ?_, rfl, rfl⟩
  · refine (setNode_mask hnt1 hnt2 ?_).trans (setNode_mask hns1 hns2 ?_)
    · exact hnt2
    · exact hns2
  · simp [Graph.setNode]

/-- `removeEdgesList` preserves the node mask, node-vector length and
`numNodes`. -/
theorem Graph.removeEdgesList_ok_nodes {G G' : Graph} {l : List Nat}
    (h : G.removeEdgesList l = .ok G') :
    nodesCleared G' = nodesCleared G ∧ G'.nodes.length = G.nodes.length
      ∧ G'.numNodes = G.numNodes := by
  induction l generalizing G with
  | nil =>
    unfold Graph.removeEdgesList at h
    injection h with h
    subst h
    exact ⟨rfl, rfl, rfl⟩
  | cons e rest ih =>
    unfold Graph.removeEdgesList at h
    obtain ⟨G1, hG1, h⟩ := bindOk h
    obtain ⟨m1, l1, n1, -⟩ := Graph.removeEdge_ok_nodes hG1
    obtain ⟨m2, l2, n2⟩ := ih h
    exact ⟨m2.trans m1, l2.trans l1, n2.trans n1⟩

/-- A successful `removeNode` tombstones exactly the requested live node and
decrements `numNodes`. -/
theorem Graph.removeNode_ok_nodes {G G' : Graph} {n : Nat}
    (h : G.removeNode n = .ok G') :
    (nodesCleared G)[n]? = some false
      ∧ nodesCleared G' = (nodesCleared G).set n true
      ∧ G'.nodes.length = G.nodes.length
      ∧ G'.numNodes = G.numNodes - 1 := by
  simp only [Graph.removeNode] at h
  obtain ⟨N, hN, h⟩ := bindOk h
  obtain ⟨G1, hG1, h⟩ := bindOk h
  obtain ⟨N1, hN1, h⟩ := bindOk h
  obtain ⟨G2, hG2, h⟩ := bindOk h
  obtain ⟨hN1e, hN2e⟩ := Graph.getNode_ok hN
  obtain ⟨m1, l1, n1⟩ := Graph.removeEdgesList_ok_nodes hG1
  obtain ⟨m2, l2, n2⟩ := Graph.removeEdgesList_ok_nodes hG2
  split at h
  · rename_i en hen
    injection h with h
    subst h
    refine ⟨?_, ?_, ?_, ?_⟩
    · rw [nodesCleared_getElem, hN1e]
      simp [hN2e]
    · show (G2.nodes.set n { en with cleared := true }).map NodeEntry.cleared
        = (nodesCleared G).set n true
      rw [List.map_set]
      show (nodesCleared G2).set n true = (nodesCleared G).set n true
      rw [m2, m1]
    · show (G2.nodes.set n _).length = G.nodes.length
      simp [l2, l1]
    · show G2.numNodes - 1 = G.numNodes - 1
      rw [n2, n1]
  · cases h

/-- Removing a node decrements the live-node count by one. -/
theorem liveNodeCount_removeNode {G G' : Graph} {n : Nat}
    (h : G.removeNode n = .ok G') :
    liveNodeCount G' + 1 = liveNodeCount G := by
  obtain ⟨hlive, hmask, -, -⟩ := Graph.removeNode_ok_nodes h
  unfold liveNodeCount
  rw [hmask]
  exact count_false_set_true hlive

/-- Generic preservation along a successful monadic fold. -/
theorem foldlM_pres {α σ : Type} {P : σ → σ → Prop} {f : σ → α → M σ}
    (hP : ∀ s a s', f s a = .ok s' → P s s')
    (Prefl : ∀ s, P s s) (Ptrans : ∀ a b c, P a b → P b c → P a c) :
    ∀ (l : List α) (s s' : σ), l.foldlM f s = .ok s' → P s s' := by
  intro l
  induction l with
  | nil =>
    intro s s' h
    simp only [List.foldlM_nil] at h
    injection h with h
    exact h ▸ Prefl s
  | cons a rest ih =>
    intro s s' h
    simp only [List.foldlM_cons] at h
    obtain ⟨s1, hs1, h⟩ := bindOk h
    exact Ptrans _ _ _ (hP s a s1 hs1) (ih s1 s' h)

/-- Successful `mapM` assigns each list element a successful result in the
output list. -/
theorem mapM_ok_mem {α β : Type} {f : α → M β} :
    ∀ {l : List α} {res : List β}, l.mapM f = .ok res →
      ∀ a ∈ l, ∃ b, f a = .ok b ∧ b ∈ res := by
  intro l
  induction l with
  | nil =>
    intro res h a ha
    cases ha
  | cons x rest ih =>
    intro res h a ha
    rw [List.mapM_cons] at h
    obtain ⟨b, hb, h⟩ := bindOk h
    obtain ⟨bs, hbs, h⟩ := bindOk h
    injection h with h
    subst h
    rcases List.mem_cons.mp ha with ha | ha
    · subst ha
      exact ⟨b, hb, List.mem_cons_self _ _⟩
    · obtain ⟨b', hb', hmem⟩ := ih hbs a ha
      exact ⟨b', hb', List.mem_cons_of_mem _ hmem⟩

/-! ### Frame lemmas for the collapse loop bodies -/

/-- `movePtsBit` changes only the `pts` component. -/
theorem LCD.movePtsBit_frame (origin u v : Nat) (s : LCDState) :
    (LCD.movePtsBit origin u v s).G = s.G
      ∧ (LCD.movePtsBit origin u v s).stores = s.stores
      ∧ (LCD.movePtsBit origin u v s).loads = s.loads
      ∧ (LCD.movePtsBit origin u v s).rightVars = s.rightVars
      ∧ (LCD.movePtsBit origin u v s).leftVars = s.leftVars := by
  unfold LCD.movePtsBit
  split <;> exact ⟨rfl, rfl, rfl, rfl, rfl⟩

/-- `moveStoresBit` changes only the `stores` component. -/
theorem LCD.moveStoresBit_frame (origin u v : Nat) (s : LCDState) :
    (LCD.moveStoresBit origin u v s).G = s.G
      ∧ (LCD.moveStoresBit origin u v s).pts = s.pts
      ∧ (LCD.moveStoresBit origin u v s).loads = s.loads
      ∧ (LCD.moveStoresBit origin u v s).rightVars = s.rightVars
      ∧ (LCD.moveStoresBit origin u v s).leftVars = s.leftVars := by
  unfold LCD.moveStoresBit
  split <;> exact ⟨rfl, rfl, rfl, rfl, rfl⟩

/-- `moveLoadsBit` changes only the `loads` component. -/
theorem LCD.moveLoadsBit_frame (origin u v : Nat) (s : LCDState) :
    (LCD.moveLoadsBit origin u v s).G = s.G
      ∧ (LCD.moveLoadsBit origin u v s).pts = s.pts
      ∧ (LCD.moveLoadsBit origin u v s).stores = s.stores
      ∧ (LCD.moveLoadsBit origin u v s).rightVars = s.rightVars
      ∧ (LCD.moveLoadsBit origin u v s).leftVars = s.leftVars := by
  unfold LCD.moveLoadsBit
  split <;> exact ⟨rfl, rfl, rfl, rfl, rfl⟩

/-- One in-edge step of `collapse` never tombstones nodes and never touches
the registry maps. -/
theorem LCD.collapseInStep_frame {origin u : Nat} {s s' : LCDState} {j : Nat}
    (h : LCD.collapseInStep origin u s j = .ok s') :
    nodesCleared s'.G = nodesCleared s.G
      ∧ s'.G.nodes.length = s.G.nodes.length
      ∧ s'.G.numNodes = s.G.numNodes
      ∧ s'.rightVars = s.rightVars ∧ s'.leftVars = s.leftVars := by
  have frames : ∀ (v : Nat) (b : LCDState),
      (LCD.moveLoadsBit origin u v
        (LCD.moveStoresBit origin u v (LCD.movePtsBit origin u v b))).G = b.G
      ∧ (LCD.moveLoadsBit origin u v
          (LCD.moveStoresBit origin u v (LCD.movePtsBit origin u v b))).rightVars
            = b.rightVars
      ∧ (LCD.moveLoadsBit origin u v
          (LCD.moveStoresBit origin u v (LCD.movePtsBit origin u v b))).leftVars
            = b.leftVars := by
    intro v b
    obtain ⟨g1, -, -, r1, l1⟩ := LCD.movePtsBit_frame origin u v b
    obtain ⟨g2, -, -, r2, l2⟩ :=
      LCD.moveStoresBit_frame origin u v (LCD.movePtsBit origin u v b)
    obtain ⟨g3, -, -, r3, l3⟩ :=
      LCD.moveLoadsBit_frame origin u v
        (LCD.moveStoresBit origin u v (LCD.movePtsBit origin u v b))
    exact ⟨g3.trans (g2.trans g1), r3.trans (r2.trans r1), l3.trans (l2.trans l1)⟩
  simp only [LCD.collapseInStep] at h
  obtain ⟨v, hv, h⟩ := bindOk h
  split at h
  · injection h with h
    subst h
    exact ⟨rfl, rfl, rfl, rfl, rfl⟩
  · split at h
    · obtain ⟨f, hf, h⟩ := bindOk h
      split at h
      · obtain ⟨p, hp, h⟩ := bindOk h
        obtain ⟨y, hy, h⟩ := bindOk h
        injection hy with hy
        subst hy
        injection h with h
        subst h
        obtain ⟨hm, hl, hn, -⟩ := Graph.addEdge_ok_nodes (show _ = .ok (p.1, p.2) from hp)
        obtain ⟨gg, rr, ll⟩ := frames v _
        rw [gg, rr, ll]
        exact ⟨hm, hl, hn, rfl, rfl⟩
      · obtain ⟨y, hy, h⟩ := bindOk h
        injection hy with hy
        subst hy
        injection h with h
        subst h
        obtain ⟨gg, rr, ll⟩ := frames v s
        rw [gg, rr, ll]
        exact ⟨rfl, rfl, rfl, rfl, rfl⟩
    · obtain ⟨y, hy, h⟩ := bindOk h
      injection hy with hy
      subst hy
      injection h with h
      subst h
      obtain ⟨gg, rr, ll⟩ := frames v s
      rw [gg, rr, ll]
      exact ⟨rfl, rfl, rfl, rfl, rfl⟩

/-- One out-edge step of `collapse` only (possibly) adds an edge: nodes,
bitvectors and registry maps are untouched. -/
theorem LCD.collapseOutStep_frame {origin u : Nat} {s s' : LCDState} {k : Nat}
    (h : LCD.collapseOutStep origin u s k = .ok s') :
    nodesCleared s'.G = nodesCleared s.G
      ∧ s'.G.nodes.length = s.G.nodes.length
      ∧ s'.G.numNodes = s.G.numNodes
      ∧ s'.pts = s.pts ∧ s'.stores = s.stores ∧ s'.loads = s.loads
      ∧ s'.rightVars = s.rightVars ∧ s'.leftVars = s.leftVars := by
  simp only [LCD.collapseOutStep] at h
  obtain ⟨v, hv, h⟩ := bindOk h
  split at h
  · injection h with h
    subst h
    exact ⟨rfl, rfl, rfl, rfl, rfl, rfl, rfl, rfl⟩
  · split at h
    · obtain ⟨f, hf, h'⟩ := bindOk h
      split at h'
      · obtain ⟨p, hp, h''⟩ := bindOk h'
        injection h'' with h''
        subst h''
        obtain ⟨hm, hl, hn, -⟩ := Graph.addEdge_ok_nodes (show _ = .ok (p.1, p.2) from hp)
        exact ⟨hm, hl, hn, rfl, rfl, rfl, rfl, rfl⟩
      · injection h' with h'
        subst h'
        exact ⟨rfl, rfl, rfl, rfl, rfl, rfl, rfl, rfl⟩
    · injection h with h
      subst h
      exact ⟨rfl, rfl, rfl, rfl, rfl, rfl, rfl, rfl⟩

/-- Moving registry entries is pure map surgery: the graph and all
bitvectors are untouched. -/
theorem LCD.foldl_moveVar_frame {origin : Nat} :
    ∀ (l : List Nat) (s : LCDState),
      (l.foldl (LCD.moveVar origin) s).G = s.G
        ∧ (l.foldl (LCD.moveVar origin) s).pts = s.pts
        ∧ (l.foldl (LCD.moveVar origin) s).stores = s.stores
        ∧ (l.foldl (LCD.moveVar origin) s).loads = s.loads := by
  intro l
  induction l with
  | nil => exact fun s => ⟨rfl, rfl, rfl, rfl⟩
  | cons x rest ih =>
    intro s
    simpa [List.foldl_cons, LCD.moveVar] using ih (LCD.moveVar origin s x)

/-- Merging one node into the representative removes exactly one live
node. -/
theorem LCD.collapseOne_liveCount {origin : Nat} {s s' : LCDState} {u : Nat}
    (h : LCD.collapseOne origin s u = .ok s') :
    liveNodeCount s'.G + 1 = liveNodeCount s.G := by
  simp only [LCD.collapseOne] at h
  obtain ⟨nu, hnu, h⟩ := bindOk h
  obtain ⟨s1, hs1, h⟩ := bindOk h
  obtain ⟨nu2, hnu2, h⟩ := bindOk h
  obtain ⟨s2, hs2, h⟩ := bindOk h
  obtain ⟨G1, hG1, h⟩ := bindOk h
  injection h with h
  subst h
  have m1 : nodesCleared s1.G = nodesCleared s.G :=
    foldlM_pres (P := fun a b => nodesCleared b.G = nodesCleared a.G)
      (fun _ _ _ hh => (LCD.collapseInStep_frame hh).1)
      (fun _ => rfl) (fun _ _ _ hab hbc => by exact hbc.trans hab) _ _ _ hs1
  have m2 : nodesCleared s2.G = nodesCleared s1.G :=
    foldlM_pres (P := fun a b => nodesCleared b.G = nodesCleared a.G)
      (fun _ _ _ hh => (LCD.collapseOutStep_frame hh).1)
      (fun _ => rfl) (fun _ _ _ hab hbc => by exact hbc.trans hab) _ _ _ hs2
  have hrm := liveNodeCount_removeNode hG1
  have hG2 : ((s2.leftVars u).foldl (LCD.moveVar origin) s2).G = s2.G :=
    (LCD.foldl_moveVar_frame _ _).1
  unfold liveNodeCount at hrm ⊢
  rw [show nodesCleared G1 = nodesCleared G1 from rfl] at hrm
  rw [hrm, hG2, m2, m1]

/-- Folding `collapseOne` over a list removes exactly one live node per list
element. -/
theorem LCD.collapse_fold_liveCount {origin : Nat} :
    ∀ (rest : List Nat) (s s' : LCDState),
      rest.foldlM (LCD.collapseOne origin) s = .ok s' →
      liveNodeCount s'.G + rest.length = liveNodeCount s.G := by
  intro rest
  induction rest with
  | nil =>
    intro s s' h
    simp only [List.foldlM_nil] at h
    injection h with h
    subst h
    simp
  | cons u rest ih =>
    intro s s' h
    simp only [List.foldlM_cons] at h
    obtain ⟨s1, hs1, h⟩ := bindOk h
    have h1 := LCD.collapseOne_liveCount hs1
    have h2 := ih s1 s' h
    simp only [List.length_cons]
    omega

/-- `collapse` removes exactly one live node per collapsed (tail) vertex of
the path. -/
theorem LCD.collapse_liveCount {s s' : LCDState} {path : List Nat}
    (h : LCD.collapse s path = .ok s') :
    liveNodeCount s'.G + (path.drop 1).length = liveNodeCount s.G := by
  cases path with
  | nil =>
    simp only [LCD.collapse] at h
    injection h with h
    subst h
    simp
  | cons origin rest =>
    simp only [LCD.collapse] at h
    simpa using LCD.collapse_fold_liveCount rest s s' h

/-- A collapse that removed no live node did nothing to the solver state. -/
theorem LCD.collapse_noop {s s' : LCDState} {path : List Nat}
    (h : LCD.collapse s path = .ok s')
    (hlive : liveNodeCount s'.G = liveNodeCount s.G) : s' = s := by
  have hc := LCD.collapse_liveCount h
  have hlen : (path.drop 1).length = 0 := by omega
  cases path with
  | nil =>
    simp only [LCD.collapse] at h
    injection h with h
    exact h.symm
  | cons origin rest =>
    simp only [List.drop_succ_cons, List.drop_zero] at hlen
    rw [List.length_eq_zero] at hlen
    subst hlen
    simp only [LCD.collapse, List.foldlM_nil] at h
    injection h with h
    exact h.symm

/-! ### Frame lemmas for the worklist loop bodies -/

/-- A load-materialization step changes at most the graph's edges and the
worklist: every bitvector map, both registries, the node mask and `R` are
untouched. -/
theorem LCD.loadStep_frame {v : Nat} {st st' : SolveSt} {a : Nat}
    (h : LCD.loadStep v st a = .ok st') :
    st'.s.pts = st.s.pts ∧ st'.s.stores = st.s.stores ∧ st'.s.loads = st.s.loads
      ∧ st'.s.rightVars = st.s.rightVars ∧ st'.s.leftVars = st.s.leftVars
      ∧ nodesCleared st'.s.G = nodesCleared st.s.G
      ∧ st'.s.G.nodes.length = st.s.G.nodes.length
      ∧ st'.R = st.R := by
  simp only [LCD.loadStep] at h
  obtain ⟨f, hf, h⟩ := bindOk h
  split at h
  · obtain ⟨p, hp, h⟩ := bindOk h
    injection h with h
    subst h
    obtain ⟨hm, hl, -, -⟩ := Graph.addEdge_ok_nodes (show _ = .ok (p.1, p.2) from hp)
    exact ⟨rfl, rfl, rfl, rfl, rfl, hm, hl, rfl⟩
  · injection h with h
    subst h
    exact ⟨rfl, rfl, rfl, rfl, rfl, rfl, rfl, rfl⟩

/-- A store-materialization step: same frame as `loadStep`. -/
theorem LCD.storeStep_frame {v : Nat} {st st' : SolveSt} {b : Nat}
    (h : LCD.storeStep v st b = .ok st') :
    st'.s.pts = st.s.pts ∧ st'.s.stores = st.s.stores ∧ st'.s.loads = st.s.loads
      ∧ st'.s.rightVars = st.s.rightVars ∧ st'.s.leftVars = st.s.leftVars
      ∧ nodesCleared st'.s.G = nodesCleared st.s.G
      ∧ st'.s.G.nodes.length = st.s.G.nodes.length
      ∧ st'.R = st.R := by
  simp only [LCD.storeStep] at h
  obtain ⟨f, hf, h⟩ := bindOk h
  split at h
  · obtain ⟨p, hp, h⟩ := bindOk h
    injection h with h
    subst h
    obtain ⟨hm, hl, -, -⟩ := Graph.addEdge_ok_nodes (show _ = .ok (p.1, p.2) from hp)
    exact ⟨rfl, rfl, rfl, rfl, rfl, hm, hl, rfl⟩
  · injection h with h
    subst h
    exact ⟨rfl, rfl, rfl, rfl, rfl, rfl, rfl, rfl⟩

/-- The whole load/store materialization pass for one pointee keeps every
bitvector map, the registries, the node mask and `R` unchanged. -/
theorem LCD.ptsStep_frame {n : Nat} {st st' : SolveSt} {v : Nat}
    (h : LCD.ptsStep n st v = .ok st') :
    st'.s.pts = st.s.pts ∧ st'.s.stores = st.s.stores ∧ st'.s.loads = st.s.loads
      ∧ st'.s.rightVars = st.s.rightVars ∧ st'.s.leftVars = st.s.leftVars
      ∧ nodesCleared st'.s.G = nodesCleared st.s.G
      ∧ st'.s.G.nodes.length = st.s.G.nodes.length
      ∧ st'.R = st.R := by
  simp only [LCD.ptsStep] at h
  obtain ⟨st1, hst1, h⟩ := bindOk h
  have pres := fun {x y : SolveSt} {w : Nat}
      (hh : LCD.loadStep v x w = .ok y) => LCD.loadStep_frame hh
  have P1 := foldlM_pres
    (P := fun a b : SolveSt =>
      b.s.pts = a.s.pts ∧ b.s.stores = a.s.stores ∧ b.s.loads = a.s.loads
        ∧ b.s.rightVars = a.s.rightVars ∧ b.s.leftVars = a.s.leftVars
        ∧ nodesCleared b.s.G = nodesCleared a.s.G
        ∧ b.s.G.nodes.length = a.s.G.nodes.length ∧ b.R = a.R)
    (fun _ _ _ hh => LCD.loadStep_frame hh)
    (fun _ => ⟨rfl, rfl, rfl, rfl, rfl, rfl, rfl, rfl⟩)
    (fun a b c hab hbc => by
      obtain ⟨a1, a2, a3, a4, a5, a6, a7, a8⟩ := hab
      obtain ⟨b1, b2, b3, b4, b5, b6, b7, b8⟩ := hbc
      exact ⟨b1.trans a1, b2.trans a2, b3.trans a3, b4.trans a4, b5.trans a5,
             b6.trans a6, b7.trans a7, b8.trans a8⟩)
    _ _ _ hst1
  have P2 := foldlM_pres
    (P := fun a b : SolveSt =>
      b.s.pts = a.s.pts ∧ b.s.stores = a.s.stores ∧ b.s.loads = a.s.loads
        ∧ b.s.rightVars = a.s.rightVars ∧ b.s.leftVars = a.s.leftVars
        ∧ nodesCleared b.s.G = nodesCleared a.s.G
        ∧ b.s.G.nodes.length = a.s.G.nodes.length ∧ b.R = a.R)
    (fun _ _ _ hh => LCD.storeStep_frame hh)
    (fun _ => ⟨rfl, rfl, rfl, rfl, rfl, rfl, rfl, rfl⟩)
    (fun a b c hab hbc => by
      obtain ⟨a1, a2, a3, a4, a5, a6, a7, a8⟩ := hab
      obtain ⟨b1, b2, b3, b4, b5, b6, b7, b8⟩ := hbc
      exact ⟨b1.trans a1, b2.trans a2, b3.trans a3, b4.trans a4, b5.trans a5,
             b6.trans a6, b7.trans a7, b8.trans a8⟩)
    _ _ _ h
  obtain ⟨a1, a2, a3, a4, a5, a6, a7, a8⟩ := P1
  obtain ⟨b1, b2, b3, b4, b5, b6, b7, b8⟩ := P2
  exact ⟨b1.trans a1, b2.trans a2, b3.trans a3, b4.trans a4, b5.trans a5,
         b6.trans a6, b7.trans a7, b8.trans a8⟩

/-- Masks with the same content count the same number of live nodes. -/
theorem liveNodeCount_congr {G G' : Graph}
    (h : nodesCleared G' = nodesCleared G) :
    liveNodeCount G' = liveNodeCount G := by
  unfold liveNodeCount
  rw [h]

/-- One successor-handling step never revives nodes, and if it removed no
node then every points-to bit it held is preserved (the step either leaves
`pts` alone or unions `pts[n]` into `pts[z]`). -/
theorem LCD.handleZ_mono {n : Nat} {st : SolveSt} {l z : Nat} {p : SolveSt × Nat}
    (h : LCD.handleZ n st l z = .ok p) :
    liveNodeCount p.1.s.G ≤ liveNodeCount st.s.G
      ∧ (liveNodeCount p.1.s.G = liveNodeCount st.s.G →
          ∀ m i, (st.s.pts m).testBit i = true → (p.1.s.pts m).testBit i = true) := by
  simp only [LCD.handleZ] at h
  split at h
  · split at h
    · injection h with h
      subst h
      exact ⟨Nat.le_refl _, fun _ _ _ hb => hb⟩
    · obtain ⟨cycles, hcy, h⟩ := bindOk h
      obtain ⟨q, hq, h⟩ := bindOk h
      have fold := foldlM_pres
        (P := fun a b : SolveSt × Nat =>
          liveNodeCount b.1.s.G ≤ liveNodeCount a.1.s.G
            ∧ (liveNodeCount b.1.s.G = liveNodeCount a.1.s.G → b.1.s = a.1.s))
        (fun a path b hh => by
          simp only [LCD.cyclePathStep] at hh
          obtain ⟨s', hs', hh⟩ := bindOk hh
          injection hh with hh
          subst hh
          have hc := LCD.collapse_liveCount hs'
          constructor
          · show liveNodeCount s'.G ≤ liveNodeCount a.1.s.G
            omega
          · intro heq
            show s' = a.1.s
            exact LCD.collapse_noop hs' heq)
        (fun _ => ⟨Nat.le_refl _, fun _ => rfl⟩)
        (fun a b c hab hbc => by
          obtain ⟨le1, eq1⟩ := hab
          obtain ⟨le2, eq2⟩ := hbc
          refine ⟨Nat.le_trans le2 le1, fun heq => ?_⟩
          have h1 : liveNodeCount b.1.s.G = liveNodeCount a.1.s.G := by omega
          have h2 : liveNodeCount c.1.s.G = liveNodeCount b.1.s.G := by
            rw [heq, h1]
          rw [eq2 h2, eq1 h1])
        _ _ _ hq
      injection h with h
      subst h
      obtain ⟨le1, eq1⟩ := fold
      refine ⟨le1, fun heq => ?_⟩
      have := eq1 heq
      rw [this]
      exact fun _ _ hb => hb
  · injection h with h
    subst h
    refine ⟨Nat.le_refl _, fun _ m i hb => ?_⟩
    show ((if m = z then st.s.pts z ||| st.s.pts n else st.s.pts m)).testBit i = true
    split
    · rename_i hm
      subst hm
      simp [hb]
    · exact hb

/-- The successor loop never revives nodes. -/
theorem LCD.lLoop_live_le {n : Nat} :
    ∀ (fuel : Nat) (st : SolveSt) (l : Nat) (zo : Option Nat) (st' : SolveSt),
      LCD.lLoop n fuel st l zo = .ok st' →
      liveNodeCount st'.s.G ≤ liveNodeCount st.s.G := by
  intro fuel
  induction fuel with
  | zero => intro st l zo st' h; cases h
  | succ fuel ih =>
    intro st l zo st' h
    match zo with
    | none =>
      injection h with h
      subst h
      exact Nat.le_refl _
    | some z =>
      simp only [LCD.lLoop] at h
      obtain ⟨p, hp, h⟩ := bindOk h
      exact Nat.le_trans (ih _ _ _ _ h) (LCD.handleZ_mono hp).1

/-- If a full pass of the successor loop removed no node, every points-to
bit present at its start is present at its end. -/
theorem LCD.lLoop_mono {n : Nat} :
    ∀ (fuel : Nat) (st : SolveSt) (l : Nat) (zo : Option Nat) (st' : SolveSt),
      LCD.lLoop n fuel st l zo = .ok st' →
      liveNodeCount st'.s.G = liveNodeCount st.s.G →
      ∀ m i, (st.s.pts m).testBit i = true → (st'.s.pts m).testBit i = true := by
  intro fuel
  induction fuel with
  | zero => intro st l zo st' h; cases h
  | succ fuel ih =>
    intro st l zo st' h hlive
    match zo with
    | none =>
      injection h with h
      subst h
      exact fun _ _ hb => hb
    | some z =>
      simp only [LCD.lLoop] at h
      obtain ⟨p, hp, h⟩ := bindOk h
      obtain ⟨le1, eq1⟩ := LCD.handleZ_mono hp
      have le2 := LCD.lLoop_live_le _ _ _ _ _ h
      have h1 : liveNodeCount p.1.s.G = liveNodeCount st.s.G := by omega
      have h2 : liveNodeCount st'.s.G = liveNodeCount p.1.s.G := by omega
      intro m i hb
      exact ih _ _ _ _ h h2 m i (eq1 h1 m i hb)

/-- Claim C3 part (i), at the granularity of one worklist iteration: if
processing a node performed no (node-removing) cycle collapse, every
points-to bit only survives or is added — `pts` grows monotonically. -/
theorem LCD.processNode_mono {st : SolveSt} {n : Nat} {st' : SolveSt}
    (h : LCD.processNode st n = .ok st')
    (hlive : liveNodeCount st'.s.G = liveNodeCount st.s.G) :
    ∀ m i, (st.s.pts m).testBit i = true → (st'.s.pts m).testBit i = true := by
  simp only [LCD.processNode] at h
  obtain ⟨st1, hst1, h⟩ := bindOk h
  obtain ⟨l, hl, h⟩ := bindOk h
  have frame := foldlM_pres
    (P := fun a b : SolveSt =>
      b.s.pts = a.s.pts ∧ nodesCleared b.s.G = nodesCleared a.s.G)
    (fun a v b hh => by
      obtain ⟨p1, -, -, -, -, p6, -, -⟩ := LCD.ptsStep_frame hh
      exact ⟨p1, p6⟩)
    (fun _ => ⟨rfl, rfl⟩)
    (fun a b c hab hbc => ⟨hbc.1.trans hab.1, hbc.2.trans hab.2⟩)
    _ _ _ hst1
  obtain ⟨hpts1, hmask1⟩ := frame
  have hlive1 : liveNodeCount st1.s.G = liveNodeCount st.s.G :=
    liveNodeCount_congr hmask1
  have hlive2 : liveNodeCount st'.s.G = liveNodeCount st1.s.G := by omega
  intro m i hb
  have hb1 : (st1.s.pts m).testBit i = true := by
    rw [hpts1]
    exact hb
  exact LCD.lLoop_mono _ _ _ _ _ h hlive2 m i hb1

/-! ### What the collapse in-edge loop does to the bitvectors -/

/-- Bit content of `setBit`. -/
theorem testBit_setBit (x b i : Nat) :
    (setBit x b).testBit i = (x.testBit i || decide (b = i)) := by
  simp [setBit, Nat.testBit_two_pow]

/-- Bit content of `clearBit`. -/
theorem testBit_clearBit (x b i : Nat) :
    (clearBit x b).testBit i = (x.testBit i && !decide (b = i)) := by
  unfold clearBit
  split
  · rename_i hb
    rw [Nat.testBit_xor, Nat.testBit_two_pow]
    cases hd : decide (b = i) with
    | true =>
      have : b = i := of_decide_eq_true hd
      subst this
      simp [hb]
    | false => simp
  · rename_i hb
    cases hd : decide (b = i) with
    | true =>
      have : b = i := of_decide_eq_true hd
      subst this
      simp only [Bool.not_true, Bool.and_false]
      simpa using hb
    | false => simp

/-- Pointwise effect of `movePtsBit` on the `pts` map (for a collapsed node
`u` distinct from the representative). -/
theorem LCD.movePtsBit_pts {origin u : Nat} (v : Nat) (t : LCDState)
    (hu : u ≠ origin) :
    (∀ i, ((LCD.movePtsBit origin u v t).pts origin).testBit i
        = ((t.pts origin).testBit i || (decide (v = i) && (t.pts u).testBit v)))
      ∧ (∀ i, ((LCD.movePtsBit origin u v t).pts u).testBit i
          = ((t.pts u).testBit i && !decide (v = i)))
      ∧ (∀ m, m ≠ origin → m ≠ u → (LCD.movePtsBit origin u v t).pts m = t.pts m) := by
  unfold LCD.movePtsBit
  split
  · rename_i hc
    refine ⟨?_, ?_, ?_⟩
    · intro i
      simp [Ne.symm hu, testBit_setBit, hc]
    · intro i
      simp [hu, testBit_clearBit]
    · intro m hmo hmu
      simp [hmo, hmu]
  · rename_i hc
    have hcf : (t.pts u).testBit v = false := by
      simpa using hc
    refine ⟨?_, ?_, fun m _ _ => rfl⟩
    · intro i
      simp [hcf]
    · intro i
      cases hd : decide (v = i) with
      | true =>
        have : v = i := of_decide_eq_true hd
        subst this
        simp [hcf]
      | false => simp

/-- Pointwise effect of `moveStoresBit` on the `stores` map. -/
theorem LCD.moveStoresBit_stores {origin u : Nat} (v : Nat) (t : LCDState)
    (hu : u ≠ origin) :
    (∀ i, ((LCD.moveStoresBit origin u v t).stores origin).testBit i
        = ((t.stores origin).testBit i || (decide (v = i) && (t.stores u).testBit v)))
      ∧ (∀ i, ((LCD.moveStoresBit origin u v t).stores u).testBit i
          = ((t.stores u).testBit i && !decide (v = i)))
      ∧ (∀ m, m ≠ origin → m ≠ u →
          (LCD.moveStoresBit origin u v t).stores m = t.stores m) := by
  unfold LCD.moveStoresBit
  split
  · rename_i hc
    refine ⟨?_, ?_, ?_⟩
    · intro i
      simp [Ne.symm hu, testBit_setBit, hc]
    · intro i
      simp [hu, testBit_clearBit]
    · intro m hmo hmu
      simp [hmo, hmu]
  · rename_i hc
    have hcf : (t.stores u).testBit v = false := by
      simpa using hc
    refine ⟨?_, ?_, fun m _ _ => rfl⟩
    · intro i
      simp [hcf]
    · intro i
      cases hd : decide (v = i) with
      | true =>
        have : v = i := of_decide_eq_true hd
        subst this
        simp [hcf]
      | false => simp

/-- `moveLoadsBit` touches only the `loads` entry keyed by the in-edge
source `v`. -/
theorem LCD.moveLoadsBit_loads {origin u : Nat} (v : Nat) (t : LCDState) :
    ∀ w, w ≠ v → (LCD.moveLoadsBit origin u v t).loads w = t.loads w := by
  intro w hw
  unfold LCD.moveLoadsBit
  split
  · simp [hw]
  · rfl

/-- Combined pointwise effect of the three bit moves of one in-edge step. -/
theorem LCD.collapseMoves_effect {origin u : Nat} (v : Nat) (b : LCDState)
    (hu : u ≠ origin) :
    (∀ i, ((LCD.moveLoadsBit origin u v
        (LCD.moveStoresBit origin u v (LCD.movePtsBit origin u v b))).pts origin).testBit i
        = ((b.pts origin).testBit i || (decide (v = i) && (b.pts u).testBit v)))
      ∧ (∀ i, ((LCD.moveLoadsBit origin u v
          (LCD.moveStoresBit origin u v (LCD.movePtsBit origin u v b))).pts u).testBit i
          = ((b.pts u).testBit i && !decide (v = i)))
      ∧ (∀ i, ((LCD.moveLoadsBit origin u v
          (LCD.moveStoresBit origin u v (LCD.movePtsBit origin u v b))).stores origin).testBit i
          = ((b.stores origin).testBit i || (decide (v = i) && (b.stores u).testBit v)))
      ∧ (∀ i, ((LCD.moveLoadsBit origin u v
          (LCD.moveStoresBit origin u v (LCD.movePtsBit origin u v b))).stores u).testBit i
          = ((b.stores u).testBit i && !decide (v = i)))
      ∧ (∀ w, w ≠ v →
          (LCD.moveLoadsBit origin u v
            (LCD.moveStoresBit origin u v (LCD.movePtsBit origin u v b))).loads w
          = b.loads w) := by
  obtain ⟨-, pP, lP, -, -⟩ := LCD.movePtsBit_frame origin u v b
  obtain ⟨-, pS, lS, -, -⟩ :=
    LCD.moveStoresBit_frame origin u v (LCD.movePtsBit origin u v b)
  obtain ⟨-, pL, sL, -, -⟩ :=
    LCD.moveLoadsBit_frame origin u v
      (LCD.moveStoresBit origin u v (LCD.movePtsBit origin u v b))
  obtain ⟨e1, e2, -⟩ := LCD.movePtsBit_pts v b hu
  obtain ⟨f1, f2, -⟩ :=
    LCD.moveStoresBit_stores v (LCD.movePtsBit origin u v b) hu
  refine ⟨?_, ?_, ?_, ?_, ?_⟩
  · intro i
    rw [pL, pS, e1]
  · intro i
    rw [pL, pS, e2]
  · intro i
    rw [sL, f1, pP]
  · intro i
    rw [sL, f2, pP]
  · intro w hw
    rw [LCD.moveLoadsBit_loads _ _ _ hw, lS, lP]

/-- One in-edge step of `collapse`, described against its input state: the
edge's source `v` is read, self-loops do nothing, and otherwise exactly the
`pts`/`stores` bits indexed by `v` move from `u` to `origin` while `loads`
changes only at key `v`. -/
theorem LCD.collapseInStep_effect {origin u : Nat} {s s' : LCDState} {j : Nat}
    (hu : u ≠ origin)
    (h : LCD.collapseInStep origin u s j = .ok s') :
    ∃ v, s.G.getEdgeSource j = .ok v ∧
      ((v = u ∧ s'.pts = s.pts ∧ s'.stores = s.stores ∧ s'.loads = s.loads)
        ∨ (v ≠ u
            ∧ (∀ i, (s'.pts origin).testBit i
                = ((s.pts origin).testBit i || (decide (v = i) && (s.pts u).testBit v)))
            ∧ (∀ i, (s'.pts u).testBit i
                = ((s.pts u).testBit i && !decide (v = i)))
            ∧ (∀ i, (s'.stores origin).testBit i
                = ((s.stores origin).testBit i || (decide (v = i) && (s.stores u).testBit v)))
            ∧ (∀ i, (s'.stores u).testBit i
                = ((s.stores u).testBit i && !decide (v = i)))
            ∧ (∀ w, w ≠ v → s'.loads w = s.loads w))) := by
  simp only [LCD.collapseInStep] at h
  obtain ⟨v, hv, h⟩ := bindOk h
  refine ⟨v, hv, ?_⟩
  split at h
  · rename_i huv
    injection h with h
    subst h
    exact Or.inl ⟨huv.symm, rfl, rfl, rfl⟩
  · rename_i huv
    have hvu : v ≠ u := fun hh => huv hh.symm
    split at h
    · obtain ⟨f, hf, h⟩ := bindOk h
      split at h
      · obtain ⟨p, hp, h⟩ := bindOk h
        obtain ⟨y, hy, h⟩ := bindOk h
        injection hy with hy
        subst hy
        injection h with h
        subst h
        exact Or.inr ⟨hvu, (LCD.collapseMoves_effect v _ hu).1,
          (LCD.collapseMoves_effect v _ hu).2.1,
          (LCD.collapseMoves_effect v _ hu).2.2.1,
          (LCD.collapseMoves_effect v _ hu).2.2.2.1,
          (LCD.collapseMoves_effect v _ hu).2.2.2.2⟩
      · obtain ⟨y, hy, h⟩ := bindOk h
        injection hy with hy
        subst hy
        injection h with h
        subst h
        exact Or.inr ⟨hvu, (LCD.collapseMoves_effect v s hu).1,
          (LCD.collapseMoves_effect v s hu).2.1,
          (LCD.collapseMoves_effect v s hu).2.2.1,
          (LCD.collapseMoves_effect v s hu).2.2.2.1,
          (LCD.collapseMoves_effect v s hu).2.2.2.2⟩
    · obtain ⟨y, hy, h⟩ := bindOk h
      injection hy with hy
      subst hy
      injection h with h
      subst h
      exact Or.inr ⟨hvu, (LCD.collapseMoves_effect v s hu).1,
        (LCD.collapseMoves_effect v s hu).2.1,
        (LCD.collapseMoves_effect v s hu).2.2.1,
        (LCD.collapseMoves_effect v s hu).2.2.2.1,
        (LCD.collapseMoves_effect v s hu).2.2.2.2⟩

/-- Inversion of `getEdgeSource`. -/
theorem Graph.getEdgeSource_ok {G : Graph} {e v : Nat}
    (h : G.getEdgeSource e = .ok v) :
    ∃ en, G.getEdge e = .ok en ∧ en.source = v := by
  simp only [Graph.getEdgeSource] at h
  obtain ⟨en, hen, h⟩ := bindOk h
  injection h with h
  exact ⟨en, hen, h⟩

/-- The graph after one in-edge step is the old graph or the old graph with
one edge added. -/
theorem LCD.collapseInStep_G {origin u : Nat} {s s' : LCDState} {j : Nat}
    (h : LCD.collapseInStep origin u s j = .ok s') :
    s'.G = s.G ∨ ∃ a b G1 eid, s.G.addEdge a b = .ok (G1, eid) ∧ s'.G = G1 := by
  have gframe : ∀ (v : Nat) (b : LCDState),
      (LCD.moveLoadsBit origin u v
        (LCD.moveStoresBit origin u v (LCD.movePtsBit origin u v b))).G = b.G := by
    intro v b
    obtain ⟨g1, -, -, -, -⟩ := LCD.movePtsBit_frame origin u v b
    obtain ⟨g2, -, -, -, -⟩ :=
      LCD.moveStoresBit_frame origin u v (LCD.movePtsBit origin u v b)
    obtain ⟨g3, -, -, -, -⟩ :=
      LCD.moveLoadsBit_frame origin u v
        (LCD.moveStoresBit origin u v (LCD.movePtsBit origin u v b))
    exact g3.trans (g2.trans g1)
  simp only [LCD.collapseInStep] at h
  obtain ⟨v, hv, h⟩ := bindOk h
  split at h
  · injection h with h
    subst h
    exact Or.inl rfl
  · split at h
    · obtain ⟨f, hf, h⟩ := bindOk h
      split at h
      · obtain ⟨p, hp, h⟩ := bindOk h
        obtain ⟨y, hy, h⟩ := bindOk h
        injection hy with hy
        subst hy
        injection h with h
        subst h
        refine Or.inr ⟨v, origin, p.1, p.2, hp, ?_⟩
        exact gframe v _
      · obtain ⟨y, hy, h⟩ := bindOk h
        injection hy with hy
        subst hy
        injection h with h
        subst h
        exact Or.inl (gframe v s)
    · obtain ⟨y, hy, h⟩ := bindOk h
      injection hy with hy
      subst hy
      injection h with h
      subst h
      exact Or.inl (gframe v s)

/-- One in-edge step preserves the value of every readable edge source. -/
theorem LCD.collapseInStep_pres_src {origin u : Nat} {s s' : LCDState} {j : Nat}
    (h : LCD.collapseInStep origin u s j = .ok s') :
    ∀ e w, s.G.getEdgeSource e = .ok w → s'.G.getEdgeSource e = .ok w := by
  intro e w hw
  obtain ⟨en, hen, hsrc⟩ := Graph.getEdgeSource_ok hw
  rcases LCD.collapseInStep_G h with hG | ⟨a, b, G1, eid, hadd, hG⟩
  · rw [hG]
    exact hw
  · rw [hG]
    have hen' := Graph.addEdge_pres_getEdge hadd e en hen
    simp only [Graph.getEdgeSource]
    rw [hen']
    simp [hsrc]

/-- Invariant of the in-edge loop of `collapse`, relative to the state `s0`
at loop entry: the representative gains only bits indexed by in-edge sources
(taken from `srcs`), the collapsed node `u` only loses bits indexed by
`srcs`, and `loads` changes only at keys in `srcs`. -/
theorem LCD.collapse_infold_inv {origin u : Nat} {s0 : LCDState} {srcs : List Nat}
    (hu : u ≠ origin) :
    ∀ (l : List Nat) (s s' : LCDState),
      (∀ j ∈ l, ∃ w, s0.G.getEdgeSource j = .ok w ∧ w ∈ srcs) →
      l.foldlM (LCD.collapseInStep origin u) s = .ok s' →
      (∀ e w, s0.G.getEdgeSource e = .ok w → s.G.getEdgeSource e = .ok w) →
      (∀ i, (s.pts origin).testBit i = true →
        (s0.pts origin).testBit i = true ∨ ((s0.pts u).testBit i = true ∧ i ∈ srcs)) →
      (∀ i, (s.pts u).testBit i = true → (s0.pts u).testBit i = true) →
      (∀ i, (s0.pts u).testBit i = true → i ∉ srcs → (s.pts u).testBit i = true) →
      (∀ i, (s.stores origin).testBit i = true →
        (s0.stores origin).testBit i = true ∨ ((s0.stores u).testBit i = true ∧ i ∈ srcs)) →
      (∀ i, (s.stores u).testBit i = true → (s0.stores u).testBit i = true) →
      (∀ i, (s0.stores u).testBit i = true → i ∉ srcs → (s.stores u).testBit i = true) →
      (∀ w, w ∉ srcs → s.loads w = s0.loads w) →
      ((∀ i, (s'.pts origin).testBit i = true →
          (s0.pts origin).testBit i = true ∨ ((s0.pts u).testBit i = true ∧ i ∈ srcs))
        ∧ (∀ i, (s0.pts u).testBit i = true → i ∉ srcs → (s'.pts u).testBit i = true)
        ∧ (∀ i, (s'.stores origin).testBit i = true →
            (s0.stores origin).testBit i = true ∨ ((s0.stores u).testBit i = true ∧ i ∈ srcs))
        ∧ (∀ i, (s0.stores u).testBit i = true → i ∉ srcs → (s'.stores u).testBit i = true)
        ∧ (∀ w, w ∉ srcs → s'.loads w = s0.loads w)) := by
  intro l
  induction l with
  | nil =>
    intro s s' hmem h hstab hA hB hC hA' hB' hC' hD
    simp only [List.foldlM_nil] at h
    injection h with h
    subst h
    exact ⟨hA, hC, hA', hC', hD⟩
  | cons j rest ih =>
    intro s s' hmem h hstab hA hB hC hA' hB' hC' hD
    simp only [List.foldlM_cons] at h
    obtain ⟨s1, hs1, h⟩ := bindOk h
    obtain ⟨v, hv, heff⟩ := LCD.collapseInStep_effect hu hs1
    obtain ⟨w0, hw0, hw0mem⟩ := hmem j (List.mem_cons_self _ _)
    have hveq : v = w0 := by
      have := hstab j w0 hw0
      rw [this] at hv
      injection hv with hv2
      exact hv2.symm
    subst hveq
    have hstab1 : ∀ e w, s0.G.getEdgeSource e = .ok w →
        s1.G.getEdgeSource e = .ok w := by
      intro e w hw
      exact LCD.collapseInStep_pres_src hs1 e w (hstab e w hw)
    have hmem1 : ∀ j' ∈ rest, ∃ w, s0.G.getEdgeSource j' = .ok w ∧ w ∈ srcs :=
      fun j' hj' => hmem j' (List.mem_cons_of_mem _ hj')
    rcases heff with ⟨-, hp, hs, hl⟩ | ⟨hvu, e1, e2, e3, e4, e5⟩
    · exact ih s1 s' hmem1 h hstab1 (by rw [hp]; exact hA) (by rw [hp]; exact hB)
        (by rw [hp]; exact hC) (by rw [hs]; exact hA') (by rw [hs]; exact hB')
        (by rw [hs]; exact hC') (by rw [hl]; exact hD)
    · refine ih s1 s' hmem1 h hstab1 ?_ ?_ ?_ ?_ ?_ ?_ ?_
      · intro i hb
        rw [e1 i] at hb
        rcases Bool.or_eq_true_iff.mp hb with hb | hb
        · exact hA i hb
        · obtain ⟨hvi, hbu⟩ := Bool.and_eq_true_iff.mp hb
          have hvi' : v = i := of_decide_eq_true hvi
          subst hvi'
          exact Or.inr ⟨hB v hbu, hw0mem⟩
      · intro i hb
        rw [e2 i] at hb
        exact hB i (Bool.and_eq_true_iff.mp hb).1
      · intro i hb hns
        have hiv : decide (v = i) = false := by
          apply decide_eq_false
          intro hvi
          exact hns (hvi ▸ hw0mem)
        rw [e2 i, hiv]
        simp only [Bool.not_false, Bool.and_true]
        exact hC i hb hns
      · intro i hb
        rw [e3 i] at hb
        rcases Bool.or_eq_true_iff.mp hb with hb | hb
        · exact hA' i hb
        · obtain ⟨hvi, hbu⟩ := Bool.and_eq_true_iff.mp hb
          have hvi' : v = i := of_decide_eq_true hvi
          subst hvi'
          exact Or.inr ⟨hB' v hbu, hw0mem⟩
      · intro i hb
        rw [e4 i] at hb
        exact hB' i (Bool.and_eq_true_iff.mp hb).1
      · intro i hb hns
        have hiv : decide (v = i) = false := by
          apply decide_eq_false
          intro hvi
          exact hns (hvi ▸ hw0mem)
        rw [e4 i, hiv]
        simp only [Bool.not_false, Bool.and_true]
        exact hC' i hb hns
      · intro w hw
        have hwv : w ≠ v := by
          intro hh
          exact hw (hh ▸ hw0mem)
        rw [e5 w hwv]
        exact hD w hw

/-- Claim C3 (amended): (i) outside node-removing cycle collapse, points-to
bitvectors only gain bits across a worklist iteration; (ii) during collapse,
the code does **not** merge whole bitvectors: merging node `u` into `origin`
moves exactly the `pts`/`stores` bits indexed by sources of `u`'s in-edges —
`origin` gains no other bit, a bit of `u` not indexed by an in-edge source
survives on the (removed) node `u` instead of moving, and `loads` changes
only at keys that are in-edge sources — so the union of the collapsed
nodes' bits need not be preserved in the representative. -/
theorem solve_monotone_and_collapse_transfer :
    (∀ (st : SolveSt) (n : Nat) (st' : SolveSt),
        LCD.processNode st n = .ok st' →
        liveNodeCount st'.s.G = liveNodeCount st.s.G →
        ∀ m i, (st.s.pts m).testBit i = true → (st'.s.pts m).testBit i = true)
      ∧ (∀ (origin u : Nat) (s : LCDState) (srcs : List Nat) (s' : LCDState),
          u ≠ origin →
          s.G.inSources u = .ok srcs →
          LCD.collapseOne origin s u = .ok s' →
          (∀ i, (s'.pts origin).testBit i = true →
              (s.pts origin).testBit i = true ∨ ((s.pts u).testBit i = true ∧ i ∈ srcs))
            ∧ (∀ i, (s.pts u).testBit i = true → i ∉ srcs → (s'.pts u).testBit i = true)
            ∧ (∀ i, (s'.stores origin).testBit i = true →
                (s.stores origin).testBit i = true ∨ ((s.stores u).testBit i = true ∧ i ∈ srcs))
            ∧ (∀ i, (s.stores u).testBit i = true → i ∉ srcs → (s'.stores u).testBit i = true)
            ∧ (∀ w, w ∉ srcs → s'.loads w = s.loads w)
            ∧ (nodesCleared s'.G)[u]? = some true) := by
  constructor
  · exact fun st n st' h hl => LCD.processNode_mono h hl
  · intro origin u s srcs s' hu hsrc h
    simp only [LCD.collapseOne] at h
    obtain ⟨nu, hnu, h⟩ := bindOk h
    obtain ⟨s1, hs1, h⟩ := bindOk h
    obtain ⟨nu2, hnu2, h⟩ := bindOk h
    obtain ⟨s2, hs2, h⟩ := bindOk h
    obtain ⟨G1, hG1, h⟩ := bindOk h
    injection h with h
    subst h
    simp only [Graph.inSources] at hsrc
    obtain ⟨nu', hnu', hsrc2⟩ := bindOk hsrc
    have hnueq : nu' = nu := by
      rw [hnu] at hnu'
      injection hnu' with hh
      exact hh.symm
    rw [hnueq] at hsrc2
    have hmem : ∀ j ∈ nu.inEdges, ∃ w, s.G.getEdgeSource j = .ok w ∧ w ∈ srcs :=
      mapM_ok_mem hsrc2
    obtain ⟨iA, iC, iA', iC', iD⟩ := LCD.collapse_infold_inv hu nu.inEdges s s1 hmem hs1
      (fun _ _ hw => hw) (fun _ hb => Or.inl hb) (fun _ hb => hb) (fun _ hb _ => hb)
      (fun _ hb => Or.inl hb) (fun _ hb => hb) (fun _ hb _ => hb) (fun _ _ => rfl)
    obtain ⟨o1, o2, o3⟩ := foldlM_pres
      (P := fun a b : LCDState =>
        b.pts = a.pts ∧ b.stores = a.stores ∧ b.loads = a.loads)
      (fun _ _ _ hh => by
        obtain ⟨-, -, -, p, q, r, -, -⟩ := LCD.collapseOutStep_frame hh
        exact ⟨p, q, r⟩)
      (fun _ => ⟨rfl, rfl, rfl⟩)
      (fun a b c hab hbc =>
        ⟨hbc.1.trans hab.1, hbc.2.1.trans hab.2.1, hbc.2.2.trans hab.2.2⟩)
      _ _ _ hs2
    obtain ⟨mG, mp, ms, ml⟩ := LCD.foldl_moveVar_frame (s2.leftVars u) s2
    refine ⟨?_, ?_, ?_, ?_, ?_, ?_⟩
    · intro i hb
      apply iA
      rw [show s1.pts = ((s2.leftVars u).foldl (LCD.moveVar origin) s2).pts
            from (mp.trans o1).symm]
      exact hb
    · intro i hb hns
      show (((s2.leftVars u).foldl (LCD.moveVar origin) s2).pts u).testBit i = true
      rw [mp, o1]
      exact iC i hb hns
    · intro i hb
      apply iA'
      rw [show s1.stores = ((s2.leftVars u).foldl (LCD.moveVar origin) s2).stores
            from (ms.trans o2).symm]
      exact hb
    · intro i hb hns
      show (((s2.leftVars u).foldl (LCD.moveVar origin) s2).stores u).testBit i = true
      rw [ms, o2]
      exact iC' i hb hns
    · intro w hw
      show ((s2.leftVars u).foldl (LCD.moveVar origin) s2).loads w = s.loads w
      rw [ml, o3]
      exact iD w hw
    · obtain ⟨hlive, hmask, -, -⟩ := Graph.removeNode_ok_nodes hG1
      obtain ⟨hlt, -⟩ := List.getElem?_eq_some.mp hlive
      show (nodesCleared G1)[u]? = some true
      rw [hmask]
      exact List.getElem?_set_self (by simpa using hlt)

/-- Witness for `solve_monotone_and_collapse_transfer`: part (i) at the
first worklist iteration of `prog3` (which collapses nothing), part (ii) at
a concrete one-copy-edge collapse. -/
theorem solve_monotone_and_collapse_transfer_witness :
    (LCD.processNode witSolveSt 0 = .ok (getOk (LCD.processNode witSolveSt 0))
      ∧ liveNodeCount (getOk (LCD.processNode witSolveSt 0)).s.G
          = liveNodeCount witSolveSt.s.G
      ∧ (∀ m i, (witSolveSt.s.pts m).testBit i = true →
          ((getOk (LCD.processNode witSolveSt 0)).s.pts m).testBit i = true))
      ∧ ((0 : Nat) ≠ 1
        ∧ witCollapseS.G.inSources 0 = .ok [1]
        ∧ LCD.collapseOne 1 witCollapseS 0
            = .ok (getOk (LCD.collapseOne 1 witCollapseS 0))
        ∧ (nodesCleared (getOk (LCD.collapseOne 1 witCollapseS 0)).G)[0]?
            = some true) := by
  refine ⟨⟨rfl, rfl, ?_⟩, ⟨by decide, rfl, rfl, ?_⟩⟩
  · exact (solve_monotone_and_collapse_transfer).1 witSolveSt 0 _ rfl rfl
  · exact ((solve_monotone_and_collapse_transfer).2 1 0 witCollapseS [1] _
      (by decide) rfl rfl).2.2.2.2.2

/-! ### Assertion semantics of the graph accessors (claim C8) -/

/-- `getNode` fails with the removed-node assertion exactly on out-of-range
or tombstoned indices. -/
theorem Graph.getNode_error_iff (G : Graph) (n : Nat) :
    G.getNode n = .error (.assertFail "Attempt to access a removed node")
      ↔ (G.nodes[n]? = none ∨ ∃ en, G.nodes[n]? = some en ∧ en.cleared = true) := by
  cases heq : G.nodes[n]? with
  | none => simp [Graph.getNode, heq]
  | some en =>
    cases hc : en.cleared with
    | true => simp [Graph.getNode, heq, hc]
    | false => simp [Graph.getNode, heq, hc]

/-- `getEdge` fails with the removed-edge assertion exactly on out-of-range
or tombstoned indices. -/
theorem Graph.getEdge_error_iff (G : Graph) (e : Nat) :
    G.getEdge e = .error (.assertFail "Attempt to access a removed edge")
      ↔ (G.edges[e]? = none ∨ ∃ en, G.edges[e]? = some en ∧ en.cleared = true) := by
  cases heq : G.edges[e]? with
  | none => simp [Graph.getEdge, heq]
  | some en =>
    cases hc : en.cleared with
    | true => simp [Graph.getEdge, heq, hc]
    | false => simp [Graph.getEdge, heq, hc]

/-- A scan that reports no match never passed an edge whose target is the
sought node. -/
theorem Graph.findEdgeAux_none {G : Graph} {t : Nat} :
    ∀ {l : List Nat}, G.findEdgeAux t l = .ok none →
      ∀ {e : Nat}, e ∈ l → G.getEdgeTarget e ≠ .ok t := by
  intro l
  induction l with
  | nil => intro h e he; cases he
  | cons x rest ih =>
    intro h e he
    simp only [Graph.findEdgeAux] at h
    obtain ⟨tgt, htgt, h⟩ := bindOk h
    split at h
    · cases h
    · rename_i hne
      rcases List.mem_cons.mp he with he | he
      · subst he
        intro hcon
        rw [htgt] at hcon
        injection hcon with hcon
        exact hne hcon
      · exact ih h he

/-! Accessors for the executable well-formedness check. -/

/-- Unpack the four conjuncts of `graphWFb`. -/
theorem graphWFb_parts {G : Graph} (h : graphWFb G = true) :
    (G.numNodes == liveNodeCount G) = true
      ∧ (G.numEdges == liveEdgeCount G) = true
      ∧ ((List.range G.edges.length).all (fun e =>
          match G.edges[e]? with
          | none => true
          | some en =>
            en.cleared ||
            (match G.nodes[en.source]?, G.nodes[en.target]? with
             | some ns, some nt =>
               !ns.cleared && !nt.cleared && ns.outEdges.contains e && nt.inEdges.contains e
             | _, _ => false))) = true
      ∧ ((List.range G.nodes.length).all (fun n =>
          match G.nodes[n]? with
          | none => true
          | some nn =>
            (!nn.cleared || (nn.inEdges.isEmpty && nn.outEdges.isEmpty)) &&
            nn.outEdges.all (fun e =>
              match G.edges[e]? with
              | some en => !en.cleared && en.source == n
              | none => false) &&
            nn.inEdges.all (fun e =>
              match G.edges[e]? with
              | some en => !en.cleared && en.target == n
              | none => false) &&
            decide nn.outEdges.Nodup && decide nn.inEdges.Nodup)) = true := by
  unfold graphWFb at h
  rw [Bool.and_eq_true, Bool.and_eq_true, Bool.and_eq_true] at h
  exact ⟨h.1.1.1, h.1.1.2, h.1.2, h.2⟩

/-- From the well-formedness check: the counters agree with the live
counts. -/
theorem wf_counts {G : Graph} (h : graphWFb G = true) : countsOK G := by
  obtain ⟨h1, h2, -, -⟩ := graphWFb_parts h
  exact ⟨by simpa using h1, by simpa using h2⟩

/-- From the well-formedness check: every live edge is linked into both of
its live endpoints' adjacency lists. -/
theorem wf_edge_linked {G : Graph} (h : graphWFb G = true) :
    ∀ (e : Nat) (en : EdgeEntry), G.edges[e]? = some en → en.cleared = false →
      (∃ ns, G.nodes[en.source]? = some ns ∧ ns.cleared = false ∧ e ∈ ns.outEdges)
        ∧ (∃ nt, G.nodes[en.target]? = some nt ∧ nt.cleared = false ∧ e ∈ nt.inEdges) := by
  obtain ⟨-, -, h3, -⟩ := graphWFb_parts h
  intro e en hen hcl
  obtain ⟨hlt, -⟩ := List.getElem?_eq_some.mp hen
  have he := List.all_eq_true.mp h3 e (List.mem_range.mpr hlt)
  rw [hen] at he
  simp only [hcl, Bool.false_or] at he
  cases hns : G.nodes[en.source]? with
  | none => rw [hns] at he; cases hnt : G.nodes[en.target]? <;> rw [hnt] at he <;> cases he
  | some ns =>
    cases hnt : G.nodes[en.target]? with
    | none => rw [hns, hnt] at he; cases he
    | some nt =>
      rw [hns, hnt] at he
      rw [Bool.and_eq_true, Bool.and_eq_true, Bool.and_eq_true] at he
      obtain ⟨⟨⟨hns2, hnt2⟩, hmem1⟩, hmem2⟩ := he
      refine ⟨⟨ns, rfl, by simpa using hns2, ?_⟩, ⟨nt, rfl, by simpa using hnt2, ?_⟩⟩
      · simpa using hmem1
      · simpa using hmem2

/-- From the well-formedness check: adjacency entries name live edges
anchored at the node, and the lists have no duplicates. -/
theorem wf_adj {G : Graph} (h : graphWFb G = true) :
    ∀ (n : Nat) (nn : NodeEntry), G.nodes[n]? = some nn →
      (∀ e ∈ nn.outEdges, ∃ en, G.edges[e]? = some en ∧ en.cleared = false ∧ en.source = n)
        ∧ (∀ e ∈ nn.inEdges, ∃ en, G.edges[e]? = some en ∧ en.cleared = false ∧ en.target = n)
        ∧ nn.outEdges.Nodup ∧ nn.inEdges.Nodup := by
  obtain ⟨-, -, -, h4⟩ := graphWFb_parts h
  intro n nn hnn
  obtain ⟨hlt, -⟩ := List.getElem?_eq_some.mp hnn
  have he := List.all_eq_true.mp h4 n (List.mem_range.mpr hlt)
  rw [hnn] at he
  rw [Bool.and_eq_true, Bool.and_eq_true, Bool.and_eq_true, Bool.and_eq_true] at he
  obtain ⟨⟨⟨⟨-, hout⟩, hin⟩, hnd1⟩, hnd2⟩ := he
  refine ⟨?_, ?_, of_decide_eq_true hnd1, of_decide_eq_true hnd2⟩
  · intro e he'
    have := List.all_eq_true.mp hout e he'
    cases hee : G.edges[e]? with
    | none => rw [hee] at this; cases this
    | some en =>
      rw [hee] at this
      rw [Bool.and_eq_true] at this
      exact ⟨en, rfl, by simpa using this.1, by simpa using this.2⟩
  · intro e he'
    have := List.all_eq_true.mp hin e he'
    cases hee : G.edges[e]? with
    | none => rw [hee] at this; cases this
    | some en =>
      rw [hee] at this
      rw [Bool.and_eq_true] at this
      exact ⟨en, rfl, by simpa using this.1, by simpa using this.2⟩

/-- Introduction form of `getNode` success. -/
theorem Graph.getNode_ok_intro {G : Graph} {n : Nat} {en : NodeEntry}
    (h1 : G.nodes[n]? = some en) (h2 : en.cleared = false) :
    G.getNode n = .ok en := by
  unfold Graph.getNode
  rw [h1]
  simp [h2]

/-- Introduction form of `getEdge` success. -/
theorem Graph.getEdge_ok_intro {G : Graph} {e : Nat} {en : EdgeEntry}
    (h1 : G.edges[e]? = some en) (h2 : en.cleared = false) :
    G.getEdge e = .ok en := by
  unfold Graph.getEdge
  rw [h1]
  simp [h2]

/-- Introduction form of `getEdgeTarget` success. -/
theorem Graph.getEdgeTarget_ok_intro {G : Graph} {e : Nat} {en : EdgeEntry}
    (h1 : G.edges[e]? = some en) (h2 : en.cleared = false) :
    G.getEdgeTarget e = .ok en.target := by
  simp only [Graph.getEdgeTarget, Graph.getEdge_ok_intro h1 h2]
  rfl

/-- On a well-formed graph, a `findEdge` miss really means no live edge
joins the ordered pair. -/
theorem findEdge_none_no_live {G : Graph} {s t : Nat} (hwf : graphWFb G = true)
    (h : G.findEdge s t = .ok none) :
    ∀ (e : Nat) (en : EdgeEntry), G.edges[e]? = some en → en.cleared = false →
      en.source = s → en.target = t → False := by
  intro e en hen hcl hs ht
  obtain ⟨⟨ns, hns, hnscl, hmem⟩, -⟩ := wf_edge_linked hwf e en hen hcl
  rw [hs] at hns
  simp only [Graph.findEdge, Graph.outEdges] at h
  obtain ⟨outs, houts, h⟩ := bindOk h
  obtain ⟨nn, hnn, houts2⟩ := bindOk houts
  rw [Graph.getNode_ok_intro hns hnscl] at hnn
  injection hnn with hnn
  subst hnn
  injection houts2 with houts2
  subst houts2
  exact Graph.findEdgeAux_none h hmem
    (ht ▸ Graph.getEdgeTarget_ok_intro hen hcl)

/-- Elimination form of the executable pair-uniqueness check. -/
theorem pairUniqueB_spec {G : Graph} (h : pairUniqueB G = true) :
    ∀ (e1 e2 : Nat) (en1 en2 : EdgeEntry),
      G.edges[e1]? = some en1 → G.edges[e2]? = some en2 →
      en1.cleared = false → en2.cleared = false →
      en1.source = en2.source → en1.target = en2.target → e1 = e2 := by
  intro e1 e2 en1 en2 h1 h2 hc1 hc2 hs ht
  unfold pairUniqueB at h
  obtain ⟨hlt1, -⟩ := List.getElem?_eq_some.mp h1
  obtain ⟨hlt2, -⟩ := List.getElem?_eq_some.mp h2
  have := List.all_eq_true.mp
    (List.all_eq_true.mp h e1 (List.mem_range.mpr hlt1)) e2 (List.mem_range.mpr hlt2)
  rw [h1, h2] at this
  simp only [hc1, hc2, hs, ht] at this
  simpa using this

/-- Introduction form of the executable pair-uniqueness check. -/
theorem pairUniqueB_intro {G : Graph}
    (h : ∀ (e1 e2 : Nat) (en1 en2 : EdgeEntry),
      G.edges[e1]? = some en1 → G.edges[e2]? = some en2 →
      en1.cleared = false → en2.cleared = false →
      en1.source = en2.source → en1.target = en2.target → e1 = e2) :
    pairUniqueB G = true := by
  unfold pairUniqueB
  rw [List.all_eq_true]
  intro e1 he1
  rw [List.all_eq_true]
  intro e2 he2
  cases h1 : G.edges[e1]? with
  | none => rfl
  | some en1 =>
    cases h2 : G.edges[e2]? with
    | none => rfl
    | some en2 =>
      by_cases hq : e1 = e2
      · simp [hq]
      · by_cases hc1 : en1.cleared = true
        · simp [hc1]
        · by_cases hc2 : en2.cleared = true
          · simp [hc2]
          · by_cases hsrc : en1.source = en2.source
            · by_cases htgt : en1.target = en2.target
              · exact absurd (h e1 e2 en1 en2 h1 h2 (by simpa using hc1)
                  (by simpa using hc2) hsrc htgt) hq
              · simp [htgt]
            · simp [hsrc]

/-- A successful `addEdge` implies the duplicate check found nothing. -/
theorem Graph.addEdge_ok_findEdge_none {G G' : Graph} {s t eid : Nat}
    (h : G.addEdge s t = .ok (G', eid)) : G.findEdge s t = .ok none := by
  simp only [Graph.addEdge] at h
  obtain ⟨dup, hdup, h⟩ := bindOk h
  split at h
  · simp at h
  · rename_i hns
    rw [Option.not_isSome_iff_eq_none] at hns
    exact hns ▸ hdup

/-- Claim C8: `addEdge` aborts with the duplicate-edge assertion whenever an
edge already joins the ordered pair (and, on well-formed graphs, keeps the
at-most-one-live-edge-per-ordered-pair invariant); accessing an out-of-range
or tombstoned node or edge through `getNode`/`getEdge` is exactly the fatal
removed-node/removed-edge assertion, and every graph operation built on them
propagates that same fatal assertion rather than recovering. -/
theorem graph_assertions :
    (∀ (G : Graph) (s t e : Nat), G.findEdge s t = .ok (some e) →
        G.addEdge s t = .error (.assertFail "Attempt to add duplicate edge."))
      ∧ (∀ (G : Graph) (n : Nat),
          G.getNode n = .error (.assertFail "Attempt to access a removed node")
            ↔ (G.nodes[n]? = none ∨ ∃ en, G.nodes[n]? = some en ∧ en.cleared = true))
      ∧ (∀ (G : Graph) (e : Nat),
          G.getEdge e = .error (.assertFail "Attempt to access a removed edge")
            ↔ (G.edges[e]? = none ∨ ∃ en, G.edges[e]? = some en ∧ en.cleared = true))
      ∧ (∀ (G : Graph) (n : Nat),
          G.getNode n = .error (.assertFail "Attempt to access a removed node") →
          G.outEdges n = .error (.assertFail "Attempt to access a removed node")
            ∧ G.inEdges n = .error (.assertFail "Attempt to access a removed node")
            ∧ G.removeNode n = .error (.assertFail "Attempt to access a removed node")
            ∧ (∀ t, G.findEdge n t = .error (.assertFail "Attempt to access a removed node")))
      ∧ (∀ (G : Graph) (e : Nat),
          G.getEdge e = .error (.assertFail "Attempt to access a removed edge") →
          G.getEdgeSource e = .error (.assertFail "Attempt to access a removed edge")
            ∧ G.getEdgeTarget e = .error (.assertFail "Attempt to access a removed edge")
            ∧ G.removeEdge e = .error (.assertFail "Attempt to access a removed edge"))
      ∧ (∀ (G G1 : Graph) (s t eid : Nat), graphWFb G = true → pairUniqueB G = true →
          G.addEdge s t = .ok (G1, eid) → pairUniqueB G1 = true) := by
  refine ⟨?_, ?_, ?_, ?_, ?_, ?_⟩
  · intro G s t e h
    simp only [Graph.addEdge, h]
    rfl
  · exact Graph.getNode_error_iff
  · exact Graph.getEdge_error_iff
  · intro G n h
    refine ⟨?_, ?_, ?_, ?_⟩
    · simp only [Graph.outEdges, h]
      rfl
    · simp only [Graph.inEdges, h]
      rfl
    · simp only [Graph.removeNode, h]
      rfl
    · intro t
      simp only [Graph.findEdge, Graph.outEdges, h]
      rfl
  · intro G e h
    refine ⟨?_, ?_, ?_⟩
    · simp only [Graph.getEdgeSource, h]
      rfl
    · simp only [Graph.getEdgeTarget, h]
      rfl
    · simp only [Graph.removeEdge, h]
      rfl
  · intro G G1 s t eid hwf hpu hadd
    have hnone := Graph.addEdge_ok_findEdge_none hadd
    obtain ⟨hGe, -⟩ := Graph.addEdge_ok_edges hadd
    apply pairUniqueB_intro
    intro e1 e2 en1 en2 h1 h2 hc1 hc2 hs ht
    rw [hGe] at h1 h2
    rcases Nat.lt_or_ge e1 G.edges.length with hlt1 | hge1
    · rw [List.getElem?_append_left hlt1] at h1
      rcases Nat.lt_or_ge e2 G.edges.length with hlt2 | hge2
      · rw [List.getElem?_append_left hlt2] at h2
        exact pairUniqueB_spec hpu e1 e2 en1 en2 h1 h2 hc1 hc2 hs ht
      · rw [List.getElem?_append_right hge2] at h2
        have he2 : e2 - G.edges.length = 0 := by
          by_contra hne
          rw [List.getElem?_eq_none] at h2
          · cases h2
          · simp only [List.length_cons, List.length_nil]
            omega
        rw [he2] at h2
        injection h2 with h2
        subst h2
        exact (findEdge_none_no_live hwf hnone e1 en1 h1 hc1 (by simpa using hs)
          (by simpa using ht)).elim
    · rw [List.getElem?_append_right hge1] at h1
      have he1 : e1 - G.edges.length = 0 := by
        by_contra hne
        rw [List.getElem?_eq_none] at h1
        · cases h1
        · simp only [List.length_cons, List.length_nil]
          omega
      rw [he1] at h1
      injection h1 with h1
      subst h1
      rcases Nat.lt_or_ge e2 G.edges.length with hlt2 | hge2
      · rw [List.getElem?_append_left hlt2] at h2
        exact (findEdge_none_no_live hwf hnone e2 en2 h2 hc2 (by simpa using hs.symm)
          (by simpa using ht.symm)).elim
      · rw [List.getElem?_append_right hge2] at h2
        have he2 : e2 - G.edges.length = 0 := by
          by_contra hne
          rw [List.getElem?_eq_none] at h2
          · cases h2
          · simp only [List.length_cons, List.length_nil]
            omega
        omega

/-- Witness for `graph_assertions` at a concrete graph (the one-edge graph
of `witCollapseS`): a duplicate `addEdge 1 0` aborts, accessing the
out-of-range node 5 aborts and propagates through `removeNode`, and a fresh
`addEdge 0 1` preserves pair-uniqueness. -/
theorem graph_assertions_witness :
    (witCollapseS.G.findEdge 1 0 = .ok (some 0)
      ∧ witCollapseS.G.addEdge 1 0
          = .error (.assertFail "Attempt to add duplicate edge."))
      ∧ (witCollapseS.G.getNode 5
            = .error (.assertFail "Attempt to access a removed node")
        ∧ witCollapseS.G.removeNode 5
            = .error (.assertFail "Attempt to access a removed node"))
      ∧ (graphWFb witCollapseS.G = true
        ∧ pairUniqueB witCollapseS.G = true
        ∧ witCollapseS.G.addEdge 0 1 = .ok (getOk (witCollapseS.G.addEdge 0 1))
        ∧ pairUniqueB (getOk (witCollapseS.G.addEdge 0 1)).1 = true) := by
  refine ⟨⟨rfl, ?_⟩, ⟨rfl, ?_⟩, ⟨by decide, by decide, rfl, ?_⟩⟩
  · exact graph_assertions.1 witCollapseS.G 1 0 0 rfl
  · exact (graph_assertions.2.2.2.1 witCollapseS.G 5 rfl).2.2.1
  · exact graph_assertions.2.2.2.2.2 witCollapseS.G
      (getOk (witCollapseS.G.addEdge 0 1)).1 0 1
      (getOk (witCollapseS.G.addEdge 0 1)).2 (by decide) (by decide) rfl

/-! ### Re-adding identical constraints (claim C9) -/

/-- Setting the same bit twice is the same as setting it once. -/
theorem setBit_idem (x b : Nat) : setBit (setBit x b) b = setBit x b := by
  apply Nat.eq_of_testBit_eq
  intro i
  simp [testBit_setBit, Bool.or_assoc]

/-- Component-wise equality of solver states. -/
theorem LCDState.ext' {a b : LCDState} (hG : a.G = b.G)
    (hl : a.leftVars = b.leftVars) (hr : a.rightVars = b.rightVars)
    (hp : a.pts = b.pts) (hs : a.stores = b.stores) (hld : a.loads = b.loads) :
    a = b := by
  cases a
  cases b
  cases hG
  cases hl
  cases hr
  cases hp
  cases hs
  cases hld
  rfl

/-- `ensureVertex` registers the value at the returned node. -/
theorem LCD.ensureVertex_right {s : LCDState} {X : Nat} {s1 : LCDState} {x : Nat}
    (h : LCD.ensureVertex s X = (s1, x)) : s1.rightVars X = some x := by
  unfold LCD.ensureVertex at h
  split at h
  · rename_i x0 heq
    injection h with h1 h2
    subst h1
    subst h2
    exact heq
  · injection h with h1 h2
    subst h1
    subst h2
    simp

/-- `ensureVertex` never unregisters other values. -/
theorem LCD.ensureVertex_mono_right {s : LCDState} {X : Nat} {s1 : LCDState}
    {x : Nat} (h : LCD.ensureVertex s X = (s1, x)) :
    ∀ Y v, s.rightVars Y = some v → s1.rightVars Y = some v := by
  intro Y v hv
  unfold LCD.ensureVertex at h
  split at h
  · rename_i x0 heq
    injection h with h1 h2
    subst h1
    exact hv
  · rename_i heq
    injection h with h1 h2
    subst h1
    by_cases hy : Y = X
    · subst hy
      rw [heq] at hv
      cases hv
    · simp [hy]
      exact hv

/-- `ensureVertex` on an already-registered value is the identity. -/
theorem LCD.ensureVertex_registered {s : LCDState} {X x : Nat}
    (h : s.rightVars X = some x) : LCD.ensureVertex s X = (s, x) := by
  unfold LCD.ensureVertex
  rw [h]

/-- `getEdge` only ever fails with an assertion. -/
theorem Graph.getEdge_error_class {G : Graph} {e : Nat} {err : Err}
    (h : G.getEdge e = .error err) : ∃ m, err = .assertFail m := by
  unfold Graph.getEdge at h
  split at h
  · split at h
    · injection h with h
      exact ⟨_, h.symm⟩
    · cases h
  · injection h with h
    exact ⟨_, h.symm⟩

/-- `getNode` only ever fails with an assertion. -/
theorem Graph.getNode_error_class {G : Graph} {n : Nat} {err : Err}
    (h : G.getNode n = .error err) : ∃ m, err = .assertFail m := by
  unfold Graph.getNode at h
  split at h
  · split at h
    · injection h with h
      exact ⟨_, h.symm⟩
    · cases h
  · injection h with h
    exact ⟨_, h.symm⟩

/-- The adjacency scan only ever fails with an assertion. -/
theorem Graph.findEdgeAux_error {G : Graph} {t : Nat} :
    ∀ {l : List Nat} {err : Err}, G.findEdgeAux t l = .error err →
      ∃ m, err = .assertFail m := by
  intro l
  induction l with
  | nil => intro err h; cases h
  | cons x rest ih =>
    intro err h
    simp only [Graph.findEdgeAux] at h
    cases htgt : G.getEdgeTarget x with
    | error e2 =>
      rw [htgt] at h
      injection h with h
      subst h
      simp only [Graph.getEdgeTarget] at htgt
      cases hge : G.getEdge x with
      | error e3 =>
        rw [hge] at htgt
        injection htgt with htgt
        subst htgt
        exact Graph.getEdge_error_class hge
      | ok en =>
        rw [hge] at htgt
        cases htgt
    | ok tgt =>
      rw [htgt] at h
      rw [okBind] at h
      split at h
      · cases h
      · exact ih h

/-- `findEdge` only ever fails with an assertion. -/
theorem Graph.findEdge_error {G : Graph} {s t : Nat} {err : Err}
    (h : G.findEdge s t = .error err) : ∃ m, err = .assertFail m := by
  simp only [Graph.findEdge, Graph.outEdges] at h
  cases hn : G.getNode s with
  | error e2 =>
    rw [hn] at h
    injection h with h
    subst h
    exact Graph.getNode_error_class hn
  | ok nn =>
    rw [hn] at h
    rw [okBind] at h
    exact Graph.findEdgeAux_error h

/-- Lookup at the written index of `setNode`. -/
theorem Graph.setNode_getElem_self (G : Graph) (n : Nat) (en : NodeEntry)
    (h : n < G.nodes.length) : (G.setNode n en).nodes[n]? = some en := by
  simp only [Graph.setNode]
  exact List.getElem?_set_self h

/-- Lookup away from the written index of `setNode`. -/
theorem Graph.setNode_getElem_ne (G : Graph) {n m : Nat} (en : NodeEntry)
    (h : n ≠ m) : (G.setNode n en).nodes[m]? = G.nodes[m]? := by
  simp only [Graph.setNode]
  exact List.getElem?_set_ne h

/-- After a successful `addEdge`, the new edge id sits in the source node's
out-adjacency and its record is live with the given endpoints. -/
theorem Graph.addEdge_ok_out_mem {G G' : Graph} {s t eid : Nat}
    (h : G.addEdge s t = .ok (G', eid)) :
    (∃ nb, G'.nodes[s]? = some nb ∧ nb.cleared = false ∧ eid ∈ nb.outEdges)
      ∧ G'.edges[eid]? = some ⟨s, t, false⟩ := by
  obtain ⟨hGe, heid⟩ := Graph.addEdge_ok_edges h
  simp only [Graph.addEdge] at h
  obtain ⟨dup, hdup, h⟩ := bindOk h
  split at h
  · simp at h
  · obtain ⟨ns, hns, h⟩ := bindOk h
    obtain ⟨n2, hn2, h⟩ := bindOk h
    obtain ⟨nt, hnt, h⟩ := bindOk h
    injection h with h
    injection h with hG heid2
    subst hG
    obtain ⟨hns1, hns2⟩ := Graph.getNode_ok hns
    obtain ⟨hnt1, hnt2⟩ := Graph.getNode_ok hnt
    obtain ⟨hlt, -⟩ := List.getElem?_eq_some.mp hns1
    have hlt' : s < G.nodes.length := by simpa using hlt
    refine ⟨?_, by rw [hGe, heid]; exact List.getElem?_concat_length _ _⟩
    by_cases hts : t = s
    · rw [hts] at hnt1
      rw [Graph.setNode_getElem_self _ s _ (by simpa using hlt')] at hnt1
      injection hnt1 with hnt1
      refine ⟨{ nt with inEdges := nt.inEdges ++ [G.edges.length] },
              ?_, by simpa using hnt2, ?_⟩
      · rw [hts]
        exact Graph.setNode_getElem_self _ s _ (by simp [Graph.setNode, hlt'])
      · rw [← hnt1, heid]
        simp
    · refine ⟨{ ns with outEdges := ns.outEdges ++ [G.edges.length] },
              ?_, by simpa using hns2, ?_⟩
      · rw [Graph.setNode_getElem_ne _ _ hts]
        exact Graph.setNode_getElem_self _ s _ (by simpa using hlt')
      · rw [heid]
        simp

/-- A scan over live edge ids cannot fail. -/
theorem Graph.findEdgeAux_total {G : Graph} {t : Nat} :
    ∀ {l : List Nat},
      (∀ e ∈ l, ∃ en, G.edges[e]? = some en ∧ en.cleared = false) →
      ∃ o, G.findEdgeAux t l = .ok o := by
  intro l
  induction l with
  | nil => exact fun _ => ⟨none, rfl⟩
  | cons x rest ih =>
    intro hlive
    obtain ⟨en, hen, hcl⟩ := hlive x (List.mem_cons_self _ _)
    have htgt := Graph.getEdgeTarget_ok_intro hen hcl
    by_cases he : en.target = t
    · refine ⟨some x, ?_⟩
      simp only [Graph.findEdgeAux, htgt, okBind]
      simp [he]
    · obtain ⟨o, ho⟩ := ih (fun e hee => hlive e (List.mem_cons_of_mem _ hee))
      refine ⟨o, ?_⟩
      simp only [Graph.findEdgeAux, htgt, okBind]
      simp [he, ho]

/-- Claim C9: re-adding an identical AddressOf, Store or Load constraint is
a perfect no-op on the whole solver state, while re-adding an identical Copy
constraint aborts with a fatal assertion — on a well-formed graph, exactly
the duplicate-edge assertion — instead of being ignored. -/
theorem addConstraint_readd :
    (∀ (s s' : LCDState) (c : Constraint), c.ty ≠ .copy →
        LCD.addConstraint s c = .ok s' → LCD.addConstraint s' c = .ok s')
      ∧ (∀ (s s' : LCDState) (c : Constraint), c.ty = .copy →
          LCD.addConstraint s c = .ok s' →
          ∃ msg, LCD.addConstraint s' c = .error (.assertFail msg))
      ∧ (∀ (s s' : LCDState) (c : Constraint), c.ty = .copy →
          LCD.addConstraint s c = .ok s' → graphWFb s'.G = true →
          LCD.addConstraint s' c
            = .error (.assertFail "Attempt to add duplicate edge.")) := by
  have reg : ∀ (s s' : LCDState) (c : Constraint),
      LCD.addConstraint s c = .ok s' →
      ∃ s1 a s2 b, LCD.ensureVertex s c.src = (s1, a)
        ∧ LCD.ensureVertex s1 c.tgt = (s2, b)
        ∧ s2.rightVars c.src = some a ∧ s2.rightVars c.tgt = some b := by
    intro s s' c h
    obtain ⟨s1, a, hpa⟩ : ∃ s1 a, LCD.ensureVertex s c.src = (s1, a) := ⟨_, _, rfl⟩
    obtain ⟨s2, b, hpb⟩ : ∃ s2 b, LCD.ensureVertex s1 c.tgt = (s2, b) := ⟨_, _, rfl⟩
    exact ⟨s1, a, s2, b, hpa, hpb,
      LCD.ensureVertex_mono_right hpb _ _ (LCD.ensureVertex_right hpa),
      LCD.ensureVertex_right hpb⟩
  refine ⟨?_, ?_, ?_⟩
  · intro s s' c hty h
    obtain ⟨s1, a, s2, b, hpa, hpb, hra, hrb⟩ := reg s s' c h
    cases hc : c.ty with
    | copy => exact absurd hc hty
    | addressOf =>
      simp only [LCD.addConstraint, hpa, hpb, hc] at h
      injection h with hR
      have hra' : s'.rightVars c.src = some a := by rw [← hR]; exact hra
      have hrb' : s'.rightVars c.tgt = some b := by rw [← hR]; exact hrb
      simp only [LCD.addConstraint, hc, LCD.ensureVertex_registered hra',
        LCD.ensureVertex_registered hrb']
      refine congrArg Except.ok (LCDState.ext' rfl rfl rfl ?_ rfl rfl)
      funext m
      by_cases hm : m = a
      · subst hm
        simp only [if_pos rfl]
        rw [← hR]
        simp [setBit_idem]
      · simp [hm]
    | store =>
      simp only [LCD.addConstraint, hpa, hpb, hc] at h
      injection h with hR
      have hra' : s'.rightVars c.src = some a := by rw [← hR]; exact hra
      have hrb' : s'.rightVars c.tgt = some b := by rw [← hR]; exact hrb
      simp only [LCD.addConstraint, hc, LCD.ensureVertex_registered hra',
        LCD.ensureVertex_registered hrb']
      refine congrArg Except.ok (LCDState.ext' rfl rfl rfl rfl ?_ rfl)
      funext m
      by_cases hm : m = a
      · subst hm
        simp only [if_pos rfl]
        rw [← hR]
        simp [setBit_idem]
      · simp [hm]
    | load =>
      simp only [LCD.addConstraint, hpa, hpb, hc] at h
      injection h with hR
      have hra' : s'.rightVars c.src = some a := by rw [← hR]; exact hra
      have hrb' : s'.rightVars c.tgt = some b := by rw [← hR]; exact hrb
      simp only [LCD.addConstraint, hc, LCD.ensureVertex_registered hra',
        LCD.ensureVertex_registered hrb']
      refine congrArg Except.ok (LCDState.ext' rfl rfl rfl rfl rfl ?_)
      funext m
      by_cases hm : m = b
      · subst hm
        simp only [if_pos rfl]
        rw [← hR]
        simp [setBit_idem]
      · simp [hm]
  · intro s s' c hc h
    obtain ⟨s1, a, s2, b, hpa, hpb, hra, hrb⟩ := reg s s' c h
    simp only [LCD.addConstraint, hpa, hpb, hc] at h
    obtain ⟨p, hp, h⟩ := bindOk h
    injection h with hR
    have hra' : s'.rightVars c.src = some a := by rw [← hR]; exact hra
    have hrb' : s'.rightVars c.tgt = some b := by rw [← hR]; exact hrb
    have hG' : s'.G = p.1 := by rw [← hR]
    obtain ⟨⟨nb, hnb, hnbcl, hmem⟩, hedge⟩ :=
      Graph.addEdge_ok_out_mem (show _ = .ok (p.1, p.2) from hp)
    simp only [LCD.addConstraint, hc, LCD.ensureVertex_registered hra',
      LCD.ensureVertex_registered hrb']
    cases hf : s'.G.findEdge b a with
    | error e =>
      obtain ⟨m, hm⟩ := Graph.findEdge_error hf
      refine ⟨m, ?_⟩
      simp only [Graph.addEdge, hf, hm]
      rfl
    | ok dup =>
      cases dup with
      | none =>
        exfalso
        rw [hG'] at hf
        simp only [Graph.findEdge, Graph.outEdges] at hf
        obtain ⟨outs, houts, hf2⟩ := bindOk hf
        obtain ⟨nn, hnn, hpure⟩ := bindOk houts
        rw [Graph.getNode_ok_intro hnb hnbcl] at hnn
        injection hnn with hnn
        subst hnn
        injection hpure with hpure
        subst hpure
        exact Graph.findEdgeAux_none hf2 hmem
          (Graph.getEdgeTarget_ok_intro hedge rfl)
      | some e0 =>
        refine ⟨"Attempt to add duplicate edge.", ?_⟩
        simp only [Graph.addEdge, hf]
        rfl
  · intro s s' c hc h hwf
    obtain ⟨s1, a, s2, b, hpa, hpb, hra, hrb⟩ := reg s s' c h
    simp only [LCD.addConstraint, hpa, hpb, hc] at h
    obtain ⟨p, hp, h⟩ := bindOk h
    injection h with hR
    have hra' : s'.rightVars c.src = some a := by rw [← hR]; exact hra
    have hrb' : s'.rightVars c.tgt = some b := by rw [← hR]; exact hrb
    have hG' : s'.G = p.1 := by rw [← hR]
    obtain ⟨⟨nb, hnb, hnbcl, hmem⟩, hedge⟩ :=
      Graph.addEdge_ok_out_mem (show _ = .ok (p.1, p.2) from hp)
    simp only [LCD.addConstraint, hc, LCD.ensureVertex_registered hra',
      LCD.ensureVertex_registered hrb']
    have hnb' : s'.G.nodes[b]? = some nb := by rw [hG']; exact hnb
    obtain ⟨hout, -, -, -⟩ := wf_adj hwf b nb hnb'
    have htotal : ∃ o, s'.G.findEdgeAux a nb.outEdges = .ok o := by
      apply Graph.findEdgeAux_total
      intro e he
      obtain ⟨en, hen, hcl, -⟩ := hout e he
      exact ⟨en, hen, hcl⟩
    obtain ⟨o, ho⟩ := htotal
    have hf : s'.G.findEdge b a = .ok o := by
      simp only [Graph.findEdge, Graph.outEdges,
        Graph.getNode_ok_intro hnb' hnbcl, okBind]
      exact ho
    cases o with
    | none =>
      exfalso
      have hmem' : p.2 ∈ nb.outEdges := hmem
      have := Graph.findEdgeAux_none (by rw [hG'] at ho; exact ho) hmem'
      exact this (Graph.getEdgeTarget_ok_intro hedge rfl)
    | some e0 =>
      simp only [Graph.addEdge, hf]
      rfl

/-- Witness for `addConstraint_readd` at concrete inputs: re-adding
`AddressOf(70, 71)` to the fresh state is a no-op, while re-adding
`Copy(70, 71)` hits the duplicate-edge assertion (the intermediate graph
is well-formed, so the exact message is obtained). -/
theorem addConstraint_readd_witness :
    (LCD.addConstraint LCD.init ⟨.copy, 70, 71⟩ = .ok readdS
      ∧ graphWFb readdS.G = true
      ∧ LCD.addConstraint readdS ⟨.copy, 70, 71⟩
          = .error (.assertFail "Attempt to add duplicate edge."))
    ∧ (∃ s', LCD.addConstraint LCD.init ⟨.addressOf, 70, 71⟩ = .ok s'
        ∧ LCD.addConstraint s' ⟨.addressOf, 70, 71⟩ = .ok s') := by
  have h1 : LCD.addConstraint LCD.init ⟨.copy, 70, 71⟩ = .ok readdS := rfl
  refine ⟨⟨h1, by decide, ?_⟩, ?_⟩
  · exact addConstraint_readd.2.2 LCD.init readdS _ rfl h1 (by decide)
  · obtain ⟨s', hs'⟩ :
        ∃ s', LCD.addConstraint LCD.init ⟨.addressOf, 70, 71⟩ = .ok s' :=
      ⟨_, rfl⟩
    exact ⟨s', hs', addConstraint_readd.1 LCD.init s' _ (by decide) hs'⟩

/-! ### Counter bookkeeping of the graph (claim C10) -/

/-- Full effect of a successful `removeEdge`: the edge entry is tombstoned in
place, the edge counter drops by one, and each node entry loses the edge id
from its out-list (if it is the source) and from its in-list (if it is the
target). -/
theorem Graph.removeEdge_effect {G G' : Graph} {e : Nat}
    (h : G.removeEdge e = .ok G') :
    ∃ E, G.edges[e]? = some E ∧ E.cleared = false
      ∧ G'.edges = G.edges.set e { E with cleared := true }
      ∧ G'.numEdges = G.numEdges - 1
      ∧ G'.numNodes = G.numNodes
      ∧ (∀ (m : Nat), G'.nodes[m]? = (G.nodes[m]?).map (fun (nm : NodeEntry) =>
          { nm with
            outEdges := if m = E.source then nm.outEdges.erase e else nm.outEdges,
            inEdges := if m = E.target then nm.inEdges.erase e else nm.inEdges })) := by
  simp only [Graph.removeEdge] at h
  obtain ⟨E, hE, h⟩ := bindOk h
  obtain ⟨ns, hns, h⟩ := bindOk h
  obtain ⟨nt, hnt, h⟩ := bindOk h
  injection h with h
  subst h
  obtain ⟨hE1, hE2⟩ := Graph.getEdge_ok hE
  obtain ⟨hns1, hns2⟩ := Graph.getNode_ok hns
  obtain ⟨hnt1, hnt2⟩ := Graph.getNode_ok hnt
  have hsl : E.source < G.nodes.length := (List.getElem?_eq_some.mp hns1).1
  refine ⟨E, hE1, hE2, rfl, rfl, rfl, ?_⟩
  intro m
  by_cases hmt : m = E.target
  · rw [hmt]
    have htl : E.target < (G.setNode E.source
        { ns with outEdges := ns.outEdges.erase e }).nodes.length :=
      (List.getElem?_eq_some.mp hnt1).1
    rw [Graph.setNode_getElem_self _ E.target _ htl]
    by_cases hst : E.target = E.source
    · rw [hst] at hnt1 ⊢
      rw [Graph.setNode_getElem_self _ E.source _ hsl] at hnt1
      injection hnt1 with hnt1
      rw [hns1, ← hnt1]
      simp
    · rw [Graph.setNode_getElem_ne _ _ (fun hh => hst hh.symm)] at hnt1
      rw [hnt1]
      simp [hst]
  · rw [Graph.setNode_getElem_ne _ _ (fun hh => hmt hh.symm)]
    by_cases hms : m = E.source
    · rw [hms] at hmt ⊢
      rw [Graph.setNode_getElem_self _ E.source _ hsl, hns1]
      simp [hmt]
    · rw [Graph.setNode_getElem_ne _ _ (fun hh => hms hh.symm)]
      cases G.nodes[m]? with
      | none => rfl
      | some nm => simp [hms, hmt]

/-- A successful `removeEdgesList` run certifies that all listed edges were
live and pairwise distinct, and drops the live edge count and the counter by
exactly the length of the list. -/
theorem Graph.removeEdgesList_effect :
    ∀ {l : List Nat} {G G' : Graph}, G.removeEdgesList l = .ok G' →
      (∀ x ∈ l, ∃ en, G.edges[x]? = some en ∧ en.cleared = false)
      ∧ l.Nodup
      ∧ liveEdgeCount G' + l.length = liveEdgeCount G
      ∧ G'.numEdges = G.numEdges - l.length := by
  intro l
  induction l with
  | nil =>
    intro G G' h
    unfold Graph.removeEdgesList at h
    injection h with h
    subst h
    exact ⟨by simp, List.nodup_nil, by simp, by simp⟩
  | cons e rest ih =>
    intro G G' h
    unfold Graph.removeEdgesList at h
    obtain ⟨G1, hG1, h⟩ := bindOk h
    obtain ⟨E, hE1, hE2, hedges, hnum, -, -⟩ := Graph.removeEdge_effect hG1
    have hel : e < G.edges.length := (List.getElem?_eq_some.mp hE1).1
    have hG1e : G1.edges[e]? = some { E with cleared := true } := by
      rw [hedges]
      exact List.getElem?_set_self hel
    obtain ⟨ihlive, ihnd, ihcount, ihnum⟩ := ih h
    have hnotin : e ∉ rest := by
      intro hmem
      obtain ⟨en, hen, hencl⟩ := ihlive e hmem
      rw [hG1e] at hen
      injection hen with hen
      rw [← hen] at hencl
      cases hencl
    have hpres : ∀ (x : Nat), x ≠ e → G1.edges[x]? = G.edges[x]? := by
      intro x hx
      rw [hedges]
      exact List.getElem?_set_ne (fun hh => hx hh.symm)
    refine ⟨?_, List.nodup_cons.mpr ⟨hnotin, ihnd⟩, ?_, ?_⟩
    · intro x hx
      rcases List.mem_cons.mp hx with hx | hx
      · subst hx
        exact ⟨E, hE1, hE2⟩
      · obtain ⟨en, hen, hencl⟩ := ihlive x hx
        have hxe : x ≠ e := fun hh => hnotin (hh ▸ hx)
        rw [hpres x hxe] at hen
        exact ⟨en, hen, hencl⟩
    · have hstep : liveEdgeCount G1 + 1 = liveEdgeCount G := by
        unfold liveEdgeCount
        rw [hedges, List.map_set]
        exact count_false_set_true (by rw [List.getElem?_map, hE1]; simp [hE2])
      simp only [List.length_cons]
      omega
    · simp only [List.length_cons]
      rw [ihnum, hnum]
      omega

/-- Tracking one node through `removeEdgesList` on a list of its in-edges:
the node stays (un)tombstoned as it was, and its out-adjacency keeps exactly
the edges that are not in the removed list. -/
theorem Graph.removeEdgesList_node {n : Nat} :
    ∀ {l : List Nat} {G G1 : Graph} {N : NodeEntry},
      G.removeEdgesList l = .ok G1 →
      G.nodes[n]? = some N →
      N.outEdges.Nodup →
      (∀ x ∈ N.outEdges,
        ∃ E, G.edges[x]? = some E ∧ E.cleared = false ∧ E.source = n) →
      (∀ x ∈ l,
        ∃ E, G.edges[x]? = some E ∧ E.cleared = false ∧ E.target = n) →
      ∃ N1, G1.nodes[n]? = some N1 ∧ N1.cleared = N.cleared
        ∧ N1.outEdges.Nodup
        ∧ (∀ x, x ∈ N1.outEdges ↔ (x ∈ N.outEdges ∧ x ∉ l)) := by
  intro l
  induction l with
  | nil =>
    intro G G1 N h hN hnd hanch hl
    unfold Graph.removeEdgesList at h
    injection h with h
    subst h
    exact ⟨N, hN, rfl, hnd, by simp⟩
  | cons e rest ih =>
    intro G G1 N h hN hnd hanch hl
    unfold Graph.removeEdgesList at h
    obtain ⟨Ga, hGa, h⟩ := bindOk h
    obtain ⟨E, hE1, hE2, hedges, -, -, hnodes⟩ := Graph.removeEdge_effect hGa
    obtain ⟨E0, hE0, hE0cl, hE0t⟩ := hl e (List.mem_cons_self _ _)
    rw [hE1] at hE0
    injection hE0 with hE0
    subst hE0
    have hel : e < G.edges.length := (List.getElem?_eq_some.mp hE1).1
    have hGae : Ga.edges[e]? = some { E with cleared := true } := by
      rw [hedges]
      exact List.getElem?_set_self hel
    have hpres : ∀ (x : Nat), x ≠ e → Ga.edges[x]? = G.edges[x]? := by
      intro x hx
      rw [hedges]
      exact List.getElem?_set_ne (fun hh => hx hh.symm)
    have hnotin : e ∉ rest := by
      intro hmem
      obtain ⟨en, hen, hencl⟩ := (Graph.removeEdgesList_effect h).1 e hmem
      rw [hGae] at hen
      injection hen with hen
      rw [← hen] at hencl
      cases hencl
    have hNa : Ga.nodes[n]? = some
        { N with
          outEdges := if n = E.source then N.outEdges.erase e else N.outEdges,
          inEdges := if n = E.target then N.inEdges.erase e else N.inEdges } := by
      rw [hnodes n, hN]
      rfl
    have hesrc : e ∈ N.outEdges → E.source = n := by
      intro hmem
      obtain ⟨E1b, hE1b, -, hE1src⟩ := hanch e hmem
      rw [hE1] at hE1b
      injection hE1b with hE1b
      rw [hE1b]
      exact hE1src
    have hndA : (if n = E.source then N.outEdges.erase e else N.outEdges).Nodup := by
      split
      · exact hnd.erase e
      · exact hnd
    have hsubA : ∀ (x : Nat),
        x ∈ (if n = E.source then N.outEdges.erase e else N.outEdges) →
        x ∈ N.outEdges := by
      intro x hx
      split at hx
      · exact List.mem_of_mem_erase hx
      · exact hx
    have hneA : ∀ (x : Nat),
        x ∈ (if n = E.source then N.outEdges.erase e else N.outEdges) →
        x ≠ e := by
      intro x hx
      split at hx
      · exact (hnd.mem_erase_iff.mp hx).1
      · rename_i hns
        intro hh
        subst hh
        exact hns (hesrc hx).symm
    have hanchA : ∀ x ∈ (if n = E.source then N.outEdges.erase e else N.outEdges),
        ∃ E2, Ga.edges[x]? = some E2 ∧ E2.cleared = false ∧ E2.source = n := by
      intro x hx
      obtain ⟨E2, h2, h2cl, h2src⟩ := hanch x (hsubA x hx)
      rw [← hpres x (hneA x hx)] at h2
      exact ⟨E2, h2, h2cl, h2src⟩
    have hlA : ∀ x ∈ rest,
        ∃ E2, Ga.edges[x]? = some E2 ∧ E2.cleared = false ∧ E2.target = n := by
      intro x hx
      obtain ⟨E2, h2, h2cl, h2t⟩ := hl x (List.mem_cons_of_mem _ hx)
      have hxe : x ≠ e := fun hh => hnotin (hh ▸ hx)
      rw [← hpres x hxe] at h2
      exact ⟨E2, h2, h2cl, h2t⟩
    obtain ⟨N1, hN1, hN1cl, hN1nd, hN1iff⟩ := ih h hNa hndA hanchA hlA
    refine ⟨N1, hN1, hN1cl, hN1nd, ?_⟩
    intro x
    have hiffx := hN1iff x
    constructor
    · intro hx1
      obtain ⟨hxA, hxrest⟩ := hiffx.mp hx1
      refine ⟨hsubA x hxA, ?_⟩
      intro hxl
      rcases List.mem_cons.mp hxl with hxe | hxr
      · exact hneA x hxA hxe
      · exact hxrest hxr
    · rintro ⟨hxN, hxl⟩
      have hxe : x ≠ e := fun hh => hxl (by rw [hh]; exact List.mem_cons_self _ _)
      apply hiffx.mpr
      refine ⟨?_, fun hxr => hxl (List.mem_cons_of_mem _ hxr)⟩
      show x ∈ (if n = E.source then N.outEdges.erase e else N.outEdges)
      split
      · exact hnd.mem_erase_iff.mpr ⟨hxe, hxN⟩
      · exact hxN

/-- A duplicate-free list whose membership matches a predicate on an initial
segment of the naturals has the predicate's count as its length. -/
theorem nodup_length_countP {l : List Nat} {m : Nat} {p : Nat → Bool}
    (hnd : l.Nodup) (hmem : ∀ x, x ∈ l ↔ (x < m ∧ p x = true)) :
    l.length = (List.range m).countP p := by
  rw [List.countP_eq_length_filter]
  have hndr : (List.range m).Nodup := List.nodup_range m
  have hnd2 : ((List.range m).filter p).Nodup := hndr.filter _
  have hiff : ∀ x, x ∈ l ↔ x ∈ (List.range m).filter p := by
    intro x
    rw [hmem x, List.mem_filter, List.mem_range]
  exact ((List.perm_ext_iff_of_nodup hnd hnd2).mpr hiff).length_eq

/-- Claim C10: `getNumNodes`/`getNumEdges` track the live (non-tombstoned)
entries exactly: starting from agreeing counters, `addNode` adds one to the
node count, `addEdge` adds one to the edge count, `removeEdge` subtracts one
from the edge count, and on a well-formed graph `removeNode n` subtracts one
from the node count and exactly `incidentCount G n` (each incident live edge
once, a self-loop once) from the edge count — and all four leave the
counters agreeing with the live counts again. -/
theorem graph_counts :
    (∀ G : Graph, countsOK G →
        countsOK (G.addNode).1
          ∧ (G.addNode).1.numNodes = G.numNodes + 1
          ∧ (G.addNode).1.numEdges = G.numEdges)
      ∧ (∀ (G G' : Graph) (s t eid : Nat), countsOK G →
          G.addEdge s t = .ok (G', eid) →
          countsOK G' ∧ G'.numEdges = G.numEdges + 1 ∧ G'.numNodes = G.numNodes)
      ∧ (∀ (G G' : Graph) (e : Nat), countsOK G → G.removeEdge e = .ok G' →
          countsOK G' ∧ G'.numEdges + 1 = G.numEdges ∧ G'.numNodes = G.numNodes)
      ∧ (∀ (G G' : Graph) (n : Nat), graphWFb G = true →
          G.removeNode n = .ok G' →
          countsOK G'
            ∧ G'.numNodes + 1 = G.numNodes
            ∧ G'.numEdges + incidentCount G n = G.numEdges) := by
  refine ⟨?_, ?_, ?_, ?_⟩
  · intro G hc
    refine ⟨⟨?_, hc.2⟩, rfl, rfl⟩
    show G.numNodes + 1 = liveNodeCount (G.addNode).1
    show G.numNodes + 1
      = ((G.nodes ++ [(⟨[], [], false⟩ : NodeEntry)]).map NodeEntry.cleared).count false
    rw [List.map_append, List.count_append, hc.1]
    rfl
  · intro G G' s t eid hc h
    obtain ⟨hmask, -, hnn, hne⟩ := Graph.addEdge_ok_nodes h
    obtain ⟨hedges, -⟩ := Graph.addEdge_ok_edges h
    have hliveE : liveEdgeCount G' = liveEdgeCount G + 1 := by
      unfold liveEdgeCount
      rw [hedges, List.map_append, List.count_append]
      rfl
    refine ⟨⟨?_, ?_⟩, hne, hnn⟩
    · rw [hnn, liveNodeCount_congr hmask]
      exact hc.1
    · rw [hne, hliveE, hc.2]
  · intro G G' e hc h
    obtain ⟨hmask, -, hnn, -⟩ := Graph.removeEdge_ok_nodes h
    obtain ⟨E, hE1, hE2, hedges, hnum, -, -⟩ := Graph.removeEdge_effect h
    have hstep : liveEdgeCount G' + 1 = liveEdgeCount G := by
      unfold liveEdgeCount
      rw [hedges, List.map_set]
      exact count_false_set_true (by rw [List.getElem?_map, hE1]; simp [hE2])
    have hc2 := hc.2
    refine ⟨⟨?_, ?_⟩, ?_, hnn⟩
    · rw [hnn, liveNodeCount_congr hmask]
      exact hc.1
    · omega
    · omega
  · intro G G' n hwf h
    have hcounts := wf_counts hwf
    obtain ⟨-, -, -, hnn'⟩ := Graph.removeNode_ok_nodes h
    have hlive' := liveNodeCount_removeNode h
    simp only [Graph.removeNode] at h
    obtain ⟨N, hN, h⟩ := bindOk h
    obtain ⟨G1, hG1, h⟩ := bindOk h
    obtain ⟨N1, hN1, h⟩ := bindOk h
    obtain ⟨G2, hG2, h⟩ := bindOk h
    obtain ⟨hNe, hNcl⟩ := Graph.getNode_ok hN
    obtain ⟨houtA, hinA, hndOut, hndIn⟩ := wf_adj hwf n N hNe
    obtain ⟨N1b, hN1be, hN1bcl, hN1bnd, hN1biff⟩ :=
      Graph.removeEdgesList_node hG1 hNe hndOut houtA hinA
    obtain ⟨hN1e2, -⟩ := Graph.getNode_ok hN1
    rw [hN1be] at hN1e2
    injection hN1e2 with hN1e2
    rw [hN1e2] at hN1bnd hN1biff
    obtain ⟨-, -, hcnt1, hnum1⟩ := Graph.removeEdgesList_effect hG1
    obtain ⟨-, -, hcnt2, hnum2⟩ := Graph.removeEdgesList_effect hG2
    obtain ⟨-, -, hnn1⟩ := Graph.removeEdgesList_ok_nodes hG1
    obtain ⟨-, -, hnn2⟩ := Graph.removeEdgesList_ok_nodes hG2
    have hdisj : N.inEdges.Disjoint N1.outEdges := by
      intro a ha1 ha2
      exact ((hN1biff a).mp ha2).2 ha1
    have hndL : (N.inEdges ++ N1.outEdges).Nodup :=
      List.Nodup.append hndIn hN1bnd hdisj
    have hmemL : ∀ x, x ∈ N.inEdges ++ N1.outEdges
        ↔ (x < G.edges.length ∧ edgeIncident G n x = true) := by
      intro x
      constructor
      · intro hx
        rcases List.mem_append.mp hx with hx | hx
        · obtain ⟨E2, h2, h2cl, h2t⟩ := hinA x hx
          exact ⟨(List.getElem?_eq_some.mp h2).1,
                 by simp [edgeIncident, h2, h2cl, h2t]⟩
        · obtain ⟨E2, h2, h2cl, h2s⟩ := houtA x ((hN1biff x).mp hx).1
          exact ⟨(List.getElem?_eq_some.mp h2).1,
                 by simp [edgeIncident, h2, h2cl, h2s]⟩
      · rintro ⟨hxm, hp⟩
        cases hgx : G.edges[x]? with
        | none => simp [edgeIncident, hgx] at hp
        | some E2 =>
          simp only [edgeIncident, hgx, Bool.and_eq_true, Bool.not_eq_true',
            Bool.or_eq_true, beq_iff_eq] at hp
          obtain ⟨hcl2, hsrctgt⟩ := hp
          rcases hsrctgt with hsrc | htgt
          · obtain ⟨⟨ns2, hns2, -, hmem2⟩, -⟩ := wf_edge_linked hwf x E2 hgx hcl2
            rw [hsrc, hNe] at hns2
            injection hns2 with hns2
            by_cases hxin : x ∈ N.inEdges
            · exact List.mem_append.mpr (Or.inl hxin)
            · refine List.mem_append.mpr (Or.inr ?_)
              exact (hN1biff x).mpr ⟨by rw [hns2]; exact hmem2, hxin⟩
          · obtain ⟨-, nt2, hnt2, -, hmem2⟩ := wf_edge_linked hwf x E2 hgx hcl2
            rw [htgt, hNe] at hnt2
            injection hnt2 with hnt2
            exact List.mem_append.mpr (Or.inl (by rw [hnt2]; exact hmem2))
    have hinc : incidentCount G n = N.inEdges.length + N1.outEdges.length := by
      unfold incidentCount
      rw [← nodup_length_countP hndL hmemL, List.length_append]
    split at h
    · rename_i en hen
      injection h with h
      subst h
      have hne' : liveEdgeCount
          { G2.setNode n { en with cleared := true } with
            numNodes := G2.numNodes - 1 } = liveEdgeCount G2 := rfl
      have hc1 := hcounts.1
      have hc2 := hcounts.2
      refine ⟨⟨?_, ?_⟩, ?_, ?_⟩
      · show G2.numNodes - 1 = _
        omega
      · show G2.numEdges = _
        rw [hne']
        omega
      · show G2.numNodes - 1 + 1 = G.numNodes
        omega
      · show G2.numEdges + incidentCount G n = G.numEdges
        rw [hinc]
        omega
    · cases h

/-- Witness for `graph_counts` on the one-edge two-node graph of
`witCollapseS` (nodes `0, 1`, single edge `1 → 0`): each of the four
operations is exercised concretely, with `removeNode 1` removing its one
incident edge. -/
theorem graph_counts_witness :
    (countsOK witCollapseS.G ∧ countsOK (witCollapseS.G.addNode).1)
    ∧ (witCollapseS.G.addEdge 0 1
          = .ok ((getOk (witCollapseS.G.addEdge 0 1)).1,
                 (getOk (witCollapseS.G.addEdge 0 1)).2)
        ∧ countsOK (getOk (witCollapseS.G.addEdge 0 1)).1
        ∧ (getOk (witCollapseS.G.addEdge 0 1)).1.numEdges
            = witCollapseS.G.numEdges + 1)
    ∧ (witCollapseS.G.removeEdge 0 = .ok (getOk (witCollapseS.G.removeEdge 0))
        ∧ countsOK (getOk (witCollapseS.G.removeEdge 0))
        ∧ (getOk (witCollapseS.G.removeEdge 0)).numEdges + 1
            = witCollapseS.G.numEdges)
    ∧ (graphWFb witCollapseS.G = true
        ∧ witCollapseS.G.removeNode 1 = .ok (getOk (witCollapseS.G.removeNode 1))
        ∧ (getOk (witCollapseS.G.removeNode 1)).numNodes + 1
            = witCollapseS.G.numNodes
        ∧ (getOk (witCollapseS.G.removeNode 1)).numEdges
              + incidentCount witCollapseS.G 1
            = witCollapseS.G.numEdges) := by
  refine ⟨⟨by decide, ?_⟩, ⟨rfl, ?_, ?_⟩, ⟨rfl, ?_, ?_⟩, ⟨by decide, rfl, ?_, ?_⟩⟩
  · exact (graph_counts.1 witCollapseS.G (by decide)).1
  · exact (graph_counts.2.1 witCollapseS.G (getOk (witCollapseS.G.addEdge 0 1)).1
      0 1 (getOk (witCollapseS.G.addEdge 0 1)).2 (by decide) rfl).1
  · exact (graph_counts.2.1 witCollapseS.G (getOk (witCollapseS.G.addEdge 0 1)).1
      0 1 (getOk (witCollapseS.G.addEdge 0 1)).2 (by decide) rfl).2.1
  · exact (graph_counts.2.2.1 witCollapseS.G
      (getOk (witCollapseS.G.removeEdge 0)) 0 (by decide) rfl).1
  · exact (graph_counts.2.2.1 witCollapseS.G
      (getOk (witCollapseS.G.removeEdge 0)) 0 (by decide) rfl).2.1
  · exact (graph_counts.2.2.2 witCollapseS.G
      (getOk (witCollapseS.G.removeNode 1)) 1 (by decide) rfl).2.1
  · exact (graph_counts.2.2.2 witCollapseS.G
      (getOk (witCollapseS.G.removeNode 1)) 1 (by decide) rfl).2.2

/-! ### The registry-maps invariant (claim C7) -/

/-- The tombstone mask has the node vector's length. -/
theorem nodesCleared_length (G : Graph) :
    (nodesCleared G).length = G.nodes.length := by
  simp [nodesCleared]

/-- Registry consistency only depends on the two maps and the tombstone
mask. -/
theorem mapsConsistent_transfer {a b : LCDState}
    (hl : b.leftVars = a.leftVars) (hr : b.rightVars = a.rightVars)
    (hm : nodesCleared b.G = nodesCleared a.G) :
    mapsConsistent a → mapsConsistent b := by
  rintro ⟨h1, h2⟩
  refine ⟨?_, ?_⟩
  · intro X n hX
    rw [hm]
    exact h1 X n (by rw [← hr]; exact hX)
  · intro n X
    rw [hl, hr]
    exact h2 n X

/-- Explicit form of `ensureVertex` on an unregistered value. -/
theorem LCD.ensureVertex_none {s : LCDState} {X : Nat}
    (hr : s.rightVars X = none) :
    LCD.ensureVertex s X =
      ({ s with
          G := (s.G.addNode).1,
          rightVars := fun Y =>
            if Y = X then some (s.G.addNode).2 else s.rightVars Y,
          leftVars := fun n =>
            if n = (s.G.addNode).2 then
              (if (s.leftVars (s.G.addNode).2).contains X then
                s.leftVars (s.G.addNode).2
               else X :: s.leftVars (s.G.addNode).2)
            else s.leftVars n }, (s.G.addNode).2) := by
  unfold LCD.ensureVertex
  rw [hr]

/-- `ensureVertex` keeps the registry consistent and registers the value at
the returned node. -/
theorem LCD.ensureVertex_maps {s : LCDState} {X : Nat} (h : mapsConsistent s) :
    mapsConsistent (LCD.ensureVertex s X).1
      ∧ (LCD.ensureVertex s X).1.rightVars X = some (LCD.ensureVertex s X).2 := by
  cases hr : s.rightVars X with
  | some x =>
    rw [LCD.ensureVertex_registered hr]
    exact ⟨h, hr⟩
  | none =>
    rw [LCD.ensureVertex_none hr]
    have hfresh : ∀ Y n, s.rightVars Y = some n → n ≠ s.G.nodes.length := by
      intro Y n hY hn
      have hline := h.1 Y n hY
      rw [hn] at hline
      have hnone : (nodesCleared s.G)[s.G.nodes.length]? = none :=
        List.getElem?_eq_none (by rw [nodesCleared_length])
      rw [hnone] at hline
      exact Option.noConfusion hline
    have hxval : (s.G.addNode).2 = s.G.nodes.length := rfl
    have hempty : s.leftVars s.G.nodes.length = [] := by
      rw [List.eq_nil_iff_forall_not_mem]
      intro Y hY
      exact hfresh Y _ ((h.2 _ Y).mp hY) rfl
    have hmask : nodesCleared (s.G.addNode).1
        = nodesCleared s.G ++ [false] := by
      show (s.G.nodes ++ [(⟨[], [], false⟩ : NodeEntry)]).map NodeEntry.cleared = _
      rw [List.map_append]
      rfl
    refine ⟨⟨?_, ?_⟩, ?_⟩
    · intro Y n hY
      show (nodesCleared (s.G.addNode).1)[n]? = some false
      rw [hmask]
      by_cases hYX : Y = X
      · have hn : n = s.G.nodes.length := by
          have : (if Y = X then some (s.G.addNode).2 else s.rightVars Y)
              = some n := hY
          rw [if_pos hYX] at this
          injection this with this
          rw [← this]
          exact hxval
        rw [hn]
        rw [List.getElem?_append_right (by rw [nodesCleared_length])]
        simp [nodesCleared_length]
      · have hold : s.rightVars Y = some n := by
          have : (if Y = X then some (s.G.addNode).2 else s.rightVars Y)
              = some n := hY
          rwa [if_neg hYX] at this
        have hline := h.1 Y n hold
        have hlt : n < (nodesCleared s.G).length :=
          (List.getElem?_eq_some.mp hline).1
        rw [List.getElem?_append_left hlt]
        exact hline
    · intro n Y
      show Y ∈ (if n = (s.G.addNode).2 then _ else s.leftVars n)
        ↔ (if Y = X then some (s.G.addNode).2 else s.rightVars Y) = some n
      by_cases hn : n = (s.G.addNode).2
      · rw [if_pos hn]
        rw [hxval] at hn
        subst hn
        rw [hxval, hempty]
        show Y ∈ [X]
          ↔ (if Y = X then some s.G.nodes.length else s.rightVars Y)
              = some s.G.nodes.length
        constructor
        · intro hmem
          have hYX : Y = X := by simpa using hmem
          rw [if_pos hYX]
        · intro heq
          by_cases hYX : Y = X
          · rw [hYX]
            exact List.mem_cons_self _ _
          · rw [if_neg hYX] at heq
            exact absurd rfl (hfresh Y _ heq)
      · rw [if_neg hn]
        by_cases hYX : Y = X
        · rw [if_pos hYX]
          constructor
          · intro hmem
            have := (h.2 n Y).mp hmem
            rw [hYX, hr] at this
            exact Option.noConfusion this
          · intro heq
            injection heq with heq
            exact absurd heq.symm hn
        · rw [if_neg hYX]
          exact h.2 n Y
    · show (if X = X then some (s.G.addNode).2 else s.rightVars X)
        = some (s.G.addNode).2
      rw [if_pos rfl]

/-- `addConstraint` keeps the registry consistent. -/
theorem LCD.addConstraint_maps {s : LCDState} {c : Constraint} {s' : LCDState}
    (hm : mapsConsistent s) (h : LCD.addConstraint s c = .ok s') :
    mapsConsistent s' := by
  obtain ⟨s1, a, hpa⟩ : ∃ s1 a, LCD.ensureVertex s c.src = (s1, a) := ⟨_, _, rfl⟩
  obtain ⟨s2, b, hpb⟩ : ∃ s2 b, LCD.ensureVertex s1 c.tgt = (s2, b) := ⟨_, _, rfl⟩
  have hm1 : mapsConsistent s1 := by
    have hh := (LCD.ensureVertex_maps (X := c.src) hm).1
    rw [hpa] at hh
    exact hh
  have hm2 : mapsConsistent s2 := by
    have hh := (LCD.ensureVertex_maps (X := c.tgt) hm1).1
    rw [hpb] at hh
    exact hh
  cases hc : c.ty with
  | addressOf =>
    simp only [LCD.addConstraint, hpa, hpb, hc] at h
    injection h with h
    rw [← h]
    exact mapsConsistent_transfer rfl rfl rfl hm2
  | store =>
    simp only [LCD.addConstraint, hpa, hpb, hc] at h
    injection h with h
    rw [← h]
    exact mapsConsistent_transfer rfl rfl rfl hm2
  | load =>
    simp only [LCD.addConstraint, hpa, hpb, hc] at h
    injection h with h
    rw [← h]
    exact mapsConsistent_transfer rfl rfl rfl hm2
  | copy =>
    simp only [LCD.addConstraint, hpa, hpb, hc] at h
    obtain ⟨p, hp, h⟩ := bindOk h
    injection h with h
    rw [← h]
    obtain ⟨hmask, -, -, -⟩ :=
      Graph.addEdge_ok_nodes (show _ = .ok (p.1, p.2) from hp)
    exact mapsConsistent_transfer (a := s2) rfl rfl hmask hm2

/-- The in-edge fold of `collapse` preserves the mask and both registry
maps. -/
theorem LCD.collapseInFold_frame {origin u : Nat} {l : List Nat} {s s1 : LCDState}
    (h : l.foldlM (LCD.collapseInStep origin u) s = .ok s1) :
    nodesCleared s1.G = nodesCleared s.G
      ∧ s1.rightVars = s.rightVars ∧ s1.leftVars = s.leftVars :=
  foldlM_pres
    (P := fun a b : LCDState => nodesCleared b.G = nodesCleared a.G
      ∧ b.rightVars = a.rightVars ∧ b.leftVars = a.leftVars)
    (fun _ _ _ hh => by
      obtain ⟨m, -, -, r, l2⟩ := LCD.collapseInStep_frame hh
      exact ⟨m, r, l2⟩)
    (fun _ => ⟨rfl, rfl, rfl⟩)
    (fun a b c hab hbc =>
      ⟨hbc.1.trans hab.1, hbc.2.1.trans hab.2.1, hbc.2.2.trans hab.2.2⟩)
    l s s1 h

/-- The out-edge fold of `collapse` preserves the mask and both registry
maps. -/
theorem LCD.collapseOutFold_frame {origin u : Nat} {l : List Nat} {s s1 : LCDState}
    (h : l.foldlM (LCD.collapseOutStep origin u) s = .ok s1) :
    nodesCleared s1.G = nodesCleared s.G
      ∧ s1.rightVars = s.rightVars ∧ s1.leftVars = s.leftVars :=
  foldlM_pres
    (P := fun a b : LCDState => nodesCleared b.G = nodesCleared a.G
      ∧ b.rightVars = a.rightVars ∧ b.leftVars = a.leftVars)
    (fun _ _ _ hh => by
      obtain ⟨m, -, -, -, -, -, r, l2⟩ := LCD.collapseOutStep_frame hh
      exact ⟨m, r, l2⟩)
    (fun _ => ⟨rfl, rfl, rfl⟩)
    (fun a b c hab hbc =>
      ⟨hbc.1.trans hab.1, hbc.2.1.trans hab.2.1, hbc.2.2.trans hab.2.2⟩)
    l s s1 h

/-- Registry effect of transferring a whole left-set to `origin`: every
moved value now points at `origin`, other values are untouched, `origin`'s
left-set gains exactly the moved values, and all other left-sets are
untouched. -/
theorem LCD.foldl_moveVar_reg (origin : Nat) :
    ∀ (L : List Nat) (s : LCDState),
      (∀ Y, Y ∈ L →
        (L.foldl (LCD.moveVar origin) s).rightVars Y = some origin)
      ∧ (∀ Y, Y ∉ L →
        (L.foldl (LCD.moveVar origin) s).rightVars Y = s.rightVars Y)
      ∧ (∀ Y, Y ∈ (L.foldl (LCD.moveVar origin) s).leftVars origin
          ↔ (Y ∈ s.leftVars origin ∨ Y ∈ L))
      ∧ (∀ n, n ≠ origin →
        (L.foldl (LCD.moveVar origin) s).leftVars n = s.leftVars n) := by
  intro L
  induction L with
  | nil =>
    intro s
    exact ⟨fun Y hY => absurd hY (List.not_mem_nil Y), fun Y _ => rfl,
           fun Y => by simp, fun n _ => rfl⟩
  | cons X L2 ih =>
    intro s
    simp only [List.foldl_cons]
    have hstep_r : ∀ Y, (LCD.moveVar origin s X).rightVars Y
        = if Y = X then some origin else s.rightVars Y := fun Y => rfl
    have hstep_lo : ∀ Y, Y ∈ (LCD.moveVar origin s X).leftVars origin
        ↔ (Y = X ∨ Y ∈ s.leftVars origin) := by
      intro Y
      show Y ∈ (if origin = origin then
          (if (s.leftVars origin).contains X then s.leftVars origin
           else X :: s.leftVars origin) else s.leftVars origin) ↔ _
      rw [if_pos rfl]
      by_cases hc : (s.leftVars origin).contains X
      · rw [if_pos hc]
        have hXmem : X ∈ s.leftVars origin := by simpa using hc
        constructor
        · exact fun hmem => Or.inr hmem
        · rintro (hYX | hmem)
          · rw [hYX]
            exact hXmem
          · exact hmem
      · rw [if_neg hc]
        exact List.mem_cons
    have hstep_ln : ∀ (n : Nat), n ≠ origin →
        (LCD.moveVar origin s X).leftVars n = s.leftVars n := by
      intro n hn
      show (if n = origin then _ else s.leftVars n) = s.leftVars n
      rw [if_neg hn]
    obtain ⟨ih1, ih2, ih3, ih4⟩ := ih (LCD.moveVar origin s X)
    refine ⟨?_, ?_, ?_, ?_⟩
    · intro Y hY
      rcases List.mem_cons.mp hY with hYX | hYL
      · by_cases hYL2 : Y ∈ L2
        · exact ih1 Y hYL2
        · rw [ih2 Y hYL2, hstep_r, if_pos hYX]
      · exact ih1 Y hYL
    · intro Y hY
      have hYX : Y ≠ X := fun hh => hY (by rw [hh]; exact List.mem_cons_self _ _)
      have hYL2 : Y ∉ L2 := fun hh => hY (List.mem_cons_of_mem _ hh)
      rw [ih2 Y hYL2, hstep_r, if_neg hYX]
    · intro Y
      rw [ih3 Y, hstep_lo Y]
      constructor
      · rintro ((hYX | hmem) | hYL)
        · exact Or.inr (by rw [hYX]; exact List.mem_cons_self _ _)
        · exact Or.inl hmem
        · exact Or.inr (List.mem_cons_of_mem _ hYL)
      · rintro (hmem | hYc)
        · exact Or.inl (Or.inr hmem)
        · rcases List.mem_cons.mp hYc with hYX | hYL
          · exact Or.inl (Or.inl hYX)
          · exact Or.inr hYL
    · intro n hn
      rw [ih4 n hn, hstep_ln n hn]

/-- Merging node `u` into a representative tombstones exactly `u` in the
mask, which held a live entry there. -/
theorem LCD.collapseOne_mask {origin u : Nat} {s s' : LCDState}
    (h : LCD.collapseOne origin s u = .ok s') :
    nodesCleared s'.G = (nodesCleared s.G).set u true
      ∧ (nodesCleared s.G)[u]? = some false := by
  simp only [LCD.collapseOne] at h
  obtain ⟨nu, hnu, h⟩ := bindOk h
  obtain ⟨s1, hs1, h⟩ := bindOk h
  obtain ⟨nu2, hnu2, h⟩ := bindOk h
  obtain ⟨s2, hs2, h⟩ := bindOk h
  obtain ⟨G1, hG1, h⟩ := bindOk h
  injection h with h
  obtain ⟨m1, -, -⟩ := LCD.collapseInFold_frame hs1
  obtain ⟨m2, -, -⟩ := LCD.collapseOutFold_frame hs2
  obtain ⟨g3, -, -, -⟩ := LCD.foldl_moveVar_frame (s2.leftVars u) s2
  obtain ⟨hlive4, hmaskset, -, -⟩ := Graph.removeNode_ok_nodes hG1
  have hmaskset' : nodesCleared G1
      = (nodesCleared ((s2.leftVars u).foldl (LCD.moveVar origin) s2).G).set u true :=
    hmaskset
  have hlive' : (nodesCleared ((s2.leftVars u).foldl (LCD.moveVar origin) s2).G)[u]?
      = some false := hlive4
  rw [g3, m2, m1] at hmaskset' hlive'
  constructor
  · rw [← h]
    exact hmaskset'
  · exact hlive'

/-- Merging node `u` into a live representative `origin ≠ u` keeps the
registry consistent. -/
theorem LCD.collapseOne_maps {origin u : Nat} {s s' : LCDState}
    (hm : mapsConsistent s)
    (horig : (nodesCleared s.G)[origin]? = some false)
    (hne : u ≠ origin)
    (h : LCD.collapseOne origin s u = .ok s') :
    mapsConsistent s' := by
  simp only [LCD.collapseOne] at h
  obtain ⟨nu, hnu, h⟩ := bindOk h
  obtain ⟨s1, hs1, h⟩ := bindOk h
  obtain ⟨nu2, hnu2, h⟩ := bindOk h
  obtain ⟨s2, hs2, h⟩ := bindOk h
  obtain ⟨G1, hG1, h⟩ := bindOk h
  injection h with h
  obtain ⟨m1, r1, l1⟩ := LCD.collapseInFold_frame hs1
  obtain ⟨m2, r2, l2⟩ := LCD.collapseOutFold_frame hs2
  have hm2 : mapsConsistent s2 :=
    mapsConsistent_transfer (a := s) (l2.trans l1) (r2.trans r1) (m2.trans m1) hm
  have horig2 : (nodesCleared s2.G)[origin]? = some false := by
    rw [m2, m1]
    exact horig
  obtain ⟨f1, f2, f3, f4⟩ := LCD.foldl_moveVar_reg origin (s2.leftVars u) s2
  obtain ⟨g3, -, -, -⟩ := LCD.foldl_moveVar_frame (s2.leftVars u) s2
  obtain ⟨hlive4, hmaskset, -, -⟩ := Graph.removeNode_ok_nodes hG1
  have hmaskset' : nodesCleared G1
      = (nodesCleared ((s2.leftVars u).foldl (LCD.moveVar origin) s2).G).set u true :=
    hmaskset
  rw [g3, m2, m1] at hmaskset'
  rw [← h]
  unfold mapsConsistent
  constructor
  · intro X n hX
    have hX' : ((s2.leftVars u).foldl (LCD.moveVar origin) s2).rightVars X
        = some n := hX
    show (nodesCleared G1)[n]? = some false
    rw [hmaskset']
    by_cases hXL : X ∈ s2.leftVars u
    · have hf := f1 X hXL
      rw [hf] at hX'
      injection hX' with hX'
      rw [← hX']
      rw [List.getElem?_set_ne hne]
      exact horig
    · have hf := f2 X hXL
      rw [hf] at hX'
      have hnu' : n ≠ u := by
        intro hh
        rw [hh] at hX'
        exact hXL ((hm2.2 u X).mpr hX')
      rw [List.getElem?_set_ne (fun hh => hnu' hh.symm)]
      rw [← (m2.trans m1)]
      exact hm2.1 X n hX'
  · intro n X
    show X ∈ (if n = u then []
          else ((s2.leftVars u).foldl (LCD.moveVar origin) s2).leftVars n)
      ↔ ((s2.leftVars u).foldl (LCD.moveVar origin) s2).rightVars X = some n
    by_cases hnu' : n = u
    · rw [if_pos hnu']
      subst hnu'
      constructor
      · intro hmem
        exact absurd hmem (List.not_mem_nil X)
      · intro heq
        exfalso
        by_cases hXL : X ∈ s2.leftVars n
        · rw [f1 X hXL] at heq
          injection heq with heq
          exact hne heq.symm
        · rw [f2 X hXL] at heq
          exact hXL ((hm2.2 n X).mpr heq)
    · rw [if_neg hnu']
      by_cases hno : n = origin
      · subst hno
        constructor
        · intro hmem
          rcases (f3 X).mp hmem with hmem2 | hXL
          · by_cases hXL : X ∈ s2.leftVars u
            · exact f1 X hXL
            · rw [f2 X hXL]
              exact (hm2.2 n X).mp hmem2
          · exact f1 X hXL
        · intro heq
          apply (f3 X).mpr
          by_cases hXL : X ∈ s2.leftVars u
          · exact Or.inr hXL
          · rw [f2 X hXL] at heq
            exact Or.inl ((hm2.2 _ X).mpr heq)
      · rw [f4 n hno]
        constructor
        · intro hmem
          have hold := (hm2.2 n X).mp hmem
          by_cases hXL : X ∈ s2.leftVars u
          · have hXu := (hm2.2 u X).mp hXL
            rw [hXu] at hold
            injection hold with hold
            exact absurd hold.symm hnu'
          · rw [f2 X hXL]
            exact hold
        · intro heq
          by_cases hXL : X ∈ s2.leftVars u
          · rw [f1 X hXL] at heq
            injection heq with heq
            exact absurd heq.symm hno
          · rw [f2 X hXL] at heq
            exact (hm2.2 n X).mpr heq

/-! ### Bit-list toolkit for the termination development (claim C4) -/

/-- Membership in the fuel-indexed bit list is exactly `testBit`. -/
theorem mem_bitsAux :
    ∀ {fuel v x : Nat}, v ≤ fuel →
      (x ∈ bitsAux fuel v ↔ v.testBit x = true) := by
  intro fuel
  induction fuel with
  | zero =>
    intro v x hv
    have hv0 : v = 0 := Nat.le_zero.mp hv
    subst hv0
    simp [bitsAux, Nat.zero_testBit]
  | succ fuel ih =>
    intro v x hv
    cases v with
    | zero => simp [bitsAux, Nat.zero_testBit]
    | succ w =>
      show x ∈ (if (w + 1) % 2 = 1 then [0] else [])
          ++ (bitsAux fuel ((w + 1) / 2)).map (· + 1) ↔ _
      have hdiv : (w + 1) / 2 ≤ fuel := by omega
      cases x with
      | zero =>
        rw [Nat.testBit_zero]
        simp only [List.mem_append, List.mem_map]
        constructor
        · rintro (h0 | ⟨y, hy, hy0⟩)
          · by_cases hm : (w + 1) % 2 = 1
            · simpa using hm
            · rw [if_neg hm] at h0
              exact absurd h0 (List.not_mem_nil 0)
          · exact absurd hy0 (by omega)
        · intro hm
          left
          rw [if_pos (by simpa using hm)]
          exact List.mem_cons_self _ _
      | succ y =>
        rw [Nat.testBit_succ, ← ih hdiv]
        simp only [List.mem_append, List.mem_map]
        constructor
        · rintro (h0 | ⟨y2, hy2, hy0⟩)
          · split at h0 <;> simp at h0
          · have hyy : y2 = y := by omega
            rw [← hyy]
            exact hy2
        · intro hy
          right
          exact ⟨y, hy, rfl⟩

/-- `bits` lists exactly the set bits. -/
theorem mem_bits (v x : Nat) : x ∈ bits v ↔ v.testBit x = true :=
  mem_bitsAux le_rfl

/-- The fuel-indexed bit list has no duplicates. -/
theorem bitsAux_nodup : ∀ (fuel v : Nat), (bitsAux fuel v).Nodup := by
  intro fuel
  induction fuel with
  | zero => intro v; simp [bitsAux]
  | succ fuel ih =>
    intro v
    cases v with
    | zero => simp [bitsAux]
    | succ w =>
      show ((if (w + 1) % 2 = 1 then [0] else [])
          ++ (bitsAux fuel ((w + 1) / 2)).map (· + 1)).Nodup
      have hmapnd : ((bitsAux fuel ((w + 1) / 2)).map (· + 1)).Nodup :=
        (ih _).map (fun x y hxy => by omega)
      split
      · refine List.Nodup.append (by simp) hmapnd ?_
        intro x hx hx2
        have hx0 : x = 0 := by simpa using hx
        obtain ⟨y, -, hy0⟩ := List.mem_map.mp hx2
        omega
      · simpa using hmapnd

/-- `bits` has no duplicates. -/
theorem bits_nodup (v : Nat) : (bits v).Nodup := bitsAux_nodup v v

/-- Popcount is monotone under bitwise inclusion. -/
theorem bits_length_le {a b : Nat}
    (h : ∀ x, a.testBit x = true → b.testBit x = true) :
    (bits a).length ≤ (bits b).length := by
  rw [← List.toFinset_card_of_nodup (bits_nodup a),
      ← List.toFinset_card_of_nodup (bits_nodup b)]
  apply Finset.card_le_card
  intro x hx
  rw [List.mem_toFinset] at hx ⊢
  exact (mem_bits _ _).mpr (h x ((mem_bits _ _).mp hx))

/-- Popcount is strictly monotone under strict bitwise inclusion. -/
theorem bits_length_lt {a b : Nat}
    (h : ∀ x, a.testBit x = true → b.testBit x = true) (hne : a ≠ b) :
    (bits a).length < (bits b).length := by
  obtain ⟨x, hx⟩ : ∃ x, a.testBit x ≠ b.testBit x := by
    by_contra hc
    push_neg at hc
    exact hne (Nat.eq_of_testBit_eq hc)
  have hxb : b.testBit x = true ∧ a.testBit x = false := by
    cases hax : a.testBit x with
    | true =>
      exfalso
      exact hx (by rw [hax, h x hax])
    | false =>
      cases hbx : b.testBit x with
      | false => exact absurd (hax.trans hbx.symm) hx
      | true => exact ⟨rfl, rfl⟩
  rw [← List.toFinset_card_of_nodup (bits_nodup a),
      ← List.toFinset_card_of_nodup (bits_nodup b)]
  apply Finset.card_lt_card
  constructor
  · intro y hy
    rw [List.mem_toFinset] at hy ⊢
    exact (mem_bits _ _).mpr (h y ((mem_bits _ _).mp hy))
  · intro hcon
    have hxB : x ∈ (bits b).toFinset := by
      rw [List.mem_toFinset]
      exact (mem_bits _ _).mpr hxb.1
    have hxA := hcon hxB
    rw [List.mem_toFinset] at hxA
    have hp := (mem_bits _ _).mp hxA
    rw [hp] at hxb
    exact Bool.noConfusion hxb.2

/-- A duplicate-free list of naturals below `N` has at most `N` elements. -/
theorem nodup_lt_length_le {l : List Nat} {N : Nat} (hnd : l.Nodup)
    (hlt : ∀ x ∈ l, x < N) : l.length ≤ N := by
  rw [← List.toFinset_card_of_nodup hnd]
  have hs : l.toFinset ⊆ Finset.range N := fun x hx =>
    Finset.mem_range.mpr (hlt x (List.mem_toFinset.mp hx))
  simpa using Finset.card_le_card hs

/-- A duplicate-free list of pairs of naturals below `N` has at most `N²`
elements. -/
theorem nodup_pairs_length_le {l : List (Nat × Nat)} {N : Nat} (hnd : l.Nodup)
    (hlt : ∀ p ∈ l, p.1 < N ∧ p.2 < N) : l.length ≤ N * N := by
  rw [← List.toFinset_card_of_nodup hnd]
  have hs : l.toFinset ⊆ Finset.range N ×ˢ Finset.range N := by
    intro p hp
    rw [List.mem_toFinset] at hp
    obtain ⟨h1, h2⟩ := hlt p hp
    exact Finset.mem_product.mpr ⟨Finset.mem_range.mpr h1, Finset.mem_range.mpr h2⟩
  have hcard := Finset.card_le_card hs
  simpa [Finset.card_product] using hcard

/-- `find_first` returns a set bit. -/
theorem findFirst_mem {v n : Nat} (h : findFirst v = some n) :
    v.testBit n = true := by
  unfold findFirst at h
  cases hb : bits v with
  | nil => rw [hb] at h; exact Option.noConfusion h
  | cons x xs =>
    rw [hb] at h
    injection h with h
    subst h
    exact (mem_bits _ _).mp (by rw [hb]; exact List.mem_cons_self _ _)

/-- `find_next` returns a strictly larger set bit. -/
theorem findNext_spec {v x y : Nat} (h : findNext v x = some y) :
    x < y ∧ v.testBit y = true := by
  unfold findNext at h
  have hmem := List.mem_of_find?_eq_some h
  have hp := List.find?_some h
  exact ⟨by simpa using hp, (mem_bits _ _).mp hmem⟩

/-- Bits strictly above a set bit are fewer than all bits. -/
theorem filter_above_length_lt {L : List Nat} (hnd : L.Nodup) {z : Nat}
    (hz : z ∈ L) :
    (L.filter (fun b => decide (z < b))).length < L.length := by
  rw [← List.toFinset_card_of_nodup (hnd.filter _),
      ← List.toFinset_card_of_nodup hnd]
  apply Finset.card_lt_card
  constructor
  · intro y hy
    rw [List.mem_toFinset] at hy ⊢
    exact (List.mem_filter.mp hy).1
  · intro hcon
    have hzb : z ∈ L.toFinset := List.mem_toFinset.mpr hz
    have hzA := hcon hzb
    rw [List.mem_toFinset, List.mem_filter] at hzA
    have : z < z := by simpa using hzA.2
    omega

/-- Advancing the cursor on a (possibly pruned) bitset strictly shrinks the
cursor measure. -/
theorem cursorMeasure_step {l l2 z y : Nat}
    (hsub : ∀ x, l2.testBit x = true → l.testBit x = true)
    (h : findNext l2 z = some y) :
    cursorMeasure l2 (some y) < cursorMeasure l (some z) := by
  obtain ⟨hzy, hty⟩ := findNext_spec h
  show 1 + ((bits l2).filter (fun b => decide (y < b))).length
    < 1 + ((bits l).filter (fun b => decide (z < b))).length
  have hlt : ((bits l2).filter (fun b => decide (y < b))).length
      < ((bits l).filter (fun b => decide (z < b))).length := by
    rw [← List.toFinset_card_of_nodup ((bits_nodup l2).filter _),
        ← List.toFinset_card_of_nodup ((bits_nodup l).filter _)]
    apply Finset.card_lt_card
    constructor
    · intro x hx
      rw [List.mem_toFinset, List.mem_filter] at hx ⊢
      obtain ⟨hx1, hx2⟩ := hx
      have hyx : y < x := by simpa using hx2
      refine ⟨(mem_bits _ _).mpr (hsub x ((mem_bits _ _).mp hx1)), ?_⟩
      simp only [decide_eq_true_eq]
      omega
    · intro hcon
      have hyB : y ∈ ((bits l).filter (fun b => decide (z < b))).toFinset := by
        rw [List.mem_toFinset, List.mem_filter]
        exact ⟨(mem_bits _ _).mpr (hsub y hty), by simpa using hzy⟩
      have hyA := hcon hyB
      rw [List.mem_toFinset, List.mem_filter] at hyA
      have : y < y := by simpa using hyA.2
      omega
  omega

/-- The initial cursor measure is bounded by the popcount. -/
theorem cursorMeasure_first (l : Nat) :
    cursorMeasure l (findFirst l) ≤ (bits l).length := by
  cases hb : findFirst l with
  | none => simp [cursorMeasure]
  | some x =>
    have hx : x ∈ bits l := (mem_bits _ _).mpr (findFirst_mem hb)
    show 1 + ((bits l).filter (fun b => decide (x < b))).length ≤ (bits l).length
    have := filter_above_length_lt (bits_nodup l) hx
    omega

/-- Invariant of the depth-first iterator started at `z`: the stack's nodes
stay distinct and visited, the bottom of the stack stays `z`, and the
visited set only grows. -/
theorem dfToNext_inv {G : Graph} {z : Nat} :
    ∀ {fuel : Nat} {stack : List Frame} {visited : List Nat}
      {stack2 : List Frame} {visited2 : List Nat},
      dfToNext G fuel stack visited = .ok (some (stack2, visited2)) →
      (stack.map Frame.node).Nodup →
      (∀ f ∈ stack, f.node ∈ visited) →
      (stack = [] ∨ ∃ pre, stack.map Frame.node = pre ++ [z]) →
      ((stack2.map Frame.node).Nodup
        ∧ (∀ f ∈ stack2, f.node ∈ visited2)
        ∧ (∃ pre, stack2.map Frame.node = pre ++ [z])
        ∧ visited ⊆ visited2) := by
  intro fuel
  induction fuel with
  | zero =>
    intro stack visited s2 v2 h hnd hvis hbot
    exact Except.noConfusion h
  | succ fuel ih =>
    intro stack visited s2 v2 h hnd hvis hbot
    cases stack with
    | nil =>
      injection h with h
      exact Option.noConfusion h
    | cons top stk =>
      cases htr : top.rest with
      | nil =>
        simp only [dfToNext, htr] at h
        have hnd2 : (stk.map Frame.node).Nodup := by
          rw [List.map_cons] at hnd
          exact (List.nodup_cons.mp hnd).2
        have hvis2 : ∀ f ∈ stk, f.node ∈ visited :=
          fun f hf => hvis f (List.mem_cons_of_mem _ hf)
        have hbot2 : stk = [] ∨ ∃ pre, stk.map Frame.node = pre ++ [z] := by
          cases hstk : stk with
          | nil => exact Or.inl rfl
          | cons g gs =>
            rcases hbot with hb | ⟨pre, hpre⟩
            · exact absurd hb (by simp)
            · right
              rw [List.map_cons] at hpre
              cases pre with
              | nil =>
                exfalso
                injection hpre with h1 h2
                rw [hstk] at h2
                simp at h2
              | cons p0 pre2 =>
                injection hpre with h1 h2
                rw [hstk] at h2
                exact ⟨pre2, by rw [← hstk]; exact (hstk ▸ h2)⟩
        exact ih h hnd2 hvis2 hbot2
      | cons e rest2 =>
        simp only [dfToNext, htr] at h
        obtain ⟨next, hnext, h⟩ := bindOk h
        split at h
        · rename_i hcont
          have hmapeq : (({ top with rest := rest2 } : Frame) :: stk).map Frame.node
              = (top :: stk).map Frame.node := rfl
          obtain ⟨c1, c2, c3, c4⟩ := ih h (by rw [hmapeq]; exact hnd)
            (by
              intro f hf
              rcases List.mem_cons.mp hf with hf | hf
              · rw [hf]
                exact hvis top (List.mem_cons_self _ _)
              · exact hvis f (List.mem_cons_of_mem _ hf))
            (by
              right
              rcases hbot with hb | ⟨pre, hpre⟩
              · exact absurd hb (by simp)
              · exact ⟨pre, by rw [hmapeq]; exact hpre⟩)
          exact ⟨c1, c2, c3, c4⟩
        · rename_i hcont
          obtain ⟨nf, hnf, h⟩ := bindOk h
          injection h with h
          injection h with h
          injection h with h1 h2
          have hnmem : next ∉ visited := by
            intro hmem
            exact hcont (by simpa using hmem)
          have hnotstack : next ∉ (top :: stk).map Frame.node := by
            intro hmem
            obtain ⟨f, hf, hfn⟩ := List.mem_map.mp hmem
            exact hnmem (hfn ▸ hvis f hf)
          refine ⟨?_, ?_, ?_, ?_⟩
          · rw [← h1]
            show (next :: (top :: stk).map Frame.node).Nodup
            exact List.nodup_cons.mpr ⟨hnotstack, hnd⟩
          · rw [← h1, ← h2]
            intro f hf
            rcases List.mem_cons.mp hf with hf | hf
            · rw [hf]
              exact List.mem_cons_self _ _
            · rcases List.mem_cons.mp hf with hf2 | hf2
              · rw [hf2]
                exact List.mem_cons_of_mem _ (hvis top (List.mem_cons_self _ _))
              · exact List.mem_cons_of_mem _ (hvis f (List.mem_cons_of_mem _ hf2))
          · rw [← h1]
            rcases hbot with hb | ⟨pre, hpre⟩
            · exact absurd hb (by simp)
            · refine ⟨next :: pre, ?_⟩
              show next :: (top :: stk).map Frame.node = (next :: pre) ++ [z]
              rw [hpre]
              rfl
          · rw [← h2]
            exact fun a ha => List.mem_cons_of_mem _ ha

/-- Every path recorded by the `findCycles` loop starts at `z` and does not
revisit `z` in its tail. -/
theorem fcLoop_paths {G : Graph} {z dfF : Nat} :
    ∀ {fuel : Nat} {stack : List Frame} {visited : List Nat}
      {acc res : List (List Nat)},
      fcLoop G z dfF fuel stack visited acc = .ok res →
      (stack.map Frame.node).Nodup →
      (∀ f ∈ stack, f.node ∈ visited) →
      (stack = [] ∨ ∃ pre, stack.map Frame.node = pre ++ [z]) →
      (∀ p ∈ acc, ∃ t, p = z :: t ∧ z ∉ t) →
      ∀ p ∈ res, ∃ t, p = z :: t ∧ z ∉ t := by
  intro fuel
  induction fuel with
  | zero =>
    intro stack visited acc res h hnd hvis hbot hacc
    exact Except.noConfusion h
  | succ fuel ih =>
    intro stack visited acc res h hnd hvis hbot hacc
    cases stack with
    | nil =>
      injection h with h
      subst h
      exact hacc
    | cons top stk =>
      have tailstep : ∀ (acc2 : List (List Nat)),
          (∀ p ∈ acc2, ∃ t, p = z :: t ∧ z ∉ t) →
          (do
            let onext ← dfToNext G dfF (top :: stk) visited
            match onext with
            | none => (Except.ok acc2 : M (List (List Nat)))
            | some (stack2, visited2) =>
              fcLoop G z dfF fuel stack2 visited2 acc2) = .ok res →
          ∀ p ∈ res, ∃ t, p = z :: t ∧ z ∉ t := by
        intro acc2 hQ hh
        obtain ⟨onext, honext, hh⟩ := bindOk hh
        cases onext with
        | none =>
          injection hh with hh
          subst hh
          exact hQ
        | some pr =>
          obtain ⟨st2, vi2⟩ := pr
          obtain ⟨hnd2, hvis2, hbot2, -⟩ := dfToNext_inv honext hnd hvis hbot
          exact ih hh hnd2 hvis2 (Or.inr hbot2) hQ
      simp only [fcLoop] at h
      cases htr : top.rest with
      | nil =>
        rw [htr] at h
        obtain ⟨y, hy, h⟩ := bindOk h
        injection hy with hy
        subst hy
        exact tailstep _ hacc h
      | cons e rest2 =>
        rw [htr] at h
        obtain ⟨tgt, htgt, h⟩ := bindOk h
        split at h
        · obtain ⟨y, hy, h⟩ := bindOk h
          injection hy with hy
          subst hy
          refine tailstep _ ?_ h
          intro p hp
          rcases List.mem_append.mp hp with hp | hp
          · exact hacc p hp
          · have hps : p = pathOf (top :: stk) := by simpa using hp
            rcases hbot with hb | ⟨pre, hpre⟩
            · exact absurd hb (by simp)
            · refine ⟨pre.reverse, ?_, ?_⟩
              · rw [hps]
                show ((top :: stk).map Frame.node).reverse = z :: pre.reverse
                rw [hpre, List.reverse_append]
                rfl
              · intro hzmem
                have hz : z ∈ pre := by simpa using hzmem
                rw [hpre] at hnd
                have hdisj := (List.nodup_append.mp hnd).2.2
                exact hdisj hz (List.mem_cons_self _ _)
        · obtain ⟨y, hy, h⟩ := bindOk h
          injection hy with hy
          subst hy
          exact tailstep _ hacc h

/-- `findCycles` succeeds only on a live start node, and every returned
cycle path is `z :: tail` with `z` absent from the tail. -/
theorem LCD.findCycles_paths {st : LCDState} {z : Nat}
    {cycles : List (List Nat)}
    (h : LCD.findCycles st z = .ok cycles) :
    (nodesCleared st.G)[z]? = some false
      ∧ ∀ p ∈ cycles, ∃ t, p = z :: t ∧ z ∉ t := by
  simp only [LCD.findCycles, dfBegin] at h
  obtain ⟨pr, hpr, h⟩ := bindOk h
  obtain ⟨nf, hnf, hpr⟩ := bindOk hpr
  injection hpr with hpr
  obtain ⟨hnf1, hnf2⟩ := Graph.getNode_ok hnf
  refine ⟨?_, ?_⟩
  · rw [nodesCleared_getElem, hnf1]
    simp [hnf2]
  · subst hpr
    apply fcLoop_paths h
    · show ([z] : List Nat).Nodup
      simp
    · intro f hf
      have hfe : f = (⟨z, nf.outEdges⟩ : Frame) := by simpa using hf
      rw [hfe]
      exact List.mem_cons_self _ _
    · exact Or.inr ⟨[], by simp⟩
    · intro p hp
      exact absurd hp (List.not_mem_nil p)

/-- Collapsing a tail of nodes into the live representative `z` keeps the
registry consistent and keeps `z` live. -/
theorem LCD.collapse_fold_maps {z : Nat} :
    ∀ {t : List Nat} {a b : LCDState},
      t.foldlM (LCD.collapseOne z) a = .ok b →
      z ∉ t →
      mapsConsistent a →
      (nodesCleared a.G)[z]? = some false →
      mapsConsistent b ∧ (nodesCleared b.G)[z]? = some false := by
  intro t
  induction t with
  | nil =>
    intro a b h hz hm hlive
    injection h with h
    subst h
    exact ⟨hm, hlive⟩
  | cons u t2 ih =>
    intro a b h hz hm hlive
    rw [List.foldlM_cons] at h
    obtain ⟨a1, ha1, h⟩ := bindOk h
    have hzu : u ≠ z := fun hh => hz (hh ▸ List.mem_cons_self _ _)
    have hm1 := LCD.collapseOne_maps hm hlive hzu ha1
    obtain ⟨hmask1, -⟩ := LCD.collapseOne_mask ha1
    have hlive1 : (nodesCleared a1.G)[z]? = some false := by
      rw [hmask1, List.getElem?_set_ne hzu]
      exact hlive
    exact ih h (fun hh => hz (List.mem_cons_of_mem _ hh)) hm1 hlive1

/-- Handling one found cycle path inside `solve` keeps the registry
consistent and the cycle head alive. -/
theorem LCD.cycles_fold_maps {z : Nat} :
    ∀ {cs : List (List Nat)} {p q : SolveSt × Nat},
      cs.foldlM LCD.cyclePathStep p = .ok q →
      (∀ c ∈ cs, ∃ t, c = z :: t ∧ z ∉ t) →
      mapsConsistent p.1.s →
      (nodesCleared p.1.s.G)[z]? = some false →
      mapsConsistent q.1.s ∧ (nodesCleared q.1.s.G)[z]? = some false := by
  intro cs
  induction cs with
  | nil =>
    intro p q h hsh hm hl
    injection h with h
    subst h
    exact ⟨hm, hl⟩
  | cons c cs2 ih =>
    intro p q h hsh hm hl
    rw [List.foldlM_cons] at h
    obtain ⟨p1, hp1, h⟩ := bindOk h
    obtain ⟨t, hct, hzt⟩ := hsh c (List.mem_cons_self _ _)
    simp only [LCD.cyclePathStep] at hp1
    obtain ⟨s2, hs2, hp1⟩ := bindOk hp1
    injection hp1 with hp1
    rw [hct] at hs2
    obtain ⟨hm2, hl2⟩ := LCD.collapse_fold_maps hs2 hzt hm hl
    have hm1 : mapsConsistent p1.1.s := by
      rw [← hp1]
      exact hm2
    have hl1 : (nodesCleared p1.1.s.G)[z]? = some false := by
      rw [← hp1]
      exact hl2
    exact ih h (fun c2 hc2 => hsh c2 (List.mem_cons_of_mem _ hc2)) hm1 hl1

/-- One successor-handling step of `solve` keeps the registry consistent
(the cycle branch collapses into the live head `z` of every found path). -/
theorem LCD.handleZ_maps {n : Nat} {st : SolveSt} {l z : Nat} {p : SolveSt × Nat}
    (h : LCD.handleZ n st l z = .ok p)
    (hm : mapsConsistent st.s) : mapsConsistent p.1.s := by
  unfold LCD.handleZ at h
  split at h
  · split at h
    · injection h with h
      rw [← h]
      exact hm
    · obtain ⟨cycles, hcyc, h⟩ := bindOk h
      obtain ⟨q, hq, h⟩ := bindOk h
      injection h with h
      obtain ⟨hzl, hshapes⟩ := LCD.findCycles_paths hcyc
      have hres := LCD.cycles_fold_maps hq hshapes hm hzl
      rw [← h]
      exact hres.1
  · injection h with h
    rw [← h]
    exact mapsConsistent_transfer (a := st.s) rfl rfl rfl hm

/-- The successor loop of `solve` keeps the registry consistent. -/
theorem LCD.lLoop_maps {n : Nat} :
    ∀ {fuel : Nat} {st : SolveSt} {l : Nat} {cur : Option Nat} {st2 : SolveSt},
      LCD.lLoop n fuel st l cur = .ok st2 →
      mapsConsistent st.s → mapsConsistent st2.s := by
  intro fuel
  induction fuel with
  | zero =>
    intro st l cur st2 h hm
    exact Except.noConfusion h
  | succ fuel ih =>
    intro st l cur st2 h hm
    cases cur with
    | none =>
      injection h with h
      rw [← h]
      exact hm
    | some zz =>
      simp only [LCD.lLoop] at h
      obtain ⟨q, hq, h⟩ := bindOk h
      exact ih h (LCD.handleZ_maps hq hm)

/-- Processing one worklist node keeps the registry consistent. -/
theorem LCD.processNode_maps {st : SolveSt} {n : Nat} {st2 : SolveSt}
    (h : LCD.processNode st n = .ok st2) (hm : mapsConsistent st.s) :
    mapsConsistent st2.s := by
  simp only [LCD.processNode] at h
  obtain ⟨st1, hst1, h⟩ := bindOk h
  obtain ⟨l, hl, h⟩ := bindOk h
  have hm1 : mapsConsistent st1.s := by
    have P := foldlM_pres
      (P := fun a b : SolveSt =>
        b.s.rightVars = a.s.rightVars ∧ b.s.leftVars = a.s.leftVars
          ∧ nodesCleared b.s.G = nodesCleared a.s.G)
      (fun _ _ _ hh => by
        obtain ⟨-, -, -, r, l2, m, -, -⟩ := LCD.ptsStep_frame hh
        exact ⟨r, l2, m⟩)
      (fun _ => ⟨rfl, rfl, rfl⟩)
      (fun a b c hab hbc =>
        ⟨hbc.1.trans hab.1, hbc.2.1.trans hab.2.1, hbc.2.2.trans hab.2.2⟩)
      _ _ _ hst1
    exact mapsConsistent_transfer (a := st.s) P.2.1 P.1 P.2.2 hm
  exact LCD.lLoop_maps h hm1

/-- The worklist loop of `solve` keeps the registry consistent. -/
theorem LCD.solveLoop_maps :
    ∀ {fuel : Nat} {st : SolveSt} {s2 : LCDState},
      LCD.solveLoop fuel st = .ok s2 → mapsConsistent st.s → mapsConsistent s2 := by
  intro fuel
  induction fuel with
  | zero =>
    intro st s2 h hm
    exact Except.noConfusion h
  | succ fuel ih =>
    intro st s2 h hm
    simp only [LCD.solveLoop] at h
    cases hW : findFirst st.W with
    | none =>
      rw [hW] at h
      injection h with h
      rw [← h]
      exact hm
    | some n =>
      rw [hW] at h
      obtain ⟨st1, hst1, h⟩ := bindOk h
      exact ih h (LCD.processNode_maps hst1 hm)

/-- Claim C7: the bidirectional value↔node registry stays consistent — the
right-map sends every registered value to exactly one live node and the
left-map is exactly its preimage partition — before and after every
operation: it holds initially, `ensureVertex` preserves it (and registers
the requested value at the returned node), `addConstraint` preserves it,
each cycle-collapse merge into a live representative preserves it (no
inconsistent state is observable after the call), and an entire `solve` run
— including every cycle collapse it performs — preserves it. -/
theorem maps_invariant :
    mapsConsistent LCD.init
      ∧ (∀ (s : LCDState) (X : Nat), mapsConsistent s →
          mapsConsistent (LCD.ensureVertex s X).1
            ∧ (LCD.ensureVertex s X).1.rightVars X
                = some (LCD.ensureVertex s X).2)
      ∧ (∀ (s : LCDState) (c : Constraint) (s2 : LCDState), mapsConsistent s →
          LCD.addConstraint s c = .ok s2 → mapsConsistent s2)
      ∧ (∀ (origin u : Nat) (s s2 : LCDState), mapsConsistent s →
          (nodesCleared s.G)[origin]? = some false → u ≠ origin →
          LCD.collapseOne origin s u = .ok s2 → mapsConsistent s2)
      ∧ (∀ (fuel : Nat) (s s2 : LCDState), mapsConsistent s →
          LCD.solve fuel s = .ok s2 → mapsConsistent s2) := by
  refine ⟨?_, ?_, ?_, ?_, ?_⟩
  · constructor
    · intro X n hX
      exact Option.noConfusion hX
    · intro n X
      constructor
      · intro hmem
        exact absurd hmem (List.not_mem_nil X)
      · intro heq
        exact Option.noConfusion heq
  · exact fun s X hm => LCD.ensureVertex_maps hm
  · exact fun s c s2 hm h => LCD.addConstraint_maps hm h
  · exact fun origin u s s2 hm hl hne h => LCD.collapseOne_maps hm hl hne h
  · exact fun fuel s s2 hm h => LCD.solveLoop_maps h hm

/-- Witness for `maps_invariant`: the consistency of the fresh solver flows
through building `progCycle2` (two mutual copies) and a full `solve` run
that collapses the two-node cycle. -/
theorem maps_invariant_witness :
    mapsConsistent LCD.init
      ∧ LCD.build progCycle2 = .ok (getOk (LCD.build progCycle2))
      ∧ mapsConsistent (getOk (LCD.build progCycle2))
      ∧ LCD.solve 100 (getOk (LCD.build progCycle2))
          = .ok (getOk (LCD.solve 100 (getOk (LCD.build progCycle2))))
      ∧ mapsConsistent
          (getOk (LCD.solve 100 (getOk (LCD.build progCycle2)))) := by
  have h0 : mapsConsistent LCD.init := maps_invariant.1
  have hb1 : LCD.addConstraint LCD.init ⟨.copy, 20, 21⟩
      = .ok (getOk (LCD.addConstraint LCD.init ⟨.copy, 20, 21⟩)) := rfl
  have hm1 := maps_invariant.2.2.1 _ _ _ h0 hb1
  have hb2 : LCD.addConstraint
        (getOk (LCD.addConstraint LCD.init ⟨.copy, 20, 21⟩)) ⟨.copy, 21, 20⟩
      = .ok (getOk (LCD.build progCycle2)) := rfl
  have hm2 := maps_invariant.2.2.1 _ _ _ hm1 hb2
  have hs : LCD.solve 100 (getOk (LCD.build progCycle2))
      = .ok (getOk (LCD.solve 100 (getOk (LCD.build progCycle2)))) := rfl
  have hm3 := maps_invariant.2.2.2.2 _ _ _ hm2 hs
  exact ⟨h0, rfl, hm2, hs, hm3⟩

/-! ### Correctness of `alias` (claim C5) -/

/-- Popping an exhausted frame preserves the search invariant. -/
theorem dfInv_pop {G : Graph} {b : Nat} {top : Frame} {stk : List Frame}
    {visited : List Nat}
    (hInv : dfInv G b (top :: stk) visited) (htr : top.rest = []) :
    dfInv G b stk visited := by
  obtain ⟨hin, hfr, hcl, hreach⟩ := hInv
  refine ⟨fun f hf => hin f (List.mem_cons_of_mem _ hf),
          fun f hf => hfr f (List.mem_cons_of_mem _ hf), ?_, hreach⟩
  intro v hv hvmap nv hnv e he y hy
  by_cases hvtop : v = top.node
  · obtain ⟨nf, hnf, -, pre, hout, hpre⟩ := hfr top (List.mem_cons_self _ _)
    rw [hvtop, hnf] at hnv
    injection hnv with hnv
    rw [htr, List.append_nil] at hout
    apply hpre e ?_ y hy
    rw [← hout, hnv]
    exact he
  · apply hcl v hv ?_ nv hnv e he y hy
    intro hmem
    rw [List.map_cons] at hmem
    rcases List.mem_cons.mp hmem with hm | hm
    · exact hvtop hm
    · exact hvmap hm

/-- Skipping an already-visited successor preserves the search invariant. -/
theorem dfInv_skip {G : Graph} {b : Nat} {top : Frame} {stk : List Frame}
    {visited : List Nat} {e : Nat} {rest2 : List Nat} {next : Nat}
    (hInv : dfInv G b (top :: stk) visited)
    (htr : top.rest = e :: rest2)
    (hnext : G.getEdgeTarget e = .ok next)
    (hvis : next ∈ visited) :
    dfInv G b ({ top with rest := rest2 } :: stk) visited := by
  obtain ⟨hin, hfr, hcl, hreach⟩ := hInv
  refine ⟨?_, ?_, ?_, hreach⟩
  · intro f hf
    rcases List.mem_cons.mp hf with hf | hf
    · rw [hf]
      exact hin top (List.mem_cons_self _ _)
    · exact hin f (List.mem_cons_of_mem _ hf)
  · intro f hf
    rcases List.mem_cons.mp hf with hf | hf
    · subst hf
      obtain ⟨nf, hnf, hnfcl, pre, hout, hpre⟩ := hfr top (List.mem_cons_self _ _)
      refine ⟨nf, hnf, hnfcl, pre ++ [e], ?_, ?_⟩
      · show nf.outEdges = (pre ++ [e]) ++ rest2
        rw [hout, htr]
        simp
      · intro e2 he2 y hy
        rcases List.mem_append.mp he2 with he2 | he2
        · exact hpre e2 he2 y hy
        · have heq : e2 = e := by simpa using he2
          rw [heq, hnext] at hy
          injection hy with hy
          rw [← hy]
          exact hvis
    · exact hfr f (List.mem_cons_of_mem _ hf)
  · intro v hv hvmap nv hnv e2 he2 y hy
    apply hcl v hv ?_ nv hnv e2 he2 y hy
    exact fun hmem => hvmap hmem

/-- Pushing a fresh live successor preserves the search invariant. -/
theorem dfInv_push {G : Graph} {b : Nat} {top : Frame} {stk : List Frame}
    {visited : List Nat} {e : Nat} {rest2 : List Nat} {next : Nat}
    {nnf : NodeEntry}
    (hInv : dfInv G b (top :: stk) visited)
    (htr : top.rest = e :: rest2)
    (hnext : G.getEdgeTarget e = .ok next)
    (hnnf1 : G.nodes[next]? = some nnf) (hnnf2 : nnf.cleared = false) :
    dfInv G b
      ((⟨next, nnf.outEdges⟩ : Frame) :: { top with rest := rest2 } :: stk)
      (next :: visited) := by
  obtain ⟨hin, hfr, hcl, hreach⟩ := hInv
  obtain ⟨nf, hnf, hnfcl, pre, hout, hpre⟩ := hfr top (List.mem_cons_self _ _)
  have houtmem : e ∈ nf.outEdges := by
    rw [hout, htr]
    exact List.mem_append.mpr (Or.inr (List.mem_cons_self _ _))
  refine ⟨?_, ?_, ?_, ?_⟩
  · intro f hf
    rcases List.mem_cons.mp hf with hf | hf
    · rw [hf]
      exact List.mem_cons_self _ _
    · rcases List.mem_cons.mp hf with hf2 | hf2
      · rw [hf2]
        exact List.mem_cons_of_mem _ (hin top (List.mem_cons_self _ _))
      · exact List.mem_cons_of_mem _ (hin f (List.mem_cons_of_mem _ hf2))
  · intro f hf
    rcases List.mem_cons.mp hf with hf | hf
    · subst hf
      exact ⟨nnf, hnnf1, hnnf2, [], by simp,
             fun e2 he2 => absurd he2 (List.not_mem_nil e2)⟩
    · rcases List.mem_cons.mp hf with hf2 | hf2
      · subst hf2
        refine ⟨nf, hnf, hnfcl, pre ++ [e], ?_, ?_⟩
        · show nf.outEdges = (pre ++ [e]) ++ rest2
          rw [hout, htr]
          simp
        · intro e2 he2 y hy
          rcases List.mem_append.mp he2 with he2 | he2
          · exact List.mem_cons_of_mem _ (hpre e2 he2 y hy)
          · have heq : e2 = e := by simpa using he2
            rw [heq, hnext] at hy
            injection hy with hy
            rw [← hy]
            exact List.mem_cons_self _ _
      · obtain ⟨nf2, hnf2a, hnf2b, pre2, hout2, hpre2⟩ :=
          hfr f (List.mem_cons_of_mem _ hf2)
        exact ⟨nf2, hnf2a, hnf2b, pre2, hout2,
               fun e2 he2 y hy => List.mem_cons_of_mem _ (hpre2 e2 he2 y hy)⟩
  · intro v hv hvmap nv hnv e2 he2 y hy
    rcases List.mem_cons.mp hv with hv | hv
    · exfalso
      apply hvmap
      rw [hv]
      exact List.mem_cons_self _ _
    · refine List.mem_cons_of_mem _ ?_
      apply hcl v hv ?_ nv hnv e2 he2 y hy
      intro hmem
      apply hvmap
      show v ∈ ((⟨next, nnf.outEdges⟩ : Frame)
          :: { top with rest := rest2 } :: stk).map Frame.node
      rw [List.map_cons]
      exact List.mem_cons_of_mem _ hmem
  · intro v hv
    rcases List.mem_cons.mp hv with hv | hv
    · subst hv
      exact Relation.ReflTransGen.tail
        (hreach top.node (hin top (List.mem_cons_self _ _)))
        ⟨nf, e, hnf, hnfcl, houtmem, hnext⟩
    · exact hreach v hv

/-- Advancing the iterator preserves the search invariant; the visited set
only grows, and any newly visited node is the new current position. -/
theorem dfToNext_pres {G : Graph} {b : Nat} :
    ∀ {fuel : Nat} {stack : List Frame} {visited : List Nat}
      {stack2 : List Frame} {visited2 : List Nat},
      dfToNext G fuel stack visited = .ok (some (stack2, visited2)) →
      dfInv G b stack visited →
      dfInv G b stack2 visited2 ∧ visited ⊆ visited2
        ∧ (∀ v ∈ visited2,
            v ∈ visited ∨ (stack2.map Frame.node).head? = some v) := by
  intro fuel
  induction fuel with
  | zero =>
    intro _ _ _ _ h _
    exact Except.noConfusion h
  | succ fuel ih =>
    intro stack visited s2 v2 h hInv
    cases stack with
    | nil =>
      injection h with h
      exact Option.noConfusion h
    | cons top stk =>
      cases htr : top.rest with
      | nil =>
        simp only [dfToNext, htr] at h
        exact ih h (dfInv_pop hInv htr)
      | cons e rest2 =>
        simp only [dfToNext, htr] at h
        obtain ⟨next, hnext, h⟩ := bindOk h
        split at h
        · rename_i hcont
          exact ih h (dfInv_skip hInv htr hnext (by simpa using hcont))
        · rename_i hcont
          obtain ⟨nnf, hnnf, h⟩ := bindOk h
          injection h with h
          injection h with h
          injection h with h1 h2
          obtain ⟨hn1, hn2⟩ := Graph.getNode_ok hnnf
          refine ⟨?_, ?_, ?_⟩
          · rw [← h1, ← h2]
            exact dfInv_push hInv htr hnext hn1 hn2
          · rw [← h2]
            exact fun x hx => List.mem_cons_of_mem _ hx
          · rw [← h1, ← h2]
            intro v hv
            rcases List.mem_cons.mp hv with hv | hv
            · right
              rw [hv]
              rfl
            · exact Or.inl hv

/-- When the iterator reaches the end, the visited set is closed under
out-edge adjacency. -/
theorem dfToNext_closure {G : Graph} {b : Nat} :
    ∀ {fuel : Nat} {stack : List Frame} {visited : List Nat},
      dfToNext G fuel stack visited = .ok none →
      dfInv G b stack visited →
      ∀ v ∈ visited, ∀ nv, G.nodes[v]? = some nv →
        ∀ e ∈ nv.outEdges, ∀ y, G.getEdgeTarget e = .ok y → y ∈ visited := by
  intro fuel
  induction fuel with
  | zero =>
    intro _ _ h _
    exact Except.noConfusion h
  | succ fuel ih =>
    intro stack visited h hInv
    cases stack with
    | nil =>
      intro v hv nv hnv e he y hy
      exact hInv.2.2.1 v hv (by simp) nv hnv e he y hy
    | cons top stk =>
      cases htr : top.rest with
      | nil =>
        simp only [dfToNext, htr] at h
        exact ih h (dfInv_pop hInv htr)
      | cons e rest2 =>
        simp only [dfToNext, htr] at h
        obtain ⟨next, hnext, h⟩ := bindOk h
        split at h
        · rename_i hcont
          exact ih h (dfInv_skip hInv htr hnext (by simpa using hcont))
        · obtain ⟨nnf, hnnf, h⟩ := bindOk h
          injection h with h
          exact Option.noConfusion h

/-- An adjacency-closed visited set containing the start absorbs everything
reachable from the start. -/
theorem reaches_closed {G : Graph} {b : Nat} {visited : List Nat}
    (hb : b ∈ visited)
    (hcl : ∀ v ∈ visited, ∀ nv, G.nodes[v]? = some nv →
      ∀ e ∈ nv.outEdges, ∀ y, G.getEdgeTarget e = .ok y → y ∈ visited) :
    ∀ x, reaches G b x → x ∈ visited := by
  intro x h
  induction h with
  | refl => exact hb
  | tail h1 hstep ih =>
    obtain ⟨nx, e, hnx, hncl, he, hty⟩ := hstep
    exact hcl _ ih nx hnx e he _ hty

/-- The `alias` search loop answers reachability exactly: under the search
invariant, with the start visited and every visited node other than the
current position already checked against `a`, the loop returns `true`
exactly when `a` is reachable from `b`. -/
theorem aliasLoop_iff {G : Graph} {a b dfF : Nat} :
    ∀ {fuel : Nat} {stack : List Frame} {visited : List Nat} {r : Bool},
      aliasLoop G a dfF fuel stack visited = .ok r →
      dfInv G b stack visited →
      b ∈ visited →
      (∀ v ∈ visited, (stack.map Frame.node).head? = some v ∨ v ≠ a) →
      (r = true ↔ reaches G b a) := by
  intro fuel
  induction fuel with
  | zero =>
    intro _ _ _ h _ _ _
    exact Except.noConfusion h
  | succ fuel ih =>
    intro stack visited r h hInv hb hH
    cases stack with
    | nil =>
      injection h with h
      subst h
      constructor
      · intro hc
        exact absurd hc (by simp)
      · intro hre
        exfalso
        have hclosed : ∀ v ∈ visited, ∀ nv, G.nodes[v]? = some nv →
            ∀ e ∈ nv.outEdges, ∀ y, G.getEdgeTarget e = .ok y → y ∈ visited :=
          fun v hv nv hnv e he y hy =>
            hInv.2.2.1 v hv (by simp) nv hnv e he y hy
        have hmem := reaches_closed hb hclosed a hre
        rcases hH a hmem with hh | hh
        · simp at hh
        · exact hh rfl
    | cons top stk =>
      simp only [aliasLoop] at h
      split at h
      · rename_i htop
        injection h with h
        subst h
        constructor
        · intro _
          have hr := hInv.2.2.2 top.node (hInv.1 top (List.mem_cons_self _ _))
          rw [htop] at hr
          exact hr
        · intro _
          rfl
      · rename_i htop
        obtain ⟨onext, honext, h⟩ := bindOk h
        cases onext with
        | none =>
          injection h with h
          subst h
          constructor
          · intro hc
            exact absurd hc (by simp)
          · intro hre
            exfalso
            have hclosure := dfToNext_closure honext hInv
            have hmem := reaches_closed hb hclosure a hre
            rcases hH a hmem with hh | hh
            · rw [List.map_cons, List.head?_cons] at hh
              injection hh with hh
              exact htop hh
            · exact hh rfl
        | some pr =>
          obtain ⟨st2, vi2⟩ := pr
          obtain ⟨hInv2, hsub, hnew⟩ := dfToNext_pres honext hInv
          apply ih h hInv2 (hsub hb)
          intro v hv
          rcases hnew v hv with hvold | hvhead
          · rcases hH v hvold with hh | hh
            · right
              rw [List.map_cons, List.head?_cons] at hh
              injection hh with hh
              intro hcon
              exact htop (hh.trans hcon)
            · exact Or.inr hh
          · exact Or.inl hvhead

/-- The search loop succeeds immediately when the current position is the
sought node. -/
theorem aliasLoop_hit {G : Graph} {a dfF fuel : Nat} {top : Frame}
    {stk : List Frame} {visited : List Nat} (h : top.node = a) :
    aliasLoop G a dfF (fuel + 1) (top :: stk) visited = .ok true := by
  simp [aliasLoop, h]

/-- Claim C5: `alias(A, B)` returns false whenever either value is
unregistered (including `alias(v, v)` for unregistered `v`); returns true
whenever both values map to the same (live) node — in particular
`alias(v, v)` for every registered `v`; and otherwise, whenever it returns
at all, it returns true exactly when `A`'s node is reachable from `B`'s node
by the depth-first search over out-edges in the current graph. -/
theorem alias_spec :
    (∀ (s : LCDState) (A B : Nat),
        s.rightVars A = none ∨ s.rightVars B = none →
        LCD.alias s A B = .ok false)
      ∧ (∀ (s : LCDState) (v a : Nat), s.rightVars v = some a →
          LCD.alias s v v = .ok true)
      ∧ (∀ (s : LCDState) (A B a : Nat), A ≠ B →
          s.rightVars A = some a → s.rightVars B = some a →
          (nodesCleared s.G)[a]? = some false →
          LCD.alias s A B = .ok true)
      ∧ (∀ (s : LCDState) (A B a b : Nat) (r : Bool),
          s.rightVars A = some a → s.rightVars B = some b →
          LCD.alias s A B = .ok r →
          (r = true ↔ reaches s.G b a)) := by
  refine ⟨?_, ?_, ?_, ?_⟩
  · intro s A B h
    cases hA : s.rightVars A with
    | none => simp [LCD.alias, hA]
    | some x =>
      rcases h with h | h
      · rw [hA] at h
        exact Option.noConfusion h
      · simp [LCD.alias, hA, h]
  · intro s v a hv
    simp [LCD.alias, hv]
  · intro s A B a hAB hA hB hlive
    obtain ⟨en, hen1, hen2⟩ :
        ∃ en, s.G.nodes[a]? = some en ∧ en.cleared = false := by
      rw [nodesCleared_getElem] at hlive
      cases hh : s.G.nodes[a]? with
      | none =>
        rw [hh] at hlive
        exact Option.noConfusion hlive
      | some en =>
        rw [hh] at hlive
        injection hlive with hlive
        exact ⟨en, rfl, hlive⟩
    have hget : s.G.getNode a = .ok en := Graph.getNode_ok_intro hen1 hen2
    show LCD.alias s A B = .ok true
    simp only [LCD.alias, hA, hB]
    rw [if_neg hAB]
    simp only [dfBegin, hget, okBind]
    show aliasLoop s.G a s.G.dfFuel (s.G.nodes.length + 1 + 1)
      [⟨a, en.outEdges⟩] [a] = .ok true
    exact aliasLoop_hit rfl
  · intro s A B a b r hA hB h
    by_cases hAB : A = B
    · subst hAB
      rw [hA] at hB
      injection hB with hB
      simp only [LCD.alias, hA] at h
      rw [if_pos trivial] at h
      injection h with h
      constructor
      · intro _
        rw [← hB]
        exact Relation.ReflTransGen.refl
      · intro _
        exact h.symm
    · simp only [LCD.alias, hA, hB] at h
      rw [if_neg hAB] at h
      obtain ⟨pr, hpr, h⟩ := bindOk h
      simp only [dfBegin] at hpr
      obtain ⟨nb, hnb, hpr⟩ := bindOk hpr
      injection hpr with hpr
      obtain ⟨hnb1, hnb2⟩ := Graph.getNode_ok hnb
      subst hpr
      apply aliasLoop_iff (b := b) h
      · refine ⟨?_, ?_, ?_, ?_⟩
        · intro f hf
          have hfe : f = (⟨b, nb.outEdges⟩ : Frame) := by simpa using hf
          rw [hfe]
          exact List.mem_cons_self _ _
        · intro f hf
          have hfe : f = (⟨b, nb.outEdges⟩ : Frame) := by simpa using hf
          subst hfe
          exact ⟨nb, hnb1, hnb2, [], by simp,
                 fun e he => absurd he (List.not_mem_nil e)⟩
        · intro v hv hvmap
          refine absurd ?_ hvmap
          have hvb : v = b := by simpa using hv
          rw [hvb]
          exact List.mem_cons_self _ _
        · intro v hv
          have hvb : v = b := by simpa using hv
          rw [hvb]
          exact Relation.ReflTransGen.refl
      · exact List.mem_cons_self _ _
      · intro v hv
        left
        have hvb : v = b := by simpa using hv
        rw [hvb]
        rfl

/-- Witness for `alias_spec` on concretely solved programs: the value `99`
is unregistered in the solved `prog3` state (so aliasing it with anything is
false), registered self-alias is true, the two values merged by the
collapsed two-node cycle of `progCycle2` alias each other, and the
`alias(10, 11)` query on solved `prog3` is characterized by out-edge
reachability. -/
theorem alias_spec_witness :
    ((getOk prog3State).rightVars 99 = none
      ∧ LCD.alias (getOk prog3State) 99 10 = .ok false
      ∧ LCD.alias (getOk prog3State) 99 99 = .ok false)
    ∧ ((getOk prog3State).rightVars 10 = some 0
      ∧ LCD.alias (getOk prog3State) 10 10 = .ok true)
    ∧ ((20 : Nat) ≠ 21
      ∧ (getOk progCycle2Solved).rightVars 20 = some 1
      ∧ (getOk progCycle2Solved).rightVars 21 = some 1
      ∧ (nodesCleared (getOk progCycle2Solved).G)[1]? = some false
      ∧ LCD.alias (getOk progCycle2Solved) 20 21 = .ok true)
    ∧ ((getOk prog3State).rightVars 11 = some 1
      ∧ LCD.alias (getOk prog3State) 10 11
          = .ok (getOk (LCD.alias (getOk prog3State) 10 11))
      ∧ (getOk (LCD.alias (getOk prog3State) 10 11) = true
          ↔ reaches (getOk prog3State).G 1 0)) := by
  refine ⟨⟨rfl, ?_, ?_⟩, ⟨rfl, ?_⟩, ⟨by decide, rfl, rfl, rfl, ?_⟩, ⟨rfl, rfl, ?_⟩⟩
  · exact alias_spec.1 (getOk prog3State) 99 10 (Or.inl rfl)
  · exact alias_spec.1 (getOk prog3State) 99 99 (Or.inl rfl)
  · exact alias_spec.2.1 (getOk prog3State) 10 0 rfl
  · exact alias_spec.2.2.1 (getOk progCycle2Solved) 20 21 1 (by decide) rfl rfl rfl
  · exact alias_spec.2.2.2 (getOk prog3State) 10 11 0 1
      (getOk (LCD.alias (getOk prog3State) 10 11)) rfl rfl rfl

/-! ### Fuel safety of the fuel-free operations

Every C++ loop embedded with fuel must have its fuel shown sufficient; every
fuel-free operation is `fuelSafe` outright, because its only errors are the
assertion failures of the source. -/

/-- A bound computation runs out of fuel only if one of its stages does. -/
theorem bindNoFuel {α β : Type} {x : M α} {f : α → M β}
    (h : x >>= f = .error Err.noFuel) :
    x = .error Err.noFuel ∨ ∃ a, x = .ok a ∧ f a = .error Err.noFuel := by
  cases x with
  | ok a => exact Or.inr ⟨a, rfl, h⟩
  | error e =>
    left
    have he : (Except.error e : M α) >>= f = Except.error e := rfl
    rw [he] at h
    injection h with h
    rw [h]

/-- Binding fuel-safe stages is fuel-safe. -/
theorem fuelSafe_bind {α β : Type} {x : M α} {f : α → M β}
    (hx : fuelSafe x) (hf : ∀ a, fuelSafe (f a)) : fuelSafe (x >>= f) := by
  intro h
  rcases bindNoFuel h with h | ⟨a, -, h⟩
  · exact hx h
  · exact hf a h

/-- Successful results are fuel-safe. -/
theorem fuelSafe_ok {α : Type} (a : α) : fuelSafe (Except.ok a : M α) := by
  intro h
  exact Except.noConfusion h

/-- Assertion failures are fuel-safe (they are not `noFuel`). -/
theorem fuelSafe_assert {α : Type} (m : String) :
    fuelSafe (Except.error (Err.assertFail m) : M α) := by
  intro h
  injection h with h
  exact Err.noConfusion h

/-- `getNode` never runs out of fuel. -/
theorem fuelSafe_getNode (G : Graph) (n : Nat) : fuelSafe (G.getNode n) := by
  unfold Graph.getNode
  split
  · split
    · exact fuelSafe_assert _
    · exact fuelSafe_ok _
  · exact fuelSafe_assert _

/-- `getEdge` never runs out of fuel. -/
theorem fuelSafe_getEdge (G : Graph) (e : Nat) : fuelSafe (G.getEdge e) := by
  unfold Graph.getEdge
  split
  · split
    · exact fuelSafe_assert _
    · exact fuelSafe_ok _
  · exact fuelSafe_assert _

/-- `getEdgeSource` never runs out of fuel. -/
theorem fuelSafe_getEdgeSource (G : Graph) (e : Nat) :
    fuelSafe (G.getEdgeSource e) := by
  simp only [Graph.getEdgeSource]
  exact fuelSafe_bind (fuelSafe_getEdge G e) (fun a => fuelSafe_ok _)

/-- `getEdgeTarget` never runs out of fuel. -/
theorem fuelSafe_getEdgeTarget (G : Graph) (e : Nat) :
    fuelSafe (G.getEdgeTarget e) := by
  simp only [Graph.getEdgeTarget]
  exact fuelSafe_bind (fuelSafe_getEdge G e) (fun a => fuelSafe_ok _)

/-- `outEdges` never runs out of fuel. -/
theorem fuelSafe_outEdges (G : Graph) (n : Nat) : fuelSafe (G.outEdges n) := by
  simp only [Graph.outEdges]
  exact fuelSafe_bind (fuelSafe_getNode G n) (fun a => fuelSafe_ok _)

/-- `inEdges` never runs out of fuel. -/
theorem fuelSafe_inEdges (G : Graph) (n : Nat) : fuelSafe (G.inEdges n) := by
  simp only [Graph.inEdges]
  exact fuelSafe_bind (fuelSafe_getNode G n) (fun a => fuelSafe_ok _)

/-- The `findEdge` scan never runs out of fuel. -/
theorem fuelSafe_findEdgeAux (G : Graph) (t : Nat) :
    ∀ (l : List Nat), fuelSafe (G.findEdgeAux t l) := by
  intro l
  induction l with
  | nil =>
    simp only [Graph.findEdgeAux]
    exact fuelSafe_ok _
  | cons e rest ih =>
    simp only [Graph.findEdgeAux]
    refine fuelSafe_bind (fuelSafe_getEdgeTarget G e) ?_
    intro a
    split
    · exact fuelSafe_ok _
    · exact ih

/-- `findEdge` never runs out of fuel. -/
theorem fuelSafe_findEdge (G : Graph) (s t : Nat) :
    fuelSafe (G.findEdge s t) := by
  simp only [Graph.findEdge]
  exact fuelSafe_bind (fuelSafe_outEdges G s) (fun outs => fuelSafe_findEdgeAux G t outs)

/-- `addEdge` never runs out of fuel. -/
theorem fuelSafe_addEdge (G : Graph) (s t : Nat) : fuelSafe (G.addEdge s t) := by
  simp only [Graph.addEdge]
  refine fuelSafe_bind (fuelSafe_findEdge G s t) ?_
  intro dup
  split
  · exact fuelSafe_assert _
  · refine fuelSafe_bind (fuelSafe_getNode _ _) ?_
    intro ns
    refine fuelSafe_bind (fuelSafe_getNode _ _) ?_
    intro x
    refine fuelSafe_bind (fuelSafe_getNode _ _) ?_
    intro nt
    exact fuelSafe_ok _

/-- `removeEdge` never runs out of fuel. -/
theorem fuelSafe_removeEdge (G : Graph) (e : Nat) :
    fuelSafe (G.removeEdge e) := by
  simp only [Graph.removeEdge]
  refine fuelSafe_bind (fuelSafe_getEdge G e) ?_
  intro E
  refine fuelSafe_bind (fuelSafe_getNode _ _) ?_
  intro ns
  refine fuelSafe_bind (fuelSafe_getNode _ _) ?_
  intro nt
  exact fuelSafe_ok _

/-- The edge-removal loop never runs out of fuel. -/
theorem fuelSafe_removeEdgesList : ∀ (l : List Nat) (G : Graph),
    fuelSafe (G.removeEdgesList l) := by
  intro l
  induction l with
  | nil =>
    intro G
    simp only [Graph.removeEdgesList]
    exact fuelSafe_ok _
  | cons e rest ih =>
    intro G
    simp only [Graph.removeEdgesList]
    exact fuelSafe_bind (fuelSafe_removeEdge G e) (fun G1 => ih G1)

/-- `removeNode` never runs out of fuel. -/
theorem fuelSafe_removeNode (G : Graph) (n : Nat) :
    fuelSafe (G.removeNode n) := by
  simp only [Graph.removeNode]
  refine fuelSafe_bind (fuelSafe_getNode _ _) ?_
  intro N
  refine fuelSafe_bind (fuelSafe_removeEdgesList _ _) ?_
  intro G1
  refine fuelSafe_bind (fuelSafe_getNode _ _) ?_
  intro N1
  refine fuelSafe_bind (fuelSafe_removeEdgesList _ _) ?_
  intro G2
  split
  · exact fuelSafe_ok _
  · exact fuelSafe_assert _

/-- A fold of fuel-safe steps is fuel-safe. -/
theorem fuelSafe_foldlM {α σ : Type} {f : σ → α → M σ}
    (hf : ∀ s a, fuelSafe (f s a)) :
    ∀ (l : List α) (init : σ), fuelSafe (l.foldlM f init) := by
  intro l
  induction l with
  | nil =>
    intro init
    rw [List.foldlM_nil]
    exact fuelSafe_ok _
  | cons a rest ih =>
    intro init
    rw [List.foldlM_cons]
    exact fuelSafe_bind (hf init a) (fun s1 => ih s1)

/-- The in-edge body of `collapse` never runs out of fuel. -/
theorem fuelSafe_collapseInStep (origin u : Nat) (s : LCDState) (j : Nat) :
    fuelSafe (LCD.collapseInStep origin u s j) := by
  simp only [LCD.collapseInStep]
  refine fuelSafe_bind (fuelSafe_getEdgeSource _ _) ?_
  intro v
  split
  · exact fuelSafe_ok _
  · split
    · refine fuelSafe_bind (fuelSafe_findEdge _ _ _) ?_
      intro f
      split
      · refine fuelSafe_bind (fuelSafe_addEdge _ _ _) ?_
        intro p
        exact fuelSafe_bind (fuelSafe_ok _) (fun y => fuelSafe_ok _)
      · exact fuelSafe_bind (fuelSafe_ok _) (fun y => fuelSafe_ok _)
    · exact fuelSafe_bind (fuelSafe_ok _) (fun y => fuelSafe_ok _)

/-- The out-edge body of `collapse` never runs out of fuel. -/
theorem fuelSafe_collapseOutStep (origin u : Nat) (s : LCDState) (k : Nat) :
    fuelSafe (LCD.collapseOutStep origin u s k) := by
  simp only [LCD.collapseOutStep]
  refine fuelSafe_bind (fuelSafe_getEdgeTarget _ _) ?_
  intro v
  split
  · exact fuelSafe_ok _
  · split
    · refine fuelSafe_bind (fuelSafe_findEdge _ _ _) ?_
      intro f
      split
      · exact fuelSafe_bind (fuelSafe_addEdge _ _ _) (fun p => fuelSafe_ok _)
      · exact fuelSafe_ok _
    · exact fuelSafe_ok _

/-- Merging one node never runs out of fuel. -/
theorem fuelSafe_collapseOne (origin : Nat) (s : LCDState) (u : Nat) :
    fuelSafe (LCD.collapseOne origin s u) := by
  simp only [LCD.collapseOne]
  refine fuelSafe_bind (fuelSafe_getNode _ _) ?_
  intro nu
  refine fuelSafe_bind
    (fuelSafe_foldlM (fun s a => fuelSafe_collapseInStep origin u s a) _ _) ?_
  intro s1
  refine fuelSafe_bind (fuelSafe_getNode _ _) ?_
  intro nu2
  refine fuelSafe_bind
    (fuelSafe_foldlM (fun s a => fuelSafe_collapseOutStep origin u s a) _ _) ?_
  intro s2
  refine fuelSafe_bind (fuelSafe_removeNode _ _) ?_
  intro G1
  exact fuelSafe_ok _

/-- `collapse` never runs out of fuel. -/
theorem fuelSafe_collapse (s : LCDState) (path : List Nat) :
    fuelSafe (LCD.collapse s path) := by
  cases path with
  | nil =>
    simp only [LCD.collapse]
    exact fuelSafe_ok _
  | cons origin rest =>
    simp only [LCD.collapse]
    exact fuelSafe_foldlM (fun s u => fuelSafe_collapseOne origin s u) rest s

/-- Handling one found cycle path never runs out of fuel. -/
theorem fuelSafe_cyclePathStep (p : SolveSt × Nat) (path : List Nat) :
    fuelSafe (LCD.cyclePathStep p path) := by
  simp only [LCD.cyclePathStep]
  refine fuelSafe_bind (fuelSafe_collapse _ _) ?_
  intro s2
  exact fuelSafe_ok _

/-- The load-materialization body never runs out of fuel. -/
theorem fuelSafe_loadStep (v : Nat) (st : SolveSt) (a : Nat) :
    fuelSafe (LCD.loadStep v st a) := by
  simp only [LCD.loadStep]
  refine fuelSafe_bind (fuelSafe_findEdge _ _ _) ?_
  intro f
  split
  · exact fuelSafe_bind (fuelSafe_addEdge _ _ _) (fun p => fuelSafe_ok _)
  · exact fuelSafe_ok _

/-- The store-materialization body never runs out of fuel. -/
theorem fuelSafe_storeStep (v : Nat) (st : SolveSt) (b : Nat) :
    fuelSafe (LCD.storeStep v st b) := by
  simp only [LCD.storeStep]
  refine fuelSafe_bind (fuelSafe_findEdge _ _ _) ?_
  intro f
  split
  · exact fuelSafe_bind (fuelSafe_addEdge _ _ _) (fun p => fuelSafe_ok _)
  · exact fuelSafe_ok _

/-- The pointee body of `solve` never runs out of fuel. -/
theorem fuelSafe_ptsStep (n : Nat) (st : SolveSt) (v : Nat) :
    fuelSafe (LCD.ptsStep n st v) := by
  simp only [LCD.ptsStep]
  refine fuelSafe_bind
    (fuelSafe_foldlM (fun s a => fuelSafe_loadStep v s a) _ _) ?_
  intro st1
  exact fuelSafe_foldlM (fun s a => fuelSafe_storeStep v s a) _ _

/-- Collecting the successor set never runs out of fuel. -/
theorem fuelSafe_buildL (s : LCDState) (n : Nat) : fuelSafe (LCD.buildL s n) := by
  simp only [LCD.buildL]
  refine fuelSafe_bind (fuelSafe_outEdges _ _) ?_
  intro outs
  refine fuelSafe_foldlM ?_ _ _
  intro l e
  exact fuelSafe_bind (fuelSafe_getEdgeTarget _ _) (fun t => fuelSafe_ok _)


/-! ### Fuel sufficiency of the depth-first loops

The micro-step measure of `dfToNext` is the stack length plus the remaining
cursor work; it is bounded by `nodes.length + totalOut`, which `dfFuel`
dominates.  The position count of `fcLoop` is bounded by the visited set,
which grows by a fresh node at every position, so `posFuel` dominates it. -/

/-- An index with a successful lookup is in range. -/
theorem getElem?_some_lt {α : Type} {l : List α} {n : Nat} {a : α}
    (h : l[n]? = some a) : n < l.length := by
  by_contra hlt
  push_neg at hlt
  rw [List.getElem?_eq_none hlt] at h
  exact Option.noConfusion h

/-- Summing the out-degree lookup over all indices gives `totalOut`. -/
theorem lookOut_sum : ∀ (L : List NodeEntry),
    (Finset.range L.length).sum (lookOut L)
      = (L.map (fun n => n.outEdges.length)).sum := by
  intro L
  induction L with
  | nil => simp
  | cons a L ih =>
    rw [List.length_cons, Finset.sum_range_succ']
    have h1 : ∀ i, lookOut (a :: L) (i + 1) = lookOut L i := by
      intro i
      simp [lookOut]
    have h0 : lookOut (a :: L) 0 = a.outEdges.length := by
      simp [lookOut]
    simp only [h1, h0, ih, List.map_cons, List.sum_cons]
    omega

/-- Out-degrees summed over distinct node indices are at most `totalOut`. -/
theorem nodup_sum_lookOut {G : Graph} {ns : List Nat} (hnd : ns.Nodup) :
    (ns.map (lookOut G.nodes)).sum ≤ G.totalOut := by
  have h1 : ns.toFinset.sum (lookOut G.nodes) = (ns.map (lookOut G.nodes)).sum :=
    List.sum_toFinset _ hnd
  have h2 : (ns.toFinset.filter (fun i => i < G.nodes.length)).sum (lookOut G.nodes)
      = ns.toFinset.sum (lookOut G.nodes) := by
    refine Finset.sum_subset (Finset.filter_subset _ _) ?_
    intro i hi hni
    have hge : G.nodes.length ≤ i := by
      by_contra hlt
      push_neg at hlt
      exact hni (Finset.mem_filter.mpr ⟨hi, hlt⟩)
    unfold lookOut
    rw [List.getElem?_eq_none hge]
  have h3 : ns.toFinset.filter (fun i => i < G.nodes.length)
      ⊆ Finset.range G.nodes.length := by
    intro i hi
    exact Finset.mem_range.mpr (Finset.mem_filter.mp hi).2
  have h4 := Finset.sum_le_sum_of_subset h3 (f := lookOut G.nodes)
  rw [← h1, ← h2]
  exact h4.trans (le_of_eq (lookOut_sum G.nodes))

/-- The total cursor work of a stack of frames over distinct live nodes is
bounded by `totalOut`. -/
theorem stack_sum_bound {G : Graph} {l : List Frame}
    (hnd : (l.map Frame.node).Nodup)
    (hfr : ∀ f ∈ l, ∃ nf, G.nodes[f.node]? = some nf
        ∧ f.rest.length ≤ nf.outEdges.length) :
    (l.map (fun f => f.rest.length)).sum ≤ G.totalOut := by
  have h1 : (l.map (fun f => f.rest.length)).sum
      ≤ (l.map (fun f => lookOut G.nodes f.node)).sum := by
    refine List.sum_le_sum ?_
    intro f hf
    obtain ⟨nf, hnf, hle⟩ := hfr f hf
    show f.rest.length ≤ lookOut G.nodes f.node
    unfold lookOut
    rw [hnf]
    exact hle
  have h2 : (l.map (fun f => lookOut G.nodes f.node)).sum
      = ((l.map Frame.node).map (lookOut G.nodes)).sum := by
    rw [List.map_map]
    rfl
  rw [h2] at h1
  exact h1.trans (nodup_sum_lookOut hnd)

/-- `dfToNext` cannot run out of fuel once the fuel dominates the stack
measure (stack length plus remaining cursor work). -/
theorem dfToNext_nofuel {G : Graph} :
    ∀ {fuel : Nat} {stack : List Frame} {visited : List Nat},
      stack.length + (stack.map (fun f => f.rest.length)).sum < fuel →
      dfToNext G fuel stack visited ≠ .error Err.noFuel := by
  intro fuel
  induction fuel with
  | zero =>
    intro stack visited hm
    exact absurd hm (Nat.not_lt_zero _)
  | succ fuel ih =>
    intro stack visited hm hcon
    cases stack with
    | nil =>
      simp only [dfToNext] at hcon
      exact Except.noConfusion hcon
    | cons top stk =>
      cases htr : top.rest with
      | nil =>
        simp only [dfToNext, htr] at hcon
        refine ih ?_ hcon
        have hr : top.rest.length = 0 := by rw [htr]; rfl
        simp only [List.length_cons, List.map_cons, List.sum_cons] at hm
        omega
      | cons e rest2 =>
        simp only [dfToNext, htr] at hcon
        rcases bindNoFuel hcon with hcon | ⟨next, hnext, hcon⟩
        · exact fuelSafe_getEdgeTarget _ _ hcon
        · split at hcon
          · refine ih ?_ hcon
            have hp : ({ top with rest := rest2 } : Frame).rest = rest2 := rfl
            simp only [List.length_cons, List.map_cons, List.sum_cons, hp]
            simp only [List.length_cons, List.map_cons, List.sum_cons, htr] at hm
            omega
          · rcases bindNoFuel hcon with hcon | ⟨nf, hnf, hcon⟩
            · exact fuelSafe_getNode _ _ hcon
            · exact Except.noConfusion hcon

/-- A successful `dfToNext` position pushes exactly one fresh, in-range node
onto the visited list. -/
theorem dfToNext_shape {G : Graph} :
    ∀ {fuel : Nat} {stack : List Frame} {visited : List Nat}
      {stack2 : List Frame} {visited2 : List Nat},
      dfToNext G fuel stack visited = .ok (some (stack2, visited2)) →
      ∃ next, visited2 = next :: visited ∧ next ∉ visited
        ∧ next < G.nodes.length := by
  intro fuel
  induction fuel with
  | zero =>
    intro stack visited s2 v2 h
    exact Except.noConfusion h
  | succ fuel ih =>
    intro stack visited s2 v2 h
    cases stack with
    | nil =>
      injection h with h
      exact Option.noConfusion h
    | cons top stk =>
      cases htr : top.rest with
      | nil =>
        simp only [dfToNext, htr] at h
        exact ih h
      | cons e rest2 =>
        simp only [dfToNext, htr] at h
        obtain ⟨next, hnext, h⟩ := bindOk h
        split at h
        · exact ih h
        · rename_i hcont
          obtain ⟨nf, hnf, h⟩ := bindOk h
          injection h with h
          injection h with h
          injection h with h1 h2
          obtain ⟨hn1, -⟩ := Graph.getNode_ok hnf
          exact ⟨next, h2.symm, by simpa using hcont, getElem?_some_lt hn1⟩

/-- `fcLoop` cannot run out of fuel: with `dfFuel` dominating the iterator
measure, each position adds one fresh node below `nodes.length` to the
visited list, so `posFuel` positions suffice. -/
theorem fcLoop_nofuel {G : Graph} {z dfF : Nat}
    (hdf : G.nodes.length + G.totalOut < dfF) :
    ∀ {fuel : Nat} {stack : List Frame} {visited : List Nat}
      {acc : List (List Nat)},
      dfInv G z stack visited →
      (stack.map Frame.node).Nodup →
      (stack = [] ∨ ∃ pre, stack.map Frame.node = pre ++ [z]) →
      visited.Nodup →
      (∀ v ∈ visited, v < G.nodes.length) →
      G.nodes.length + 1 - visited.length < fuel →
      fcLoop G z dfF fuel stack visited acc ≠ .error Err.noFuel := by
  intro fuel
  induction fuel with
  | zero =>
    intro stack visited acc hInv hnd hbot hvnd hvbd hm
    exact absurd hm (Nat.not_lt_zero _)
  | succ fuel ih =>
    intro stack visited acc hInv hnd hbot hvnd hvbd hm hcon
    cases stack with
    | nil =>
      simp only [fcLoop] at hcon
      exact Except.noConfusion hcon
    | cons top stk =>
      have hmeasure : (top :: stk).length
          + ((top :: stk).map (fun f => f.rest.length)).sum < dfF := by
        have hlen : ((top :: stk).map Frame.node).length ≤ G.nodes.length := by
          refine nodup_lt_length_le hnd ?_
          intro x hx
          obtain ⟨f, hf, hfx⟩ := List.mem_map.mp hx
          obtain ⟨nf, hnf, -⟩ := hInv.2.1 f hf
          rw [← hfx]
          exact getElem?_some_lt hnf
        rw [List.length_map] at hlen
        have hsum : ((top :: stk).map (fun f => f.rest.length)).sum
            ≤ G.totalOut := by
          refine stack_sum_bound hnd ?_
          intro f hf
          obtain ⟨nf, hnf, -, pre, hpre, -⟩ := hInv.2.1 f hf
          refine ⟨nf, hnf, ?_⟩
          rw [hpre, List.length_append]
          omega
        omega
      have tailstep : ∀ (acc2 : List (List Nat)),
          (do
            let onext ← dfToNext G dfF (top :: stk) visited
            match onext with
            | none => (Except.ok acc2 : M (List (List Nat)))
            | some (stack2, visited2) =>
              fcLoop G z dfF fuel stack2 visited2 acc2) = .error Err.noFuel →
          False := by
        intro acc2 hh
        rcases bindNoFuel hh with hh | ⟨onext, honext, hh⟩
        · exact dfToNext_nofuel hmeasure hh
        · cases onext with
          | none => exact Except.noConfusion hh
          | some pr =>
            obtain ⟨st2, vi2⟩ := pr
            obtain ⟨hnd2, hvis2x, hbot2, -⟩ :=
              dfToNext_inv honext hnd hInv.1 hbot
            obtain ⟨hInv2, -, -⟩ := dfToNext_pres honext hInv
            obtain ⟨next, hv2, hnm, hnlt⟩ := dfToNext_shape honext
            have hvnd2 : vi2.Nodup := by
              rw [hv2]
              exact List.nodup_cons.mpr ⟨hnm, hvnd⟩
            have hvbd2 : ∀ v ∈ vi2, v < G.nodes.length := by
              rw [hv2]
              intro v hv
              rcases List.mem_cons.mp hv with hv | hv
              · rw [hv]
                exact hnlt
              · exact hvbd v hv
            have hm2 : G.nodes.length + 1 - vi2.length < fuel := by
              have hvl : visited.length ≤ G.nodes.length :=
                nodup_lt_length_le hvnd hvbd
              rw [hv2, List.length_cons]
              omega
            exact ih hInv2 hnd2 (Or.inr hbot2) hvnd2 hvbd2 hm2 hh
      cases htr : top.rest with
      | nil =>
        simp only [fcLoop, htr] at hcon
        rcases bindNoFuel hcon with hcon | ⟨acc2, -, hcon⟩
        · exact Except.noConfusion hcon
        · exact tailstep acc2 hcon
      | cons e rest2 =>
        simp only [fcLoop, htr] at hcon
        rcases bindNoFuel (x := G.getEdgeTarget e) hcon with hcon | ⟨tgt, htgt, hcon⟩
        · exact fuelSafe_getEdgeTarget _ _ hcon
        · split at hcon
          · rcases bindNoFuel hcon with hcon | ⟨acc2, -, hcon⟩
            · exact Except.noConfusion hcon
            · exact tailstep acc2 hcon
          · rcases bindNoFuel hcon with hcon | ⟨acc2, -, hcon⟩
            · exact Except.noConfusion hcon
            · exact tailstep acc2 hcon

/-- `findCycles` never runs out of fuel: `dfFuel` and `posFuel` dominate the
respective measures from any start state. -/
theorem LCD.findCycles_nofuel (st : LCDState) (z : Nat) :
    fuelSafe (LCD.findCycles st z) := by
  intro hcon
  simp only [LCD.findCycles, dfBegin] at hcon
  rcases bindNoFuel hcon with hcon | ⟨pr, hpr, hcon⟩
  · rcases bindNoFuel hcon with hcon | ⟨nf, hnf, hcon⟩
    · exact fuelSafe_getNode _ _ hcon
    · exact Except.noConfusion hcon
  · obtain ⟨nf, hnf, hpr⟩ := bindOk hpr
    injection hpr with hpr
    obtain ⟨hnf1, hnf2⟩ := Graph.getNode_ok hnf
    have hzlt : z < st.G.nodes.length := getElem?_some_lt hnf1
    have hdf : st.G.nodes.length + st.G.totalOut < st.G.dfFuel := by
      unfold Graph.dfFuel
      omega
    subst hpr
    refine fcLoop_nofuel hdf ?_ ?_ ?_ ?_ ?_ ?_ hcon
    · refine ⟨?_, ?_, ?_, ?_⟩
      · intro f hf
        have hfe : f = (⟨z, nf.outEdges⟩ : Frame) := by simpa using hf
        rw [hfe]
        exact List.mem_cons_self _ _
      · intro f hf
        have hfe : f = (⟨z, nf.outEdges⟩ : Frame) := by simpa using hf
        rw [hfe]
        refine ⟨nf, hnf1, hnf2, [], rfl, ?_⟩
        intro e he
        cases he
      · intro v hv hvn
        have hvz : v = z := by simpa using hv
        refine absurd ?_ hvn
        rw [hvz]
        exact List.mem_cons_self _ _
      · intro v hv
        have hvz : v = z := by simpa using hv
        rw [hvz]
        exact Relation.ReflTransGen.refl
    · show ([z] : List Nat).Nodup
      simp
    · exact Or.inr ⟨[], by simp⟩
    · simp
    · intro v hv
      have hvz : v = z := by simpa using hv
      rw [hvz]
      exact hzlt
    · show st.G.nodes.length + 1 - 1 < st.G.posFuel
      unfold Graph.posFuel
      omega

/-- Clearing bits with a fold only removes bits. -/
theorem testBit_foldl_clearBit : ∀ (t : List Nat) (v x : Nat),
    (t.foldl clearBit v).testBit x = true → v.testBit x = true := by
  intro t
  induction t with
  | nil =>
    intro v x h
    exact h
  | cons a t ih =>
    intro v x h
    rw [List.foldl_cons] at h
    have h2 := ih _ _ h
    rw [testBit_clearBit] at h2
    simp only [Bool.and_eq_true] at h2
    exact h2.1

/-- Handling one cycle path only removes bits from the in-flight successor
set `l`. -/
theorem cyclePathStep_bits {p q : SolveSt × Nat} {path : List Nat}
    (h : LCD.cyclePathStep p path = .ok q) :
    ∀ x, q.2.testBit x = true → p.2.testBit x = true := by
  simp only [LCD.cyclePathStep] at h
  obtain ⟨s2, hs2, h⟩ := bindOk h
  injection h with h
  subst h
  intro x hx
  exact testBit_foldl_clearBit _ _ _ hx

/-- `handleZ` only removes bits from the in-flight successor set `l`. -/
theorem handleZ_bits {n : Nat} {st : SolveSt} {l z : Nat} {p : SolveSt × Nat}
    (h : LCD.handleZ n st l z = .ok p) :
    ∀ x, p.2.testBit x = true → l.testBit x = true := by
  unfold LCD.handleZ at h
  split at h
  · split at h
    · injection h with h
      subst h
      intro x hx
      exact hx
    · obtain ⟨cycles, hcy, h⟩ := bindOk h
      obtain ⟨q, hq, h⟩ := bindOk h
      injection h with h
      subst h
      intro x hx
      have hP : ∀ x2, q.2.testBit x2 = true → l.testBit x2 = true := by
        refine foldlM_pres
          (P := fun a b => ∀ x2, b.2.testBit x2 = true → a.2.testBit x2 = true)
          ?_ ?_ ?_ cycles (st, l) q hq
        · intro s a s' hs
          exact cyclePathStep_bits hs
        · intro s x2 hx2
          exact hx2
        · intro a b c h1 h2 x2 hx2
          exact h1 x2 (h2 x2 hx2)
      exact hP x hx
  · injection h with h
    subst h
    intro x hx
    exact hx

/-- `handleZ` never runs out of fuel. -/
theorem fuelSafe_handleZ (n : Nat) (st : SolveSt) (l z : Nat) :
    fuelSafe (LCD.handleZ n st l z) := by
  unfold LCD.handleZ
  split
  · split
    · exact fuelSafe_ok _
    · refine fuelSafe_bind (LCD.findCycles_nofuel _ _) ?_
      intro cycles
      refine fuelSafe_bind
        (fuelSafe_foldlM (fun p path => fuelSafe_cyclePathStep p path) _ _) ?_
      intro q
      exact fuelSafe_ok _
  · exact fuelSafe_ok _

/-- The successor loop cannot run out of fuel once the fuel dominates the
cursor measure: the cursor strictly advances through a shrinking bit set. -/
theorem lLoop_nofuel {n : Nat} :
    ∀ {fuel : Nat} {st : SolveSt} {l : Nat} {cur : Option Nat},
      cursorMeasure l cur < fuel →
      LCD.lLoop n fuel st l cur ≠ .error Err.noFuel := by
  intro fuel
  induction fuel with
  | zero =>
    intro st l cur hm
    exact absurd hm (Nat.not_lt_zero _)
  | succ fuel ih =>
    intro st l cur hm hcon
    cases cur with
    | none =>
      simp only [LCD.lLoop] at hcon
      exact Except.noConfusion hcon
    | some z =>
      simp only [LCD.lLoop] at hcon
      rcases bindNoFuel hcon with hcon | ⟨p, hp, hcon⟩
      · exact fuelSafe_handleZ _ _ _ _ hcon
      · have hsub := handleZ_bits hp
        have hge1 : 1 ≤ cursorMeasure l (some z) := by
          show 1 ≤ 1 + ((bits l).filter (fun b => decide (z < b))).length
          omega
        cases hnx : findNext p.2 z with
        | none =>
          rw [hnx] at hcon
          refine ih ?_ hcon
          show (0 : Nat) < fuel
          omega
        | some y =>
          rw [hnx] at hcon
          have hlt := cursorMeasure_step hsub hnx
          exact ih (by omega) hcon

/-- Processing one worklist node never runs out of fuel: the successor-loop
fuel `popcount l + 1` dominates its cursor measure. -/
theorem LCD.processNode_nofuel (st : SolveSt) (n : Nat) :
    fuelSafe (LCD.processNode st n) := by
  intro hcon
  simp only [LCD.processNode] at hcon
  rcases bindNoFuel hcon with hcon | ⟨st1, hst1, hcon⟩
  · exact fuelSafe_foldlM (fun s a => fuelSafe_ptsStep n s a) _ _ hcon
  · rcases bindNoFuel hcon with hcon | ⟨l, hl, hcon⟩
    · exact fuelSafe_buildL _ _ hcon
    · refine lLoop_nofuel ?_ hcon
      have hcf := cursorMeasure_first l
      omega


/-! ### Arithmetic toolkit for the worklist measure -/

/-- Popcount is bounded by any bound on the bit indices. -/
theorem pcnt_le {N v : Nat} (h : ∀ x, v.testBit x = true → x < N) :
    pcnt v ≤ N :=
  nodup_lt_length_le (bits_nodup v) (fun x hx => h x ((mem_bits _ _).mp hx))

/-- Popcount is monotone under bit inclusion. -/
theorem pcnt_mono {a b : Nat}
    (h : ∀ x, a.testBit x = true → b.testBit x = true) : pcnt a ≤ pcnt b :=
  bits_length_le h

/-- Popcount is strictly monotone under strict bit inclusion. -/
theorem pcnt_strict {a b : Nat}
    (h : ∀ x, a.testBit x = true → b.testBit x = true) (hne : a ≠ b) :
    pcnt a < pcnt b :=
  bits_length_lt h hne

/-- Popping a worklist node recovers exactly its potential term. -/
theorem phiW_clear {N W n : Nat} {p : Nat → Nat} (hn : n < N)
    (hW : W.testBit n = true) :
    phiW N (clearBit W n) p + (N + 1) ^ (N + 1 - pcnt (p n)) = phiW N W p := by
  unfold phiW
  have hmem : n ∈ Finset.range N := Finset.mem_range.mpr hn
  have h1 := Finset.sum_erase_add (Finset.range N)
    (fun i => if (clearBit W n).testBit i then (N + 1) ^ (N + 1 - pcnt (p i)) else 0) hmem
  have h2 := Finset.sum_erase_add (Finset.range N)
    (fun i => if W.testBit i then (N + 1) ^ (N + 1 - pcnt (p i)) else 0) hmem
  have hagree : ((Finset.range N).erase n).sum
      (fun i => if (clearBit W n).testBit i then (N + 1) ^ (N + 1 - pcnt (p i)) else 0)
      = ((Finset.range N).erase n).sum
        (fun i => if W.testBit i then (N + 1) ^ (N + 1 - pcnt (p i)) else 0) := by
    refine Finset.sum_congr rfl ?_
    intro i hi
    have hne : i ≠ n := (Finset.mem_erase.mp hi).1
    rw [testBit_clearBit]
    have hd : decide (n = i) = false := by
      simp only [decide_eq_false_iff_not]
      exact fun hh => hne hh.symm
    rw [hd]
    simp
  have hcn : (clearBit W n).testBit n = false := by
    rw [testBit_clearBit]
    simp
  have h1b : ((Finset.range N).erase n).sum
      (fun i => if (clearBit W n).testBit i then (N + 1) ^ (N + 1 - pcnt (p i)) else 0)
      + (if (clearBit W n).testBit n then (N + 1) ^ (N + 1 - pcnt (p n)) else 0)
      = (Finset.range N).sum
        (fun i => if (clearBit W n).testBit i then (N + 1) ^ (N + 1 - pcnt (p i)) else 0) := h1
  have h2b : ((Finset.range N).erase n).sum
      (fun i => if W.testBit i then (N + 1) ^ (N + 1 - pcnt (p i)) else 0)
      + (if W.testBit n then (N + 1) ^ (N + 1 - pcnt (p n)) else 0)
      = (Finset.range N).sum
        (fun i => if W.testBit i then (N + 1) ^ (N + 1 - pcnt (p i)) else 0) := h2
  have ht1 : (if (clearBit W n).testBit n then (N + 1) ^ (N + 1 - pcnt (p n)) else 0)
      = 0 := by
    simp [hcn]
  have ht2 : (if W.testBit n then (N + 1) ^ (N + 1 - pcnt (p n)) else 0)
      = (N + 1) ^ (N + 1 - pcnt (p n)) := by
    simp [hW]
  omega

/-- Setting a worklist bit at `z` — while the points-to map changes at most
at `z` — adds at most the new potential term of `z`. -/
theorem phiW_set_le {N W z : Nat} {p q : Nat → Nat}
    (hpq : ∀ i, i ≠ z → p i = q i) :
    phiW N (setBit W z) q ≤ phiW N W p + (N + 1) ^ (N + 1 - pcnt (q z)) := by
  unfold phiW
  by_cases hz : z < N
  · have hmem : z ∈ Finset.range N := Finset.mem_range.mpr hz
    have h1 := Finset.sum_erase_add (Finset.range N)
      (fun i => if (setBit W z).testBit i then (N + 1) ^ (N + 1 - pcnt (q i)) else 0) hmem
    have h2 := Finset.sum_erase_add (Finset.range N)
      (fun i => if W.testBit i then (N + 1) ^ (N + 1 - pcnt (p i)) else 0) hmem
    have hagree : ((Finset.range N).erase z).sum
        (fun i => if (setBit W z).testBit i then (N + 1) ^ (N + 1 - pcnt (q i)) else 0)
        = ((Finset.range N).erase z).sum
          (fun i => if W.testBit i then (N + 1) ^ (N + 1 - pcnt (p i)) else 0) := by
      refine Finset.sum_congr rfl ?_
      intro i hi
      have hne : i ≠ z := (Finset.mem_erase.mp hi).1
      rw [testBit_setBit]
      have hd : decide (z = i) = false := by
        simp only [decide_eq_false_iff_not]
        exact fun hh => hne hh.symm
      rw [hd, ← hpq i hne]
      simp
    have h1b : ((Finset.range N).erase z).sum
        (fun i => if (setBit W z).testBit i then (N + 1) ^ (N + 1 - pcnt (q i)) else 0)
        + (if (setBit W z).testBit z then (N + 1) ^ (N + 1 - pcnt (q z)) else 0)
        = (Finset.range N).sum
          (fun i => if (setBit W z).testBit i then (N + 1) ^ (N + 1 - pcnt (q i)) else 0) := h1
    have h2b : ((Finset.range N).erase z).sum
        (fun i => if W.testBit i then (N + 1) ^ (N + 1 - pcnt (p i)) else 0)
        + (if W.testBit z then (N + 1) ^ (N + 1 - pcnt (p z)) else 0)
        = (Finset.range N).sum
          (fun i => if W.testBit i then (N + 1) ^ (N + 1 - pcnt (p i)) else 0) := h2
    have hterm : (if (setBit W z).testBit z then (N + 1) ^ (N + 1 - pcnt (q z)) else 0)
        ≤ (N + 1) ^ (N + 1 - pcnt (q z)) := by
      split
      · exact Nat.le_refl _
      · exact Nat.zero_le _
    omega
  · have hagree : (Finset.range N).sum
        (fun i => if (setBit W z).testBit i then (N + 1) ^ (N + 1 - pcnt (q i)) else 0)
        = (Finset.range N).sum
          (fun i => if W.testBit i then (N + 1) ^ (N + 1 - pcnt (p i)) else 0) := by
      refine Finset.sum_congr rfl ?_
      intro i hi
      have hne : i ≠ z := by
        intro hh
        exact hz (hh ▸ Finset.mem_range.mp hi)
      rw [testBit_setBit]
      have hd : decide (z = i) = false := by
        simp only [decide_eq_false_iff_not]
        exact fun hh => hne hh.symm
      rw [hd, ← hpq i hne]
      simp
    rw [hagree]
    exact Nat.le_add_right _ _

/-- The worklist potential only depends on the values of the points-to
map. -/
theorem phiW_congr {N W : Nat} {p q : Nat → Nat} (h : ∀ i, p i = q i) :
    phiW N W p = phiW N W q := by
  unfold phiW
  refine Finset.sum_congr rfl ?_
  intro i hi
  rw [h i]

/-- The worklist potential is bounded by `N * (N+1)^(N+1)`. -/
theorem phiW_le (N W : Nat) (p : Nat → Nat) :
    phiW N W p ≤ N * (N + 1) ^ (N + 1) := by
  unfold phiW
  calc (Finset.range N).sum
        (fun i => if W.testBit i then (N + 1) ^ (N + 1 - pcnt (p i)) else 0)
      ≤ (Finset.range N).sum (fun i => (N + 1) ^ (N + 1)) := by
        refine Finset.sum_le_sum ?_
        intro i hi
        have hpow : (N + 1) ^ (N + 1 - pcnt (p i)) ≤ (N + 1) ^ (N + 1) :=
          Nat.pow_le_pow_right (Nat.succ_le_succ (Nat.zero_le N)) (by omega)
        split
        · exact hpow
        · exact Nat.zero_le _
    _ = N * (N + 1) ^ (N + 1) := by
        rw [Finset.sum_const, Finset.card_range, smul_eq_mul]

/-- The remaining-growth component only depends on values. -/
theorem pcGap_congr {N : Nat} {p q : Nat → Nat} (h : ∀ i, p i = q i) :
    pcGap N p = pcGap N q := by
  unfold pcGap
  refine Finset.sum_congr rfl ?_
  intro i hi
  rw [h i]

/-- The remaining-growth component shrinks when points-to sets grow. -/
theorem pcGap_mono {N : Nat} {p q : Nat → Nat}
    (h : ∀ i x, (p i).testBit x = true → (q i).testBit x = true) :
    pcGap N q ≤ pcGap N p := by
  unfold pcGap
  refine Finset.sum_le_sum ?_
  intro i hi
  have := pcnt_mono (h i)
  omega

/-- The remaining-growth component strictly shrinks when some node's
points-to set strictly grows (within the bit bound). -/
theorem pcGap_strict {N z : Nat} {p q : Nat → Nat}
    (hz : z < N)
    (hgrow : ∀ x, (p z).testBit x = true → (q z).testBit x = true)
    (hne : p z ≠ q z)
    (hbd : ∀ x, (q z).testBit x = true → x < N)
    (hrest : ∀ i, i ≠ z → q i = p i) :
    pcGap N q + 1 ≤ pcGap N p := by
  unfold pcGap
  have hmem : z ∈ Finset.range N := Finset.mem_range.mpr hz
  have h1 := Finset.sum_erase_add (Finset.range N)
    (fun i => N - pcnt (q i)) hmem
  have h2 := Finset.sum_erase_add (Finset.range N)
    (fun i => N - pcnt (p i)) hmem
  have hagree : ((Finset.range N).erase z).sum (fun i => N - pcnt (q i))
      = ((Finset.range N).erase z).sum (fun i => N - pcnt (p i)) := by
    refine Finset.sum_congr rfl ?_
    intro i hi
    rw [hrest i (Finset.mem_erase.mp hi).1]
  have h1b : ((Finset.range N).erase z).sum (fun i => N - pcnt (q i))
      + (N - pcnt (q z)) = (Finset.range N).sum (fun i => N - pcnt (q i)) := h1
  have h2b : ((Finset.range N).erase z).sum (fun i => N - pcnt (p i))
      + (N - pcnt (p z)) = (Finset.range N).sum (fun i => N - pcnt (p i)) := h2
  have hlt : pcnt (p z) < pcnt (q z) := pcnt_strict hgrow hne
  have hle : pcnt (q z) ≤ N := pcnt_le hbd
  omega

/-- The remaining-growth component is bounded by `N * N`. -/
theorem pcGap_le (N : Nat) (p : Nat → Nat) : pcGap N p ≤ N * N := by
  unfold pcGap
  calc (Finset.range N).sum (fun i => N - pcnt (p i))
      ≤ (Finset.range N).sum (fun i => N) :=
        Finset.sum_le_sum (fun i hi => by omega)
    _ = N * N := by rw [Finset.sum_const, Finset.card_range, smul_eq_mul]

/-- Middle-lexicographic combination: with a per-unit budget below `K`, any
middle-component drop `D` pays for the potential growth. -/
theorem measure_combine {K B u u2 D mid mid2 : Nat}
    (hB : B ≤ K) (hmid : mid2 + D = mid) (hu : u2 < u + D * B) :
    mid2 * K + u2 < mid * K + u := by
  have h1 : D * B ≤ D * K := Nat.mul_le_mul_left D hB
  have h2 : mid * K = mid2 * K + D * K := by
    rw [← hmid, Nat.add_mul]
  omega

/-- Top-lexicographic combination: a drop of the leading component beats any
bounded values of the lower components. -/
theorem measure_combine_drop {N mA mA2 mid mid2 u u2 : Nat}
    (hlt : mA2 < mA) (hmid : mid2 ≤ 3 * N * N) (hu : u2 < solveK2 N) :
    mA2 * solveK1 N + mid2 * solveK2 N + u2
      < mA * solveK1 N + mid * solveK2 N + u := by
  have h1 : mid2 * solveK2 N ≤ (3 * N * N) * solveK2 N :=
    Nat.mul_le_mul_right _ hmid
  have h2 : solveK1 N = (3 * N * N) * solveK2 N + solveK2 N := by
    show (3 * N * N + 1) * solveK2 N = _
    rw [Nat.add_mul]
    omega
  have h3 : mA2 * solveK1 N + solveK1 N = (mA2 + 1) * solveK1 N := by
    rw [Nat.add_mul]
    omega
  have h4 : (mA2 + 1) * solveK1 N ≤ mA * solveK1 N :=
    Nat.mul_le_mul_right _ hlt
  omega

/-- `foldlM_pres` restricted to the elements of the folded list. -/
theorem foldlM_pres_mem {α σ : Type} {P : σ → σ → Prop} {f : σ → α → M σ} :
    ∀ {l : List α},
      (∀ s a, a ∈ l → ∀ s', f s a = .ok s' → P s s') →
      (∀ s, P s s) → (∀ a b c, P a b → P b c → P a c) →
      ∀ {s s' : σ}, l.foldlM f s = .ok s' → P s s' := by
  intro l
  induction l with
  | nil =>
    intro hP Prefl Ptrans s s' h
    simp only [List.foldlM_nil] at h
    injection h with h
    exact h ▸ Prefl s
  | cons a rest ih =>
    intro hP Prefl Ptrans s s' h
    simp only [List.foldlM_cons] at h
    obtain ⟨s1, hs1, h⟩ := bindOk h
    refine Ptrans _ _ _ (hP s a (List.mem_cons_self _ _) s1 hs1) ?_
    exact ih (fun s2 a2 ha2 s3 h3 => hP s2 a2 (List.mem_cons_of_mem _ ha2) s3 h3)
      Prefl Ptrans h

/-- `addEdge` adds exactly one live edge. -/
theorem liveEdgeCount_addEdge {G G' : Graph} {s t eid : Nat}
    (h : G.addEdge s t = .ok (G', eid)) :
    liveEdgeCount G' = liveEdgeCount G + 1 := by
  obtain ⟨hGe, -⟩ := Graph.addEdge_ok_edges h
  unfold liveEdgeCount
  rw [hGe, List.map_append, List.count_append]
  rfl

/-- Decoding the ordered-pair code `s * N + t` with `t < N`. -/
theorem pair_code_inj {N s1 t1 s2 t2 : Nat} (h1 : t1 < N) (h2 : t2 < N)
    (h : s1 * N + t1 = s2 * N + t2) : s1 = s2 ∧ t1 = t2 := by
  have hkey : ∀ a1 b1 a2 b2 : Nat, b1 < N → a1 < a2 →
      a1 * N + b1 < a2 * N + b2 := by
    intro a1 b1 a2 b2 hb hlt
    calc a1 * N + b1 < a1 * N + N := by omega
      _ = (a1 + 1) * N := by rw [Nat.add_mul]; omega
      _ ≤ a2 * N := Nat.mul_le_mul_right N hlt
      _ ≤ a2 * N + b2 := Nat.le_add_right _ _
  have hs : s1 = s2 := by
    rcases Nat.lt_trichotomy s1 s2 with hlt | heq | hgt
    · exact absurd h (Nat.ne_of_lt (hkey s1 t1 s2 t2 h1 hlt))
    · exact heq
    · exact absurd h.symm (Nat.ne_of_lt (hkey s2 t2 s1 t1 h2 hgt))
  subst hs
  refine ⟨rfl, ?_⟩
  omega

/-- The ordered-pair code of a pair below `N` is below `N * N`. -/
theorem pair_code_lt {N s t : Nat} (hs : s < N) (ht : t < N) :
    s * N + t < N * N := by
  calc s * N + t < s * N + N := by omega
    _ = (s + 1) * N := by rw [Nat.add_mul]; omega
    _ ≤ N * N := Nat.mul_le_mul_right N hs

/-- The live positions of an entry list, as filtered indices, count its
non-tombstoned entries. -/
theorem count_false_map_length : ∀ (L : List EdgeEntry),
    ((List.range L.length).filter
      (fun i => match L[i]? with | some en => !en.cleared | none => false)).length
      = (L.map EdgeEntry.cleared).count false := by
  intro L
  induction L with
  | nil => simp
  | cons a L ih =>
    rw [List.length_cons, List.range_succ_eq_map, List.filter_cons]
    have hq : (match (a :: L)[0]? with
        | some en => !en.cleared | none => false) = !a.cleared := by simp
    have hmap0 : (List.range L.length).filter
        ((fun i => match (a :: L)[i]? with | some en => !en.cleared | none => false)
          ∘ (fun i => i + 1))
        = (List.range L.length).filter
          (fun i => match L[i]? with | some en => !en.cleared | none => false) := by
      refine List.filter_congr ?_
      intro i hi
      show (match (a :: L)[i + 1]? with | some en => !en.cleared | none => false)
        = (match L[i]? with | some en => !en.cleared | none => false)
      rw [List.getElem?_cons_succ]
    have hmap : ((List.range L.length).map (fun i => i + 1)).filter
        (fun i => match (a :: L)[i]? with | some en => !en.cleared | none => false)
        = ((List.range L.length).filter
            (fun i => match L[i]? with | some en => !en.cleared | none => false)).map
          (fun i => i + 1) := by
      rw [List.filter_map, hmap0]
    rw [hq, hmap, List.map_cons, List.count_cons]
    cases hc : a.cleared with
    | false =>
      show (0 :: ((List.range L.length).filter
          (fun i => match L[i]? with | some en => !en.cleared | none => false)).map
            (fun i => i + 1)).length
        = (L.map EdgeEntry.cleared).count false + 1
      rw [List.length_cons, List.length_map, ih]
    | true =>
      show (((List.range L.length).filter
          (fun i => match L[i]? with | some en => !en.cleared | none => false)).map
            (fun i => i + 1)).length
        = (L.map EdgeEntry.cleared).count false + 0
      rw [List.length_map, ih]
      omega

/-- On a well-formed graph with at most one live edge per ordered pair, the
live edge count is at most `N * N` where `N` bounds the node indices. -/
theorem liveEdgeCount_le_sq {G : Graph} (hwf : graphWFb G = true)
    (hpu : pairUniqueB G = true) :
    liveEdgeCount G ≤ G.nodes.length * G.nodes.length := by
  set N := G.nodes.length with hN
  set S := (List.range G.edges.length).filter
    (fun i => match G.edges[i]? with | some en => !en.cleared | none => false) with hS
  have hlen : S.length = liveEdgeCount G := count_false_map_length G.edges
  have hSmem : ∀ e ∈ S, ∃ en, G.edges[e]? = some en ∧ en.cleared = false := by
    intro e he
    have := List.of_mem_filter he
    cases hee : G.edges[e]? with
    | none => rw [hee] at this; cases this
    | some en =>
      rw [hee] at this
      exact ⟨en, rfl, by simpa using this⟩
  have hSnd : S.Nodup := (List.nodup_range _).filter _
  have hcode : ∀ e ∈ S,
      (match G.edges[e]? with
        | some en => en.source * N + en.target | none => 0) < N * N := by
    intro e he
    obtain ⟨en, hen, hcl⟩ := hSmem e he
    obtain ⟨⟨ns, hns, -, -⟩, ⟨nt, hnt, -, -⟩⟩ := wf_edge_linked hwf e en hen hcl
    rw [hen]
    exact pair_code_lt (getElem?_some_lt hns) (getElem?_some_lt hnt)
  have hinj : ∀ x ∈ S, ∀ y ∈ S,
      (match G.edges[x]? with
        | some en => en.source * N + en.target | none => 0)
      = (match G.edges[y]? with
        | some en => en.source * N + en.target | none => 0) → x = y := by
    intro x hx y hy heq
    obtain ⟨ex, hex, hclx⟩ := hSmem x hx
    obtain ⟨ey, hey, hcly⟩ := hSmem y hy
    rw [hex, hey] at heq
    obtain ⟨-, ⟨nt, hnt, -, -⟩⟩ := wf_edge_linked hwf x ex hex hclx
    obtain ⟨-, ⟨nt2, hnt2, -, -⟩⟩ := wf_edge_linked hwf y ey hey hcly
    obtain ⟨hsrc, htgt⟩ := pair_code_inj (getElem?_some_lt hnt)
      (getElem?_some_lt hnt2) heq
    exact pairUniqueB_spec hpu x y ex ey hex hey hclx hcly hsrc htgt
  have hnd2 : (S.map (fun e => match G.edges[e]? with
      | some en => en.source * N + en.target | none => 0)).Nodup :=
    List.Nodup.map_on hinj hSnd
  have hbd2 : ∀ v ∈ S.map (fun e => match G.edges[e]? with
      | some en => en.source * N + en.target | none => 0), v < N * N := by
    intro v hv
    obtain ⟨e, he, hev⟩ := List.mem_map.mp hv
    rw [← hev]
    exact hcode e he
  have := nodup_lt_length_le hnd2 hbd2
  rw [List.length_map] at this
  omega

/-! ### Preservation of structural well-formedness -/

/-- Introduction form of the executable well-formedness check. -/
theorem graphWFb_intro {G : Graph}
    (h1 : G.numNodes = liveNodeCount G)
    (h2 : G.numEdges = liveEdgeCount G)
    (h3 : ∀ (e : Nat) (en : EdgeEntry), G.edges[e]? = some en → en.cleared = false →
      (∃ ns, G.nodes[en.source]? = some ns ∧ ns.cleared = false ∧ e ∈ ns.outEdges)
        ∧ (∃ nt, G.nodes[en.target]? = some nt ∧ nt.cleared = false ∧ e ∈ nt.inEdges))
    (h4 : ∀ (n : Nat) (nn : NodeEntry), G.nodes[n]? = some nn →
      (nn.cleared = true → nn.inEdges = [] ∧ nn.outEdges = [])
        ∧ (∀ e ∈ nn.outEdges,
            ∃ en, G.edges[e]? = some en ∧ en.cleared = false ∧ en.source = n)
        ∧ (∀ e ∈ nn.inEdges,
            ∃ en, G.edges[e]? = some en ∧ en.cleared = false ∧ en.target = n)
        ∧ nn.outEdges.Nodup ∧ nn.inEdges.Nodup) :
    graphWFb G = true := by
  unfold graphWFb
  rw [Bool.and_eq_true, Bool.and_eq_true, Bool.and_eq_true]
  refine ⟨⟨⟨by simpa using h1, by simpa using h2⟩, ?_⟩, ?_⟩
  · rw [List.all_eq_true]
    intro e he
    cases hee : G.edges[e]? with
    | none => simp only [hee]
    | some en =>
      simp only [hee]
      cases hcl : en.cleared with
      | true => simp
      | false =>
        obtain ⟨⟨ns, hns, hnscl, hnsm⟩, nt, hnt, hntcl, hntm⟩ := h3 e en hee hcl
        rw [hns, hnt]
        simp [hnscl, hntcl, hnsm, hntm]
  · rw [List.all_eq_true]
    intro n hn
    cases hnn : G.nodes[n]? with
    | none => simp only [hnn]
    | some nn =>
      simp only [hnn]
      obtain ⟨hcl, hout, hin, hnd1, hnd2⟩ := h4 n nn hnn
      rw [Bool.and_eq_true, Bool.and_eq_true, Bool.and_eq_true, Bool.and_eq_true]
      refine ⟨⟨⟨⟨?_, ?_⟩, ?_⟩, by simpa using hnd1⟩, by simpa using hnd2⟩
      · cases hc : nn.cleared with
        | false => simp
        | true =>
          obtain ⟨hi, ho⟩ := hcl hc
          simp [hi, ho]
      · rw [List.all_eq_true]
        intro e he
        obtain ⟨en, hen, hencl, hensrc⟩ := hout e he
        simp only [hen]
        simp [hencl, hensrc]
      · rw [List.all_eq_true]
        intro e he
        obtain ⟨en, hen, hencl, hentgt⟩ := hin e he
        simp only [hen]
        simp [hencl, hentgt]

/-- From the well-formedness check: tombstoned nodes have empty adjacency
lists. -/
theorem wf_cleared_empty {G : Graph} (h : graphWFb G = true) :
    ∀ (n : Nat) (nn : NodeEntry), G.nodes[n]? = some nn → nn.cleared = true →
      nn.inEdges = [] ∧ nn.outEdges = [] := by
  obtain ⟨-, -, -, h4⟩ := graphWFb_parts h
  intro n nn hnn hcl
  obtain ⟨hlt, -⟩ := List.getElem?_eq_some.mp hnn
  have he := List.all_eq_true.mp h4 n (List.mem_range.mpr hlt)
  rw [hnn] at he
  rw [Bool.and_eq_true, Bool.and_eq_true, Bool.and_eq_true, Bool.and_eq_true] at he
  have h0 := he.1.1.1.1
  rw [hcl] at h0
  simp only [Bool.not_true, Bool.false_or, Bool.and_eq_true] at h0
  exact ⟨List.isEmpty_iff.mp h0.1, List.isEmpty_iff.mp h0.2⟩

/-- Pair uniqueness only looks at the edge vector. -/
theorem pairUnique_edges_congr {G G' : Graph} (h : G'.edges = G.edges) :
    pairUniqueB G' = pairUniqueB G := by
  unfold pairUniqueB
  rw [h]

/-- Full effect of a successful `addEdge`: the appended edge entry, the
counter moves and the two adjacency appends. -/
theorem Graph.addEdge_effect {G G' : Graph} {s t eid : Nat}
    (h : G.addEdge s t = .ok (G', eid)) :
    eid = G.edges.length
      ∧ G'.edges = G.edges ++ [⟨s, t, false⟩]
      ∧ G'.numNodes = G.numNodes ∧ G'.numEdges = G.numEdges + 1
      ∧ (∃ ns, G.nodes[s]? = some ns ∧ ns.cleared = false)
      ∧ (∃ nt, G.nodes[t]? = some nt ∧ nt.cleared = false)
      ∧ (∀ (m : Nat), G'.nodes[m]? = (G.nodes[m]?).map (fun (nm : NodeEntry) =>
          { nm with
            outEdges := if m = s then nm.outEdges ++ [G.edges.length] else nm.outEdges,
            inEdges := if m = t then nm.inEdges ++ [G.edges.length] else nm.inEdges })) := by
  simp only [Graph.addEdge] at h
  obtain ⟨dup, hdup, h⟩ := bindOk h
  split at h
  · simp at h
  · obtain ⟨ns, hns, h⟩ := bindOk h
    obtain ⟨n2, hn2, h⟩ := bindOk h
    obtain ⟨nt, hnt, h⟩ := bindOk h
    injection h with h
    injection h with hG heid
    subst hG
    obtain ⟨hns1, hns2⟩ := Graph.getNode_ok hns
    obtain ⟨hnt1, hnt2⟩ := Graph.getNode_ok hnt
    have hns1g : G.nodes[s]? = some ns := hns1
    have hsl : s < G.nodes.length := getElem?_some_lt hns1g
    refine ⟨heid.symm, rfl, rfl, rfl, ⟨ns, hns1g, hns2⟩, ?_, ?_⟩
    · by_cases hts : t = s
      · rw [hts]
        exact ⟨ns, hns1g, hns2⟩
      · rw [Graph.setNode_getElem_ne _ _ (fun hh => hts hh.symm)] at hnt1
        have hnt1g : G.nodes[t]? = some nt := hnt1
        exact ⟨nt, hnt1g, hnt2⟩
    · intro m
      by_cases hmt : m = t
      · rw [hmt]
        have htl := getElem?_some_lt hnt1
        rw [Graph.setNode_getElem_self _ t _ htl]
        by_cases hst : t = s
        · rw [hst] at hnt1 ⊢
          rw [Graph.setNode_getElem_self _ s _ (by simpa using hsl)] at hnt1
          injection hnt1 with hnt1
          rw [hns1g, ← hnt1]
          simp
        · rw [Graph.setNode_getElem_ne _ _ (fun hh => hst hh.symm)] at hnt1
          have hnt1g : G.nodes[t]? = some nt := hnt1
          rw [hnt1g]
          simp [hst]
      · rw [Graph.setNode_getElem_ne _ _ (fun hh => hmt hh.symm)]
        by_cases hms : m = s
        · rw [hms] at hmt ⊢
          rw [Graph.setNode_getElem_self _ s _ (by simpa using hsl), hns1g]
          simp [hmt]
        · rw [Graph.setNode_getElem_ne _ _ (fun hh => hms hh.symm)]
          show G.nodes[m]? = (G.nodes[m]?).map (fun (nm : NodeEntry) =>
            { nm with
              outEdges := if m = s then nm.outEdges ++ [G.edges.length] else nm.outEdges,
              inEdges := if m = t then nm.inEdges ++ [G.edges.length] else nm.inEdges })
          cases G.nodes[m]? with
          | none => rfl
          | some nm => simp [hms, hmt]


/-- `addEdge` preserves well-formedness and pair uniqueness. -/
theorem Graph.addEdge_wf {G G' : Graph} {s t eid : Nat}
    (hwf : graphWFb G = true) (hpu : pairUniqueB G = true)
    (h : G.addEdge s t = .ok (G', eid)) :
    graphWFb G' = true ∧ pairUniqueB G' = true := by
  obtain ⟨heid, hedges, hnn, hne, ⟨ns0, hns0, hns0cl⟩, ⟨nt0, hnt0, hnt0cl⟩, hmap⟩ :=
    Graph.addEdge_effect h
  have hmask : nodesCleared G' = nodesCleared G := (Graph.addEdge_ok_nodes h).1
  have hliveE : liveEdgeCount G' = liveEdgeCount G + 1 := liveEdgeCount_addEdge h
  obtain ⟨hc1, hc2⟩ := wf_counts hwf
  have hnone := Graph.addEdge_ok_findEdge_none h
  have hlookL : ∀ (e : Nat), e < G.edges.length → G'.edges[e]? = G.edges[e]? := by
    intro e he
    rw [hedges]
    exact List.getElem?_append_left he
  have hlookE : G'.edges[eid]? = some ⟨s, t, false⟩ := by
    rw [hedges, heid]
    exact List.getElem?_concat_length _ _
  have hlookInv : ∀ (e : Nat) (en : EdgeEntry), G'.edges[e]? = some en →
      (e = eid ∧ en = ⟨s, t, false⟩) ∨ (e < G.edges.length ∧ G.edges[e]? = some en) := by
    intro e en he
    rcases Nat.lt_trichotomy e G.edges.length with hlt | heq | hgt
    · right
      refine ⟨hlt, ?_⟩
      rw [← hlookL e hlt]
      exact he
    · left
      have he2 : e = eid := by omega
      refine ⟨he2, ?_⟩
      rw [he2, hlookE] at he
      injection he with he
      exact he.symm
    · exfalso
      have hnone2 : G'.edges[e]? = none := by
        rw [hedges]
        apply List.getElem?_eq_none
        rw [List.length_append]
        simp only [List.length_cons, List.length_nil]
        omega
      rw [hnone2] at he
      exact Option.noConfusion he
  refine ⟨?_, ?_⟩
  · refine graphWFb_intro ?_ ?_ ?_ ?_
    · rw [hnn, liveNodeCount_congr hmask]
      exact hc1
    · rw [hne, hliveE]
      omega
    · intro e en he hcl
      rcases hlookInv e en he with ⟨he1, he2⟩ | ⟨helt, heG⟩
      · subst he1
        subst he2
        constructor
        · rw [show (⟨s, t, false⟩ : EdgeEntry).source = s from rfl, hmap s, hns0]
          refine ⟨_, rfl, hns0cl, ?_⟩
          show e ∈ (if s = s then ns0.outEdges ++ [G.edges.length] else ns0.outEdges)
          simp [heid]
        · rw [show (⟨s, t, false⟩ : EdgeEntry).target = t from rfl, hmap t, hnt0]
          refine ⟨_, rfl, hnt0cl, ?_⟩
          show e ∈ (if t = t then nt0.inEdges ++ [G.edges.length] else nt0.inEdges)
          simp [heid]
      · obtain ⟨⟨nsx, hnsx, hnsxcl, hnsxm⟩, ntx, hntx, hntxcl, hntxm⟩ :=
          wf_edge_linked hwf e en heG hcl
        constructor
        · rw [hmap en.source, hnsx]
          refine ⟨_, rfl, hnsxcl, ?_⟩
          show e ∈ (if en.source = s then nsx.outEdges ++ [G.edges.length]
            else nsx.outEdges)
          split
          · exact List.mem_append_left _ hnsxm
          · exact hnsxm
        · rw [hmap en.target, hntx]
          refine ⟨_, rfl, hntxcl, ?_⟩
          show e ∈ (if en.target = t then ntx.inEdges ++ [G.edges.length]
            else ntx.inEdges)
          split
          · exact List.mem_append_left _ hntxm
          · exact hntxm
    · intro n nn2 hnn2
      rw [hmap n, Option.map_eq_some'] at hnn2
      obtain ⟨nm, hnm, hfnm⟩ := hnn2
      obtain ⟨hout, hin, hnd1, hnd2⟩ := wf_adj hwf n nm hnm
      have hclr := wf_cleared_empty hwf n nm
      subst hfnm
      refine ⟨?_, ?_, ?_, ?_, ?_⟩
      · intro hcl
        have hcm : nm.cleared = true := hcl
        have hnsb : n ≠ s := by
          intro hh
          rw [hh, hns0] at hnm
          injection hnm with hnm
          rw [← hnm] at hcm
          rw [hns0cl] at hcm
          exact Bool.noConfusion hcm
        have hntb : n ≠ t := by
          intro hh
          rw [hh, hnt0] at hnm
          injection hnm with hnm
          rw [← hnm] at hcm
          rw [hnt0cl] at hcm
          exact Bool.noConfusion hcm
        obtain ⟨hi, ho⟩ := hclr hnm hcm
        constructor
        · show (if n = t then nm.inEdges ++ [G.edges.length] else nm.inEdges) = []
          rw [if_neg hntb, hi]
        · show (if n = s then nm.outEdges ++ [G.edges.length] else nm.outEdges) = []
          rw [if_neg hnsb, ho]
      · intro x hx
        have hx2 : x ∈ (if n = s then nm.outEdges ++ [G.edges.length]
            else nm.outEdges) := hx
        by_cases hnsb : n = s
        · rw [if_pos hnsb] at hx2
          rcases List.mem_append.mp hx2 with hxm | hxe
          · obtain ⟨en, hen, hencl, hsrc⟩ := hout x hxm
            refine ⟨en, ?_, hencl, hsrc⟩
            rw [hlookL x (getElem?_some_lt hen)]
            exact hen
          · have hxe2 : x = G.edges.length := by simpa using hxe
            subst hxe2
            refine ⟨⟨s, t, false⟩, ?_, rfl, hnsb.symm⟩
            rw [← heid]
            exact hlookE
        · rw [if_neg hnsb] at hx2
          obtain ⟨en, hen, hencl, hsrc⟩ := hout x hx2
          refine ⟨en, ?_, hencl, hsrc⟩
          rw [hlookL x (getElem?_some_lt hen)]
          exact hen
      · intro x hx
        have hx2 : x ∈ (if n = t then nm.inEdges ++ [G.edges.length]
            else nm.inEdges) := hx
        by_cases hntb : n = t
        · rw [if_pos hntb] at hx2
          rcases List.mem_append.mp hx2 with hxm | hxe
          · obtain ⟨en, hen, hencl, htgt⟩ := hin x hxm
            refine ⟨en, ?_, hencl, htgt⟩
            rw [hlookL x (getElem?_some_lt hen)]
            exact hen
          · have hxe2 : x = G.edges.length := by simpa using hxe
            subst hxe2
            refine ⟨⟨s, t, false⟩, ?_, rfl, hntb.symm⟩
            rw [← heid]
            exact hlookE
        · rw [if_neg hntb] at hx2
          obtain ⟨en, hen, hencl, htgt⟩ := hin x hx2
          refine ⟨en, ?_, hencl, htgt⟩
          rw [hlookL x (getElem?_some_lt hen)]
          exact hen
      · show (if n = s then nm.outEdges ++ [G.edges.length] else nm.outEdges).Nodup
        split
        · rw [List.nodup_append]
          refine ⟨hnd1, by simp, ?_⟩
          intro x hxm hxe
          have hxe2 : x = G.edges.length := by simpa using hxe
          subst hxe2
          obtain ⟨en, hen, -, -⟩ := hout _ hxm
          have := getElem?_some_lt hen
          omega
        · exact hnd1
      · show (if n = t then nm.inEdges ++ [G.edges.length] else nm.inEdges).Nodup
        split
        · rw [List.nodup_append]
          refine ⟨hnd2, by simp, ?_⟩
          intro x hxm hxe
          have hxe2 : x = G.edges.length := by simpa using hxe
          subst hxe2
          obtain ⟨en, hen, -, -⟩ := hin _ hxm
          have := getElem?_some_lt hen
          omega
        · exact hnd2
  · refine pairUniqueB_intro ?_
    intro e1 e2 en1 en2 h1 h2 hc1b hc2b hsrc htgt
    rcases hlookInv e1 en1 h1 with ⟨he1, hen1⟩ | ⟨hlt1, hG1⟩
    · rcases hlookInv e2 en2 h2 with ⟨he2, hen2⟩ | ⟨hlt2, hG2⟩
      · rw [he1, he2]
      · exfalso
        subst hen1
        exact findEdge_none_no_live hwf hnone e2 en2 hG2 hc2b hsrc.symm htgt.symm
    · rcases hlookInv e2 en2 h2 with ⟨he2, hen2⟩ | ⟨hlt2, hG2⟩
      · exfalso
        subst hen2
        exact findEdge_none_no_live hwf hnone e1 en1 hG1 hc1b hsrc htgt
      · exact pairUniqueB_spec hpu e1 e2 en1 en2 hG1 hG2 hc1b hc2b hsrc htgt


/-- `removeEdge` preserves well-formedness and pair uniqueness. -/
theorem Graph.removeEdge_wf {G G' : Graph} {e : Nat}
    (hwf : graphWFb G = true) (hpu : pairUniqueB G = true)
    (h : G.removeEdge e = .ok G') :
    graphWFb G' = true ∧ pairUniqueB G' = true := by
  obtain ⟨E, hE1, hE2, hedges, hnum, hnumn, hnodes⟩ := Graph.removeEdge_effect h
  have hmask : nodesCleared G' = nodesCleared G := (Graph.removeEdge_ok_nodes h).1
  obtain ⟨hc1, hc2⟩ := wf_counts hwf
  have hel : e < G.edges.length := getElem?_some_lt hE1
  have hlookE : G'.edges[e]? = some { E with cleared := true } := by
    rw [hedges]
    exact List.getElem?_set_self hel
  have hlookNe : ∀ (x : Nat), x ≠ e → G'.edges[x]? = G.edges[x]? := by
    intro x hx
    rw [hedges]
    exact List.getElem?_set_ne (fun hh => hx hh.symm)
  have hliveE : liveEdgeCount G' + 1 = liveEdgeCount G := by
    unfold liveEdgeCount
    rw [hedges, List.map_set]
    exact count_false_set_true (by rw [List.getElem?_map, hE1]; simp [hE2])
  refine ⟨?_, ?_⟩
  · refine graphWFb_intro ?_ ?_ ?_ ?_
    · rw [hnumn, liveNodeCount_congr hmask]
      exact hc1
    · rw [hnum]
      omega
    · intro x en hx hcl
      have hxe : x ≠ e := by
        intro hh
        rw [hh, hlookE] at hx
        injection hx with hx
        rw [← hx] at hcl
        exact Bool.noConfusion hcl
      rw [hlookNe x hxe] at hx
      obtain ⟨⟨nsx, hnsx, hnsxcl, hnsxm⟩, ntx, hntx, hntxcl, hntxm⟩ :=
        wf_edge_linked hwf x en hx hcl
      constructor
      · rw [hnodes en.source, hnsx]
        refine ⟨_, rfl, hnsxcl, ?_⟩
        show x ∈ (if en.source = E.source then nsx.outEdges.erase e else nsx.outEdges)
        split
        · exact (List.mem_erase_of_ne hxe).mpr hnsxm
        · exact hnsxm
      · rw [hnodes en.target, hntx]
        refine ⟨_, rfl, hntxcl, ?_⟩
        show x ∈ (if en.target = E.target then ntx.inEdges.erase e else ntx.inEdges)
        split
        · exact (List.mem_erase_of_ne hxe).mpr hntxm
        · exact hntxm
    · intro n nn2 hnn2
      rw [hnodes n, Option.map_eq_some'] at hnn2
      obtain ⟨nm, hnm, hfnm⟩ := hnn2
      obtain ⟨hout, hin, hnd1, hnd2⟩ := wf_adj hwf n nm hnm
      subst hfnm
      refine ⟨?_, ?_, ?_, ?_, ?_⟩
      · intro hcl
        have hcm : nm.cleared = true := hcl
        obtain ⟨hi, ho⟩ := wf_cleared_empty hwf n nm hnm hcm
        constructor
        · show (if n = E.target then nm.inEdges.erase e else nm.inEdges) = []
          rw [hi]
          split
          · rfl
          · rfl
        · show (if n = E.source then nm.outEdges.erase e else nm.outEdges) = []
          rw [ho]
          split
          · rfl
          · rfl
      · intro x hx
        have hx2 : x ∈ (if n = E.source then nm.outEdges.erase e else nm.outEdges) := hx
        have hxmem : x ∈ nm.outEdges ∧ x ≠ e := by
          split at hx2
          · exact ⟨List.mem_of_mem_erase hx2, (hnd1.mem_erase_iff.mp hx2).1⟩
          · rename_i hns
            refine ⟨hx2, ?_⟩
            intro hh
            subst hh
            obtain ⟨en, hen, -, hsrc⟩ := hout x hx2
            rw [hE1] at hen
            injection hen with hen
            rw [← hen] at hsrc
            exact hns hsrc.symm
        obtain ⟨hxm, hxe⟩ := hxmem
        obtain ⟨en, hen, hencl, hsrc⟩ := hout x hxm
        refine ⟨en, ?_, hencl, hsrc⟩
        rw [hlookNe x hxe]
        exact hen
      · intro x hx
        have hx2 : x ∈ (if n = E.target then nm.inEdges.erase e else nm.inEdges) := hx
        have hxmem : x ∈ nm.inEdges ∧ x ≠ e := by
          split at hx2
          · exact ⟨List.mem_of_mem_erase hx2, (hnd2.mem_erase_iff.mp hx2).1⟩
          · rename_i hnt
            refine ⟨hx2, ?_⟩
            intro hh
            subst hh
            obtain ⟨en, hen, -, htgt⟩ := hin x hx2
            rw [hE1] at hen
            injection hen with hen
            rw [← hen] at htgt
            exact hnt htgt.symm
        obtain ⟨hxm, hxe⟩ := hxmem
        obtain ⟨en, hen, hencl, htgt⟩ := hin x hxm
        refine ⟨en, ?_, hencl, htgt⟩
        rw [hlookNe x hxe]
        exact hen
      · show (if n = E.source then nm.outEdges.erase e else nm.outEdges).Nodup
        split
        · exact hnd1.erase e
        · exact hnd1
      · show (if n = E.target then nm.inEdges.erase e else nm.inEdges).Nodup
        split
        · exact hnd2.erase e
        · exact hnd2
  · refine pairUniqueB_intro ?_
    intro e1 e2 en1 en2 h1 h2 hc1b hc2b hsrc htgt
    have hne1 : e1 ≠ e := by
      intro hh
      rw [hh, hlookE] at h1
      injection h1 with h1
      rw [← h1] at hc1b
      exact Bool.noConfusion hc1b
    have hne2 : e2 ≠ e := by
      intro hh
      rw [hh, hlookE] at h2
      injection h2 with h2
      rw [← h2] at hc2b
      exact Bool.noConfusion hc2b
    rw [hlookNe e1 hne1] at h1
    rw [hlookNe e2 hne2] at h2
    exact pairUniqueB_spec hpu e1 e2 en1 en2 h1 h2 hc1b hc2b hsrc htgt

/-- `removeEdgesList` preserves well-formedness and pair uniqueness. -/
theorem Graph.removeEdgesList_wf : ∀ {l : List Nat} {G G' : Graph},
    graphWFb G = true → pairUniqueB G = true →
    G.removeEdgesList l = .ok G' →
    graphWFb G' = true ∧ pairUniqueB G' = true := by
  intro l
  induction l with
  | nil =>
    intro G G' hwf hpu h
    unfold Graph.removeEdgesList at h
    injection h with h
    subst h
    exact ⟨hwf, hpu⟩
  | cons e rest ih =>
    intro G G' hwf hpu h
    unfold Graph.removeEdgesList at h
    obtain ⟨G1, hG1, h⟩ := bindOk h
    obtain ⟨hwf1, hpu1⟩ := Graph.removeEdge_wf hwf hpu hG1
    exact ih hwf1 hpu1 h

/-- `addNode` preserves well-formedness and pair uniqueness. -/
theorem Graph.addNode_wf {G : Graph}
    (hwf : graphWFb G = true) (hpu : pairUniqueB G = true) :
    graphWFb (G.addNode).1 = true ∧ pairUniqueB (G.addNode).1 = true := by
  obtain ⟨hc1, hc2⟩ := wf_counts hwf
  have hedges : (G.addNode).1.edges = G.edges := rfl
  have hnodes : (G.addNode).1.nodes = G.nodes ++ [⟨[], [], false⟩] := rfl
  have hlive : liveNodeCount (G.addNode).1 = liveNodeCount G + 1 := by
    unfold liveNodeCount nodesCleared
    rw [hnodes, List.map_append, List.count_append]
    rfl
  have hliveE : liveEdgeCount (G.addNode).1 = liveEdgeCount G := rfl
  have hlookL : ∀ (m : Nat), m < G.nodes.length →
      (G.addNode).1.nodes[m]? = G.nodes[m]? := by
    intro m hm
    rw [hnodes]
    exact List.getElem?_append_left hm
  refine ⟨?_, ?_⟩
  · refine graphWFb_intro ?_ ?_ ?_ ?_
    · show G.numNodes + 1 = _
      rw [hlive]
      omega
    · show G.numEdges = _
      rw [hliveE]
      exact hc2
    · intro e en he hcl
      have heG : G.edges[e]? = some en := he
      obtain ⟨⟨nsx, hnsx, hnsxcl, hnsxm⟩, ntx, hntx, hntxcl, hntxm⟩ :=
        wf_edge_linked hwf e en heG hcl
      refine ⟨⟨nsx, ?_, hnsxcl, hnsxm⟩, ntx, ?_, hntxcl, hntxm⟩
      · rw [hlookL _ (getElem?_some_lt hnsx)]
        exact hnsx
      · rw [hlookL _ (getElem?_some_lt hntx)]
        exact hntx
    · intro n nn2 hnn2
      by_cases hn : n < G.nodes.length
      · rw [hlookL n hn] at hnn2
        obtain ⟨hout, hin, hnd1, hnd2⟩ := wf_adj hwf n nn2 hnn2
        exact ⟨wf_cleared_empty hwf n nn2 hnn2, hout, hin, hnd1, hnd2⟩
      · have hnn3 : nn2 = ⟨[], [], false⟩ := by
          rw [hnodes] at hnn2
          by_cases hneq : n = G.nodes.length
          · rw [hneq, List.getElem?_concat_length] at hnn2
            injection hnn2 with hnn2
            exact hnn2.symm
          · exfalso
            have hno : (G.nodes ++ [(⟨[], [], false⟩ : NodeEntry)])[n]? = none := by
              apply List.getElem?_eq_none
              rw [List.length_append]
              simp only [List.length_cons, List.length_nil]
              omega
            rw [hno] at hnn2
            exact Option.noConfusion hnn2
        subst hnn3
        refine ⟨?_, ?_, ?_, List.nodup_nil, List.nodup_nil⟩
        · intro hcl
          exact Bool.noConfusion hcl
        · intro x hx
          exact absurd hx (List.not_mem_nil x)
        · intro x hx
          exact absurd hx (List.not_mem_nil x)
  · rw [pairUnique_edges_congr hedges]
    exact hpu


/-- Tracking one node through `removeEdgesList`: with both adjacency lists
anchored at the node, the surviving lists are exactly the original entries
not in the removed list. -/
theorem Graph.removeEdgesList_node2 {n : Nat} :
    ∀ {l : List Nat} {G G1 : Graph} {N : NodeEntry},
      G.removeEdgesList l = .ok G1 →
      G.nodes[n]? = some N →
      N.outEdges.Nodup → N.inEdges.Nodup →
      (∀ x ∈ N.outEdges,
        ∃ E, G.edges[x]? = some E ∧ E.cleared = false ∧ E.source = n) →
      (∀ x ∈ N.inEdges,
        ∃ E, G.edges[x]? = some E ∧ E.cleared = false ∧ E.target = n) →
      (∀ x ∈ l, ∃ E, G.edges[x]? = some E ∧ E.cleared = false) →
      ∃ N1, G1.nodes[n]? = some N1 ∧ N1.cleared = N.cleared
        ∧ (∀ x, x ∈ N1.outEdges ↔ (x ∈ N.outEdges ∧ x ∉ l))
        ∧ (∀ x, x ∈ N1.inEdges ↔ (x ∈ N.inEdges ∧ x ∉ l)) := by
  intro l
  induction l with
  | nil =>
    intro G G1 N h hN hndo hndi hancho hanchi hl
    unfold Graph.removeEdgesList at h
    injection h with h
    subst h
    exact ⟨N, hN, rfl, by simp, by simp⟩
  | cons e rest ih =>
    intro G G1 N h hN hndo hndi hancho hanchi hl
    unfold Graph.removeEdgesList at h
    obtain ⟨Ga, hGa, h⟩ := bindOk h
    obtain ⟨E, hE1, hE2, hedges, -, -, hnodes⟩ := Graph.removeEdge_effect hGa
    obtain ⟨E0, hE0, hE0cl⟩ := hl e (List.mem_cons_self _ _)
    rw [hE1] at hE0
    injection hE0 with hE0
    subst hE0
    have hel : e < G.edges.length := getElem?_some_lt hE1
    have hGae : Ga.edges[e]? = some { E with cleared := true } := by
      rw [hedges]
      exact List.getElem?_set_self hel
    have hpres : ∀ (x : Nat), x ≠ e → Ga.edges[x]? = G.edges[x]? := by
      intro x hx
      rw [hedges]
      exact List.getElem?_set_ne (fun hh => hx hh.symm)
    have hnotin : e ∉ rest := by
      intro hmem
      obtain ⟨en, hen, hencl⟩ := (Graph.removeEdgesList_effect h).1 e hmem
      rw [hGae] at hen
      injection hen with hen
      rw [← hen] at hencl
      cases hencl
    have hNa : Ga.nodes[n]? = some
        { N with
          outEdges := if n = E.source then N.outEdges.erase e else N.outEdges,
          inEdges := if n = E.target then N.inEdges.erase e else N.inEdges } := by
      rw [hnodes n, hN]
      rfl
    have hsubO : ∀ (x : Nat),
        x ∈ (if n = E.source then N.outEdges.erase e else N.outEdges) →
        x ∈ N.outEdges := by
      intro x hx
      split at hx
      · exact List.mem_of_mem_erase hx
      · exact hx
    have hneO : ∀ (x : Nat),
        x ∈ (if n = E.source then N.outEdges.erase e else N.outEdges) → x ≠ e := by
      intro x hx
      split at hx
      · exact (hndo.mem_erase_iff.mp hx).1
      · rename_i hns
        intro hh
        subst hh
        obtain ⟨E1b, hE1b, -, hE1src⟩ := hancho x hx
        rw [hE1] at hE1b
        injection hE1b with hE1b
        rw [← hE1b] at hE1src
        exact hns hE1src.symm
    have hsubI : ∀ (x : Nat),
        x ∈ (if n = E.target then N.inEdges.erase e else N.inEdges) →
        x ∈ N.inEdges := by
      intro x hx
      split at hx
      · exact List.mem_of_mem_erase hx
      · exact hx
    have hneI : ∀ (x : Nat),
        x ∈ (if n = E.target then N.inEdges.erase e else N.inEdges) → x ≠ e := by
      intro x hx
      split at hx
      · exact (hndi.mem_erase_iff.mp hx).1
      · rename_i hnt
        intro hh
        subst hh
        obtain ⟨E1b, hE1b, -, hE1t⟩ := hanchi x hx
        rw [hE1] at hE1b
        injection hE1b with hE1b
        rw [← hE1b] at hE1t
        exact hnt hE1t.symm
    have hndoA : (if n = E.source then N.outEdges.erase e else N.outEdges).Nodup := by
      split
      · exact hndo.erase e
      · exact hndo
    have hndiA : (if n = E.target then N.inEdges.erase e else N.inEdges).Nodup := by
      split
      · exact hndi.erase e
      · exact hndi
    have hanchoA : ∀ x ∈ (if n = E.source then N.outEdges.erase e else N.outEdges),
        ∃ E2, Ga.edges[x]? = some E2 ∧ E2.cleared = false ∧ E2.source = n := by
      intro x hx
      obtain ⟨E2, h2, h2cl, h2src⟩ := hancho x (hsubO x hx)
      rw [← hpres x (hneO x hx)] at h2
      exact ⟨E2, h2, h2cl, h2src⟩
    have hanchiA : ∀ x ∈ (if n = E.target then N.inEdges.erase e else N.inEdges),
        ∃ E2, Ga.edges[x]? = some E2 ∧ E2.cleared = false ∧ E2.target = n := by
      intro x hx
      obtain ⟨E2, h2, h2cl, h2t⟩ := hanchi x (hsubI x hx)
      rw [← hpres x (hneI x hx)] at h2
      exact ⟨E2, h2, h2cl, h2t⟩
    have hlA : ∀ x ∈ rest, ∃ E2, Ga.edges[x]? = some E2 ∧ E2.cleared = false := by
      intro x hx
      obtain ⟨E2, h2, h2cl⟩ := hl x (List.mem_cons_of_mem _ hx)
      have hxe : x ≠ e := fun hh => hnotin (hh ▸ hx)
      rw [← hpres x hxe] at h2
      exact ⟨E2, h2, h2cl⟩
    obtain ⟨N1, hN1, hN1cl, hN1out, hN1in⟩ :=
      ih h hNa hndoA hndiA hanchoA hanchiA hlA
    refine ⟨N1, hN1, hN1cl, ?_, ?_⟩
    · intro x
      constructor
      · intro hx1
        obtain ⟨hxA, hxrest⟩ := (hN1out x).mp hx1
        refine ⟨hsubO x hxA, ?_⟩
        intro hxl
        rcases List.mem_cons.mp hxl with hxe | hxr
        · exact hneO x hxA hxe
        · exact hxrest hxr
      · rintro ⟨hxN, hxl⟩
        have hxe : x ≠ e := fun hh => hxl (by rw [hh]; exact List.mem_cons_self _ _)
        refine (hN1out x).mpr ⟨?_, fun hxr => hxl (List.mem_cons_of_mem _ hxr)⟩
        show x ∈ (if n = E.source then N.outEdges.erase e else N.outEdges)
        split
        · exact hndo.mem_erase_iff.mpr ⟨hxe, hxN⟩
        · exact hxN
    · intro x
      constructor
      · intro hx1
        obtain ⟨hxA, hxrest⟩ := (hN1in x).mp hx1
        refine ⟨hsubI x hxA, ?_⟩
        intro hxl
        rcases List.mem_cons.mp hxl with hxe | hxr
        · exact hneI x hxA hxe
        · exact hxrest hxr
      · rintro ⟨hxN, hxl⟩
        have hxe : x ≠ e := fun hh => hxl (by rw [hh]; exact List.mem_cons_self _ _)
        refine (hN1in x).mpr ⟨?_, fun hxr => hxl (List.mem_cons_of_mem _ hxr)⟩
        show x ∈ (if n = E.target then N.inEdges.erase e else N.inEdges)
        split
        · exact hndi.mem_erase_iff.mpr ⟨hxe, hxN⟩
        · exact hxN

/-- `removeNode` preserves well-formedness and pair uniqueness. -/
theorem Graph.removeNode_wf {G G' : Graph} {n : Nat}
    (hwf : graphWFb G = true) (hpu : pairUniqueB G = true)
    (h : G.removeNode n = .ok G') :
    graphWFb G' = true ∧ pairUniqueB G' = true := by
  simp only [Graph.removeNode] at h
  obtain ⟨N0, hN0, h⟩ := bindOk h
  obtain ⟨G1, hG1, h⟩ := bindOk h
  obtain ⟨N1, hN1, h⟩ := bindOk h
  obtain ⟨G2, hG2, h⟩ := bindOk h
  obtain ⟨hN0l, hN0cl⟩ := Graph.getNode_ok hN0
  obtain ⟨hwf1, hpu1⟩ := Graph.removeEdgesList_wf hwf hpu hG1
  obtain ⟨hwf2, hpu2⟩ := Graph.removeEdgesList_wf hwf1 hpu1 hG2
  obtain ⟨hout0, hin0, hnd0o, hnd0i⟩ := wf_adj hwf n N0 hN0l
  have hlin : ∀ x ∈ N0.inEdges, ∃ E, G.edges[x]? = some E ∧ E.cleared = false := by
    intro x hx
    obtain ⟨E, hE, hEcl, -⟩ := hin0 x hx
    exact ⟨E, hE, hEcl⟩
  obtain ⟨Na, hNa, hNacl, hNaout, hNain⟩ :=
    Graph.removeEdgesList_node2 hG1 hN0l hnd0o hnd0i hout0 hin0 hlin
  have hNainE : Na.inEdges = [] := by
    rw [List.eq_nil_iff_forall_not_mem]
    intro x hx
    obtain ⟨hx1, hx2⟩ := (hNain x).mp hx
    exact hx2 hx1
  obtain ⟨hN1l, hN1cl2⟩ := Graph.getNode_ok hN1
  have hNa1 : N1 = Na := by
    rw [hNa] at hN1l
    injection hN1l with hh
    exact hh.symm
  subst hNa1
  obtain ⟨houtA, hinA, hndAo, hndAi⟩ := wf_adj hwf1 n N1 hNa
  have hlout : ∀ x ∈ N1.outEdges, ∃ E, G1.edges[x]? = some E ∧ E.cleared = false := by
    intro x hx
    obtain ⟨E, hE, hEcl, -⟩ := houtA x hx
    exact ⟨E, hE, hEcl⟩
  obtain ⟨Nb, hNb, hNbcl, hNbout, hNbin⟩ :=
    Graph.removeEdgesList_node2 hG2 hNa hndAo hndAi houtA hinA hlout
  have hNboutE : Nb.outEdges = [] := by
    rw [List.eq_nil_iff_forall_not_mem]
    intro x hx
    obtain ⟨hx1, hx2⟩ := (hNbout x).mp hx
    exact hx2 hx1
  have hNbinE : Nb.inEdges = [] := by
    rw [List.eq_nil_iff_forall_not_mem]
    intro x hx
    obtain ⟨hx1, -⟩ := (hNbin x).mp hx
    rw [hNainE] at hx1
    exact List.not_mem_nil x hx1
  have hNaclF : N1.cleared = N0.cleared := hNacl
  have hNbclF : Nb.cleared = false := by
    rw [hNbcl, hNaclF, hN0cl]
  have hnolive : ∀ (e : Nat) (en : EdgeEntry), G2.edges[e]? = some en →
      en.cleared = false → en.source ≠ n ∧ en.target ≠ n := by
    intro e en he hcl
    obtain ⟨⟨nns, hnns, -, hmemo⟩, nnt, hnnt, -, hmemi⟩ :=
      wf_edge_linked hwf2 e en he hcl
    constructor
    · intro hh
      rw [hh, hNb] at hnns
      injection hnns with hnns
      rw [← hnns] at hmemo
      rw [hNboutE] at hmemo
      exact List.not_mem_nil e hmemo
    · intro hh
      rw [hh, hNb] at hnnt
      injection hnnt with hnnt
      rw [← hnnt] at hmemi
      rw [hNbinE] at hmemi
      exact List.not_mem_nil e hmemi
  obtain ⟨hc1, hc2⟩ := wf_counts hwf2
  split at h
  · rename_i en hen
    injection h with h
    have hen2 : en = Nb := by
      rw [hNb] at hen
      injection hen with hh
      exact hh.symm
    subst hen2
    have hnlt : n < G2.nodes.length := getElem?_some_lt hNb
    have hfnodes : G'.nodes = G2.nodes.set n { en with cleared := true } := by
      rw [← h]
      rfl
    have hfedges : G'.edges = G2.edges := by
      rw [← h]
      rfl
    have hfnumN : G'.numNodes = G2.numNodes - 1 := by
      rw [← h]
    have hfnumE : G'.numEdges = G2.numEdges := by
      rw [← h]
      rfl
    have hlookself : G'.nodes[n]? = some { en with cleared := true } := by
      rw [hfnodes]
      exact List.getElem?_set_self hnlt
    have hlookne : ∀ (m : Nat), m ≠ n → G'.nodes[m]? = G2.nodes[m]? := by
      intro m hm
      rw [hfnodes]
      exact List.getElem?_set_ne (fun hh => hm hh.symm)
    have hmaskF : nodesCleared G' = (nodesCleared G2).set n true := by
      unfold nodesCleared
      rw [hfnodes, List.map_set]
    have hliveF : liveNodeCount G' + 1 = liveNodeCount G2 := by
      unfold liveNodeCount
      rw [hmaskF]
      refine count_false_set_true ?_
      rw [nodesCleared_getElem, hNb]
      simp [hNbclF]
    have hliveEF : liveEdgeCount G' = liveEdgeCount G2 := by
      unfold liveEdgeCount
      rw [hfedges]
    constructor
    · refine graphWFb_intro ?_ ?_ ?_ ?_
      · rw [hfnumN]
        omega
      · rw [hfnumE, hliveEF]
        exact hc2
      · intro e en2 he hcl
        have heg : G2.edges[e]? = some en2 := by
          rw [← hfedges]
          exact he
        obtain ⟨hsne, htne⟩ := hnolive e en2 heg hcl
        obtain ⟨⟨nns, hnns, hnnscl, hmemo⟩, nnt, hnnt, hnntcl, hmemi⟩ :=
          wf_edge_linked hwf2 e en2 heg hcl
        refine ⟨⟨nns, ?_, hnnscl, hmemo⟩, nnt, ?_, hnntcl, hmemi⟩
        · rw [hlookne en2.source hsne]
          exact hnns
        · rw [hlookne en2.target htne]
          exact hnnt
      · intro m nm hm
        by_cases hmn : m = n
        · subst hmn
          rw [hlookself] at hm
          injection hm with hm
          subst hm
          refine ⟨?_, ?_, ?_, ?_, ?_⟩
          · intro hcl
            exact ⟨hNbinE, hNboutE⟩
          · intro x hx
            have hx2 : x ∈ en.outEdges := hx
            rw [hNboutE] at hx2
            exact absurd hx2 (List.not_mem_nil x)
          · intro x hx
            have hx2 : x ∈ en.inEdges := hx
            rw [hNbinE] at hx2
            exact absurd hx2 (List.not_mem_nil x)
          · show en.outEdges.Nodup
            rw [hNboutE]
            exact List.nodup_nil
          · show en.inEdges.Nodup
            rw [hNbinE]
            exact List.nodup_nil
        · rw [hlookne m hmn] at hm
          obtain ⟨houtm, hinm, hnm1, hnm2⟩ := wf_adj hwf2 m nm hm
          refine ⟨wf_cleared_empty hwf2 m nm hm, ?_, ?_, hnm1, hnm2⟩
          · intro x hx
            obtain ⟨en2, hen2b, hencl, hsrc⟩ := houtm x hx
            refine ⟨en2, ?_, hencl, hsrc⟩
            rw [hfedges]
            exact hen2b
          · intro x hx
            obtain ⟨en2, hen2b, hencl, htg⟩ := hinm x hx
            refine ⟨en2, ?_, hencl, htg⟩
            rw [hfedges]
            exact hen2b
    · rw [pairUnique_edges_congr hfedges]
      exact hpu2
  · exact Except.noConfusion h

/-! ### Solver-invariant preservation through the collapse chain -/

/-- Clearing one bit of one entry of a bounded bitvector map keeps it
bounded. -/
theorem bound_clear {N a v : Nat} {p : Nat → Nat}
    (hb : ∀ i x, (p i).testBit x = true → x < N) :
    ∀ i x, ((fun m => if m = a then clearBit (p a) v else p m) i).testBit x = true →
      x < N := by
  intro i x hx
  have hx2 : (if i = a then clearBit (p a) v else p i).testBit x = true := hx
  by_cases hi : i = a
  · rw [if_pos hi] at hx2
    rw [testBit_clearBit] at hx2
    simp only [Bool.and_eq_true] at hx2
    exact hb a x hx2.1
  · rw [if_neg hi] at hx2
    exact hb i x hx2

/-- Setting an in-range bit of one entry of a bounded bitvector map keeps it
bounded. -/
theorem bound_set {N b c : Nat} (hc : c < N) {p : Nat → Nat}
    (hb : ∀ i x, (p i).testBit x = true → x < N) :
    ∀ i x, ((fun m => if m = b then setBit (p b) c else p m) i).testBit x = true →
      x < N := by
  intro i x hx
  have hx2 : (if i = b then setBit (p b) c else p i).testBit x = true := hx
  by_cases hi : i = b
  · rw [if_pos hi] at hx2
    rw [testBit_setBit] at hx2
    simp only [Bool.or_eq_true] at hx2
    rcases hx2 with hx2 | hx2
    · exact hb b x hx2
    · have hcx : c = x := of_decide_eq_true hx2
      omega
  · rw [if_neg hi] at hx2
    exact hb i x hx2

/-- The three bit moves of one in-edge collapse step preserve `BInv` when
the moved index is in range. -/
theorem BInv_moves {N origin u v : Nat} (hv : v < N) (t : LCDState)
    (hB : BInv N t) :
    BInv N (LCD.moveLoadsBit origin u v
      (LCD.moveStoresBit origin u v (LCD.movePtsBit origin u v t))) := by
  obtain ⟨hlen, hwf, hpu, hpts, hsto⟩ := hB
  obtain ⟨g1, s1, -, -, -⟩ := LCD.movePtsBit_frame origin u v t
  obtain ⟨g2, p2, -, -, -⟩ :=
    LCD.moveStoresBit_frame origin u v (LCD.movePtsBit origin u v t)
  obtain ⟨g3, p3, s3, -, -⟩ :=
    LCD.moveLoadsBit_frame origin u v
      (LCD.moveStoresBit origin u v (LCD.movePtsBit origin u v t))
  have hG : (LCD.moveLoadsBit origin u v
      (LCD.moveStoresBit origin u v (LCD.movePtsBit origin u v t))).G = t.G := by
    rw [g3, g2, g1]
  have hP1 : ∀ i x, ((LCD.movePtsBit origin u v t).pts i).testBit x = true →
      x < N := by
    unfold LCD.movePtsBit
    split
    · exact bound_set hv (bound_clear hpts)
    · exact hpts
  have hS1 : ∀ i x,
      ((LCD.moveStoresBit origin u v (LCD.movePtsBit origin u v t)).stores i).testBit x
        = true → x < N := by
    have hbase : ∀ i x, ((LCD.movePtsBit origin u v t).stores i).testBit x = true →
        x < N := by
      intro i x hx
      rw [s1] at hx
      exact hsto i x hx
    unfold LCD.moveStoresBit
    split
    · exact bound_set hv (bound_clear hbase)
    · exact hbase
  refine ⟨?_, ?_, ?_, ?_, ?_⟩
  · rw [hG]
    exact hlen
  · rw [hG]
    exact hwf
  · rw [hG]
    exact hpu
  · intro i x hx
    rw [p3, p2] at hx
    exact hP1 i x hx
  · intro i x hx
    rw [s3] at hx
    exact hS1 i x hx

/-- One in-edge collapse step preserves `BInv`. -/
theorem BInv_collapseInStep {N origin u : Nat} {s s' : LCDState} {j : Nat}
    (h : LCD.collapseInStep origin u s j = .ok s') (hB : BInv N s) :
    BInv N s' := by
  simp only [LCD.collapseInStep] at h
  obtain ⟨v, hv, h⟩ := bindOk h
  obtain ⟨en, hge, hsrc⟩ := Graph.getEdgeSource_ok hv
  obtain ⟨hen2, hencl⟩ := Graph.getEdge_ok hge
  have hvN : v < N := by
    obtain ⟨⟨ns, hns, -, -⟩, -⟩ := wf_edge_linked hB.2.1 j en hen2 hencl
    have h1 := getElem?_some_lt hns
    rw [hsrc] at h1
    have h2 := hB.1
    omega
  split at h
  · injection h with h
    subst h
    exact hB
  · split at h
    · obtain ⟨f, hf, h⟩ := bindOk h
      split at h
      · obtain ⟨p, hp, h⟩ := bindOk h
        obtain ⟨y, hy, h⟩ := bindOk h
        injection hy with hy
        subst hy
        injection h with h
        subst h
        have hwfpu := Graph.addEdge_wf hB.2.1 hB.2.2.1
          (show _ = .ok (p.1, p.2) from hp)
        have hBy : BInv N ({ s with G := p.1 }) := by
          refine ⟨?_, hwfpu.1, hwfpu.2, hB.2.2.2.1, hB.2.2.2.2⟩
          show p.1.nodes.length = N
          rw [(Graph.addEdge_ok_nodes (show _ = .ok (p.1, p.2) from hp)).2.1]
          exact hB.1
        exact BInv_moves hvN _ hBy
      · obtain ⟨y, hy, h⟩ := bindOk h
        injection hy with hy
        subst hy
        injection h with h
        subst h
        exact BInv_moves hvN s hB
    · obtain ⟨y, hy, h⟩ := bindOk h
      injection hy with hy
      subst hy
      injection h with h
      subst h
      exact BInv_moves hvN s hB

/-- One out-edge collapse step preserves `BInv`. -/
theorem BInv_collapseOutStep {N origin u : Nat} {s s' : LCDState} {k : Nat}
    (h : LCD.collapseOutStep origin u s k = .ok s') (hB : BInv N s) :
    BInv N s' := by
  simp only [LCD.collapseOutStep] at h
  obtain ⟨v, hv, h⟩ := bindOk h
  split at h
  · injection h with h
    subst h
    exact hB
  · split at h
    · obtain ⟨f, hf, h⟩ := bindOk h
      split at h
      · obtain ⟨p, hp, h⟩ := bindOk h
        injection h with h
        subst h
        have hwfpu := Graph.addEdge_wf hB.2.1 hB.2.2.1
          (show _ = .ok (p.1, p.2) from hp)
        refine ⟨?_, hwfpu.1, hwfpu.2, hB.2.2.2.1, hB.2.2.2.2⟩
        show p.1.nodes.length = N
        rw [(Graph.addEdge_ok_nodes (show _ = .ok (p.1, p.2) from hp)).2.1]
        exact hB.1
      · injection h with h
        subst h
        exact hB
    · injection h with h
      subst h
      exact hB

/-- Merging one node into the representative preserves `BInv`. -/
theorem BInv_collapseOne {N origin : Nat} {s s' : LCDState} {u : Nat}
    (h : LCD.collapseOne origin s u = .ok s') (hB : BInv N s) : BInv N s' := by
  simp only [LCD.collapseOne] at h
  obtain ⟨nu, hnu, h⟩ := bindOk h
  obtain ⟨s1, hs1, h⟩ := bindOk h
  obtain ⟨nu2, hnu2, h⟩ := bindOk h
  obtain ⟨s2, hs2, h⟩ := bindOk h
  obtain ⟨G1, hG1, h⟩ := bindOk h
  injection h with h
  subst h
  have hB1 : BInv N s1 := foldlM_pres
    (P := fun a b : LCDState => BInv N a → BInv N b)
    (fun a j b hh hBa => BInv_collapseInStep hh hBa)
    (fun a hBa => hBa)
    (fun a b c h1 h2 hBa => h2 (h1 hBa)) _ _ _ hs1 hB
  have hB2 : BInv N s2 := foldlM_pres
    (P := fun a b : LCDState => BInv N a → BInv N b)
    (fun a k b hh hBa => BInv_collapseOutStep hh hBa)
    (fun a hBa => hBa)
    (fun a b c h1 h2 hBa => h2 (h1 hBa)) _ _ _ hs2 hB1
  obtain ⟨hg3, hp3, hq3, -⟩ := LCD.foldl_moveVar_frame (s2.leftVars u) s2
  have hG1b : s2.G.removeNode u = .ok G1 := by
    have hcast : ((s2.leftVars u).foldl (LCD.moveVar origin) s2).G.removeNode u
        = .ok G1 := hG1
    rw [hg3] at hcast
    exact hcast
  have hwfpu := Graph.removeNode_wf hB2.2.1 hB2.2.2.1 hG1b
  obtain ⟨-, -, hlen1, -⟩ := Graph.removeNode_ok_nodes hG1b
  refine ⟨?_, hwfpu.1, hwfpu.2, ?_, ?_⟩
  · show G1.nodes.length = N
    rw [hlen1]
    exact hB2.1
  · intro i x hx
    have hx2 : (((s2.leftVars u).foldl (LCD.moveVar origin) s2).pts i).testBit x
        = true := hx
    rw [hp3] at hx2
    exact hB2.2.2.2.1 i x hx2
  · intro i x hx
    have hx2 : (((s2.leftVars u).foldl (LCD.moveVar origin) s2).stores i).testBit x
        = true := hx
    rw [hq3] at hx2
    exact hB2.2.2.2.2 i x hx2

/-- A whole path collapse preserves `BInv`. -/
theorem BInv_collapse {N : Nat} {s s' : LCDState} {path : List Nat}
    (h : LCD.collapse s path = .ok s') (hB : BInv N s) : BInv N s' := by
  cases path with
  | nil =>
    simp only [LCD.collapse] at h
    injection h with h
    subst h
    exact hB
  | cons origin rest =>
    simp only [LCD.collapse] at h
    exact foldlM_pres
      (P := fun a b : LCDState => BInv N a → BInv N b)
      (fun a u b hh hBa => BInv_collapseOne hh hBa)
      (fun a hBa => hBa)
      (fun a b c h1 h2 hBa => h2 (h1 hBa)) _ _ _ h hB

/-- Handling one cycle path leaves the checked-pairs set alone. -/
theorem cyclePathStep_R {p q : SolveSt × Nat} {path : List Nat}
    (h : LCD.cyclePathStep p path = .ok q) : q.1.R = p.1.R := by
  simp only [LCD.cyclePathStep] at h
  obtain ⟨s2, hs2, h⟩ := bindOk h
  injection h with h
  subst h
  rfl

/-- The cycle-path fold of `handleZ` leaves the checked-pairs set alone. -/
theorem cycles_fold_R {cycles : List (List Nat)} {st : SolveSt} {l : Nat}
    {q : SolveSt × Nat}
    (h : cycles.foldlM LCD.cyclePathStep (st, l) = .ok q) : q.1.R = st.R :=
  foldlM_pres
    (P := fun a b : SolveSt × Nat => b.1.R = a.1.R)
    (fun a pth b hh => cyclePathStep_R hh)
    (fun a => rfl)
    (fun a b c h1 h2 => h2.trans h1) _ _ _ h

/-- Handling one cycle path preserves `SInv`. -/
theorem SInv_cyclePathStep {N : Nat} {p q : SolveSt × Nat} {path : List Nat}
    (h : LCD.cyclePathStep p path = .ok q) (hS : SInv N p.1) : SInv N q.1 := by
  simp only [LCD.cyclePathStep] at h
  obtain ⟨s2, hs2, h⟩ := bindOk h
  injection h with h
  subst h
  obtain ⟨hB, hW, hRnd, hRb⟩ := hS
  refine ⟨BInv_collapse hs2 hB, ?_, hRnd, hRb⟩
  intro x hx
  exact hW x (testBit_foldl_clearBit _ _ _ hx)

/-- One successor-handling step preserves `SInv` (for an in-range processed
node and successor). -/
theorem SInv_handleZ {N n z : Nat} {st : SolveSt} {l : Nat} {p : SolveSt × Nat}
    (hn : n < N) (hz : z < N)
    (h : LCD.handleZ n st l z = .ok p) (hS : SInv N st) : SInv N p.1 := by
  simp only [LCD.handleZ] at h
  split at h
  · split at h
    · injection h with h
      subst h
      exact hS
    · rename_i hmemcond
      obtain ⟨cycles, hcy, h⟩ := bindOk h
      obtain ⟨q, hq, h⟩ := bindOk h
      injection h with h
      subst h
      have hSq : SInv N q.1 := foldlM_pres
        (P := fun a b : SolveSt × Nat => SInv N a.1 → SInv N b.1)
        (fun a pth b hh hSa => SInv_cyclePathStep hh hSa)
        (fun a hSa => hSa)
        (fun a b c h1 h2 hSa => h2 (h1 hSa)) _ _ _ hq hS
      have hRq : q.1.R = st.R := cycles_fold_R hq
      have hnotmem : (n, z) ∉ st.R := by simpa using hmemcond
      obtain ⟨hBq, hWq, hRnd, hRb⟩ := hSq
      refine ⟨hBq, hWq, ?_, ?_⟩
      · show ((n, z) :: q.1.R).Nodup
        rw [hRq]
        exact List.nodup_cons.mpr ⟨hnotmem, by rw [hRq] at hRnd; exact hRnd⟩
      · intro pr hpr
        have hpr2 : pr ∈ (n, z) :: q.1.R := hpr
        rcases List.mem_cons.mp hpr2 with hpr3 | hpr3
        · subst hpr3
          exact ⟨hn, hz⟩
        · exact hRb pr hpr3
  · injection h with h
    subst h
    obtain ⟨⟨hlen, hwf, hpu, hpts, hsto⟩, hW, hRnd, hRb⟩ := hS
    refine ⟨⟨hlen, hwf, hpu, ?_, hsto⟩, ?_, hRnd, hRb⟩
    · intro i x hx
      have hx2 : ((if i = z then st.s.pts z ||| st.s.pts n else st.s.pts i)).testBit x
          = true := hx
      by_cases hiz : i = z
      · rw [if_pos hiz] at hx2
        rw [Nat.testBit_or] at hx2
        simp only [Bool.or_eq_true] at hx2
        rcases hx2 with hx2 | hx2
        · exact hpts z x hx2
        · exact hpts n x hx2
      · rw [if_neg hiz] at hx2
        exact hpts i x hx2
    · intro x hx
      have hx2 : (setBit st.W z).testBit x = true := hx
      rw [testBit_setBit] at hx2
      simp only [Bool.or_eq_true] at hx2
      rcases hx2 with hx2 | hx2
      · exact hW x hx2
      · have hzx : z = x := of_decide_eq_true hx2
        omega

/-- Shape of a successor-handling step that removed no node: it either did
nothing (already-checked pair), recorded one new checked pair with the rest
of the state untouched (a collapse-free cycle check), or propagated `pts[n]`
into a strictly different `pts[z]` and re-enqueued `z`. -/
theorem handleZ_cases {n z : Nat} {st : SolveSt} {l : Nat} {p : SolveSt × Nat}
    (h : LCD.handleZ n st l z = .ok p)
    (hlive : liveNodeCount p.1.s.G = liveNodeCount st.s.G) :
    p.2 = l ∧
    (p.1 = st
      ∨ (p.1.s = st.s ∧ p.1.W = st.W ∧ p.1.R = (n, z) :: st.R
          ∧ (n, z) ∉ st.R)
      ∨ (st.s.pts n ≠ st.s.pts z
          ∧ p.1.s = { st.s with
              pts := fun m => if m = z then st.s.pts z ||| st.s.pts n else st.s.pts m }
          ∧ p.1.W = setBit st.W z ∧ p.1.R = st.R)) := by
  simp only [LCD.handleZ] at h
  split at h
  · split at h
    · injection h with h
      subst h
      exact ⟨rfl, Or.inl rfl⟩
    · rename_i hmemcond
      obtain ⟨cycles, hcy, h⟩ := bindOk h
      obtain ⟨q, hq, h⟩ := bindOk h
      injection h with h
      subst h
      have hliveq : liveNodeCount q.1.s.G = liveNodeCount st.s.G := hlive
      have hfold : liveNodeCount q.1.s.G ≤ liveNodeCount st.s.G
          ∧ (liveNodeCount q.1.s.G = liveNodeCount st.s.G → q = (st, l)) := by
        refine foldlM_pres
          (P := fun a b : SolveSt × Nat =>
            liveNodeCount b.1.s.G ≤ liveNodeCount a.1.s.G
              ∧ (liveNodeCount b.1.s.G = liveNodeCount a.1.s.G → b = a))
          ?_ ?_ ?_ cycles (st, l) q hq
        · intro a pth b hh
          simp only [LCD.cyclePathStep] at hh
          obtain ⟨s2, hs2, hh⟩ := bindOk hh
          injection hh with hh
          subst hh
          have hc := LCD.collapse_liveCount hs2
          refine ⟨?_, ?_⟩
          · show liveNodeCount s2.G ≤ liveNodeCount a.1.s.G
            omega
          · intro heq
            have heq2 : liveNodeCount s2.G = liveNodeCount a.1.s.G := heq
            have hnoop : s2 = a.1.s := LCD.collapse_noop hs2 heq2
            have hlen0 : (pth.drop 1).length = 0 := by omega
            have hnil : pth.drop 1 = [] := List.length_eq_zero.mp hlen0
            show ({ a.1 with s := s2, W := (pth.drop 1).foldl clearBit a.1.W },
                  (pth.drop 1).foldl clearBit a.2) = a
            rw [hnoop, hnil]
            rfl
        · intro a
          exact ⟨Nat.le_refl _, fun _ => rfl⟩
        · intro a b c hab hbc
          obtain ⟨le1, eq1⟩ := hab
          obtain ⟨le2, eq2⟩ := hbc
          refine ⟨Nat.le_trans le2 le1, fun heq => ?_⟩
          have h1 : liveNodeCount b.1.s.G = liveNodeCount a.1.s.G := by omega
          have h2 : liveNodeCount c.1.s.G = liveNodeCount b.1.s.G := by
            rw [heq, h1]
          rw [eq2 h2, eq1 h1]
      have hid : q = (st, l) := hfold.2 hliveq
      subst hid
      refine ⟨rfl, Or.inr (Or.inl ⟨rfl, rfl, rfl, ?_⟩)⟩
      simpa using hmemcond
  · rename_i hne
    injection h with h
    subst h
    exact ⟨rfl, Or.inr (Or.inr ⟨hne, rfl, rfl, rfl⟩)⟩

/-- Inversion of `getEdgeTarget` success. -/
theorem Graph.getEdgeTarget_ok2 {G : Graph} {e v : Nat}
    (h : G.getEdgeTarget e = .ok v) :
    ∃ en, G.getEdge e = .ok en ∧ en.target = v := by
  simp only [Graph.getEdgeTarget] at h
  obtain ⟨en, hen, h⟩ := bindOk h
  injection h with h
  exact ⟨en, hen, h⟩

/-! ### Accounting for the load/store materialization phase -/

/-- One load-materialization step preserves `SInv` and all non-graph state,
only adds edges, and its worklist-potential growth is paid by the added
edge. -/
theorem loadStep_acc {N v : Nat} (hv : v < N) {st st' : SolveSt} {a : Nat}
    (h : LCD.loadStep v st a = .ok st') (hS : SInv N st) :
    SInv N st'
      ∧ st'.s.pts = st.s.pts
      ∧ st'.s.stores = st.s.stores
      ∧ st'.s.loads = st.s.loads
      ∧ st'.R = st.R
      ∧ nodesCleared st'.s.G = nodesCleared st.s.G
      ∧ liveEdgeCount st.s.G ≤ liveEdgeCount st'.s.G
      ∧ phiW N st'.W st'.s.pts + liveEdgeCount st.s.G * (N + 1) ^ (N + 1)
          ≤ phiW N st.W st.s.pts + liveEdgeCount st'.s.G * (N + 1) ^ (N + 1) := by
  simp only [LCD.loadStep] at h
  obtain ⟨f, hf, h⟩ := bindOk h
  split at h
  · obtain ⟨p, hp, h⟩ := bindOk h
    injection h with h
    subst h
    obtain ⟨⟨hlen, hwf, hpu, hpts, hsto⟩, hW, hRnd, hRb⟩ := hS
    have hwfpu := Graph.addEdge_wf hwf hpu (show _ = .ok (p.1, p.2) from hp)
    have hnod := Graph.addEdge_ok_nodes (show _ = .ok (p.1, p.2) from hp)
    have hE := liveEdgeCount_addEdge (show _ = .ok (p.1, p.2) from hp)
    refine ⟨⟨⟨?_, hwfpu.1, hwfpu.2, hpts, hsto⟩, ?_, hRnd, hRb⟩,
      rfl, rfl, rfl, rfl, ?_, ?_, ?_⟩
    · show p.1.nodes.length = N
      rw [hnod.2.1]
      exact hlen
    · intro x hx
      have hx2 : (setBit st.W v).testBit x = true := hx
      rw [testBit_setBit] at hx2
      simp only [Bool.or_eq_true] at hx2
      rcases hx2 with hx2 | hx2
      · exact hW x hx2
      · have hvx : v = x := of_decide_eq_true hx2
        omega
    · show nodesCleared p.1 = nodesCleared st.s.G
      exact hnod.1
    · show liveEdgeCount st.s.G ≤ liveEdgeCount p.1
      omega
    · show phiW N (setBit st.W v) st.s.pts + liveEdgeCount st.s.G * (N + 1) ^ (N + 1)
          ≤ phiW N st.W st.s.pts + liveEdgeCount p.1 * (N + 1) ^ (N + 1)
      have hphi := phiW_set_le (N := N) (W := st.W) (z := v)
        (p := st.s.pts) (q := st.s.pts) (fun i _ => rfl)
      have hpow : (N + 1) ^ (N + 1 - pcnt (st.s.pts v)) ≤ (N + 1) ^ (N + 1) :=
        Nat.pow_le_pow_right (by omega) (by omega)
      have hmul : liveEdgeCount p.1 * (N + 1) ^ (N + 1)
          = liveEdgeCount st.s.G * (N + 1) ^ (N + 1) + (N + 1) ^ (N + 1) := by
        rw [hE, Nat.add_mul, Nat.one_mul]
      omega
  · injection h with h
    subst h
    exact ⟨hS, rfl, rfl, rfl, rfl, rfl, Nat.le_refl _, Nat.le_refl _⟩

/-- One store-materialization step: the mirror of `loadStep_acc` (the
enqueued node is the store bit `b`). -/
theorem storeStep_acc {N v b : Nat} (hb : b < N) {st st' : SolveSt}
    (h : LCD.storeStep v st b = .ok st') (hS : SInv N st) :
    SInv N st'
      ∧ st'.s.pts = st.s.pts
      ∧ st'.s.stores = st.s.stores
      ∧ st'.s.loads = st.s.loads
      ∧ st'.R = st.R
      ∧ nodesCleared st'.s.G = nodesCleared st.s.G
      ∧ liveEdgeCount st.s.G ≤ liveEdgeCount st'.s.G
      ∧ phiW N st'.W st'.s.pts + liveEdgeCount st.s.G * (N + 1) ^ (N + 1)
          ≤ phiW N st.W st.s.pts + liveEdgeCount st'.s.G * (N + 1) ^ (N + 1) := by
  simp only [LCD.storeStep] at h
  obtain ⟨f, hf, h⟩ := bindOk h
  split at h
  · obtain ⟨p, hp, h⟩ := bindOk h
    injection h with h
    subst h
    obtain ⟨⟨hlen, hwf, hpu, hpts, hsto⟩, hW, hRnd, hRb⟩ := hS
    have hwfpu := Graph.addEdge_wf hwf hpu (show _ = .ok (p.1, p.2) from hp)
    have hnod := Graph.addEdge_ok_nodes (show _ = .ok (p.1, p.2) from hp)
    have hE := liveEdgeCount_addEdge (show _ = .ok (p.1, p.2) from hp)
    refine ⟨⟨⟨?_, hwfpu.1, hwfpu.2, hpts, hsto⟩, ?_, hRnd, hRb⟩,
      rfl, rfl, rfl, rfl, ?_, ?_, ?_⟩
    · show p.1.nodes.length = N
      rw [hnod.2.1]
      exact hlen
    · intro x hx
      have hx2 : (setBit st.W b).testBit x = true := hx
      rw [testBit_setBit] at hx2
      simp only [Bool.or_eq_true] at hx2
      rcases hx2 with hx2 | hx2
      · exact hW x hx2
      · have hbx : b = x := of_decide_eq_true hx2
        omega
    · show nodesCleared p.1 = nodesCleared st.s.G
      exact hnod.1
    · show liveEdgeCount st.s.G ≤ liveEdgeCount p.1
      omega
    · show phiW N (setBit st.W b) st.s.pts + liveEdgeCount st.s.G * (N + 1) ^ (N + 1)
          ≤ phiW N st.W st.s.pts + liveEdgeCount p.1 * (N + 1) ^ (N + 1)
      have hphi := phiW_set_le (N := N) (W := st.W) (z := b)
        (p := st.s.pts) (q := st.s.pts) (fun i _ => rfl)
      have hpow : (N + 1) ^ (N + 1 - pcnt (st.s.pts b)) ≤ (N + 1) ^ (N + 1) :=
        Nat.pow_le_pow_right (by omega) (by omega)
      have hmul : liveEdgeCount p.1 * (N + 1) ^ (N + 1)
          = liveEdgeCount st.s.G * (N + 1) ^ (N + 1) + (N + 1) ^ (N + 1) := by
        rw [hE, Nat.add_mul, Nat.one_mul]
      omega
  · injection h with h
    subst h
    exact ⟨hS, rfl, rfl, rfl, rfl, rfl, Nat.le_refl _, Nat.le_refl _⟩

/-- One pointee step of the materialization phase: `SInv` is preserved, all
non-graph state is framed, only edges are added and the worklist-potential
growth is paid by the added edges. -/
theorem ptsStep_acc {N n : Nat} {st st' : SolveSt} {v : Nat} (hv : v < N)
    (h : LCD.ptsStep n st v = .ok st') (hS : SInv N st) :
    SInv N st'
      ∧ st'.s.pts = st.s.pts
      ∧ st'.s.stores = st.s.stores
      ∧ st'.s.loads = st.s.loads
      ∧ st'.R = st.R
      ∧ nodesCleared st'.s.G = nodesCleared st.s.G
      ∧ liveEdgeCount st.s.G ≤ liveEdgeCount st'.s.G
      ∧ phiW N st'.W st'.s.pts + liveEdgeCount st.s.G * (N + 1) ^ (N + 1)
          ≤ phiW N st.W st.s.pts + liveEdgeCount st'.s.G * (N + 1) ^ (N + 1) := by
  simp only [LCD.ptsStep] at h
  obtain ⟨st1, h1, h2⟩ := bindOk h
  have hload := foldlM_pres
    (P := fun a b : SolveSt =>
      SInv N a →
        SInv N b ∧ b.s.pts = a.s.pts ∧ b.s.stores = a.s.stores
          ∧ b.s.loads = a.s.loads ∧ b.R = a.R
          ∧ nodesCleared b.s.G = nodesCleared a.s.G
          ∧ liveEdgeCount a.s.G ≤ liveEdgeCount b.s.G
          ∧ phiW N b.W b.s.pts + liveEdgeCount a.s.G * (N + 1) ^ (N + 1)
              ≤ phiW N a.W a.s.pts + liveEdgeCount b.s.G * (N + 1) ^ (N + 1))
    (fun a x b hh hSa => loadStep_acc hv hh hSa)
    (fun a hSa => ⟨hSa, rfl, rfl, rfl, rfl, rfl, Nat.le_refl _, Nat.le_refl _⟩)
    (fun a b c hab hbc hSa => by
      obtain ⟨hSb, p1, p2, p3, p4, p5, p6, p7⟩ := hab hSa
      obtain ⟨hSc, q1, q2, q3, q4, q5, q6, q7⟩ := hbc hSb
      exact ⟨hSc, q1.trans p1, q2.trans p2, q3.trans p3, q4.trans p4,
        q5.trans p5, Nat.le_trans p6 q6, by omega⟩)
    _ _ _ h1
  obtain ⟨hS1, a1, a2, a3, a4, a5, a6, a7⟩ := hload hS
  have hbmem : ∀ x ∈ bits (st1.s.stores n), x < N := by
    intro x hx
    have hxb := (mem_bits _ _).mp hx
    rw [a2] at hxb
    exact hS.1.2.2.2.2 n x hxb
  have hstore := foldlM_pres_mem
    (P := fun a b : SolveSt =>
      SInv N a →
        SInv N b ∧ b.s.pts = a.s.pts ∧ b.s.stores = a.s.stores
          ∧ b.s.loads = a.s.loads ∧ b.R = a.R
          ∧ nodesCleared b.s.G = nodesCleared a.s.G
          ∧ liveEdgeCount a.s.G ≤ liveEdgeCount b.s.G
          ∧ phiW N b.W b.s.pts + liveEdgeCount a.s.G * (N + 1) ^ (N + 1)
              ≤ phiW N a.W a.s.pts + liveEdgeCount b.s.G * (N + 1) ^ (N + 1))
    (fun a x hmem b hh hSa => storeStep_acc (hbmem x hmem) hh hSa)
    (fun a hSa => ⟨hSa, rfl, rfl, rfl, rfl, rfl, Nat.le_refl _, Nat.le_refl _⟩)
    (fun a b c hab hbc hSa => by
      obtain ⟨hSb, p1, p2, p3, p4, p5, p6, p7⟩ := hab hSa
      obtain ⟨hSc, q1, q2, q3, q4, q5, q6, q7⟩ := hbc hSb
      exact ⟨hSc, q1.trans p1, q2.trans p2, q3.trans p3, q4.trans p4,
        q5.trans p5, Nat.le_trans p6 q6, by omega⟩)
    h2
  obtain ⟨hS2, b1, b2, b3, b4, b5, b6, b7⟩ := hstore hS1
  exact ⟨hS2, b1.trans a1, b2.trans a2, b3.trans a3, b4.trans a4,
    b5.trans a5, Nat.le_trans a6 b6, by omega⟩

/-- The successor set built from a well-formed graph only names in-range
nodes. -/
theorem buildL_bound {N : Nat} {s : LCDState} {n l : Nat}
    (hwf : graphWFb s.G = true) (hN : s.G.nodes.length = N)
    (h : LCD.buildL s n = .ok l) :
    ∀ x, l.testBit x = true → x < N := by
  simp only [LCD.buildL] at h
  obtain ⟨outs, houts, h⟩ := bindOk h
  refine foldlM_pres
    (P := fun a b : Nat =>
      (∀ x, a.testBit x = true → x < N) → (∀ x, b.testBit x = true → x < N))
    ?_ (fun a ha => ha) (fun a b c h1 h2 ha => h2 (h1 ha)) _ _ _ h ?_
  · intro a e b hh ha
    obtain ⟨t, ht, hh⟩ := bindOk hh
    injection hh with hh
    subst hh
    obtain ⟨en, hge, htg⟩ := Graph.getEdgeTarget_ok2 ht
    obtain ⟨hen2, hencl⟩ := Graph.getEdge_ok hge
    have htN : t < N := by
      obtain ⟨-, ⟨nt, hnt, -, -⟩⟩ := wf_edge_linked hwf e en hen2 hencl
      have h1 := getElem?_some_lt hnt
      rw [htg] at h1
      omega
    intro x hx
    have hx2 : (setBit a t).testBit x = true := hx
    rw [testBit_setBit] at hx2
    simp only [Bool.or_eq_true] at hx2
    rcases hx2 with hx2 | hx2
    · exact ha x hx2
    · have htx : t = x := of_decide_eq_true hx2
      omega
  · intro x hx
    rw [Nat.zero_testBit] at hx
    exact Bool.noConfusion hx

/-- Grand accounting lemma of the successor loop: `SInv` is preserved,
nodes are never revived, and a loop run that removed no node leaves the
edge count and `pts[n]` unchanged, only grows points-to sets and `R`, and
its worklist-potential growth is paid by new checked pairs, points-to
growth, and the cursor budget (each remaining successor step costs at most
`(N+1)^(N - popcount(pts n))`). -/
theorem lLoop_acc {N n : Nat} (hn : n < N) :
    ∀ {fuel : Nat} {st : SolveSt} {l : Nat} {cur : Option Nat} {st' : SolveSt},
      LCD.lLoop n fuel st l cur = .ok st' →
      SInv N st →
      (∀ x, l.testBit x = true → x < N) →
      (∀ y, cur = some y → l.testBit y = true) →
      SInv N st'
      ∧ liveNodeCount st'.s.G ≤ liveNodeCount st.s.G
      ∧ (liveNodeCount st'.s.G = liveNodeCount st.s.G →
          liveEdgeCount st'.s.G = liveEdgeCount st.s.G
          ∧ st'.s.pts n = st.s.pts n
          ∧ (∀ m x, (st.s.pts m).testBit x = true → (st'.s.pts m).testBit x = true)
          ∧ st.R.length ≤ st'.R.length
          ∧ phiW N st'.W st'.s.pts
              + st.R.length * (N + 1) ^ (N + 1)
              + pcGap N st'.s.pts * (N + 1) ^ (N + 1)
            ≤ phiW N st.W st.s.pts
              + st'.R.length * (N + 1) ^ (N + 1)
              + pcGap N st.s.pts * (N + 1) ^ (N + 1)
              + cursorMeasure l cur * (N + 1) ^ (N - pcnt (st.s.pts n))) := by
  intro fuel
  induction fuel with
  | zero =>
    intro st l cur st' h hS hl hcur
    cases h
  | succ fuel ih =>
    intro st l cur st' h hS hl hcur
    cases cur with
    | none =>
      simp only [LCD.lLoop] at h
      injection h with h
      subst h
      refine ⟨hS, Nat.le_refl _, ?_⟩
      intro hlive
      exact ⟨rfl, rfl, fun m x hx => hx, Nat.le_refl _, Nat.le_add_right _ _⟩
    | some z =>
      simp only [LCD.lLoop] at h
      obtain ⟨p, hp, h⟩ := bindOk h
      have hzl : l.testBit z = true := hcur z rfl
      have hz : z < N := hl z hzl
      have hS1 : SInv N p.1 := SInv_handleZ hn hz hp hS
      have hsub := handleZ_bits hp
      have hl2 : ∀ x, p.2.testBit x = true → x < N := fun x hx => hl x (hsub x hx)
      have hcur2 : ∀ y, findNext p.2 z = some y → p.2.testBit y = true :=
        fun y hy => (findNext_spec hy).2
      obtain ⟨hS', hle', hcase⟩ := ih h hS1 hl2 hcur2
      obtain ⟨hle1, -⟩ := LCD.handleZ_mono hp
      refine ⟨hS', Nat.le_trans hle' hle1, ?_⟩
      intro hlive
      have hliveP : liveNodeCount p.1.s.G = liveNodeCount st.s.G := by omega
      have hliveT : liveNodeCount st'.s.G = liveNodeCount p.1.s.G := by omega
      obtain ⟨hE2, hpn2, hmono2, hR2, hphi2⟩ := hcase hliveT
      obtain ⟨hp2l, hshape⟩ := handleZ_cases hp hliveP
      rw [hp2l] at hphi2
      rcases hshape with hid | ⟨hs2, hW2, hR2b, hnm⟩ | ⟨hne, hs2, hW2, hR2b⟩
      · -- the step did nothing
        rw [hid] at hE2 hpn2 hmono2 hR2 hphi2
        refine ⟨hE2, hpn2, hmono2, hR2, ?_⟩
        cases hnx : findNext l z with
        | none =>
          rw [hnx] at hphi2
          have hcm0 : cursorMeasure l none = 0 := rfl
          rw [hcm0, Nat.zero_mul] at hphi2
          omega
        | some y =>
          rw [hnx] at hphi2
          have hstep := cursorMeasure_step (l := l) (fun x hx => hx) hnx
          have hmul : cursorMeasure l (some y) * (N + 1) ^ (N - pcnt (st.s.pts n))
              ≤ cursorMeasure l (some z) * (N + 1) ^ (N - pcnt (st.s.pts n)) :=
            Nat.mul_le_mul_right _ (Nat.le_of_lt hstep)
          omega
      · -- collapse-free cycle check: one new pair in R
        rw [hs2] at hE2 hpn2 hmono2
        rw [hR2b] at hR2
        simp only [List.length_cons] at hR2
        rw [hs2, hW2, hR2b] at hphi2
        simp only [List.length_cons] at hphi2
        have hmulR : (st.R.length + 1) * (N + 1) ^ (N + 1)
            = st.R.length * (N + 1) ^ (N + 1) + (N + 1) ^ (N + 1) := by
          rw [Nat.add_mul, Nat.one_mul]
        refine ⟨hE2, hpn2, hmono2, by omega, ?_⟩
        cases hnx : findNext l z with
        | none =>
          rw [hnx] at hphi2
          have hcm0 : cursorMeasure l none = 0 := rfl
          rw [hcm0, Nat.zero_mul] at hphi2
          omega
        | some y =>
          rw [hnx] at hphi2
          have hstep := cursorMeasure_step (l := l) (fun x hx => hx) hnx
          have hmul : cursorMeasure l (some y) * (N + 1) ^ (N - pcnt (st.s.pts n))
              ≤ cursorMeasure l (some z) * (N + 1) ^ (N - pcnt (st.s.pts n)) :=
            Nat.mul_le_mul_right _ (Nat.le_of_lt hstep)
          omega
      · -- propagation: pts[z] gains pts[n], z is re-enqueued
        have hnz : n ≠ z := fun hh => hne (by rw [hh])
        have hE2b : liveEdgeCount st'.s.G = liveEdgeCount st.s.G := by
          rw [hs2] at hE2
          exact hE2
        have hpn2b : st'.s.pts n
            = (if n = z then st.s.pts z ||| st.s.pts n else st.s.pts n) := by
          rw [hs2] at hpn2
          exact hpn2
        rw [if_neg hnz] at hpn2b
        rw [hs2] at hmono2
        have hg1 : ∀ m x, (st.s.pts m).testBit x = true →
            ((if m = z then st.s.pts z ||| st.s.pts n else st.s.pts m)).testBit x
              = true := by
          intro m x hx
          by_cases hmz : m = z
          · rw [if_pos hmz, Nat.testBit_or]
            rw [hmz] at hx
            simp [hx]
          · rw [if_neg hmz]
            exact hx
        have hmono : ∀ m x, (st.s.pts m).testBit x = true →
            (st'.s.pts m).testBit x = true :=
          fun m x hx => hmono2 m x (hg1 m x hx)
        rw [hR2b] at hR2
        have hqz2 : (if z = z then st.s.pts z ||| st.s.pts n else st.s.pts z)
            = st.s.pts z ||| st.s.pts n := if_pos rfl
        have hphi3 : phiW N st'.W st'.s.pts
            + st.R.length * (N + 1) ^ (N + 1)
            + pcGap N st'.s.pts * (N + 1) ^ (N + 1)
          ≤ phiW N (setBit st.W z)
              (fun m => if m = z then st.s.pts z ||| st.s.pts n else st.s.pts m)
            + st'.R.length * (N + 1) ^ (N + 1)
            + pcGap N
                (fun m => if m = z then st.s.pts z ||| st.s.pts n else st.s.pts m)
                * (N + 1) ^ (N + 1)
            + cursorMeasure l (findNext l z)
                * (N + 1) ^ (N
                    - pcnt (if n = z then st.s.pts z ||| st.s.pts n
                            else st.s.pts n)) := by
          rw [hs2, hW2, hR2b] at hphi2
          exact hphi2
        rw [if_neg hnz] at hphi3
        have hset := phiW_set_le (N := N) (W := st.W) (z := z) (p := st.s.pts)
          (q := fun m => if m = z then st.s.pts z ||| st.s.pts n else st.s.pts m)
          (fun i hi => by
            show st.s.pts i = if i = z then st.s.pts z ||| st.s.pts n else st.s.pts i
            rw [if_neg hi])
        have hset1 : phiW N (setBit st.W z)
            (fun m => if m = z then st.s.pts z ||| st.s.pts n else st.s.pts m)
          ≤ phiW N st.W st.s.pts
            + (N + 1) ^ (N + 1
                - pcnt (if z = z then st.s.pts z ||| st.s.pts n
                        else st.s.pts z)) := hset
        rw [hqz2] at hset1
        refine ⟨hE2b, hpn2b, hmono, hR2, ?_⟩
        by_cases hpl : st.s.pts z ||| st.s.pts n = st.s.pts z
        · -- plateau: pts[z] already contained pts[n], which is strictly smaller
          have hgapeq : pcGap N
              (fun m => if m = z then st.s.pts z ||| st.s.pts n else st.s.pts m)
              = pcGap N st.s.pts :=
            pcGap_congr (fun i => by
              show (if i = z then st.s.pts z ||| st.s.pts n else st.s.pts i)
                  = st.s.pts i
              by_cases hi : i = z
              · rw [if_pos hi, hi]
                exact hpl
              · rw [if_neg hi])
          rw [hgapeq] at hphi3
          have hpcor : pcnt (st.s.pts z ||| st.s.pts n) = pcnt (st.s.pts z) := by
            rw [hpl]
          rw [hpcor] at hset1
          have hsubn : ∀ x, (st.s.pts n).testBit x = true →
              (st.s.pts z).testBit x = true := by
            intro x hx
            have h2 : (st.s.pts z ||| st.s.pts n).testBit x = true := by
              rw [Nat.testBit_or]
              simp [hx]
            rw [hpl] at h2
            exact h2
          have hlt : pcnt (st.s.pts n) < pcnt (st.s.pts z) :=
            pcnt_strict hsubn hne
          have hpow2 : (N + 1) ^ (N + 1 - pcnt (st.s.pts z))
              ≤ (N + 1) ^ (N - pcnt (st.s.pts n)) :=
            Nat.pow_le_pow_right (by omega) (by omega)
          cases hnx : findNext l z with
          | none =>
            rw [hnx] at hphi3
            have hcm0 : cursorMeasure l none = 0 := rfl
            rw [hcm0, Nat.zero_mul] at hphi3
            have hcm1 : 1 ≤ cursorMeasure l (some z) := by
              show 1 ≤ 1 + ((bits l).filter (fun b => decide (z < b))).length
              omega
            have hT1 : 1 * (N + 1) ^ (N - pcnt (st.s.pts n))
                ≤ cursorMeasure l (some z) * (N + 1) ^ (N - pcnt (st.s.pts n)) :=
              Nat.mul_le_mul_right _ hcm1
            rw [Nat.one_mul] at hT1
            omega
          | some y =>
            rw [hnx] at hphi3
            have hstep := cursorMeasure_step (l := l) (fun x hx => hx) hnx
            have hsucc : cursorMeasure l (some y) + 1 ≤ cursorMeasure l (some z) :=
              hstep
            have hT2 : (cursorMeasure l (some y) + 1)
                  * (N + 1) ^ (N - pcnt (st.s.pts n))
                ≤ cursorMeasure l (some z) * (N + 1) ^ (N - pcnt (st.s.pts n)) :=
              Nat.mul_le_mul_right _ hsucc
            have hT3 : (cursorMeasure l (some y) + 1)
                  * (N + 1) ^ (N - pcnt (st.s.pts n))
                = cursorMeasure l (some y) * (N + 1) ^ (N - pcnt (st.s.pts n))
                  + (N + 1) ^ (N - pcnt (st.s.pts n)) := by
              rw [Nat.add_mul, Nat.one_mul]
            omega
        · -- strict growth of pts[z]: the remaining-growth component pays
          have hgap := pcGap_strict (N := N) (z := z) (p := st.s.pts)
            (q := fun m => if m = z then st.s.pts z ||| st.s.pts n else st.s.pts m)
            hz
            (fun x hx => by
              show (if z = z then st.s.pts z ||| st.s.pts n
                    else st.s.pts z).testBit x = true
              rw [hqz2, Nat.testBit_or]
              simp [hx])
            (by
              show st.s.pts z
                  ≠ (if z = z then st.s.pts z ||| st.s.pts n else st.s.pts z)
              rw [hqz2]
              exact fun hh => hpl hh.symm)
            (fun x hx => by
              have hx2 : (if z = z then st.s.pts z ||| st.s.pts n
                  else st.s.pts z).testBit x = true := hx
              rw [hqz2, Nat.testBit_or] at hx2
              simp only [Bool.or_eq_true] at hx2
              rcases hx2 with hx2 | hx2
              · exact hS.1.2.2.2.1 z x hx2
              · exact hS.1.2.2.2.1 n x hx2)
            (fun i hi => by
              show (if i = z then st.s.pts z ||| st.s.pts n else st.s.pts i)
                  = st.s.pts i
              rw [if_neg hi])
          have powc : (N + 1) ^ (N + 1 - pcnt (st.s.pts z ||| st.s.pts n))
              ≤ (N + 1) ^ (N + 1) :=
            Nat.pow_le_pow_right (by omega) (by omega)
          have hmg : (pcGap N
                (fun m => if m = z then st.s.pts z ||| st.s.pts n else st.s.pts m)
                + 1) * (N + 1) ^ (N + 1)
              ≤ pcGap N st.s.pts * (N + 1) ^ (N + 1) :=
            Nat.mul_le_mul_right _ hgap
          have hexp : (pcGap N
                (fun m => if m = z then st.s.pts z ||| st.s.pts n else st.s.pts m)
                + 1) * (N + 1) ^ (N + 1)
              = pcGap N
                  (fun m => if m = z then st.s.pts z ||| st.s.pts n else st.s.pts m)
                  * (N + 1) ^ (N + 1)
                + (N + 1) ^ (N + 1) := by
            rw [Nat.add_mul, Nat.one_mul]
          cases hnx : findNext l z with
          | none =>
            rw [hnx] at hphi3
            have hcm0 : cursorMeasure l none = 0 := rfl
            rw [hcm0, Nat.zero_mul] at hphi3
            omega
          | some y =>
            rw [hnx] at hphi3
            have hstep := cursorMeasure_step (l := l) (fun x hx => hx) hnx
            have hmul : cursorMeasure l (some y)
                  * (N + 1) ^ (N - pcnt (st.s.pts n))
                ≤ cursorMeasure l (some z)
                  * (N + 1) ^ (N - pcnt (st.s.pts n)) :=
              Nat.mul_le_mul_right _ (Nat.le_of_lt hstep)
            omega

/-- One worklist iteration preserves `SInv` and strictly decreases the
solver measure: popping `n` recovers its full potential term, the
load/store phase pays its re-enqueues with added edges, and the successor
walk pays with checked pairs, points-to growth and the cursor budget —
unless a cycle collapse removed a node, which dominates everything. -/
theorem processNode_step {N : Nat} {st st' : SolveSt} {n : Nat}
    (hS : SInv N st) (hn : findFirst st.W = some n)
    (h : LCD.processNode st n = .ok st') :
    SInv N st' ∧ sMeasure N st' < sMeasure N st := by
  have hWn : st.W.testBit n = true := findFirst_mem hn
  have hnN : n < N := hS.2.1 n hWn
  simp only [LCD.processNode] at h
  obtain ⟨st1, hst1, h⟩ := bindOk h
  obtain ⟨l, hl, h⟩ := bindOk h
  have hS0 : SInv N ({ st with W := clearBit st.W n } : SolveSt) := by
    obtain ⟨hB, hW, hRnd, hRb⟩ := hS
    refine ⟨hB, ?_, hRnd, hRb⟩
    intro x hx
    have hx2 : (clearBit st.W n).testBit x = true := hx
    rw [testBit_clearBit] at hx2
    simp only [Bool.and_eq_true] at hx2
    exact hW x hx2.1
  have hvb : ∀ v, (st.s.pts n).testBit v = true → v < N :=
    fun v hv => hS.1.2.2.2.1 n v hv
  have hLS := foldlM_pres_mem
    (P := fun a b : SolveSt =>
      SInv N a →
        SInv N b ∧ b.s.pts = a.s.pts ∧ b.s.stores = a.s.stores
          ∧ b.s.loads = a.s.loads ∧ b.R = a.R
          ∧ nodesCleared b.s.G = nodesCleared a.s.G
          ∧ liveEdgeCount a.s.G ≤ liveEdgeCount b.s.G
          ∧ phiW N b.W b.s.pts + liveEdgeCount a.s.G * (N + 1) ^ (N + 1)
              ≤ phiW N a.W a.s.pts + liveEdgeCount b.s.G * (N + 1) ^ (N + 1))
    (fun a v hmem b hh hSa =>
      ptsStep_acc (hvb v ((mem_bits _ _).mp hmem)) hh hSa)
    (fun a hSa => ⟨hSa, rfl, rfl, rfl, rfl, rfl, Nat.le_refl _, Nat.le_refl _⟩)
    (fun a b c hab hbc hSa => by
      obtain ⟨hSb, p1, p2, p3, p4, p5, p6, p7⟩ := hab hSa
      obtain ⟨hSc, q1, q2, q3, q4, q5, q6, q7⟩ := hbc hSb
      exact ⟨hSc, q1.trans p1, q2.trans p2, q3.trans p3, q4.trans p4,
        q5.trans p5, Nat.le_trans p6 q6, by omega⟩)
    hst1
  obtain ⟨hS1, a1, a2, a3, a4, a5, a6, a7⟩ := hLS hS0
  have a1b : st1.s.pts = st.s.pts := a1
  have a4b : st1.R = st.R := a4
  have a5b : nodesCleared st1.s.G = nodesCleared st.s.G := a5
  have a6b : liveEdgeCount st.s.G ≤ liveEdgeCount st1.s.G := a6
  have a7b : phiW N st1.W st1.s.pts
      + liveEdgeCount st.s.G * (N + 1) ^ (N + 1)
      ≤ phiW N (clearBit st.W n) st.s.pts
        + liveEdgeCount st1.s.G * (N + 1) ^ (N + 1) := a7
  rw [a1b] at a7b
  have hlb : ∀ x, l.testBit x = true → x < N := by
    refine buildL_bound (N := N) ?_ ?_ hl
    · exact hS1.1.2.1
    · exact hS1.1.1
  have hcurl : ∀ y, findFirst l = some y → l.testBit y = true :=
    fun y hy => findFirst_mem hy
  obtain ⟨hS', hled, hcase⟩ := lLoop_acc hnN h hS1 hlb hcurl
  refine ⟨hS', ?_⟩
  have hlive1 : liveNodeCount st1.s.G = liveNodeCount st.s.G :=
    liveNodeCount_congr a5b
  have hEb' : liveEdgeCount st'.s.G ≤ N * N := by
    have h2 := liveEdgeCount_le_sq hS'.1.2.1 hS'.1.2.2.1
    rw [hS'.1.1] at h2
    exact h2
  have hRb' : st'.R.length ≤ N * N :=
    nodup_pairs_length_le hS'.2.2.1 hS'.2.2.2
  have hPb' : pcGap N st'.s.pts ≤ N * N := pcGap_le N st'.s.pts
  have hEbS : liveEdgeCount st.s.G ≤ N * N := by
    have h2 := liveEdgeCount_le_sq hS.1.2.1 hS.1.2.2.1
    rw [hS.1.1] at h2
    exact h2
  have hRbS : st.R.length ≤ N * N :=
    nodup_pairs_length_le hS.2.2.1 hS.2.2.2
  by_cases hlive : liveNodeCount st'.s.G = liveNodeCount st.s.G
  · -- no node removed: middle components and the cursor budget pay
    have hliveT : liveNodeCount st'.s.G = liveNodeCount st1.s.G := by omega
    obtain ⟨hE2, hpn2, hmono2, hR2, hphi2⟩ := hcase hliveT
    rw [a4b, a1b] at hphi2
    rw [a4b] at hR2
    have hE21 : liveEdgeCount st'.s.G * (N + 1) ^ (N + 1)
        = liveEdgeCount st1.s.G * (N + 1) ^ (N + 1) := by
      rw [hE2]
    have hmonob : ∀ m x, (st.s.pts m).testBit x = true →
        (st'.s.pts m).testBit x = true := by
      intro m x hx
      apply hmono2 m x
      rw [a1b]
      exact hx
    have hPmono : pcGap N st'.s.pts ≤ pcGap N st.s.pts := pcGap_mono hmonob
    have hE02 : liveEdgeCount st.s.G ≤ liveEdgeCount st'.s.G := by omega
    obtain ⟨d1, hd1⟩ : ∃ d, liveEdgeCount st.s.G + d = liveEdgeCount st'.s.G :=
      ⟨liveEdgeCount st'.s.G - liveEdgeCount st.s.G, by omega⟩
    obtain ⟨d2, hd2⟩ : ∃ d, st.R.length + d = st'.R.length :=
      ⟨st'.R.length - st.R.length, by omega⟩
    obtain ⟨d3, hd3⟩ : ∃ d, pcGap N st'.s.pts + d = pcGap N st.s.pts :=
      ⟨pcGap N st.s.pts - pcGap N st'.s.pts, by omega⟩
    have hd1B : liveEdgeCount st'.s.G * (N + 1) ^ (N + 1)
        = liveEdgeCount st.s.G * (N + 1) ^ (N + 1) + d1 * (N + 1) ^ (N + 1) := by
      rw [← hd1, Nat.add_mul]
    have hd2B : st'.R.length * (N + 1) ^ (N + 1)
        = st.R.length * (N + 1) ^ (N + 1) + d2 * (N + 1) ^ (N + 1) := by
      rw [← hd2, Nat.add_mul]
    have hd3B : pcGap N st.s.pts * (N + 1) ^ (N + 1)
        = pcGap N st'.s.pts * (N + 1) ^ (N + 1) + d3 * (N + 1) ^ (N + 1) := by
      rw [← hd3, Nat.add_mul]
    have hDB : (d1 + d2 + d3) * (N + 1) ^ (N + 1)
        = d1 * (N + 1) ^ (N + 1) + d2 * (N + 1) ^ (N + 1)
          + d3 * (N + 1) ^ (N + 1) := by
      rw [Nat.add_mul, Nat.add_mul]
    have hpop := phiW_clear (N := N) (p := st.s.pts) hnN hWn
    have hpcn : pcnt (st.s.pts n) ≤ N := pcnt_le hvb
    have hexp : N + 1 - pcnt (st.s.pts n) = (N - pcnt (st.s.pts n)) + 1 := by
      omega
    have hTpop2 : (N + 1) ^ (N + 1 - pcnt (st.s.pts n))
        = N * (N + 1) ^ (N - pcnt (st.s.pts n))
          + (N + 1) ^ (N - pcnt (st.s.pts n)) := by
      rw [hexp, pow_succ, Nat.mul_comm, Nat.add_mul, Nat.one_mul]
    have hcmN : cursorMeasure l (findFirst l) ≤ N := by
      have h1 := cursorMeasure_first l
      have h2 : (bits l).length ≤ N := nodup_lt_length_le (bits_nodup l)
        (fun x hx => hlb x ((mem_bits _ _).mp hx))
      omega
    have hcmT : cursorMeasure l (findFirst l) * (N + 1) ^ (N - pcnt (st.s.pts n))
        ≤ N * (N + 1) ^ (N - pcnt (st.s.pts n)) :=
      Nat.mul_le_mul_right _ hcmN
    have hT1 : 0 < (N + 1) ^ (N - pcnt (st.s.pts n)) := pow_pos (by omega) _
    have hBK : (N + 1) ^ (N + 1) ≤ solveK2 N := by
      have h1 : 1 * (N + 1) ^ (N + 1) ≤ N * (N + 1) ^ (N + 1) :=
        Nat.mul_le_mul_right _ (by omega)
      rw [Nat.one_mul] at h1
      show (N + 1) ^ (N + 1) ≤ N * (N + 1) ^ (N + 1) + 1
      omega
    have hu : phiW N st'.W st'.s.pts
        < phiW N st.W st.s.pts + (d1 + d2 + d3) * (N + 1) ^ (N + 1) := by
      omega
    have hmid : ((N * N - liveEdgeCount st'.s.G) + (N * N - st'.R.length)
          + pcGap N st'.s.pts) + (d1 + d2 + d3)
        = (N * N - liveEdgeCount st.s.G) + (N * N - st.R.length)
          + pcGap N st.s.pts := by
      omega
    have hcomb := measure_combine hBK hmid hu
    show liveNodeCount st'.s.G * solveK1 N
        + ((N * N - liveEdgeCount st'.s.G) + (N * N - st'.R.length)
            + pcGap N st'.s.pts) * solveK2 N
        + phiW N st'.W st'.s.pts
      < liveNodeCount st.s.G * solveK1 N
        + ((N * N - liveEdgeCount st.s.G) + (N * N - st.R.length)
            + pcGap N st.s.pts) * solveK2 N
        + phiW N st.W st.s.pts
    have hmA : liveNodeCount st'.s.G * solveK1 N
        = liveNodeCount st.s.G * solveK1 N := by
      rw [hlive]
    omega
  · -- a cycle collapse removed a node: the leading component drops
    have hltA : liveNodeCount st'.s.G < liveNodeCount st.s.G := by
      omega
    have hmid3 : (N * N - liveEdgeCount st'.s.G) + (N * N - st'.R.length)
        + pcGap N st'.s.pts ≤ 3 * N * N := by
      have h3N : 3 * N * N = N * N + N * N + N * N := by ring
      omega
    have huK : phiW N st'.W st'.s.pts < solveK2 N := by
      have h2 := phiW_le N st'.W st'.s.pts
      show phiW N st'.W st'.s.pts < N * (N + 1) ^ (N + 1) + 1
      omega
    show liveNodeCount st'.s.G * solveK1 N
        + ((N * N - liveEdgeCount st'.s.G) + (N * N - st'.R.length)
            + pcGap N st'.s.pts) * solveK2 N
        + phiW N st'.W st'.s.pts
      < liveNodeCount st.s.G * solveK1 N
        + ((N * N - liveEdgeCount st.s.G) + (N * N - st.R.length)
            + pcGap N st.s.pts) * solveK2 N
        + phiW N st.W st.s.pts
    exact measure_combine_drop hltA hmid3 huK

/-- The worklist loop cannot exhaust its fuel once the fuel exceeds the
solver measure. -/
theorem solveLoop_nofuel {N : Nat} :
    ∀ {fuel : Nat} {st : SolveSt}, SInv N st → sMeasure N st < fuel →
      LCD.solveLoop fuel st ≠ Except.error Err.noFuel := by
  intro fuel
  induction fuel with
  | zero =>
    intro st hS hm
    exact absurd hm (Nat.not_lt_zero _)
  | succ fuel ih =>
    intro st hS hm hcon
    cases hW : findFirst st.W with
    | none =>
      simp only [LCD.solveLoop, hW] at hcon
      exact Except.noConfusion hcon
    | some n =>
      simp only [LCD.solveLoop, hW] at hcon
      rcases bindNoFuel hcon with hzf | ⟨st2, hst2, hcon2⟩
      · exact LCD.processNode_nofuel st n hzf
      · obtain ⟨hS2, hlt⟩ := processNode_step hS hW hst2
        exact ih hS2 (by omega) hcon2

/-- The freshly-constructed solver satisfies the build invariant. -/
theorem buildInv_init : buildInv LCD.init := by
  refine ⟨rfl, rfl, ?_, ?_, ?_⟩
  · intro i x hx
    have hx2 : (0 : Nat).testBit x = true := hx
    rw [Nat.zero_testBit] at hx2
    exact Bool.noConfusion hx2
  · intro i x hx
    have hx2 : (0 : Nat).testBit x = true := hx
    rw [Nat.zero_testBit] at hx2
    exact Bool.noConfusion hx2
  · intro X x hx
    exact Option.noConfusion hx

/-- `ensureVertex` preserves the build invariant, returns an in-range node
id and never shrinks the node vector. -/
theorem ensureVertex_buildInv {s : LCDState} (X : Nat) (hb : buildInv s) :
    buildInv (LCD.ensureVertex s X).1
      ∧ (LCD.ensureVertex s X).2 < (LCD.ensureVertex s X).1.G.nodes.length
      ∧ s.G.nodes.length ≤ (LCD.ensureVertex s X).1.G.nodes.length := by
  cases hr : s.rightVars X with
  | some x =>
    have hgoal : LCD.ensureVertex s X = (s, x) := by
      unfold LCD.ensureVertex
      rw [hr]
    rw [hgoal]
    exact ⟨hb, hb.2.2.2.2 X x hr, Nat.le_refl _⟩
  | none =>
    have hgoal := LCD.ensureVertex_none hr
    rw [hgoal]
    have hlen : ((s.G.addNode).1).nodes.length = s.G.nodes.length + 1 := by
      show (s.G.nodes ++ [(⟨[], [], false⟩ : NodeEntry)]).length
          = s.G.nodes.length + 1
      simp
    have hid : (s.G.addNode).2 = s.G.nodes.length := rfl
    obtain ⟨hwf1, hpu1⟩ := Graph.addNode_wf hb.1 hb.2.1
    refine ⟨⟨hwf1, hpu1, ?_, ?_, ?_⟩, ?_, ?_⟩
    · intro i x hx
      have hx2 := hb.2.2.1 i x hx
      show x < ((s.G.addNode).1).nodes.length
      omega
    · intro i x hx
      have hx2 := hb.2.2.2.1 i x hx
      show x < ((s.G.addNode).1).nodes.length
      omega
    · intro Y x hx
      have hx2 : (if Y = X then some (s.G.addNode).2 else s.rightVars Y)
          = some x := hx
      show x < ((s.G.addNode).1).nodes.length
      by_cases hYX : Y = X
      · rw [if_pos hYX] at hx2
        injection hx2 with hx2
        omega
      · rw [if_neg hYX] at hx2
        have hx3 := hb.2.2.2.2 Y x hx2
        omega
    · show (s.G.addNode).2 < ((s.G.addNode).1).nodes.length
      omega
    · show s.G.nodes.length ≤ ((s.G.addNode).1).nodes.length
      omega

/-- `addConstraint` preserves the build invariant. -/
theorem addConstraint_buildInv {s s' : LCDState} {c : Constraint}
    (h : LCD.addConstraint s c = .ok s') (hb : buildInv s) : buildInv s' := by
  obtain ⟨hb1, ha1, hm1⟩ := ensureVertex_buildInv c.src hb
  obtain ⟨hb2, hbb2, hm2⟩ := ensureVertex_buildInv c.tgt hb1
  have ha2 : (LCD.ensureVertex s c.src).2
      < (LCD.ensureVertex (LCD.ensureVertex s c.src).1 c.tgt).1.G.nodes.length := by
    omega
  simp only [LCD.addConstraint] at h
  split at h
  · -- AddressOf
    injection h with h
    subst h
    refine ⟨hb2.1, hb2.2.1, ?_, hb2.2.2.2.1, hb2.2.2.2.2⟩
    intro i x hx
    exact bound_set hbb2 hb2.2.2.1 i x hx
  · -- Copy
    obtain ⟨pp, hp, h⟩ := bindOk h
    injection h with h
    subst h
    have hwfpu := Graph.addEdge_wf hb2.1 hb2.2.1 (show _ = .ok (pp.1, pp.2) from hp)
    have hlen := (Graph.addEdge_ok_nodes (show _ = .ok (pp.1, pp.2) from hp)).2.1
    refine ⟨hwfpu.1, hwfpu.2, ?_, ?_, ?_⟩
    · intro i x hx
      show x < pp.1.nodes.length
      rw [hlen]
      exact hb2.2.2.1 i x hx
    · intro i x hx
      show x < pp.1.nodes.length
      rw [hlen]
      exact hb2.2.2.2.1 i x hx
    · intro X x hx
      show x < pp.1.nodes.length
      rw [hlen]
      exact hb2.2.2.2.2 X x hx
  · -- Store
    injection h with h
    subst h
    refine ⟨hb2.1, hb2.2.1, hb2.2.2.1, ?_, hb2.2.2.2.2⟩
    intro i x hx
    exact bound_set hbb2 hb2.2.2.2.1 i x hx
  · -- Load
    injection h with h
    subst h
    exact hb2

/-- A successfully built solver satisfies the build invariant. -/
theorem LCD.build_inv {cs : List Constraint} {s : LCDState}
    (h : LCD.build cs = .ok s) : buildInv s := by
  simp only [LCD.build] at h
  exact foldlM_pres
    (P := fun a b : LCDState => buildInv a → buildInv b)
    (fun a c b hh hba => addConstraint_buildInv hh hba)
    (fun a hba => hba)
    (fun a b c h1 h2 hba => h2 (h1 hba)) _ _ _ h buildInv_init

/-- The build invariant establishes `SInv` for `solve`'s initial worklist
state (all `getNumNodes()` bits set, empty checked-pairs set). -/
theorem solve_initial_SInv {s : LCDState} (hb : buildInv s) :
    SInv s.G.nodes.length { s := s, W := 2 ^ s.G.numNodes - 1, R := [] } := by
  refine ⟨⟨rfl, hb.1, hb.2.1, hb.2.2.1, hb.2.2.2.1⟩, ?_, List.nodup_nil, ?_⟩
  · intro x hx
    have hx1 : (2 ^ s.G.numNodes - 1).testBit x = true := hx
    rw [Nat.testBit_two_pow_sub_one] at hx1
    have hx2 : x < s.G.numNodes := of_decide_eq_true hx1
    have hc := wf_counts hb.1
    have hle : liveNodeCount s.G ≤ s.G.nodes.length := by
      show (nodesCleared s.G).count false ≤ _
      calc (nodesCleared s.G).count false
          ≤ (nodesCleared s.G).length := List.count_le_length _ _
        _ = s.G.nodes.length := nodesCleared_length s.G
    have hc1 := hc.1
    omega
  · intro q hq
    exact absurd hq (List.not_mem_nil q)

/-- Claim C4: `solve()` terminates on every finite constraint set.  On any
state built from a finite constraint list, running `solve` with fuel one
more than the solver measure `sMeasure` — a bound computed from the node
and edge counts alone — never exhausts its fuel: points-to sets grow
monotonically inside the `N`-bit universe (the `pcGap`/`phiW` components),
cycle collapsing strictly reduces the live node count (the leading measure
component), and every other worklist step strictly reduces the remaining
measure, so the worklist loop completes in a bounded number of steps
relative to the node/edge count. -/
theorem solve_terminates :
    ∀ (cs : List Constraint) (s : LCDState), LCD.build cs = .ok s →
      LCD.solve (sMeasure s.G.nodes.length
          { s := s, W := 2 ^ s.G.numNodes - 1, R := [] } + 1) s
        ≠ Except.error Err.noFuel := by
  intro cs s h
  have hb := LCD.build_inv h
  have hS := solve_initial_SInv hb
  show LCD.solveLoop
      (sMeasure s.G.nodes.length
        { s := s, W := 2 ^ s.G.numNodes - 1, R := [] } + 1)
      { s := s, W := 2 ^ s.G.numNodes - 1, R := [] }
    ≠ Except.error Err.noFuel
  exact solveLoop_nofuel hS (Nat.lt_succ_self _)

/-- Witness for claim C4: the double-indirection program `prog3` builds
successfully, and `solve` on it with the measure-derived fuel does not run
out of fuel. -/
theorem solve_terminates_witness :
    LCD.build prog3 = .ok (getOk (LCD.build prog3))
      ∧ LCD.solve (sMeasure (getOk (LCD.build prog3)).G.nodes.length
          { s := getOk (LCD.build prog3),
            W := 2 ^ (getOk (LCD.build prog3)).G.numNodes - 1, R := [] } + 1)
          (getOk (LCD.build prog3))
        ≠ Except.error Err.noFuel :=
  ⟨by rfl, solve_terminates prog3 (getOk (LCD.build prog3)) (by rfl)⟩


end PointsTo
